import Mathlib

/-!
# Gauche writer core (`src/write.c`, `src/string.c`, `src/gauche.h`): a shallow embedding

The development embeds the two passes of the circular-safe writer
(`write_walk`, `write_ss_rec`, `write_ss`), the length-limited writer
(`Scm_WriteLimited`), the string printer (`string_print`), the formatter
(`format_proc` with `format_write`, `format_pad`, `format_sexp` and
`format_integer`), the printf-style writer (both passes of `Scm_Vprintf`),
the string functions of `string.c` and the tag macros of `gauche.h` as
executable Lean functions, and proves properties of them.

Conventions of the embedding.

* A `ScmObj` is a tagged word.  Immediates carry their `SCM_ITAG`; fixnums and
  characters carry their value; symbols and keywords are pointers to interned
  objects, so the pointer is determined by the name; every other heap object
  is a pointer `ptr a` into a `Heap`.
* The identity table (`SCM_HASH_ADDRESS`) is keyed by the word itself.
* Recursion and the `for (;;)` loops of the C code are bounded by a fuel
  argument.  Running out of fuel is reported as `Outcome.outOfFuel` together
  with the port as it stands at that moment, so that statements about the
  emitted text also cover runs that never return.
* A port records what was put to it as a sequence of `Tok`s: plain text,
  a defining label `#N=` or a back reference `#N#`.  The text of the port is
  `render` of that sequence.
* The loops of the formatter are given by one function for a round
  (`format_step`) that is iterated by `format_run`; `format_after` gives the
  configuration that a run has reached after a number of rounds.
* The value of a fixnum is an integer without bound.  Where the formatter
  reads a numeric parameter from the format string it computes in
  `unsigned long` and converts to `long` and to `int`; these conversions are
  embedded with the sizes of an LP64 platform (`SIZEOF_LONG`, `SIZEOF_INT`).
  The arithmetic that the formatter does on `int` variables (the pad count of
  `format_pad`, the target index of `~*`) is embedded as arithmetic modulo
  `2 ^ 32` (`int_wrap`).
* The tag macros are also given on the machine word itself, in the namespace
  `Word`, where a word is a natural number and the width is a parameter.
* The functions of `string.c` are also given on the representation of a
  string (length, size and bytes), in the namespace `Str`; the macros of the
  character encoding are a parameter there.
-/

namespace Gauche

/-! ## Values and heap -/

/-- Tagged word.  `immediate k` is the immediate object with `SCM_ITAG` `k`. -/
inductive ScmObj where
  | immediate (itag : Nat)
  | int (n : Int)
  | char (ch : Char)
  | symbol (name : List Char)
  | keyword (name : List Char)
  | ptr (addr : Nat)
  deriving DecidableEq, Repr

/-- Heap objects that the built-in writer knows the shape of.  A `string` is a
complete string given by its characters (what `SCM_STR_GETC` yields when it is
applied `SCM_STRING_LENGTH` times); a `number` is a heap-allocated number
together with the text its class printer produces. -/
inductive HeapObj where
  | pair (car cdr : ScmObj)
  | vector (elements : List ScmObj)
  | string (chars : List Char)
  | number (text : List Char)
  deriving DecidableEq, Repr

/-- Store of heap objects, by address. -/
abbrev Heap := Nat → Option HeapObj

def SCM_FALSE : ScmObj := .immediate 0
def SCM_TRUE : ScmObj := .immediate 1
def SCM_NIL : ScmObj := .immediate 2
def SCM_EOF : ScmObj := .immediate 3
def SCM_UNDEFINED : ScmObj := .immediate 4
def SCM_UNBOUND : ScmObj := .immediate 5

def SCM_SYM_QUOTE : ScmObj := .symbol "quote".toList
def SCM_SYM_QUASIQUOTE : ScmObj := .symbol "quasiquote".toList
def SCM_SYM_UNQUOTE : ScmObj := .symbol "unquote".toList
def SCM_SYM_UNQUOTE_SPLICING : ScmObj := .symbol "unquote-splicing".toList

def SCM_PTRP : ScmObj → Bool
  | .symbol _ => true
  | .keyword _ => true
  | .ptr _ => true
  | _ => false

def SCM_INTP : ScmObj → Bool
  | .int _ => true
  | _ => false

def SCM_SYMBOLP : ScmObj → Bool
  | .symbol _ => true
  | _ => false

def SCM_KEYWORDP : ScmObj → Bool
  | .keyword _ => true
  | _ => false

def SCM_NULLP (obj : ScmObj) : Bool := obj == SCM_NIL

/-- Heap object a word points to, if it is a pointer into the heap. -/
def deref (heap : Heap) : ScmObj → Option HeapObj
  | .ptr a => heap a
  | _ => none

def SCM_PAIRP (heap : Heap) (obj : ScmObj) : Bool :=
  match deref heap obj with
  | some (.pair _ _) => true
  | _ => false

def SCM_STRINGP (heap : Heap) (obj : ScmObj) : Bool :=
  match deref heap obj with
  | some (.string _) => true
  | _ => false

def SCM_VECTORP (heap : Heap) (obj : ScmObj) : Bool :=
  match deref heap obj with
  | some (.vector _) => true
  | _ => false

/-- Predicate `SCM_NUMBERP`: fixnums and heap-allocated numbers. -/
def SCM_NUMBERP (heap : Heap) (obj : ScmObj) : Bool :=
  match obj with
  | .int _ => true
  | _ =>
    match deref heap obj with
    | some (.number _) => true
    | _ => false

/-- Accessor `SCM_CAR`; `SCM_FALSE` stands for a read through a non-pair. -/
def SCM_CAR (heap : Heap) (obj : ScmObj) : ScmObj :=
  match deref heap obj with
  | some (.pair a _) => a
  | _ => SCM_FALSE

def SCM_CDR (heap : Heap) (obj : ScmObj) : ScmObj :=
  match deref heap obj with
  | some (.pair _ d) => d
  | _ => SCM_FALSE

def SCM_CDDR (heap : Heap) (obj : ScmObj) : ScmObj := SCM_CDR heap (SCM_CDR heap obj)
def SCM_CADR (heap : Heap) (obj : ScmObj) : ScmObj := SCM_CAR heap (SCM_CDR heap obj)

/-! ## Ports -/

/-- One unit of output put to a port. -/
inductive Tok where
  | text (cs : List Char)
  | label (n : Nat)
  | backref (n : Int)
  deriving DecidableEq, Repr

/-- Rendering of `snprintf(buf, n, "%ld", v)`. -/
def fmt_ld (v : Int) : List Char :=
  if v < 0 then '-' :: Nat.toDigits 10 v.natAbs else Nat.toDigits 10 v.toNat

/-- Characters of one token: `#N=` for a label, `#N#` for a back reference. -/
def Tok.chars : Tok → List Char
  | .text cs => cs
  | .label n => '#' :: (Nat.toDigits 10 n ++ ['='])
  | .backref n => '#' :: (fmt_ld n ++ ['#'])

/-- Text held by a port that received the given tokens. -/
def render : List Tok → List Char
  | [] => []
  | t :: ts => t.chars ++ render ts

/-- Address-keyed hash table: word to entry value. -/
abbrev ScmHashTable := ScmObj → Option ScmObj

def Scm_HashTableGet (ht : ScmHashTable) (key : ScmObj) : Option ScmObj := ht key

def Scm_HashTablePut (ht : ScmHashTable) (key value : ScmObj) : ScmHashTable :=
  fun k => if k = key then some value else ht k

/-- Output port: what has been put to it, and `port->data`, which during a
write/ss is the pair of the label counter and the identity table. -/
structure ScmPort where
  out : List Tok
  data : Option (Nat × ScmHashTable)

/-- How a run of one of the writer routines ended: it returned, the fuel of the
model ran out, `Scm_Panic` was called (or memory was read out of bounds), or
`Scm_Error` was raised. -/
inductive Outcome where
  | done
  | outOfFuel
  | panic
  | error
  deriving DecidableEq, Repr

/-- Sequencing of two steps of a routine: the second runs only if the first
returned. -/
def andThen {σ : Type} (r : σ × Outcome) (k : σ → σ × Outcome) : σ × Outcome :=
  match r with
  | (s, .done) => k s
  | (s, o) => (s, o)

def Scm_PutzUnsafe (s : List Char) (port : ScmPort) : ScmPort :=
  { port with out := port.out ++ [Tok.text s] }

def Scm_PutcUnsafe (c : Char) (port : ScmPort) : ScmPort :=
  { port with out := port.out ++ [Tok.text [c]] }

/-- Number of characters accumulated in an output string port. -/
def outlen (port : ScmPort) : Int := ((render port.out).length : Int)

/-! ## Write context -/

def WRITE_LIMITED : Nat := 0x10
def WRITE_CIRCULAR : Nat := 0x20

def SCM_WRITE_WRITE : Nat := 0
def SCM_WRITE_DISPLAY : Nat := 1
def SCM_WRITE_DEBUG : Nat := 2
def SCM_WRITE_MODE_MASK : Nat := 0x3

structure ScmWriteContext where
  mode : Nat
  flags : Nat
  limit : Int

def SCM_WRITE_MODE (ctx : ScmWriteContext) : Nat := ctx.mode &&& SCM_WRITE_MODE_MASK

/-! ## Class printers reached by `write_general` -/

/-- Escape sequence that `string_print` puts for `ch` outside display mode. -/
def string_escape (ch : Char) : List Char :=
  if ch = '\\' then ['\\', '\\']
  else if ch = '"' then ['\\', '"']
  else if ch = '\n' then ['\\', 'n']
  else if ch = '\t' then ['\\', 't']
  else if ch = '\r' then ['\\', 'r']
  else if ch = Char.ofNat 12 then ['\\', 'f']
  else if ch = Char.ofNat 0 then ['\\', '0']
  else [ch]

/-- Body of the `while (len--)` loop of `string_print` on a complete string:
puts each character or its escape and adds to the count `nc`. -/
def string_print_loop : List Char → ScmPort → Int → ScmPort × Int
  | [], port, nc => (port, nc)
  | ch :: rest, port, nc =>
    if string_escape ch = [ch] then
      string_print_loop rest (Scm_PutcUnsafe ch port) (nc + 1)
    else
      string_print_loop rest (Scm_PutzUnsafe (string_escape ch) port) (nc + 2)

/-- Printer of the string class (`string.c`), for a complete string. -/
def string_print (chars : List Char) (port : ScmPort) (mode : Nat) : ScmPort × Int :=
  if mode = SCM_WRITE_DISPLAY then
    (Scm_PutzUnsafe chars port, (chars.length : Int))
  else
    let r := string_print_loop chars (Scm_PutcUnsafe '"' port) 1
    (Scm_PutcUnsafe '"' r.1, r.2 + 1)

/-- Modelled from the spec: the class printers of symbols, keywords, heap
numbers and vectors live in files that are not part of the sources at hand.
A symbol is put as its name, a keyword as a colon and its name, a number as
its text, and a vector without elements as `#()` (section 4.4: "Vector
printing: `#(`, elements separated by spaces, `)`").  `write_general` is never
applied to a pair or to a vector with elements. -/
def class_print (heap : Heap) (obj : ScmObj) (port : ScmPort) (ctx : ScmWriteContext) :
    ScmPort × Outcome :=
  match obj with
  | .symbol name => (Scm_PutzUnsafe name port, .done)
  | .keyword name => (Scm_PutzUnsafe (':' :: name) port, .done)
  | .ptr a =>
    match heap a with
    | some (.string chars) => ((string_print chars port (SCM_WRITE_MODE ctx)).1, .done)
    | some (.number text) => (Scm_PutzUnsafe text port, .done)
    | some (.vector []) => (Scm_PutzUnsafe "#()".toList port, .done)
    | _ => (port, .panic)
  | _ => (port, .panic)

/-- Obj is PTR, except pair and vector: dispatch to the printer of its class. -/
def write_general (heap : Heap) (obj : ScmObj) (out : ScmPort) (ctx : ScmWriteContext) :
    ScmPort × Outcome :=
  class_print heap obj out ctx

/-! ## Pass 1: the walk -/

/-- Walker port of `make_walker_port`: counter `0` and an empty table. -/
def make_walker_port : ScmPort :=
  { out := [], data := some (0, fun _ => none) }

/-- The `for (i=0; i<len; i++)` loop of `write_walk` over vector elements. -/
def write_walk_elts (rec : ScmObj → ScmHashTable → ScmHashTable × Outcome) :
    List ScmObj → ScmHashTable → ScmHashTable × Outcome
  | [], ht => (ht, .done)
  | elt :: rest, ht =>
    andThen (if SCM_PTRP elt then rec elt ht else (ht, .done)) fun ht =>
      write_walk_elts rec rest ht

/-- Pass 1.  One unit of fuel is spent by each call and by each turn of the
`for (;;)` loop (the `continue` on the cdr). -/
def write_walk (heap : Heap) (ctx : ScmWriteContext) :
    Nat → ScmObj → ScmHashTable → ScmHashTable × Outcome
  | 0, _, ht => (ht, .outOfFuel)
  | fuel + 1, obj, ht =>
    if !SCM_PTRP obj || SCM_SYMBOLP obj || SCM_KEYWORDP obj || SCM_NUMBERP heap obj then
      (ht, .done)
    else if SCM_PAIRP heap obj then
      match Scm_HashTableGet ht obj with
      | some _ => (Scm_HashTablePut ht obj SCM_TRUE, .done)
      | none =>
        let ht := Scm_HashTablePut ht obj SCM_FALSE
        let elt := SCM_CAR heap obj
        andThen (if SCM_PTRP elt then write_walk heap ctx fuel elt ht else (ht, .done))
          fun ht => write_walk heap ctx fuel (SCM_CDR heap obj) ht
    else
      match deref heap obj with
      | some (.string (_ :: _)) =>
        match Scm_HashTableGet ht obj with
        | some _ => (Scm_HashTablePut ht obj SCM_TRUE, .done)
        | none => (Scm_HashTablePut ht obj SCM_FALSE, .done)
      | some (.vector (e :: es)) =>
        match Scm_HashTableGet ht obj with
        | some _ => (Scm_HashTablePut ht obj SCM_TRUE, .done)
        | none =>
          write_walk_elts (write_walk heap ctx fuel) (e :: es)
            (Scm_HashTablePut ht obj SCM_FALSE)
      | _ =>
        match Scm_HashTableGet ht obj with
        | some _ => (Scm_HashTablePut ht obj SCM_TRUE, .done)
        | none =>
          (Scm_HashTablePut ht obj SCM_FALSE,
            (write_general heap obj make_walker_port ctx).2)

/-! ## Pass 2: the output -/

/-- Character name table (first 33 chars of ASCII). -/
def char_names : List (List Char) :=
  ["null", "x01", "x02", "x03", "x04", "x05", "x06", "x07",
   "x08", "tab", "newline", "x0b", "x0c", "return", "x0e", "x0f",
   "x10", "x11", "x12", "x13", "x14", "x15", "x16", "x17",
   "x18", "x19", "x1a", "escape", "x1c", "x1d", "x1e", "x1f",
   "space"].map String.toList

/-- The branch `!SCM_PTRP(obj)` of `write_ss_rec`. -/
def write_immediate (obj : ScmObj) (port : ScmPort) (ctx : ScmWriteContext) :
    ScmPort × Outcome :=
  match obj with
  | .immediate 0 => (Scm_PutzUnsafe "#f".toList port, .done)
  | .immediate 1 => (Scm_PutzUnsafe "#t".toList port, .done)
  | .immediate 2 => (Scm_PutzUnsafe "()".toList port, .done)
  | .immediate 3 => (Scm_PutzUnsafe "#<eof>".toList port, .done)
  | .immediate 4 => (Scm_PutzUnsafe "#<undef>".toList port, .done)
  | .immediate 5 => (Scm_PutzUnsafe "#<unbound>".toList port, .done)
  | .immediate _ => (port, .panic)
  | .int n => (Scm_PutzUnsafe (fmt_ld n) port, .done)
  | .char ch =>
    if SCM_WRITE_MODE ctx = SCM_WRITE_DISPLAY then (Scm_PutcUnsafe ch port, .done)
    else
      let port := Scm_PutzUnsafe "#\\".toList port
      if ch.toNat ≤ 0x20 then (Scm_PutzUnsafe (char_names.getD ch.toNat []) port, .done)
      else if ch.toNat = 0x7f then (Scm_PutzUnsafe "del".toList port, .done)
      else (Scm_PutcUnsafe ch port, .done)
  | _ => (port, .panic)

/-- Outcome of the table consultation at the head of the aggregate part of
`write_ss_rec`: either a back reference was put and the routine returns, or
the routine goes on (a label may have been put). -/
inductive LabelStep where
  | returned (port : ScmPort)
  | goOn (port : ScmPort)

/-- The block `if (ht) { e = Scm_HashTableGet(ht, obj); ... }`. -/
def write_label (obj : ScmObj) (port : ScmPort) : LabelStep :=
  match port.data with
  | none => .goOn port
  | some (count, ht) =>
    match Scm_HashTableGet ht obj with
    | none => .goOn port
    | some v =>
      if v = SCM_FALSE then .goOn port
      else
        match v with
        | .int n => .returned { port with out := port.out ++ [Tok.backref n] }
        | _ =>
          .goOn { out := port.out ++ [Tok.label count],
                  data := some (count + 1, Scm_HashTablePut ht obj (.int count)) }

/-- The test `ht && (e = Scm_HashTableGet(ht, obj)) && e->value != SCM_FALSE`
of the list loop ("check for shared cdr"). -/
def shared_cdr (obj : ScmObj) (port : ScmPort) : Bool :=
  match port.data with
  | none => false
  | some (_, ht) =>
    match Scm_HashTableGet ht obj with
    | none => false
    | some v => v != SCM_FALSE

/-- The `for (;;)` loop of the pair branch; `obj` is the current pair. -/
def write_list_loop (heap : Heap) (rec : ScmObj → ScmPort → ScmPort × Outcome) :
    Nat → ScmObj → ScmPort → ScmPort × Outcome
  | 0, _, port => (port, .outOfFuel)
  | fuel + 1, obj, port =>
    andThen (rec (SCM_CAR heap obj) port) fun port =>
      let obj := SCM_CDR heap obj
      if SCM_NULLP obj then (Scm_PutcUnsafe ')' port, .done)
      else if !SCM_PAIRP heap obj then
        andThen (rec obj (Scm_PutzUnsafe " . ".toList port)) fun port =>
          (Scm_PutcUnsafe ')' port, .done)
      else if shared_cdr obj port then
        andThen (rec obj (Scm_PutzUnsafe " . ".toList port)) fun port =>
          (Scm_PutcUnsafe ')' port, .done)
      else write_list_loop heap rec fuel obj (Scm_PutcUnsafe ' ' port)

/-- The element loop of the vector branch: all elements but the last are
followed by a space, the last one by the closing parenthesis.  With no element
the C code reads `elts[0]` of an empty vector. -/
def write_vector_elts (rec : ScmObj → ScmPort → ScmPort × Outcome) :
    List ScmObj → ScmPort → ScmPort × Outcome
  | [], port => (port, .panic)
  | [e], port => andThen (rec e port) fun port => (Scm_PutcUnsafe ')' port, .done)
  | e :: e2 :: es, port =>
    andThen (rec e port) fun port =>
      write_vector_elts rec (e2 :: es) (Scm_PutcUnsafe ' ' port)

/-- The quote-family prefix for the head of a two-element list, if any. -/
def quote_shorthand (car : ScmObj) : Option (List Char) :=
  if car = SCM_SYM_QUOTE then some [Char.ofNat 39]
  else if car = SCM_SYM_QUASIQUOTE then some [Char.ofNat 96]
  else if car = SCM_SYM_UNQUOTE then some [',']
  else if car = SCM_SYM_UNQUOTE_SPLICING then some [',', '@']
  else none

/-- The part of `write_ss_rec` after the table consultation ("Writes
aggregates"). -/
def write_aggregate (heap : Heap) (ctx : ScmWriteContext)
    (rec : ScmObj → ScmPort → ScmPort × Outcome) (fuel : Nat) (obj : ScmObj)
    (port : ScmPort) : ScmPort × Outcome :=
  if SCM_PAIRP heap obj then
    match
      (if SCM_PAIRP heap (SCM_CDR heap obj) && SCM_NULLP (SCM_CDDR heap obj) then
        quote_shorthand (SCM_CAR heap obj) else none) with
    | some pre => rec (SCM_CADR heap obj) (Scm_PutzUnsafe pre port)
    | none => write_list_loop heap rec fuel obj (Scm_PutcUnsafe '(' port)
  else
    match deref heap obj with
    | some (.vector elts) => write_vector_elts rec elts (Scm_PutzUnsafe "#(".toList port)
    | _ => write_general heap obj port ctx

/-- Pass 2. -/
def write_ss_rec (heap : Heap) (ctx : ScmWriteContext) :
    Nat → ScmObj → ScmPort → ScmPort × Outcome
  | 0, _, port => (port, .outOfFuel)
  | fuel + 1, obj, port =>
    if ctx.flags &&& WRITE_LIMITED ≠ 0 ∧ outlen port ≥ ctx.limit then (port, .done)
    else if !SCM_PTRP obj then write_immediate obj port ctx
    else if SCM_NUMBERP heap obj then write_general heap obj port ctx
    else if deref heap obj = some (.string []) ∨ deref heap obj = some (.vector []) then
      write_general heap obj port ctx
    else
      match write_label obj port with
      | .returned port => (port, .done)
      | .goOn port => write_aggregate heap ctx (write_ss_rec heap ctx fuel) fuel obj port

/-- Write/ss main driver: pass 1 on a fresh walker port, then pass 2 on the
destination with the walker's data installed, which is removed at the end. -/
def write_ss (heap : Heap) (ctx : ScmWriteContext) (fuel : Nat) (obj : ScmObj)
    (port : ScmPort) : ScmPort × Outcome :=
  match make_walker_port.data with
  | none => (port, .panic)
  | some (count, ht0) =>
    match write_walk heap ctx fuel obj ht0 with
    | (ht, .done) =>
      let r := write_ss_rec heap ctx fuel obj { port with data := some (count, ht) }
      ({ r.1 with data := none }, r.2)
    | (_, o) => (port, o)

/-! ## Length-limited write -/

/-- Character-level `Scm_Substring` on a complete string; `none` is
`Scm_Error`. -/
def Scm_Substring (x : List Char) (start stop : Int) : Option (List Char) :=
  if start < 0 then none
  else if stop > (x.length : Int) then none
  else if stop < start then none
  else some ((x.drop start.toNat).take (stop - start).toNat)

/-- Fresh private output string port. -/
def Scm_MakeOutputStringPort : ScmPort := { out := [], data := none }

def Scm_GetOutputString (port : ScmPort) : List Char := render port.out

/-- `SCM_PUTS(s, port)`. -/
def SCM_PUTS (s : List Char) (port : ScmPort) : ScmPort := Scm_PutzUnsafe s port

/-- Write to limited length.  Returns the destination port, how the call
ended, and the `int` result.  (The case-folding bits that the C code ors into
`ctx.mode` lie outside `SCM_WRITE_MODE_MASK` and influence none of the
printers embedded here; they are left out.) -/
def Scm_WriteLimited (heap : Heap) (fuel : Nat) (obj : ScmObj) (port : ScmPort)
    (mode : Nat) (width : Int) : ScmPort × Outcome × Int :=
  let ctx : ScmWriteContext := { mode := mode, flags := WRITE_LIMITED, limit := width }
  match write_ss_rec heap ctx fuel obj Scm_MakeOutputStringPort with
  | (out, .done) =>
    let nc := outlen out
    if nc > width then
      match Scm_Substring (Scm_GetOutputString out) 0 width with
      | some sub => (SCM_PUTS sub port, .done, -1)
      | none => (port, .error, 0)
    else (SCM_PUTS (Scm_GetOutputString out) port, .done, nc)
  | (_, o) => (port, o, 0)

/-! ## Auxiliary notions used in the statements -/

/-- Port after the table consultation, whichever way it went. -/
def LabelStep.port : LabelStep → ScmPort
  | .returned p => p
  | .goOn p => p

/-- The objects for which `write_ss_rec` consults the identity table: heap
pointers other than numbers, empty strings and empty vectors. -/
def Tracked (heap : Heap) (obj : ScmObj) : Prop :=
  SCM_PTRP obj = true ∧ SCM_NUMBERP heap obj = false ∧
    ¬ (deref heap obj = some (.string []) ∨ deref heap obj = some (.vector []))

/-- The two-pair cycle `p = (q)`, `q = (quote . p)`, with `p` at address 0 and
`q` at address 1: `q` is the list `(quote q)` and `p` is its tail cell.  In
Scheme: `(define q (list (quote quote) #f)) (set-car! (cdr q) q)`, and `p` is
`(cdr q)`. -/
def quoteCycleHeap : Heap := fun a =>
  match a with
  | 0 => some (.pair (.ptr 1) SCM_NIL)
  | 1 => some (.pair SCM_SYM_QUOTE (.ptr 0))
  | _ => none

/-- Indices of the defining labels of a token sequence, left to right. -/
def labels : List Tok → List Nat
  | [] => []
  | .label n :: rest => n :: labels rest
  | _ :: rest => labels rest

/-- Left-to-right check of a token sequence, started with `k` labels already
seen: each label must carry the number of labels before it, each back
reference a number below that count.  The result is the final count. -/
def scanToks : Nat → List Tok → Option Nat
  | k, [] => some k
  | k, .text _ :: rest => scanToks k rest
  | k, .label n :: rest => if n = k then scanToks (k + 1) rest else none
  | k, .backref n :: rest => if 0 ≤ n ∧ n < (k : Int) then scanToks k rest else none

/-- State of a destination port during pass 2 of a write that started with
`base` already on the port: the tokens put since then pass `scanToks` with the
label counter as result, and every index stored in the table is below the
counter. -/
def EmitInv (base : List Tok) (port : ScmPort) : Prop :=
  ∃ toks c ht, port.out = base ++ toks ∧ port.data = some (c, ht) ∧
    scanToks 0 toks = some c ∧ ∀ x n, ht x = some (ScmObj.int n) → 0 ≤ n ∧ n < (c : Int)

/-- The table of `q` keeps every index that the table of `p` holds. -/
def KeepsIndices (p q : ScmPort) : Prop :=
  ∀ c ht, p.data = some (c, ht) →
    ∃ c2 ht2, q.data = some (c2, ht2) ∧ ∀ x n, ht x = some (ScmObj.int n) → ht2 x = some (ScmObj.int n)

/-- Entries as pass 1 writes them: `SCM_FALSE` (seen once) or `SCM_TRUE`
(seen again). -/
def WalkTable (ht : ScmHashTable) : Prop :=
  ∀ x v, ht x = some v → v = SCM_FALSE ∨ v = SCM_TRUE

/-- The list `(s s)` with `s = (a b)`: cells 0 and 1 are the outer list, cells
2 and 3 are `s`. -/
def sharedListHeap : Heap := fun a =>
  match a with
  | 0 => some (.pair (.ptr 2) (.ptr 1))
  | 1 => some (.pair (.ptr 2) SCM_NIL)
  | 2 => some (.pair (.symbol ['a']) (.ptr 3))
  | 3 => some (.pair (.symbol ['b']) SCM_NIL)
  | _ => none

/-- The table of the port holds no index for `x`. -/
def NoIndex (x : ScmObj) (p : ScmPort) : Prop :=
  ∀ c ht n, p.data = some (c, ht) → ht x ≠ some (ScmObj.int n)

/-- What pass 2 puts for a zero-length string or vector: nothing or two double
quotes for the string (display mode or not), `#()` for the vector. -/
def emptyAggregateText (heap : Heap) (ctx : ScmWriteContext) (x : ScmObj) : List Char :=
  match deref heap x with
  | some (.string _) => if SCM_WRITE_MODE ctx = SCM_WRITE_DISPLAY then [] else ['"', '"']
  | _ => "#()".toList

/-- The list `(e e v v)` where `e` is one empty string (address 4) and `v` one
empty vector (address 5). -/
def emptyTwiceHeap : Heap := fun a =>
  match a with
  | 0 => some (.pair (.ptr 4) (.ptr 1))
  | 1 => some (.pair (.ptr 4) (.ptr 2))
  | 2 => some (.pair (.ptr 5) (.ptr 3))
  | 3 => some (.pair (.ptr 5) SCM_NIL)
  | 4 => some (.string [])
  | 5 => some (.vector [])
  | _ => none

/-- Tokens that `string_print` puts for a complete string. -/
def string_toks (chars : List Char) (mode : Nat) : List Tok :=
  if mode = SCM_WRITE_DISPLAY then [Tok.text chars]
  else Tok.text ['"'] :: (chars.map (fun ch => Tok.text (string_escape ch)) ++ [Tok.text ['"']])

/-- Relation between the port `pu` of a run of pass 2 without length limit and
the port `pl` of the run with limit `w` on the same object, both on private
string ports: the two texts agree on their first `w` characters, and either
they are equal or the limited one has reached the limit. -/
def Sim (w : Nat) (pu pl : ScmPort) : Prop :=
  pu.data = none ∧ pl.data = none ∧
    (render pl.out).take w = (render pu.out).take w ∧
    (render pl.out = render pu.out ∨ w ≤ (render pl.out).length)

/-- Step `fL` follows step `fU`: from related ports, if `fU` returns then `fL`
returns, to related ports. -/
def Simulates (w : Nat) (fU fL : ScmPort → ScmPort × Outcome) : Prop :=
  ∀ pu pl pu2, Sim w pu pl → fU pu = (pu2, Outcome.done) →
    ∃ pl2, fL pl = (pl2, Outcome.done) ∧ Sim w pu2 pl2

/-- The string `hello world` at address 0; the list `(quote 5)` at address 1. -/
def limitedHeap : Heap := fun a =>
  match a with
  | 0 => some (.string "hello world".toList)
  | 1 => some (.pair SCM_SYM_QUOTE (.ptr 2))
  | 2 => some (.pair (.int 5) SCM_NIL)
  | _ => none

/-- The list `(p q)` with `p = (1)` at address 2 and `q = (quote . p)` at
address 3, so that `q` is the list `(quote 1)` whose tail cell is `p`. -/
def quoteSharedHeap : Heap := fun a =>
  match a with
  | 0 => some (.pair (.ptr 2) (.ptr 1))
  | 1 => some (.pair (.ptr 3) SCM_NIL)
  | 2 => some (.pair (.int 1) SCM_NIL)
  | 3 => some (.pair SCM_SYM_QUOTE (.ptr 2))
  | _ => none

/-- The circular list of the fixnums `es`: cell `i` (address `i`) holds `es[i]`
and its cdr is cell `i + 1`, that of the last cell being cell 0. -/
def circularHeap (es : List Int) : Heap := fun a =>
  if h : a < es.length then
    some (.pair (.int (es.get ⟨a, h⟩)) (.ptr ((a + 1) % es.length)))
  else none

/-- Tokens of the elements of a circular list from some cell on, up to the
closing parenthesis after the back reference to cell 0. -/
def circTail : List Int → List Tok
  | [] => []
  | [e] => [Tok.text (fmt_ld e), Tok.text " . ".toList, Tok.backref 0, Tok.text [Char.ofNat 41]]
  | e :: e2 :: rest => Tok.text (fmt_ld e) :: Tok.text [' '] :: circTail (e2 :: rest)

/-- Table in which the cells `0 .. m-1` are entered as seen once. -/
def markedBelow (m : Nat) : ScmHashTable := fun k =>
  match k with
  | .ptr a => if a < m then some SCM_FALSE else none
  | _ => none

/-- Atoms of the lists in the statements about shared lists: fixnums and
symbols. -/
def IsAtom (e : ScmObj) : Prop := (∃ n, e = ScmObj.int n) ∨ (∃ s, e = ScmObj.symbol s)

/-- The list `l = (s s)` whose two elements are one and the same proper list
`s` of the atoms `es`: cells 0 and 1 are `l`, cell `i + 2` is the `i`-th cell
of `s`. -/
def twiceHeap (es : List ScmObj) : Heap := fun a =>
  if a = 0 then some (.pair (.ptr 2) (.ptr 1))
  else if a = 1 then some (.pair (.ptr 2) SCM_NIL)
  else if h : a - 2 < es.length then
    some (.pair (es.get ⟨a - 2, h⟩) (if a - 2 + 1 < es.length then .ptr (a + 1) else SCM_NIL))
  else none

/-- Tokens that pass 2 puts for an atom. -/
def atomToks : ScmObj → List Tok
  | .int n => [Tok.text (fmt_ld n)]
  | .symbol s => [Tok.text s]
  | _ => []

/-- Tokens of the list loop over a proper list of atoms, closing parenthesis
included. -/
def listTail : List ScmObj → List Tok
  | [] => []
  | [e] => atomToks e ++ [Tok.text [Char.ofNat 41]]
  | e :: e2 :: rest => atomToks e ++ Tok.text [' '] :: listTail (e2 :: rest)

/-- Tokens of the whole proper list of atoms: the quote shorthand for a
two-element list headed by a quote-family symbol, the parenthesised form
otherwise. -/
def listToks (es : List ScmObj) : List Tok :=
  match (if es.length = 2 then quote_shorthand (es.headD SCM_FALSE) else none) with
  | some pre => Tok.text pre :: atomToks (es.getD 1 SCM_FALSE)
  | none => Tok.text [Char.ofNat 40] :: listTail es

/-- The object `x` is not flagged in the port data `d`: there is no table, or
no entry for `x`, or the entry says seen once. -/
def Unflagged (d : Option (Nat × ScmHashTable)) (x : ScmObj) : Prop :=
  match d with
  | none => True
  | some (_, ht) => ht x = none ∨ ht x = some SCM_FALSE

/-- Table in which cell 0 and the first `m` cells of `s` are entered as seen
once. -/
def twiceMarked (m : Nat) : ScmHashTable := fun k =>
  match k with
  | .ptr a => if a = 0 ∨ (2 ≤ a ∧ a < m + 2) then some SCM_FALSE else none
  | _ => none

/-- Table left by pass 1 on `twiceHeap es`: every cell entered, the head of
`s` (cell 2) flagged. -/
def twiceTable (n : Nat) : ScmHashTable := fun k =>
  match k with
  | .ptr a => if a = 2 then some SCM_TRUE else if a < n + 2 then some SCM_FALSE else none
  | _ => none

/-! ## Trees of acyclic values, their write-mode text, and a reader -/

/-- An acyclic value built from booleans, the empty list, fixnums, characters,
strings, pairs and vectors, as a tree. -/
inductive Datum where
  | bool (b : Bool)
  | nil
  | int (n : Int)
  | char (c : Char)
  | str (cs : List Char)
  | pair (a d : Datum)
  | vec (es : List Datum)

/-- Number of nodes of a tree. -/
def Datum.size : Datum → Nat
  | .pair a d => a.size + d.size + 1
  | .vec es => sizeList es + 1
  | _ => 1
where
  sizeList : List Datum → Nat
    | [] => 0
    | e :: es => e.size + sizeList es

/-- The word `obj` of the heap unfolds to the tree `d`. -/
def Represents (heap : Heap) : ScmObj → Datum → Prop
  | obj, .bool b => obj = if b then SCM_TRUE else SCM_FALSE
  | obj, .nil => obj = SCM_NIL
  | obj, .int n => obj = ScmObj.int n
  | obj, .char c => obj = ScmObj.char c
  | obj, .str cs => ∃ a, obj = ScmObj.ptr a ∧ heap a = some (HeapObj.string cs)
  | obj, .pair da dd =>
    ∃ a x y, obj = ScmObj.ptr a ∧ heap a = some (HeapObj.pair x y) ∧
      Represents heap x da ∧ Represents heap y dd
  | obj, .vec ds =>
    ∃ a es, obj = ScmObj.ptr a ∧ heap a = some (HeapObj.vector es) ∧ representsList es ds
where
  representsList : List ScmObj → List Datum → Prop
    | [], [] => True
    | e :: es, d :: ds => Represents heap e d ∧ representsList es ds
    | _, _ => False

/-- Name of a character after `#\` in write mode. -/
def charName (c : Char) : List Char :=
  if c.toNat ≤ 0x20 then char_names.getD c.toNat []
  else if c.toNat = 0x7f then "del".toList
  else [c]

/-- Write-mode text of a tree without descendants. -/
def Datum.atomText : Datum → List Char
  | .bool true => "#t".toList
  | .bool false => "#f".toList
  | .nil => "()".toList
  | .int n => fmt_ld n
  | .char c => '#' :: '\\' :: charName c
  | .str cs => '"' :: (cs.flatMap string_escape ++ ['"'])
  | _ => []

mutual
/-- Write-mode text of a tree, following the output grammar of pass 2. -/
def Datum.text : Datum → List Char
  | .pair a d => '(' :: (a.text ++ d.tailText)
  | .vec [] => "#()".toList
  | .vec (e :: es) => '#' :: '(' :: (e.text ++ Datum.vecTail es)
  | d => d.atomText
/-- Text of the rest of a list whose cdr is the given tree, closing
parenthesis included. -/
def Datum.tailText : Datum → List Char
  | .nil => [')']
  | .pair a d => ' ' :: (a.text ++ d.tailText)
  | .vec [] => " . ".toList ++ ("#()".toList ++ [')'])
  | .vec (e :: es) => " . ".toList ++ ('#' :: '(' :: (e.text ++ Datum.vecTail es) ++ [')'])
  | d => " . ".toList ++ (d.atomText ++ [')'])
/-- Text of the remaining elements of a vector, closing parenthesis included. -/
def Datum.vecTail : List Datum → List Char
  | [] => [')']
  | e :: es => ' ' :: (e.text ++ Datum.vecTail es)
end

/-! ### The reader

Modelled from the spec: the reader is not part of the sources at hand
(section 1: "the reader/parser" is an external collaborator).  The functions
below are a reader for the output grammar of section 4.4: parenthesised lists
with ` . ` tails, `#( )` vectors, `#\name` characters with the name table of
the writer, strings with the escape table of the writer, decimal fixnums and
the tokens `#t`, `#f` and `()`. -/

/-- Modelled from the spec: characters that end a token. -/
def isDelimiter (c : Char) : Bool :=
  c = ' ' || c = Char.ofNat 41 || c = Char.ofNat 40 || c = '"'

/-- Modelled from the spec: reads a run of decimal digits, most significant
first, onto the accumulator. -/
def readDigits : List Char → Nat → Nat × List Char
  | [], acc => (acc, [])
  | c :: rest, acc =>
    if c.isDigit then readDigits rest (acc * 10 + (c.toNat - 48)) else (acc, c :: rest)

/-- Modelled from the spec: the character an escape letter stands for (escape
table of section 4.4). -/
def unescape (x : Char) : Option Char :=
  if x = '\\' then some '\\'
  else if x = '"' then some '"'
  else if x = 'n' then some '\n'
  else if x = 't' then some '\t'
  else if x = 'r' then some '\r'
  else if x = 'f' then some (Char.ofNat 12)
  else if x = '0' then some (Char.ofNat 0)
  else none

/-- Modelled from the spec: reads the characters of a string up to the closing
double quote, the opening one being consumed already. -/
def readString : List Char → Option (List Char × List Char)
  | [] => none
  | c :: rest =>
    if c = '"' then some ([], rest)
    else if c = '\\' then
      match rest with
      | [] => none
      | x :: rest2 =>
        match unescape x, readString rest2 with
        | some ch, some r => some (ch :: r.1, r.2)
        | _, _ => none
    else
      match readString rest with
      | some r => some (c :: r.1, r.2)
      | none => none

/-- Modelled from the spec: the character a name after `#\` stands for: a
single character stands for itself, `del` for 0x7f, and a name of the table
for its index. -/
def readCharName (tok : List Char) : Option Char :=
  match tok with
  | [c] => some c
  | _ =>
    if tok = "del".toList then some (Char.ofNat 0x7f)
    else if char_names.indexOf tok < char_names.length then
      some (Char.ofNat (char_names.indexOf tok))
    else none

/-- What the reader is reading: a datum, the rest of a list after an element,
or the rest of a vector after an element. -/
inductive ReadMode where
  | datum
  | tail
  | vtail

/-- Modelled from the spec: reading a datum whose first character is `c`;
`rec` reads what is nested inside. -/
def readDatumStep (rec : ReadMode → List Char → Option (Datum × List Char)) (c : Char)
    (rest : List Char) : Option (Datum × List Char) :=
  if c = Char.ofNat 40 then
    match rest with
    | [] => none
    | c2 :: rest2 =>
      if c2 = Char.ofNat 41 then some (Datum.nil, rest2)
      else
        match rec .datum rest with
        | none => none
        | some r1 =>
          match rec .tail r1.2 with
          | none => none
          | some r2 => some (Datum.pair r1.1 r2.1, r2.2)
  else if c = '#' then
    match rest with
    | [] => none
    | c2 :: rest2 =>
      if c2 = 't' then some (Datum.bool true, rest2)
      else if c2 = 'f' then some (Datum.bool false, rest2)
      else if c2 = '\\' then
        match rest2 with
        | [] => none
        | c3 :: rest3 =>
          match readCharName (c3 :: rest3.takeWhile (fun x => !isDelimiter x)) with
          | none => none
          | some ch => some (Datum.char ch, rest3.dropWhile (fun x => !isDelimiter x))
      else if c2 = Char.ofNat 40 then
        match rest2 with
        | [] => none
        | c3 :: rest3 =>
          if c3 = Char.ofNat 41 then some (Datum.vec [], rest3)
          else
            match rec .datum rest2 with
            | none => none
            | some r1 =>
              match rec .vtail r1.2 with
              | some (Datum.vec es, r2) => some (Datum.vec (r1.1 :: es), r2)
              | _ => none
      else none
  else if c = '"' then
    match readString rest with
    | none => none
    | some r => some (Datum.str r.1, r.2)
  else if c = '-' then
    match rest with
    | [] => none
    | d :: _ =>
      if d.isDigit then some (Datum.int (-((readDigits rest 0).1 : Int)), (readDigits rest 0).2)
      else none
  else if c.isDigit then
    some (Datum.int ((readDigits (c :: rest) 0).1 : Int), (readDigits (c :: rest) 0).2)
  else none

/-- Modelled from the spec: reading the rest of a list after an element: the
closing parenthesis, a ` . ` tail, or a space and the next element. -/
def readTailStep (rec : ReadMode → List Char → Option (Datum × List Char)) (c : Char)
    (rest : List Char) : Option (Datum × List Char) :=
  if c = Char.ofNat 41 then some (Datum.nil, rest)
  else if c = ' ' then
    if rest.take 2 = ['.', ' '] then
      match rec .datum (rest.drop 2) with
      | some (d, c2 :: rest2) => if c2 = Char.ofNat 41 then some (d, rest2) else none
      | _ => none
    else
      match rec .datum rest with
      | none => none
      | some r1 =>
        match rec .tail r1.2 with
        | none => none
        | some r2 => some (Datum.pair r1.1 r2.1, r2.2)
  else none

/-- Modelled from the spec: reading the rest of a vector after an element. -/
def readVtailStep (rec : ReadMode → List Char → Option (Datum × List Char)) (c : Char)
    (rest : List Char) : Option (Datum × List Char) :=
  if c = Char.ofNat 41 then some (Datum.vec [], rest)
  else if c = ' ' then
    match rec .datum rest with
    | none => none
    | some r1 =>
      match rec .vtail r1.2 with
      | some (Datum.vec es, r2) => some (Datum.vec (r1.1 :: es), r2)
      | _ => none
  else none

/-- Modelled from the spec: the reader, with fuel for the nesting.  In mode
`tail` the result is the cdr of the list cell whose car was just read; in mode
`vtail` it is a vector of the remaining elements. -/
def read : Nat → ReadMode → List Char → Option (Datum × List Char)
  | 0, _, _ => none
  | _ + 1, _, [] => none
  | fuel + 1, .datum, c :: rest => readDatumStep (read fuel) c rest
  | fuel + 1, .tail, c :: rest => readTailStep (read fuel) c rest
  | fuel + 1, .vtail, c :: rest => readVtailStep (read fuel) c rest

/-- Modelled from the spec: reads one datum that makes up the whole text. -/
def readText (s : List Char) : Option Datum :=
  match read (s.length + 1) .datum s with
  | some (d, []) => some d
  | _ => none

/-- The text after a datum in the output of the writer: nothing, or something
that starts with a delimiter. -/
def Follow (rest : List Char) : Prop :=
  rest = [] ∨ ∃ c r, rest = c :: r ∧ isDelimiter c = true

/-- The step `f` returns on every port without identity table, having put
tokens whose text is `text`. -/
def Writes (f : ScmPort → ScmPort × Outcome) (text : List Char) : Prop :=
  ∀ p : ScmPort, p.data = none →
    ∃ toks, f p = ({ p with out := p.out ++ toks }, Outcome.done) ∧ render toks = text

/-- The proper list `(1 "a" #\space . #(2 ()))`-like value of the round-trip
example: cell 0 is `(1 . cell 1)`, cell 1 is `("a\"" . cell 2)`, cell 2 is
`(#\space . vector 4)`, and the vector holds `-2` and the empty list. -/
def roundTripHeap : Heap := fun a =>
  match a with
  | 0 => some (.pair (.int 1) (.ptr 1))
  | 1 => some (.pair (.ptr 3) (.ptr 2))
  | 2 => some (.pair (.char ' ') (.ptr 4))
  | 3 => some (.string ['a', '"'])
  | 4 => some (.vector [.int (-2), SCM_NIL])
  | _ => none

/-- The tree of the value at address 0 of `roundTripHeap`. -/
def roundTripDatum : Datum :=
  .pair (.int 1) (.pair (.str ['a', '"']) (.pair (.char ' ') (.vec [.int (-2), .nil])))

/-! ## Notions for the statements about lists, vectors, characters and strings -/

/-- The word `obj` heads a chain of pairs whose cars are `es`, in order, and
whose last cdr is the non-pair `t`. -/
def Chain (heap : Heap) : ScmObj → List ScmObj → ScmObj → Prop
  | obj, [], t => obj = t ∧ SCM_PAIRP heap t = false
  | obj, e :: es, t =>
    ∃ a y, obj = ScmObj.ptr a ∧ heap a = some (HeapObj.pair e y) ∧ Chain heap y es t

/-- The test of `write_ss_rec` for the quote shorthand on the pair `obj`. -/
def quote_test (heap : Heap) (obj : ScmObj) : Option (List Char) :=
  if SCM_PAIRP heap (SCM_CDR heap obj) && SCM_NULLP (SCM_CDDR heap obj) then
    quote_shorthand (SCM_CAR heap obj)
  else none

/-- Name of a character after `#\`, in the words of the specification: the
six named characters, `x` and two lowercase hexadecimal digits for the other
codes up to 0x20, `del` for 0x7f, the character itself otherwise. -/
def specCharName (ch : Char) : List Char :=
  if ch.toNat = 0 then "null".toList
  else if ch.toNat = 9 then "tab".toList
  else if ch.toNat = 10 then "newline".toList
  else if ch.toNat = 13 then "return".toList
  else if ch.toNat = 27 then "escape".toList
  else if ch.toNat = 32 then "space".toList
  else if ch.toNat ≤ 0x20 then
    ['x', Nat.digitChar (ch.toNat / 16), Nat.digitChar (ch.toNat % 16)]
  else if ch.toNat = 0x7f then "del".toList
  else [ch]

/-- Escape of a character inside a written string, in the words of the
specification: seven characters have a two-character escape, every other
character stands for itself. -/
def specEscape (ch : Char) : List Char :=
  if ch = '\\' then "\\\\".toList
  else if ch = '"' then "\\\"".toList
  else if ch = '\n' then "\\n".toList
  else if ch = '\t' then "\\t".toList
  else if ch = '\r' then "\\r".toList
  else if ch = Char.ofNat 12 then "\\f".toList
  else if ch = Char.ofNat 0 then "\\0".toList
  else [ch]

/-- The list `(1 2 3)`. -/
def list123Heap : Heap := fun a =>
  match a with
  | 0 => some (.pair (.int 1) (.ptr 1))
  | 1 => some (.pair (.int 2) (.ptr 2))
  | 2 => some (.pair (.int 3) SCM_NIL)
  | _ => none

/-- The vector `#(1 #\a)` at address 0 and an empty vector at address 1. -/
def vectorHeap : Heap := fun a =>
  match a with
  | 0 => some (.vector [.int 1, .char 'a'])
  | 1 => some (.vector [])
  | _ => none

/-! ## Formatter (`format_proc`)

The argument list of `format_proc` is a proper Scheme list and is given by
the list of its elements: `SCM_PAIRP(args)` is `args ≠ []`, `Scm_Length` is
the length and `Scm_ListTail(oargs, i)` is `oargs.drop i`. -/

/-- Sizes in bytes of the C types `long` and `int`.  The configuration header
that defines them is not among the sources; these are the values of an LP64
platform. -/
def SIZEOF_LONG : Nat := 8

def SIZEOF_INT : Nat := 4

/-- Value of an integer expression converted to `unsigned long`. -/
def to_ulong (v : Int) : Nat := (v % ((2 ^ (8 * SIZEOF_LONG) : Nat) : Int)).toNat

/-- Value of an `unsigned long` converted to `long`. -/
def ulong_to_long (u : Nat) : Int :=
  if u < 2 ^ (8 * SIZEOF_LONG - 1) then (u : Int)
  else (u : Int) - ((2 ^ (8 * SIZEOF_LONG) : Nat) : Int)

/-- Value of a `long` converted to `int`. -/
def long_to_int (v : Int) : Int :=
  let u := (v % ((2 ^ (8 * SIZEOF_INT) : Nat) : Int)).toNat
  if u < 2 ^ (8 * SIZEOF_INT - 1) then (u : Int)
  else (u : Int) - ((2 ^ (8 * SIZEOF_INT) : Nat) : Int)

/-- Value that an operation on `int` leaves when its exact result is `v`: `v`
reduced modulo `2 ^ 32` into the range of `int`.  Inside that range it is
`v`.  Outside of it the C language leaves the result of a signed operation
undefined; the embedding takes the two's complement value there, and the
statements about padding and about `~*` name the range of values for which
they hold. -/
def int_wrap (v : Int) : Int := long_to_int v

/-- Largest value of the C type `int`. -/
def INT_MAX : Int := ((2 ^ (8 * SIZEOF_INT - 1) : Nat) : Int) - 1

/-- Smallest value of the C type `int`. -/
def INT_MIN : Int := -INT_MAX - 1

def SCM_SMALL_INT_SIZE : Nat := SIZEOF_LONG * 8 - 3

def SCM_SMALL_INT_MAX : Int := ((2 ^ SCM_SMALL_INT_SIZE : Nat) : Int) - 1

def SCM_SMALL_INT_MIN : Int := -SCM_SMALL_INT_MAX - 1

def SCM_SMALL_INT_FITS (k : Int) : Bool :=
  decide (k ≤ SCM_SMALL_INT_MAX) && decide (k ≥ SCM_SMALL_INT_MIN)

def SCM_CHARP : ScmObj → Bool
  | .char _ => true
  | _ => false

/-- Operations of the number module that the formatter calls.  Their file
(`number.c`) is not among the sources, so they are parameters of the
formatter.  `Scm_NumberToString` gives the characters of the string it
returns. -/
structure NumberOps where
  Scm_IntegerP : ScmObj → Bool
  SCM_FLONUMP : ScmObj → Bool
  Scm_InexactToExact : ScmObj → ScmObj
  Scm_NumberToString : ScmObj → Nat → Bool → List Char
  Scm_MakeInteger : Int → ScmObj

/-- Modelled from the spec: `SCM_WRITE_SHARED` is not declared in the header
at hand, whose enumeration of the writing modes has `SCM_WRITE_DEBUG` as the
third mode (section 3: "mode (`Write`|`Display`|`Debug`)"). -/
def SCM_WRITE_SHARED : Nat := 2

/-- Standard write.  A port that carries a table is in the output pass of
write/ss (`SCM_PORT_WRITESS`); walker ports (`SCM_PORT_WALKING`) do not occur,
pass 1 being run on the table itself.  The case-folding bits ored into
`ctx.mode` lie outside `SCM_WRITE_MODE_MASK` and are left out. -/
def Scm_Write (heap : Heap) (fuel : Nat) (obj : ScmObj) (port : ScmPort) (mode : Nat) :
    ScmPort × Outcome :=
  let ctx : ScmWriteContext := { mode := mode, flags := 0, limit := 0 }
  if port.data.isSome then write_ss_rec heap ctx fuel obj port
  else if SCM_WRITE_MODE ctx = SCM_WRITE_SHARED then write_ss heap ctx fuel obj port
  else write_ss_rec heap ctx fuel obj port

/-- Max number of parameters for a format directive. -/
def MAX_PARAMS : Nat := 5

/-- Dispatch to the proper writer (see `Scm_Write` for the port flags). -/
def format_write (heap : Heap) (fuel : Nat) (obj : ScmObj) (port : ScmPort)
    (ctx : ScmWriteContext) (sharedp : Bool) : ScmPort × Outcome :=
  if port.data.isSome then write_ss_rec heap ctx fuel obj port
  else if sharedp then write_ss heap ctx fuel obj port
  else write_ss_rec heap ctx fuel obj port

/-- The loop `for (i=0; i<padcount; i++) Scm_PutcUnsafe(padchar, out)`. -/
def put_pad (padchar : Char) : Nat → ScmPort → ScmPort
  | 0, out => out
  | n + 1, out => put_pad padchar n (Scm_PutcUnsafe padchar out)

/-- Output string with padding.  `mincol`, `colinc` and `padcount` are `int`
variables and `SCM_STRING_LENGTH(str)`, a bit-field narrower than `int`, is
promoted to `int`, so every operation is one on `int` (`int_wrap`); the
division truncates towards zero. -/
def format_pad (out : ScmPort) (str : List Char) (mincol colinc : Int) (padchar : Char)
    (rightalign : Bool) : ScmPort :=
  let padcount : Int := int_wrap (mincol - (str.length : Int))
  if padcount > 0 then
    let padcount : Int :=
      if colinc > 1 then
        int_wrap ((Int.tdiv (int_wrap (int_wrap (padcount + colinc) - 1)) colinc) * colinc)
      else padcount
    let out := if rightalign then put_pad padchar padcount.toNat out else out
    let out := Scm_PutzUnsafe str out
    if !rightalign then put_pad padchar padcount.toNat out else out
  else Scm_PutzUnsafe str out

/-- The assignment `if (nparams>i && SCM_INTP(params[i])) x = SCM_INT_VALUE(params[i])`
to an `int` variable whose value was `dflt`. -/
def param_int (params : List ScmObj) (i : Nat) (dflt : Int) : Int :=
  match params.get? i with
  | some (.int v) => long_to_int v
  | _ => dflt

/-- The assignment `if (nparams>i && SCM_CHARP(params[i])) x = SCM_CHAR_VALUE(params[i])`. -/
def param_char (params : List ScmObj) (i : Nat) (dflt : Char) : Char :=
  match params.get? i with
  | some (.char c) => c
  | _ => dflt

/-- Modelled from the spec: `Scm_StringPosition` is not in the string file at
hand.  `Scm_PutzUnsafe(s, Scm_StringPosition(str, k) - s, out)` puts the
characters of `str` before position `k` (section 4.5: "pad or truncate"). -/
def Scm_StringPosition (str : List Char) (k : Int) : List Char := str.take k.toNat

/-- The `~s` and `~a` writer with parameters. -/
def format_sexp (heap : Heap) (fuel : Nat) (out : ScmPort) (arg : ScmObj)
    (params : List ScmObj) (rightalign dots : Bool) (mode : Nat) : ScmPort × Outcome :=
  let mincol := param_int params 0 0
  let colinc := param_int params 1 1
  let minpad := param_int params 2 0
  let padchar := param_char params 3 ' '
  let maxcol := param_int params 4 (-1)
  let tmpout := Scm_MakeOutputStringPort
  let tmpout := if minpad > 0 ∧ rightalign then put_pad padchar minpad.toNat tmpout else tmpout
  let w : ScmPort × Outcome × Int :=
    if maxcol > 0 then Scm_WriteLimited heap fuel arg tmpout mode maxcol
    else
      let r := Scm_Write heap fuel arg tmpout mode
      (r.1, r.2, 0)
  match w with
  | (tmpout, .done, nwritten) =>
    let tmpout :=
      if minpad > 0 ∧ !rightalign then put_pad padchar minpad.toNat tmpout else tmpout
    let tmpstr := Scm_GetOutputString tmpout
    if maxcol > 0 ∧ nwritten < 0 then
      if dots ∧ maxcol > 4 then
        (Scm_PutzUnsafe " ...".toList
          (Scm_PutzUnsafe (Scm_StringPosition tmpstr (maxcol - 4)) out), .done)
      else (Scm_PutzUnsafe (Scm_StringPosition tmpstr maxcol) out, .done)
    else (format_pad out tmpstr mincol colinc padchar rightalign, .done)
  | (_, o, _) => (out, o)

/-- Modelled from the spec: `Scm_DStringPutz` is not in the string file at
hand.  It adds `size` bytes of the text at `str` to the dynamic string, and
the whole text when `size` is negative. -/
def Scm_DStringPutz (ds : List Char) (str : List Char) (size : Int) : List Char :=
  if size < 0 then ds ++ str else ds ++ str.take size.toNat

/-- The loop `while (colcnt < num_digits)` of `format_integer`.  `ptr` is the
text after the sign.  With a negative interval `colcnt` becomes negative and
`ptr+colcnt` lies before the text: `none`.  The sum `colcnt + commainterval`
does not leave the range of `int` for a text that a string can hold (fewer
than `2 ^ 30` characters): the loop is entered with `0 ≤ colcnt < num_digits`
only, and with a positive interval only when the interval is at most
`num_digits`. -/
def delimit_loop (ptr : List Char) (num_digits : Int) (commachar : Char)
    (commainterval : Int) : Nat → Int → List Char → Option (List Char)
  | 0, _, _ => none
  | fuel + 1, colcnt, tmpout =>
    if colcnt < num_digits then
      if colcnt < 0 then none
      else
        let tmpout := if colcnt ≠ 0 then tmpout ++ [commachar] else tmpout
        let tmpout := Scm_DStringPutz tmpout (ptr.drop colcnt.toNat) commainterval
        delimit_loop ptr num_digits commachar commainterval fuel (colcnt + commainterval) tmpout
    else some tmpout

/-- Delimited output of `format_integer`: the block guarded by
`delimited && commainterval`. -/
def delimit (str : List Char) (commachar : Char) (commainterval : Int) :
    Option (List Char) :=
  let signed : Bool := str.head? = some '-' ∨ str.head? = some '+'
  let tmpout : List Char := if signed then str.take 1 else []
  let ptr : List Char := if signed then str.drop 1 else str
  let num_digits : Int := if signed then (str.length : Int) - 1 else (str.length : Int)
  let colcnt : Int := Int.tmod num_digits commainterval
  let tmpout := if colcnt ≠ 0 then Scm_DStringPutz tmpout ptr colcnt else tmpout
  delimit_loop ptr num_digits commachar commainterval (str.length + 2) colcnt tmpout

/-- The writer of `~d`, `~b`, `~o` and `~x`. -/
def format_integer (ops : NumberOps) (heap : Heap) (fuel : Nat) (out : ScmPort)
    (arg : ScmObj) (params : List ScmObj) (radix : Nat)
    (delimited alwayssign use_upper : Bool) : ScmPort × Outcome :=
  if !ops.Scm_IntegerP arg then
    format_write heap fuel arg out { mode := SCM_WRITE_DISPLAY, flags := 0, limit := 0 } false
  else
    let arg := if ops.SCM_FLONUMP arg then ops.Scm_InexactToExact arg else arg
    let mincol := param_int params 0 0
    let padchar := param_char params 1 ' '
    let commachar := param_char params 2 ','
    let commainterval := param_int params 3 3
    let str := ops.Scm_NumberToString arg radix use_upper
    let str := if alwayssign ∧ str.head? ≠ some '-' then '+' :: str else str
    if delimited ∧ commainterval ≠ 0 then
      match delimit str commachar commainterval with
      | some str => (format_pad out str mincol 1 padchar true, .done)
      | none => (out, .panic)
    else (format_pad out str mincol 1 padchar true, .done)

/-- The calls of `Scm_Error` in `format_proc`. -/
inductive FormatError where
  | tooFewArguments
  | tooManyArguments
  | refersOutside
  | illegalFormat
  | tooManyAtFlag
  | tooManyColonFlag
  | badVArgument
  deriving DecidableEq, Repr

/-- How a run of `format_proc` ended: it returned, it raised one of its
errors, a writer called for a directive did not return (with the way that
writer ended), or the fuel of the model ran out. -/
inductive FormatOutcome where
  | done
  | error (e : FormatError)
  | aborted (o : Outcome)
  | outOfFuel
  deriving DecidableEq, Repr

/-- The variables of `format_proc` that change during the run: the port, the
argument cursor `args`, the count `argcnt` and `backtracked`. -/
structure FormatState where
  out : ScmPort
  args : List ScmObj
  argcnt : Int
  backtracked : Bool

/-- The variables of the directive loop: `params[0..numParams-1]` and the two
flags. -/
structure Directive where
  params : List ScmObj
  atflag : Bool
  colonflag : Bool

/-- Result of one round of the loops of `format_proc`: go on with the rest of
the format string, inside a directive (`some`) or outside (`none`), or end. -/
inductive FormatStep where
  | next (fmtstr : List Char) (dir : Option Directive) (st : FormatState)
  | stop (st : FormatState) (o : FormatOutcome)

/-- `NEXT_ARG(arg, args)`; `none` is the error "too few arguments for format
string". -/
def NEXT_ARG (st : FormatState) : Option (ScmObj × FormatState) :=
  match st.args with
  | [] => none
  | arg :: args => some (arg, { st with args := args, argcnt := st.argcnt + 1 })

/-- What `Scm_GetcUnsafe` returns at the end of the format string is `EOF`,
which is not a character; where the C code puts it to the port
(`default: Scm_PutcUnsafe(ch, out)`) the model records this character. -/
def EOF_CHAR : Char := Char.ofNat 0xFFFF

/-- The steps `ch = Scm_GetcUnsafe(fmtstr); if (ch != ',') Scm_UngetcUnsafe(ch, fmtstr)`. -/
def skip_comma : List Char → List Char
  | ',' :: rest => rest
  | fmtstr => fmtstr

/-- The loop that reads the digits of a numeric parameter into the
`unsigned long value`; returns the value and the format string from the
first character that is not a digit. -/
def read_value : List Char → Nat → Nat × List Char
  | [], value => (value, [])
  | ch :: rest, value =>
    if ch.isDigit then
      read_value rest ((value * 10 + (ch.toNat - '0'.toNat)) % 2 ^ (8 * SIZEOF_LONG))
    else (value, ch :: rest)

/-- End of a directive that called a writer. -/
def after_write (fmtstr : List Char) (st : FormatState) (r : ScmPort × Outcome) :
    FormatStep :=
  match r with
  | (out, .done) => .next fmtstr none { st with out := out }
  | (out, o) => .stop { st with out := out } (.aborted o)

/-- The value `argindex` of `~*` before the flags are looked at: the first
parameter converted to `int`, 1 when there is no parameter, and `none`
(`goto badfmt`) when the first parameter is not a fixnum. -/
def star_first (d : Directive) : Option Int :=
  if d.params.length ≠ 0 then
    match d.params.head? with
    | some (.int v) => some (long_to_int v)
    | _ => none
  else some 1

/-- The target index of `~*`: `argindex` after the flags have been applied to
the value `argindex` of the parameter, by the `int` operations
`argcnt - argindex` and `argcnt + argindex`. -/
def star_index (d : Directive) (st : FormatState) (argindex : Int) : Int :=
  if d.colonflag then int_wrap (st.argcnt - argindex)
  else if !d.atflag then int_wrap (st.argcnt + argindex)
  else argindex

/-- The directive `~*`: the new state, or the error raised. -/
def format_star (oargs : List ScmObj) (d : Directive) (st : FormatState) :
    Except FormatError FormatState :=
  let arglen : Int := (oargs.length : Int)
  match star_first d with
  | none => .error .illegalFormat
  | some argindex =>
    if d.colonflag ∧ d.atflag then .error .illegalFormat
    else
      let argindex : Int := star_index d st argindex
      let backtracked : Bool := if d.colonflag ∨ d.atflag then true else st.backtracked
      if argindex < 0 ∨ argindex ≥ arglen then .error .refersOutside
      else
        .ok { st with argcnt := argindex, args := oargs.drop argindex.toNat,
                      backtracked := backtracked }

/-- The radix directives `~b`, `~o`, `~x` without parameter and flag: an
integer is turned into a string by `Scm_NumberToString` and that string,
allocated at the free address `alloc`, is written in display mode. -/
def format_radix (ops : NumberOps) (heap : Heap) (fuel alloc : Nat) (out : ScmPort)
    (arg : ScmObj) (radix : Nat) (use_upper : Bool) : ScmPort × Outcome :=
  let actx : ScmWriteContext := { mode := SCM_WRITE_DISPLAY, flags := 0, limit := 0 }
  if ops.Scm_IntegerP arg then
    format_write (Function.update heap alloc (some (.string
      (ops.Scm_NumberToString arg radix use_upper)))) fuel (.ptr alloc) out actx false
  else format_write heap fuel arg out actx false

/-- The cases `s` and `a` of the directive loop; `mode` is `SCM_WRITE_WRITE`
for `~s` (context `sctx`) and `SCM_WRITE_DISPLAY` for `~a` (context `actx`). -/
def directive_sexp (heap : Heap) (fuel : Nat) (sharedp : Bool) (mode : Nat)
    (rest : List Char) (d : Directive) (st : FormatState) : FormatStep :=
  match NEXT_ARG st with
  | none => .stop st (.error .tooFewArguments)
  | some (arg, st) =>
    if d.params.length = 0 then
      after_write rest st
        (format_write heap fuel arg st.out { mode := mode, flags := 0, limit := 0 } sharedp)
    else after_write rest st (format_sexp heap fuel st.out arg d.params d.atflag d.colonflag mode)

/-- The case `d` of the directive loop. -/
def directive_decimal (ops : NumberOps) (heap : Heap) (fuel : Nat)
    (rest : List Char) (d : Directive) (st : FormatState) : FormatStep :=
  match NEXT_ARG st with
  | none => .stop st (.error .tooFewArguments)
  | some (arg, st) =>
    if d.params.length = 0 ∧ !d.atflag ∧ !d.colonflag then
      after_write rest st
        (format_write heap fuel arg st.out
          { mode := SCM_WRITE_DISPLAY, flags := 0, limit := 0 } false)
    else after_write rest st
      (format_integer ops heap fuel st.out arg d.params 10 d.colonflag d.atflag false)

/-- The cases `b`, `o` and `x` of the directive loop. -/
def directive_radix (ops : NumberOps) (heap : Heap) (fuel alloc : Nat) (radix : Nat)
    (use_upper : Bool) (rest : List Char) (d : Directive) (st : FormatState) : FormatStep :=
  match NEXT_ARG st with
  | none => .stop st (.error .tooFewArguments)
  | some (arg, st) =>
    if d.params.length = 0 ∧ !d.atflag ∧ !d.colonflag then
      after_write rest st (format_radix ops heap fuel alloc st.out arg radix use_upper)
    else after_write rest st
      (format_integer ops heap fuel st.out arg d.params radix d.colonflag d.atflag use_upper)

/-- The case `*` of the directive loop. -/
def directive_star (oargs : List ScmObj) (rest : List Char) (d : Directive)
    (st : FormatState) : FormatStep :=
  match format_star oargs d st with
  | .error e => .stop st (.error e)
  | .ok st => .next rest none st

/-- The case `v` of the directive loop. -/
def directive_v (rest : List Char) (d : Directive) (st : FormatState) : FormatStep :=
  if d.atflag ∨ d.colonflag ∨ d.params.length ≥ MAX_PARAMS then .stop st (.error .illegalFormat)
  else
    match NEXT_ARG st with
    | none => .stop st (.error .tooFewArguments)
    | some (arg, st) =>
      if arg ≠ SCM_FALSE ∧ !SCM_INTP arg ∧ !SCM_CHARP arg then .stop st (.error .badVArgument)
      else .next (skip_comma rest) (some { d with params := d.params ++ [arg] }) st

/-- The case of the apostrophe: the next character is a parameter. -/
def directive_quote (rest : List Char) (d : Directive) (st : FormatState) : FormatStep :=
  if d.atflag ∨ d.colonflag then .stop st (.error .illegalFormat)
  else if d.params.length ≥ MAX_PARAMS then .stop st (.error .illegalFormat)
  else
    match rest with
    | [] => .stop st (.error .illegalFormat)
    | c :: rest => .next (skip_comma rest) (some { d with params := d.params ++ [.char c] }) st

/-- The case of a digit or a sign: a numeric parameter. -/
def directive_number (ops : NumberOps) (ch : Char) (rest : List Char) (d : Directive)
    (st : FormatState) : FormatStep :=
  if d.atflag ∨ d.colonflag ∨ d.params.length ≥ MAX_PARAMS then .stop st (.error .illegalFormat)
  else
    let sign : Int := if ch = '-' then -1 else 1
    let value : Nat := if ch.isDigit then ch.toNat - '0'.toNat else 0
    let r := read_value rest value
    .next (skip_comma r.2)
      (some { d with params := d.params ++
        [ops.Scm_MakeInteger (ulong_to_long (to_ulong (sign * (r.1 : Int))))] }) st

/-- The case of a comma: an omitted parameter. -/
def directive_comma (rest : List Char) (d : Directive) (st : FormatState) : FormatStep :=
  if d.atflag ∨ d.colonflag ∨ d.params.length ≥ MAX_PARAMS then .stop st (.error .illegalFormat)
  else .next rest (some { d with params := d.params ++ [SCM_FALSE] }) st

/-- One round of the directive loop of `format_proc` (the inner `for (;;)`),
on the character `ch` read from the format string: the `switch`. -/
def format_directive (ops : NumberOps) (heap : Heap) (fuel alloc : Nat)
    (oargs : List ScmObj) (sharedp : Bool) (ch : Char) (rest : List Char)
    (d : Directive) (st : FormatState) : FormatStep :=
  if ch = '%' then .next rest none { st with out := Scm_PutcUnsafe '\n' st.out }
  else if ch = 's' ∨ ch = 'S' then directive_sexp heap fuel sharedp SCM_WRITE_WRITE rest d st
  else if ch = 'a' ∨ ch = 'A' then directive_sexp heap fuel sharedp SCM_WRITE_DISPLAY rest d st
  else if ch = 'd' ∨ ch = 'D' then directive_decimal ops heap fuel rest d st
  else if ch = 'b' ∨ ch = 'B' then directive_radix ops heap fuel alloc 2 false rest d st
  else if ch = 'o' ∨ ch = 'O' then directive_radix ops heap fuel alloc 8 false rest d st
  else if ch = 'x' ∨ ch = 'X' then directive_radix ops heap fuel alloc 16 (ch = 'X') rest d st
  else if ch = '*' then directive_star oargs rest d st
  else if ch = 'v' ∨ ch = 'V' then directive_v rest d st
  else if ch = '@' then
    if d.atflag then .stop st (.error .tooManyAtFlag)
    else .next rest (some { d with atflag := true }) st
  else if ch = ':' then
    if d.colonflag then .stop st (.error .tooManyColonFlag)
    else .next rest (some { d with colonflag := true }) st
  else if ch = Char.ofNat 39 then directive_quote rest d st
  else if ch.isDigit ∨ ch = '-' ∨ ch = '+' then directive_number ops ch rest d st
  else if ch = ',' then directive_comma rest d st
  else .next rest none { st with out := Scm_PutcUnsafe ch st.out }

/-- One round of the loops of `format_proc`: of the outer loop when no
directive is open, of the directive loop otherwise. -/
def format_step (ops : NumberOps) (heap : Heap) (fuel alloc : Nat)
    (oargs : List ScmObj) (sharedp : Bool) (fmtstr : List Char) (dir : Option Directive)
    (st : FormatState) : FormatStep :=
  match dir, fmtstr with
  | none, [] =>
    if !st.backtracked ∧ st.args ≠ [] then .stop st (.error .tooManyArguments)
    else .stop st .done
  | none, ch :: rest =>
    if ch ≠ '~' then .next rest none { st with out := Scm_PutcUnsafe ch st.out }
    else .next rest (some { params := [], atflag := false, colonflag := false }) st
  | some _, [] => .next [] none { st with out := Scm_PutcUnsafe EOF_CHAR st.out }
  | some d, ch :: rest => format_directive ops heap fuel alloc oargs sharedp ch rest d st

/-- The loops of `format_proc`, `steps` rounds at most. -/
def format_run (ops : NumberOps) (heap : Heap) (fuel alloc : Nat)
    (oargs : List ScmObj) (sharedp : Bool) :
    Nat → List Char → Option Directive → FormatState → FormatState × FormatOutcome
  | 0, _, _, st => (st, .outOfFuel)
  | steps + 1, fmtstr, dir, st =>
    match format_step ops heap fuel alloc oargs sharedp fmtstr dir st with
    | .stop st o => (st, o)
    | .next fmtstr dir st => format_run ops heap fuel alloc oargs sharedp steps fmtstr dir st

/-- The formatter.  `fuel` bounds the recursion of the writers that it calls,
`steps` the rounds of its own loops.  Returns the final values of its
variables and how the run ended. -/
def format_proc (ops : NumberOps) (heap : Heap) (fuel alloc steps : Nat) (out : ScmPort)
    (fmt : List Char) (args : List ScmObj) (sharedp : Bool) : FormatState × FormatOutcome :=
  format_run ops heap fuel alloc args sharedp steps fmt none
    { out := out, args := args, argcnt := 0, backtracked := false }

/-- Number operations on fixnums, for the examples: a fixnum is an integer,
none is a flonum, the text of a fixnum in a radix is its sign and digits, and
`Scm_MakeInteger` gives the fixnum of a value in the fixnum range (and a
pointer, standing for a bignum, outside of it). -/
def fixnumOps : NumberOps where
  Scm_IntegerP := SCM_INTP
  SCM_FLONUMP := fun _ => false
  Scm_InexactToExact := fun obj => obj
  Scm_NumberToString := fun obj radix use_upper =>
    match obj with
    | .int v =>
      let digits := Nat.toDigits radix v.natAbs
      let digits := if use_upper then digits.map Char.toUpper else digits
      if v < 0 then '-' :: digits else digits
    | _ => []
  Scm_MakeInteger := fun v => if SCM_SMALL_INT_FITS v then .int v else .ptr 0

/-- Configuration of `format_proc` after `k` rounds of its loops, if the run
has not ended before: the unread part of the format string, the open
directive if any, and the variables. -/
def format_after (ops : NumberOps) (heap : Heap) (fuel alloc : Nat)
    (oargs : List ScmObj) (sharedp : Bool) :
    Nat → List Char → Option Directive → FormatState →
      Option (List Char × Option Directive × FormatState)
  | 0, fmtstr, dir, st => some (fmtstr, dir, st)
  | k + 1, fmtstr, dir, st =>
    match format_step ops heap fuel alloc oargs sharedp fmtstr dir st with
    | .stop _ _ => none
    | .next fmtstr dir st => format_after ops heap fuel alloc oargs sharedp k fmtstr dir st

/-- Rounds that the loops of `format_proc` need at most from a
configuration: every round but the one that leaves a directive at the end of
the format string reads a character. -/
def format_rounds (fmtstr : List Char) (dir : Option Directive) : Nat :=
  2 * fmtstr.length + (if dir.isSome then 1 else 0)

/-- What every round of the directive loop guarantees about its result, where
`rest` is the format string after the character read, `bt` the value of
`backtracked` before the round and `star` tells whether the character is `*`:
a round that ends the run ends it neither by a return nor by the error "too
many arguments"; a round that goes on leaves a final part of `rest` to read;
`backtracked` is only changed by `*`. -/
def DirectiveRound (star : Bool) (bt : Bool) (rest : List Char) : FormatStep → Prop
  | .stop st2 o =>
    o ≠ .done ∧ o ≠ .error .tooManyArguments ∧ o ≠ .outOfFuel ∧
      (star = false → st2.backtracked = bt)
  | .next f2 _ st2 => (∃ pre, rest = pre ++ f2) ∧ (star = false → st2.backtracked = bt)

/-- The configuration is at a `*` inside a directive: the next round of the
loops carries out a `~*` directive. -/
def AtStar (fmtstr : List Char) (dir : Option Directive) : Prop :=
  dir.isSome = true ∧ fmtstr.head? = some '*'

/-- The run from a configuration never carries out a `~*` directive. -/
def NoStarDirective (ops : NumberOps) (heap : Heap) (fuel alloc : Nat)
    (oargs : List ScmObj) (sharedp : Bool) (fmtstr : List Char) (dir : Option Directive)
    (st : FormatState) : Prop :=
  ∀ (k : Nat) (f2 : List Char) (d2 : Option Directive) (st2 : FormatState),
    format_after ops heap fuel alloc oargs sharedp k fmtstr dir st = some (f2, d2, st2) →
    ¬ AtStar f2 d2

/-- The three forms of the directive `~*`: no flag, the flag `:`, the flag
`@`. -/
inductive StarFlag where
  | forward
  | backward
  | absolute
  deriving DecidableEq, Repr

/-- The text of a `~*` directive with the numeric parameter `num` (left out
when `none`) and the flag `flag`. -/
def star_text (num : Option Nat) (flag : StarFlag) : List Char :=
  '~' :: ((match num with
      | none => []
      | some n => Nat.toDigits 10 n) ++
    ((match flag with
      | .forward => []
      | .backward => [':']
      | .absolute => ['@']) ++ ['*']))

/-- The position that the specification gives for a `~*` directive carried
out with the cursor at `k`: forward by the parameter (1 when left out),
backward by it, or the parameter itself. -/
def star_target (k : Int) (num : Option Nat) (flag : StarFlag) : Int :=
  match flag with
  | .forward => k + (num.getD 1 : Nat)
  | .backward => k - (num.getD 1 : Nat)
  | .absolute => (num.getD 1 : Nat)

/-- The target index of a `~*` directive in the words of the specification,
for the cursor `k` and the value `n` of the parameter (1 when there is none):
`k - n` with the flag `:`, `n` with the flag `@`, and `k + n` without a flag,
as integers without bound. -/
def star_goal (k n : Int) (colonflag atflag : Bool) : Int :=
  if colonflag then k - n else if atflag then n else k + n

/-- Rounds of the loops that a `~*` directive takes. -/
def star_rounds (num : Option Nat) (flag : StarFlag) : Nat :=
  2 + (if num.isSome then 1 else 0) + (if flag = .forward then 0 else 1)

/-- The parameters that the directive loop has read when it comes to the `*`
of `star_text num flag`. -/
def star_params (num : Option Nat) : List ScmObj :=
  match num with
  | none => []
  | some n => [.int n]

/-- The list `'''''5`, that is `(quote (quote (quote (quote (quote 5)))))`, at
address 0: the cell at the even address `a` is `(quote . cell a+1)` and the
cell at the odd address `a` holds the next list, or 5 for the last one. -/
def nestedQuoteHeap : Heap := fun a =>
  if a < 10 then
    if a % 2 = 0 then some (.pair SCM_SYM_QUOTE (.ptr (a + 1)))
    else some (.pair (if a = 9 then .int 5 else .ptr (a + 1)) SCM_NIL)
  else none

/-- A heap with a bignum at address 0: the integer `2 ^ 62`, which lies
beyond the fixnum range, with the text of its class printer. -/
def bignumHeap : Heap := fun a =>
  if a = 0 then some (.number "4611686018427387904".toList) else none

/-- Grouping of digits in the words of the specification: the separator is
inserted between two neighbouring digits exactly when the distance of that
place from the right end (the number of digits after it) is a positive
multiple of `g`. -/
def specGroup (sep : Char) (g : Nat) : List Char → List Char
  | [] => []
  | c :: rest =>
    if rest ≠ [] ∧ rest.length % g = 0 then c :: sep :: specGroup sep g rest
    else c :: specGroup sep g rest

/-! ## Printf-like formatter (`vprintf_proc`)

The format is a C string and is given by the list of its characters before
the terminating NUL; the arguments are the list that the first pass of
`Scm_Vprintf` has built. -/

/-- Circular-safe writer.  Returns the destination port, how the call ended,
and the `int` result.  (The case-folding bits are left out as in
`Scm_WriteLimited`.) -/
def Scm_WriteCircular (heap : Heap) (fuel : Nat) (obj : ScmObj) (port : ScmPort)
    (mode : Nat) (width : Int) : ScmPort × Outcome × Int :=
  if width > 0 then
    let ctx : ScmWriteContext :=
      { mode := mode, flags := WRITE_CIRCULAR ||| WRITE_LIMITED, limit := width }
    match write_ss heap ctx fuel obj Scm_MakeOutputStringPort with
    | (out, .done) =>
      let nc := outlen out
      if nc > width then
        match Scm_Substring (Scm_GetOutputString out) 0 width with
        | some sub => (SCM_PUTS sub port, .done, -1)
        | none => (port, .error, 0)
      else (SCM_PUTS (Scm_GetOutputString out) port, .done, nc)
    | (_, o) => (port, o, 0)
  else
    let ctx : ScmWriteContext := { mode := mode, flags := WRITE_CIRCULAR, limit := 0 }
    let r := write_ss heap ctx fuel obj port
    (r.1, r.2, 0)

/-- What `vprintf_proc` takes from the C library and from the number module,
neither of which is among the sources: the tests `SCM_EXACTP` and
`SCM_FLONUMP`, the text that `snprintf` gives for the conversion
specification collected in `argbuf` applied to `Scm_GetInteger(val)`,
`Scm_GetUInteger(val)`, `Scm_GetDouble(val)` and `(void*)Scm_GetUInteger(val)`,
and `Scm_GetInteger` itself (used by `%C`). -/
structure PrintfOps where
  SCM_EXACTP : ScmObj → Bool
  SCM_FLONUMP : ScmObj → Bool
  snprintf_integer : List Char → ScmObj → List Char
  snprintf_uinteger : List Char → ScmObj → List Char
  snprintf_double : List Char → ScmObj → List Char
  snprintf_pointer : List Char → ScmObj → List Char
  Scm_GetInteger : ScmObj → Int

/-- How a run of `vprintf_proc` ended: it returned, it raised the error
"incomplete %-directive", an `SCM_ASSERT` failed, or a writer called for a
directive did not return. -/
inductive PrintfOutcome where
  | done
  | incomplete
  | assertFailed
  | aborted (o : Outcome)
  deriving DecidableEq, Repr

/-- The variables of `vprintf_proc` that live across directives. -/
structure PrintfState where
  out : ScmPort
  args : List ScmObj
  longp : Nat

/-- The variables of one directive: the conversion specification collected
so far and the numbers and marks read from it. -/
structure PrintfDirective where
  argbuf : List Char
  width : Int
  prec : Int
  dot_appeared : Nat
  pound_appeared : Nat

/-- Result of the `switch` of `vprintf_proc` on one character of a directive:
the directive goes on (`continue`), it is finished (`break`), or the run
ends. -/
inductive PrintfStep where
  | goOn (d : PrintfDirective) (st : PrintfState)
  | finished (st : PrintfState)
  | stop (st : PrintfState) (o : PrintfOutcome)

/-- The steps `SCM_ASSERT(SCM_PAIRP(args)); val = SCM_CAR(args); args = SCM_CDR(args)`;
`none` when the assertion fails. -/
def vprintf_pop (st : PrintfState) : Option (ScmObj × PrintfState) :=
  match st.args with
  | [] => none
  | val :: args => some (val, { st with args := args })

/-- The conversions that hand the argument to `snprintf`: the argument is
taken, `ok` is the test of the second `SCM_ASSERT`, and `text` gives what
`snprintf` puts into the buffer for the specification `argbuf` with the
conversion character added. -/
def vprintf_number (ok : ScmObj → Bool) (text : List Char → ScmObj → List Char) (c : Char)
    (d : PrintfDirective) (st : PrintfState) : PrintfStep :=
  match vprintf_pop st with
  | none => .stop st .assertFailed
  | some (val, st) =>
    if !ok val then .stop st .assertFailed
    else .finished { st with out := Scm_PutzUnsafe (text (d.argbuf ++ [c]) val) st.out }

/-- The tail of the cases `S` and `A` after a limited write that returned
`n`: the ellipsis and the loop `for (; n < prec; n++)`. -/
def vprintf_after_limited (prec : Int) (r : ScmPort × Outcome × Int) (st : PrintfState) :
    PrintfStep :=
  match r with
  | (out, .done, n) =>
    let out := if n < 0 ∧ prec > 0 then Scm_PutzUnsafe " ...".toList out else out
    let out := if n > 0 then put_pad ' ' (prec - n).toNat out else out
    .finished { st with out := out }
  | (out, o, _) => .stop { st with out := out } (.aborted o)

/-- End of a case that called a writer. -/
def vprintf_after_write (r : ScmPort × Outcome) (st : PrintfState) : PrintfStep :=
  match r with
  | (out, .done) => .finished { st with out := out }
  | (out, o) => .stop { st with out := out } (.aborted o)

/-- The cases `S` and `A` of `vprintf_proc`. -/
def vprintf_sexp (heap : Heap) (fuel : Nat) (sharedp : Bool) (c : Char)
    (d : PrintfDirective) (st : PrintfState) : PrintfStep :=
  match vprintf_pop st with
  | none => .stop st .assertFailed
  | some (val, st) =>
    let mode : Nat := if c = 'A' then SCM_WRITE_DISPLAY else SCM_WRITE_WRITE
    let wctx : ScmWriteContext := { mode := mode, flags := 0, limit := 0 }
    if d.pound_appeared ≠ 0 then
      vprintf_after_limited d.prec (Scm_WriteCircular heap fuel val st.out mode d.width) st
    else if d.width = 0 then
      vprintf_after_write (format_write heap fuel val st.out wctx sharedp) st
    else if d.dot_appeared ≠ 0 then
      vprintf_after_limited d.prec (Scm_WriteLimited heap fuel val st.out mode d.width) st
    else vprintf_after_write (format_write heap fuel val st.out wctx sharedp) st

/-- The case `s` of `vprintf_proc`: the string and then spaces up to
`width`. -/
def vprintf_string (heap : Heap) (d : PrintfDirective) (st : PrintfState) : PrintfStep :=
  match vprintf_pop st with
  | none => .stop st .assertFailed
  | some (val, st) =>
    match deref heap val with
    | some (.string chars) =>
      .finished { st with
        out := put_pad ' ' (d.width - (chars.length : Int)).toNat (Scm_PutzUnsafe chars st.out) }
    | _ => .stop st .assertFailed

/-- The `switch` of the directive loop of `vprintf_proc` on the character
`c`. -/
def vprintf_switch (pops : PrintfOps) (heap : Heap) (fuel : Nat) (sharedp : Bool) (c : Char)
    (d : PrintfDirective) (st : PrintfState) : PrintfStep :=
  if c = 'l' then .goOn { d with argbuf := d.argbuf ++ [c] } { st with longp := st.longp + 1 }
  else if c = 'd' ∨ c = 'i' ∨ c = 'c' then
    vprintf_number pops.SCM_EXACTP pops.snprintf_integer c d st
  else if c = 'o' ∨ c = 'u' ∨ c = 'x' ∨ c = 'X' then
    vprintf_number pops.SCM_EXACTP pops.snprintf_uinteger c d st
  else if c = 'e' ∨ c = 'E' ∨ c = 'f' ∨ c = 'g' ∨ c = 'G' then
    vprintf_number pops.SCM_FLONUMP pops.snprintf_double c d st
  else if c = 's' then vprintf_string heap d st
  else if c = '%' then .finished { st with out := Scm_PutcUnsafe '%' st.out }
  else if c = 'p' then vprintf_number pops.SCM_EXACTP pops.snprintf_pointer c d st
  else if c = 'S' ∨ c = 'A' then vprintf_sexp heap fuel sharedp c d st
  else if c = 'C' then
    match vprintf_pop st with
    | none => .stop st .assertFailed
    | some (val, st) =>
      if !pops.SCM_EXACTP val then .stop st .assertFailed
      else .finished { st with
        out := Scm_PutcUnsafe (Char.ofNat (pops.Scm_GetInteger val).toNat) st.out }
  else if c.isDigit then
    if d.dot_appeared ≠ 0 then
      .goOn { d with prec := d.prec * 10 + ((c.toNat : Int) - ('0'.toNat : Int)),
                     argbuf := d.argbuf ++ [c] } st
    else
      .goOn { d with width := d.width * 10 + ((c.toNat : Int) - ('0'.toNat : Int)),
                     argbuf := d.argbuf ++ [c] } st
  else if c = '.' then
    .goOn { d with dot_appeared := d.dot_appeared + 1, argbuf := d.argbuf ++ [c] } st
  else if c = '#' then
    .goOn { d with pound_appeared := d.pound_appeared + 1, argbuf := d.argbuf ++ [c] } st
  else .goOn { d with argbuf := d.argbuf ++ [c] } st

/-- The loops of `vprintf_proc` on the rest of the format: outside a
directive (`none`) or inside one.  The end of the format inside a directive
is the error "incomplete %-directive". -/
def vprintf_run (pops : PrintfOps) (heap : Heap) (fuel : Nat) (sharedp : Bool) :
    List Char → Option PrintfDirective → PrintfState → PrintfState × PrintfOutcome
  | [], none, st => (st, .done)
  | [], some _, st => (st, .incomplete)
  | c :: fmtp, none, st =>
    if c ≠ '%' then
      vprintf_run pops heap fuel sharedp fmtp none { st with out := Scm_PutcUnsafe c st.out }
    else
      vprintf_run pops heap fuel sharedp fmtp
        (some { argbuf := [c], width := 0, prec := 0, dot_appeared := 0,
                pound_appeared := 0 }) st
  | c :: fmtp, some d, st =>
    match vprintf_switch pops heap fuel sharedp c d st with
    | .goOn d st => vprintf_run pops heap fuel sharedp fmtp (some d) st
    | .finished st => vprintf_run pops heap fuel sharedp fmtp none st
    | .stop st o => (st, o)

/-- The second pass of `Scm_Vprintf`.  `fuel` bounds the recursion of the
writers that it calls. -/
def vprintf_proc (pops : PrintfOps) (heap : Heap) (fuel : Nat) (out : ScmPort)
    (fmt : List Char) (args : List ScmObj) (sharedp : Bool) : PrintfState × PrintfOutcome :=
  vprintf_run pops heap fuel sharedp fmt none { out := out, args := args, longp := 0 }

/-- Printf operations on fixnums, for the examples: a fixnum is exact, none
is a flonum, and every numeric conversion gives the decimal text of the
fixnum. -/
def fixnumPrintfOps : PrintfOps where
  SCM_EXACTP := SCM_INTP
  SCM_FLONUMP := fun _ => false
  snprintf_integer := fun _ val =>
    match val with
    | .int v => fmt_ld v
    | _ => []
  snprintf_uinteger := fun _ val =>
    match val with
    | .int v => fmt_ld v
    | _ => []
  snprintf_double := fun _ _ => []
  snprintf_pointer := fun _ val =>
    match val with
    | .int v => fmt_ld v
    | _ => []
  Scm_GetInteger := fun val =>
    match val with
    | .int v => v
    | _ => 0

/-! ## `Scm_StringTake` -/

/-- Character-level `Scm_StringTake` on a complete string: SRFI-13
string-take and string-drop; `none` is `Scm_Error`. -/
def Scm_StringTake (x : List Char) (nchars : Int) (takefirst fromright : Bool) :
    Option (List Char) :=
  let len : Int := x.length
  if nchars < 0 ∨ nchars ≥ len then none
  else
    let nchars := if fromright then len - nchars else nchars
    if takefirst then Scm_Substring x 0 nchars
    else Scm_Substring x nchars len

/-! ## Tagged words

The macros of `gauche.h` on the machine word itself.  A word is a natural
number; where the width matters it is `sizeof_long * 8` bits and arithmetic is
taken modulo `2 ^ (sizeof_long * 8)`. -/

namespace Word

def SCM_TAG (obj : Nat) : Nat := obj &&& 0x03

def SCM_PTRP (obj : Nat) : Bool := SCM_TAG obj == 0

def SCM_IMMEDIATEP (obj : Nat) : Bool := (obj &&& 0x0f) == 6

def SCM_ITAG (obj : Nat) : Nat := obj >>> 4

def SCM__MAKE_ITAG (num : Nat) : Nat := (num <<< 4) + 6

def SCM_FALSE : Nat := SCM__MAKE_ITAG 0

def SCM_TRUE : Nat := SCM__MAKE_ITAG 1

def SCM_NIL : Nat := SCM__MAKE_ITAG 2

def SCM_EOF : Nat := SCM__MAKE_ITAG 3

def SCM_UNDEFINED : Nat := SCM__MAKE_ITAG 4

def SCM_UNBOUND : Nat := SCM__MAKE_ITAG 5

/-- Value of a signed long as a word of `bits` bits (two's complement). -/
def of_long (bits : Nat) (v : Int) : Nat := (v % 2 ^ bits).toNat

/-- The cast `(signed long int)` of a word of `bits` bits. -/
def to_long (bits : Nat) (w : Nat) : Int :=
  if w % 2 ^ bits < 2 ^ (bits - 1) then ((w % 2 ^ bits : Nat) : Int)
  else ((w % 2 ^ bits : Nat) : Int) - 2 ^ bits

def SCM_INTP (obj : Nat) : Bool := SCM_TAG obj == 1

/-- Arithmetic shift of the signed word by two bits. -/
def SCM_INT_VALUE (sizeof_long : Nat) (obj : Nat) : Int :=
  to_long (sizeof_long * 8) obj >>> (2 : Nat)

/-- The shift and the addition are taken modulo the word size. -/
def SCM_MAKE_INT (sizeof_long : Nat) (obj : Int) : Nat :=
  of_long (sizeof_long * 8) (obj * 2 ^ 2 + 1)

def SCM_CHARP (obj : Nat) : Bool := (obj &&& 0x07) == 2

def SCM_SMALL_INT_SIZE (sizeof_long : Nat) : Nat := sizeof_long * 8 - 3

def SCM_SMALL_INT_MAX (sizeof_long : Nat) : Int := 2 ^ SCM_SMALL_INT_SIZE sizeof_long - 1

def SCM_SMALL_INT_MIN (sizeof_long : Nat) : Int := -SCM_SMALL_INT_MAX sizeof_long - 1

def SCM_SMALL_INT_FITS (sizeof_long : Nat) (k : Int) : Bool :=
  decide (k ≤ SCM_SMALL_INT_MAX sizeof_long) && decide (k ≥ SCM_SMALL_INT_MIN sizeof_long)

end Word

/-! ## Strings as bytes (`string.c`)

The functions of `string.c` on the representation itself: a string is its
`length` (in characters, `-1` for an incomplete string), its `size` (in bytes)
and the bytes that `start` points to.  A byte is a natural number.  What the
character-encoding header provides is a parameter. -/

namespace Str

/-- What `string.c` takes from the character-encoding header, which is not
among the sources: `SCM_CHAR_NFOLLOWS` of a lead byte, `SCM_CHAR_NBYTES` of a
character, the character that `SCM_STR_GETC` reads at a position and the
bytes that `SCM_STR_PUTC` stores for a character. -/
structure Encoding where
  SCM_CHAR_NFOLLOWS : Nat → Int
  SCM_CHAR_NBYTES : Char → Nat
  SCM_STR_GETC : List Nat → Char
  SCM_STR_PUTC : Char → List Nat

/-- The fields that `INITSTR` sets.  `start` holds the bytes from the start
pointer on; the first `size` of them belong to the string. -/
structure ScmString where
  length : Int
  size : Nat
  start : List Nat
  deriving DecidableEq, Repr

def INITSTR (len : Int) (siz : Nat) (p : List Nat) : ScmString :=
  { length := len, size := siz, start := p }

/-- The bytes of the string: what `memcpy(p, SCM_STRING_START(x), SCM_STRING_SIZE(x))`
copies. -/
def ScmString.bytes (x : ScmString) : List Nat := x.start.take x.size

/-- Result of a scan of memory: a value, a read outside the memory given, or
the end of the fuel. -/
inductive Scan (α : Type) where
  | ret (a : α)
  | outside
  | outOfFuel
  deriving DecidableEq, Repr

/-- The inner loop `while (i-- > 0) { if (!*p++) len = -1; size++; }` of
`count_size_and_length`.  The memory is the list of bytes from `p` on; `rd`
counts the bytes read. -/
def count_follow : Nat → List Nat → Int → Int → Nat → Option (List Nat × Int × Int × Nat)
  | 0, p, size, len, rd => some (p, size, len, rd)
  | _ + 1, [], _, _, _ => none
  | i + 1, b :: p, size, len, rd =>
    count_follow i p (size + 1) (if b = 0 then -1 else len) (rd + 1)

/-- The loop `while (c = *p++)` of `count_size_and_length`. -/
def count_loop (enc : Encoding) : Nat → List Nat → Int → Int → Nat → Scan (Int × Int × Nat)
  | 0, _, _, _, _ => .outOfFuel
  | _ + 1, [], _, _, _ => .outside
  | fuel + 1, c :: p, size, len, rd =>
    if c = 0 then .ret (size, len, rd + 1)
    else
      match count_follow (enc.SCM_CHAR_NFOLLOWS c).toNat p (size + 1) (len + 1) (rd + 1) with
      | none => .outside
      | some (p, size, len, rd) => count_loop enc fuel p size len rd

/-- Calculate both length and size of the C string at `str`: the results
`*psize` and `*plen`, and the number of bytes read from `str` on. -/
def count_size_and_length (enc : Encoding) (str : List Nat) : Scan (Int × Int × Nat) :=
  count_loop enc (str.length + 1) str 0 0 0

/-- The inner loop `while (i-- > 0) { str++; if (size-- < 0) return -1; }` of
`count_length`; `none` is the `return -1`. -/
def count_length_follow : Nat → List Nat → Int → Option (List Nat × Int)
  | 0, str, size => some (str, size)
  | i + 1, str, size =>
    if size < 0 then none else count_length_follow i (str.drop 1) (size - 1)

/-- The loop `while (size-- > 0)` of `count_length`. -/
def count_length_loop (enc : Encoding) : Nat → List Nat → Int → Int → Scan Int
  | 0, _, _, _ => .outOfFuel
  | fuel + 1, str, size, count =>
    if size > 0 then
      match str with
      | [] => .outside
      | c :: str =>
        if enc.SCM_CHAR_NFOLLOWS c < 0 then .ret (-1)
        else
          match count_length_follow (enc.SCM_CHAR_NFOLLOWS c).toNat str (size - 1) with
          | none => .ret (-1)
          | some (str, size) => count_length_loop enc fuel str size (count + 1)
    else .ret count

/-- Calculate length of known size string. -/
def count_length (enc : Encoding) (str : List Nat) (size : Int) : Scan Int :=
  count_length_loop enc (size.toNat + 1) str size 0

/-- The inner loop `while (i-- > 0) { if (!*str++) return -1; }` of
`Scm_MBLen`; the first component tells whether it returned. -/
def mblen_follow : Nat → List Nat → Nat → Option (Bool × List Nat × Nat)
  | 0, str, rd => some (false, str, rd)
  | _ + 1, [], _ => none
  | i + 1, b :: str, rd =>
    if b = 0 then some (true, str, rd + 1) else mblen_follow i str (rd + 1)

/-- The loop `while (c = *str++)` of `Scm_MBLen`. -/
def mblen_loop (enc : Encoding) : Nat → List Nat → Int → Nat → Scan (Int × Nat)
  | 0, _, _, _ => .outOfFuel
  | _ + 1, [], _, _ => .outside
  | fuel + 1, c :: str, count, rd =>
    if c = 0 then .ret (count, rd + 1)
    else if enc.SCM_CHAR_NFOLLOWS c < 0 then .ret (-1, rd + 1)
    else
      match mblen_follow (enc.SCM_CHAR_NFOLLOWS c).toNat str (rd + 1) with
      | none => .outside
      | some (true, _, rd) => .ret (-1, rd)
      | some (false, str, rd) => mblen_loop enc fuel str (count + 1) rd

/-- Returns length of C-string and the number of bytes read. -/
def Scm_MBLen (enc : Encoding) (str : List Nat) : Scan (Int × Nat) :=
  mblen_loop enc (str.length + 1) str 0 0

def Scm_MakeStringConst (enc : Encoding) (str : List Nat) (size len : Int) : Scan ScmString :=
  if size < 0 then
    match count_size_and_length enc str with
    | .ret (size, len, _) => .ret (INITSTR len size.toNat str)
    | .outside => .outside
    | .outOfFuel => .outOfFuel
  else if len < 0 then
    match count_length enc str size with
    | .ret len => .ret (INITSTR len size.toNat str)
    | .outside => .outside
    | .outOfFuel => .outOfFuel
  else .ret (INITSTR len size.toNat str)

/-- As `Scm_MakeStringConst`, with the bytes copied: `memcpy(nstr, str, size+1)`. -/
def Scm_MakeString (enc : Encoding) (str : List Nat) (size len : Int) : Scan ScmString :=
  if size < 0 then
    match count_size_and_length enc str with
    | .ret (size, len, _) => .ret (INITSTR len size.toNat (str.take (size.toNat + 1)))
    | .outside => .outside
    | .outOfFuel => .outOfFuel
  else if len < 0 then
    match count_length enc str size with
    | .ret len => .ret (INITSTR len size.toNat (str.take (size.toNat + 1)))
    | .outside => .outside
    | .outOfFuel => .outOfFuel
  else .ret (INITSTR len size.toNat (str.take (size.toNat + 1)))

/-- The macro `SCM_MAKE_STR(cstr)` as `string.c` uses it. -/
def SCM_MAKE_STR (enc : Encoding) (cstr : List Nat) : Scan ScmString :=
  Scm_MakeString enc cstr (-1) (-1)

/-- The first loop of `makestring_from_list`: `none` is the error "character
required". -/
def makestring_count (enc : Encoding) : List ScmObj → Nat → Int → Option (Nat × Int)
  | [], size, len => some (size, len)
  | .char ch :: cp, size, len => makestring_count enc cp (size + enc.SCM_CHAR_NBYTES ch) (len + 1)
  | _ :: _, _, _ => none

/-- The second loop of `makestring_from_list`: `SCM_STR_PUTC` stores the
`SCM_CHAR_NBYTES(ch)` bytes of `ch` at `bufp`. -/
def makestring_fill (enc : Encoding) : List ScmObj → List Nat → List Nat
  | [], buf => buf
  | .char ch :: cp, buf => makestring_fill enc cp (buf ++ enc.SCM_STR_PUTC ch)
  | _ :: cp, buf => makestring_fill enc cp buf

/-- The list `chars` is a proper list given by its elements; `none` is
`Scm_Error`. -/
def makestring_from_list (enc : Encoding) (chars : List ScmObj) : Option ScmString :=
  match makestring_count enc chars 0 0 with
  | none => none
  | some (size, len) =>
    match Scm_MakeStringConst enc (makestring_fill enc chars [] ++ [0]) size len with
    | .ret z => some z
    | _ => none

/-- The function `memcmp` of the C library on the first `n` bytes: the sign of
the difference of the first pair of bytes that differ. -/
def memcmp : List Nat → List Nat → Nat → Int
  | a :: x, b :: y, n + 1 => if a < b then -1 else if b < a then 1 else memcmp x y n
  | _, _, _ => 0

def Scm_StringEqual (x y : ScmString) : ScmObj :=
  if x.size = y.size then
    if memcmp x.start y.start x.size = 0 then SCM_TRUE else SCM_FALSE
  else SCM_FALSE

/-- The macro `STRCMP(fn, op1, op2)`. -/
def STRCMP (op1 : Int → Int → Bool) (op2 : Nat → Nat → Bool) (x y : ScmString) : ScmObj :=
  let sizx := x.size
  let sizy := y.size
  let siz := if sizx < sizy then sizx else sizy
  let r := memcmp x.start y.start siz
  if op1 r 0 then SCM_TRUE
  else if r = 0 ∧ op2 sizx sizy then SCM_TRUE
  else SCM_FALSE

def Scm_StringLt : ScmString → ScmString → ScmObj :=
  STRCMP (fun a b => decide (a < b)) (fun a b => decide (a < b))

def Scm_StringLe : ScmString → ScmString → ScmObj :=
  STRCMP (fun a b => decide (a < b)) (fun a b => decide (a ≤ b))

def Scm_StringGt : ScmString → ScmString → ScmObj :=
  STRCMP (fun a b => decide (a > b)) (fun a b => decide (a > b))

def Scm_StringGe : ScmString → ScmString → ScmObj :=
  STRCMP (fun a b => decide (a > b)) (fun a b => decide (a ≥ b))

/-- Index -> position.  A position is an index into the bytes at `buf`; a
byte outside `buf` reads as 0. -/
def forward_pos (enc : Encoding) (buf : List Nat) : Int → Nat → Int
  | current, 0 => current
  | current, offset + 1 =>
    forward_pos enc buf (current + (enc.SCM_CHAR_NFOLLOWS (buf.getD current.toNat 0) + 1)) offset

/-- Substring on the representation; `none` is `Scm_Error`. -/
def Scm_Substring (enc : Encoding) (x : ScmString) (start stop : Int) : Option ScmString :=
  let lenx := x.length
  if start < 0 then none
  else if stop > lenx then none
  else if stop < start then none
  else
    let s := if start ≠ 0 then forward_pos enc x.start 0 start.toNat else 0
    let e := forward_pos enc x.start s (stop - start).toNat
    some (INITSTR (stop - start) (e - s).toNat (x.start.drop s.toNat))

def Scm_StringAppend2 (x y : ScmString) : ScmString :=
  let p := x.start.take x.size ++ y.start.take y.size ++ [0]
  let lenz := if x.length < 0 ∨ y.length < 0 then -1 else x.length + y.length
  INITSTR lenz (x.size + y.size) p

/-- The first loop of `Scm_StringAppend` over the list `strs`, in which an
element that is not a string is `none`; the result `none` is the error
"string required". -/
def append_count : List (Option ScmString) → Nat → Int → Option (Nat × Int)
  | [], size, len => some (size, len)
  | none :: _, _, _ => none
  | some str :: cp, size, len =>
    append_count cp (size + str.size)
      (if len ≥ 0 ∧ str.length ≥ 0 then len + str.length else len)

/-- The second loop of `Scm_StringAppend`. -/
def append_copy : List (Option ScmString) → List Nat → List Nat
  | [], buf => buf
  | none :: cp, buf => append_copy cp buf
  | some str :: cp, buf => append_copy cp (buf ++ str.start.take str.size)

def Scm_StringAppend (strs : List (Option ScmString)) : Option ScmString :=
  match append_count strs 0 0 with
  | none => none
  | some (size, len) => some (INITSTR len size (append_copy strs [] ++ [0]))

/-- The first loop of `Scm_StringJoin`. -/
def join_count (dlen : Int) : List (Option ScmString) → Nat → Int → Nat → Option (Nat × Int × Nat)
  | [], size, len, nstrs => some (size, len, nstrs)
  | none :: _, _, _, _ => none
  | some str :: cp, size, len, nstrs =>
    join_count dlen cp (size + str.size)
      (if len ≥ 0 ∧ str.length ≥ 0 ∧ dlen > 0 then len + str.length else len) (nstrs + 1)

/-- The second loop of `Scm_StringJoin`. -/
def join_copy (delim : ScmString) : List (Option ScmString) → List Nat → List Nat
  | [], buf => buf
  | none :: cp, buf => join_copy delim cp buf
  | some str :: cp, buf =>
    let buf := buf ++ str.start.take str.size
    join_copy delim cp (if cp ≠ [] then buf ++ delim.start.take delim.size else buf)

def Scm_StringJoin (enc : Encoding) (strs : List (Option ScmString)) (delim : ScmString) :
    Option ScmString :=
  let dsize := delim.size
  let dlen := delim.length
  if strs = [] then
    match SCM_MAKE_STR enc [0] with
    | .ret z => some z
    | _ => none
  else
    match join_count dlen strs 0 0 0 with
    | none => none
    | some (size, len, nstrs) =>
      let size := size + dsize * (nstrs - 1)
      let len := if len ≥ 0 then len + dlen * ((nstrs : Int) - 1) else len
      some (INITSTR len size (join_copy delim strs [] ++ [0]))

/-- The loop `while (len-- > 0)` of `Scm_StringToList`. -/
def string_to_list_loop (enc : Encoding) : Nat → List Nat → List ScmObj
  | 0, _ => []
  | len + 1, bufp =>
    let ch := enc.SCM_STR_GETC bufp
    .char ch :: string_to_list_loop enc len (bufp.drop (enc.SCM_CHAR_NBYTES ch))

def Scm_StringToList (enc : Encoding) (str : ScmString) : List ScmObj :=
  string_to_list_loop enc str.length.toNat str.start

def Scm_ListToString (enc : Encoding) (chars : List ScmObj) : Option ScmString :=
  makestring_from_list enc chars

/-- Modelled from the spec: the macro `SCM_STRING_COMPLETE_P` is not in the
header at hand; `string.c` marks an incomplete string by the length -1. -/
def SCM_STRING_COMPLETE_P (str : ScmString) : Bool := decide (str.length ≥ 0)

/-- The `switch` in the loops of `string_print`: the escape put for a
character or byte, if it has one. -/
def print_escape (c : Nat) : Option (List Char) :=
  if c = '\\'.toNat then some ['\\', '\\']
  else if c = '"'.toNat then some ['\\', '"']
  else if c = '\n'.toNat then some ['\\', 'n']
  else if c = '\t'.toNat then some ['\\', 't']
  else if c = '\r'.toNat then some ['\\', 'r']
  else if c = 12 then some ['\\', 'f']
  else if c = 0 then some ['\\', '0']
  else none

/-- The loop `while (len--)` of `string_print` on a complete string. -/
def print_complete (enc : Encoding) : Nat → List Nat → ScmPort → Int → ScmPort × Int
  | 0, _, port, nc => (port, nc)
  | len + 1, cp, port, nc =>
    let ch := enc.SCM_STR_GETC cp
    let cp2 := cp.drop (enc.SCM_CHAR_NBYTES ch)
    match print_escape ch.toNat with
    | some esc => print_complete enc len cp2 (Scm_PutzUnsafe esc port) (nc + 2)
    | none => print_complete enc len cp2 (Scm_PutcUnsafe ch port) (nc + 1)

/-- The loop `while (size--)` of `string_print` on an incomplete string: the
`default` case puts the byte and leaves `nc` as it is. -/
def print_incomplete : Nat → List Nat → ScmPort → Int → ScmPort × Int
  | 0, _, port, nc => (port, nc)
  | size + 1, cp, port, nc =>
    let c := cp.headD 0
    match print_escape c with
    | some esc => print_incomplete size (cp.drop 1) (Scm_PutzUnsafe esc port) (nc + 2)
    | none => print_incomplete size (cp.drop 1) (Scm_PutcUnsafe (Char.ofNat c) port) nc

/-- What `SCM_PUTS(str, port)` puts: the characters of a complete string, the
bytes of an incomplete one. -/
def puts_chars (enc : Encoding) (str : ScmString) : List Char :=
  if SCM_STRING_COMPLETE_P str then
    (string_to_list_loop enc str.length.toNat str.start).filterMap fun o =>
      match o with
      | .char ch => some ch
      | _ => none
  else str.bytes.map Char.ofNat

/-- Printer of the string class on the representation, complete or not. -/
def string_print (enc : Encoding) (str : ScmString) (port : ScmPort) (mode : Nat) :
    ScmPort × Int :=
  if mode = SCM_WRITE_DISPLAY then
    (Scm_PutzUnsafe (puts_chars enc str) port, str.length)
  else
    let port := Scm_PutcUnsafe '"' port
    let r :=
      if SCM_STRING_COMPLETE_P str then
        print_complete enc str.length.toNat str.start port 1
      else print_incomplete str.size str.start port 1
    (Scm_PutcUnsafe '"' r.1, r.2 + 1)

/-- Single-byte encoding: every byte is a character. -/
def singleByte : Encoding where
  SCM_CHAR_NFOLLOWS := fun _ => 0
  SCM_CHAR_NBYTES := fun _ => 1
  SCM_STR_GETC := fun cp => Char.ofNat (cp.headD 0)
  SCM_STR_PUTC := fun ch => [ch.toNat % 256]

/-- An encoding with characters of one and of two bytes, for the examples: a
byte from `0x80` on leads a character of two bytes, whose code is the lead
byte times 256 plus the second byte. -/
def twoByte : Encoding where
  SCM_CHAR_NFOLLOWS := fun b => if b < 0x80 then 0 else 1
  SCM_CHAR_NBYTES := fun ch => if ch.toNat < 0x80 then 1 else 2
  SCM_STR_GETC := fun cp =>
    match cp with
    | [] => Char.ofNat 0
    | [b] => Char.ofNat b
    | b :: b2 :: _ => if b < 0x80 then Char.ofNat b else Char.ofNat (b * 256 + b2)
  SCM_STR_PUTC := fun ch =>
    if ch.toNat < 0x80 then [ch.toNat] else [ch.toNat / 256, ch.toNat % 256]

/-- The bytes of the characters `cs`, one after the other. -/
def encode (enc : Encoding) (cs : List Char) : List Nat := cs.flatMap enc.SCM_STR_PUTC

/-- The encoding handles the character `ch` consistently: `SCM_STR_PUTC`
stores `SCM_CHAR_NBYTES(ch)` bytes, at least one; `SCM_STR_GETC` reads `ch`
back from them; `SCM_CHAR_NFOLLOWS` of the first byte is the number of the
other bytes. -/
def Faithful (enc : Encoding) (ch : Char) : Prop :=
  (enc.SCM_STR_PUTC ch).length = enc.SCM_CHAR_NBYTES ch ∧
  0 < enc.SCM_CHAR_NBYTES ch ∧
  (∀ rest, enc.SCM_STR_GETC (enc.SCM_STR_PUTC ch ++ rest) = ch) ∧
  (∀ rest, enc.SCM_CHAR_NFOLLOWS ((enc.SCM_STR_PUTC ch ++ rest).getD 0 0) + 1
    = (enc.SCM_CHAR_NBYTES ch : Int))

/-- The string `x` is the complete string with the characters `cs`: its
length is their number, its size the number of their bytes, and these bytes
are at `start`. -/
def Holds (enc : Encoding) (x : ScmString) (cs : List Char) : Prop :=
  x.length = (cs.length : Int) ∧ x.size = (encode enc cs).length ∧
  (∃ rest, x.start = encode enc cs ++ rest) ∧ ∀ ch ∈ cs, Faithful enc ch

/-- The strict lexicographic order on byte sequences, a proper prefix being
smaller. -/
def specLexLt : List Nat → List Nat → Bool
  | [], [] => false
  | [], _ :: _ => true
  | _ :: _, [] => false
  | a :: x, b :: y => decide (a < b) || (decide (a = b) && specLexLt x y)

end Str

/-! ## `Scm_Vprintf`: the first pass -/

/-- What the first pass of `Scm_Vprintf` makes of a slot of the `va_list`,
for each type that it reads a slot at: `Scm_MakeInteger` of a `signed int`
(or `int`), `Scm_MakeIntegerFromUI` of an `unsigned long`, `Scm_MakeFlonum` of
a `double`, `SCM_MAKE_STR` of a `char *` (of `"(null)"` for `NULL`),
`Scm_MakeIntegerFromUI` of a `void *`, and the `ScmObj` itself.  The type `V`
of a slot and these functions are not among the sources. -/
structure VaOps (V : Type) where
  arg_int : V → ScmObj
  arg_ulong : V → ScmObj
  arg_double : V → ScmObj
  arg_string : V → ScmObj
  arg_pointer : V → ScmObj
  arg_obj : V → ScmObj

/-- Result of the `switch` of the first pass on one character of a
directive: the directive goes on (`default: continue`), it is finished
(`break`) with the list and the `va_list` as given, or `va_arg` is called
with no slot left. -/
inductive Pass1Step (V : Type) where
  | goOn
  | finished (h : List ScmObj) (ap : List V)
  | noSlot

/-- How the first pass ended: the format string is through, the error
"incomplete %-directive" was raised, or `va_arg` was called with no slot
left. -/
inductive Pass1Outcome where
  | done
  | incomplete
  | noSlot
  deriving DecidableEq, Repr

/-- The steps `val = va_arg(ap, T); SCM_APPEND1(h, t, make(val))`. -/
def vprintf_pass1_arg {V : Type} (make : V → ScmObj) (ap : List V) (h : List ScmObj) :
    Pass1Step V :=
  match ap with
  | [] => .noSlot
  | val :: ap => .finished (h ++ [make val]) ap

/-- The `switch` of the directive loop of the first pass on the character
`c`. -/
def vprintf_pass1_switch {V : Type} (vops : VaOps V) (c : Char) (ap : List V)
    (h : List ScmObj) : Pass1Step V :=
  if c = 'd' ∨ c = 'i' ∨ c = 'c' then vprintf_pass1_arg vops.arg_int ap h
  else if c = 'o' ∨ c = 'u' ∨ c = 'x' ∨ c = 'X' then vprintf_pass1_arg vops.arg_ulong ap h
  else if c = 'e' ∨ c = 'E' ∨ c = 'f' ∨ c = 'g' ∨ c = 'G' then
    vprintf_pass1_arg vops.arg_double ap h
  else if c = 's' then vprintf_pass1_arg vops.arg_string ap h
  else if c = '%' then .finished h ap
  else if c = 'p' then vprintf_pass1_arg vops.arg_pointer ap h
  else if c = 'S' ∨ c = 'A' then vprintf_pass1_arg vops.arg_obj ap h
  else if c = 'C' then vprintf_pass1_arg vops.arg_int ap h
  else .goOn

/-- The loops of the first pass of `Scm_Vprintf` on the rest of the format,
outside a directive (`false`) or inside one: the list made so far, the rest
of the `va_list`, and how the pass ended. -/
def vprintf_pass1 {V : Type} (vops : VaOps V) :
    List Char → Bool → List V → List ScmObj → (List ScmObj × List V) × Pass1Outcome
  | [], false, ap, h => ((h, ap), .done)
  | [], true, ap, h => ((h, ap), .incomplete)
  | c :: fmtp, false, ap, h =>
    if c ≠ '%' then vprintf_pass1 vops fmtp false ap h
    else vprintf_pass1 vops fmtp true ap h
  | c :: fmtp, true, ap, h =>
    match vprintf_pass1_switch vops c ap h with
    | .goOn => vprintf_pass1 vops fmtp true ap h
    | .finished h ap => vprintf_pass1 vops fmtp false ap h
    | .noSlot => ((h, ap), .noSlot)

/-- The two passes: `none` when the first pass calls `va_arg` with no slot
left, which is outside the meaning of the C code. -/
def Scm_Vprintf {V : Type} (pops : PrintfOps) (vops : VaOps V) (heap : Heap) (fuel : Nat)
    (out : ScmPort) (fmt : List Char) (ap : List V) (sharedp : Bool) :
    Option (PrintfState × PrintfOutcome) :=
  match vprintf_pass1 vops fmt false ap [] with
  | ((h, _), .done) => some (vprintf_proc pops heap fuel out fmt h sharedp)
  | ((h, _), .incomplete) => some ({ out := out, args := h, longp := 0 }, .incomplete)
  | (_, .noSlot) => none

/-- The conversion characters at which `vprintf_proc` takes an argument. -/
def vprintf_takes_arg (c : Char) : Bool :=
  c ∈ ['d', 'i', 'c', 'o', 'u', 'x', 'X', 'e', 'E', 'f', 'g', 'G', 's', 'p', 'S', 'A', 'C']

/-- The configuration of `vprintf_proc` after `k` characters of the format:
the rest of the format, the directive that it is in, if any, and the
variables; `none` when the run has ended before. -/
def vprintf_after (pops : PrintfOps) (heap : Heap) (fuel : Nat) (sharedp : Bool) :
    Nat → List Char → Option PrintfDirective → PrintfState →
      Option (List Char × Option PrintfDirective × PrintfState)
  | 0, fmtp, d, st => some (fmtp, d, st)
  | _ + 1, [], _, _ => none
  | k + 1, c :: fmtp, none, st =>
    if c ≠ '%' then
      vprintf_after pops heap fuel sharedp k fmtp none
        { st with out := Scm_PutcUnsafe c st.out }
    else
      vprintf_after pops heap fuel sharedp k fmtp
        (some { argbuf := [c], width := 0, prec := 0, dot_appeared := 0,
                pound_appeared := 0 }) st
  | k + 1, c :: fmtp, some d, st =>
    match vprintf_switch pops heap fuel sharedp c d st with
    | .goOn d st => vprintf_after pops heap fuel sharedp k fmtp (some d) st
    | .finished st => vprintf_after pops heap fuel sharedp k fmtp none st
    | .stop _ _ => none

/-- Slots of a `va_list` in the examples: every slot holds an object, which
each conversion takes as it is. -/
def objVaOps : VaOps ScmObj where
  arg_int := fun v => v
  arg_ulong := fun v => v
  arg_double := fun v => v
  arg_string := fun v => v
  arg_pointer := fun v => v
  arg_obj := fun v => v

/-- A step of `vprintf_proc` that takes one argument: with no argument left
it is the failure of `SCM_ASSERT(SCM_PAIRP(args))`; otherwise the first
argument is taken off and the directive is finished, or the run ends there
for another reason than the incomplete directive, without returning. -/
def TakesOne (r : PrintfStep) (st : PrintfState) : Prop :=
  (st.args = [] ∧ r = .stop st .assertFailed) ∨
  (∃ v more st2, st.args = v :: more ∧ st2.args = more ∧
    (r = .finished st2 ∨ ∃ o, r = .stop st2 o ∧ o ≠ .incomplete ∧ o ≠ .done))

/-- The arguments that `vprintf_proc` has left are the list that the first
pass makes for the rest of the format from some `va_list`. -/
def Matched {V : Type} (vops : VaOps V) (f : List Char) (d : Option PrintfDirective)
    (st : PrintfState) : Prop :=
  ∃ ap ap2, vprintf_pass1 vops f d.isSome ap [] = ((st.args, ap2), .done)

/-! ## Graphs and reference counts (for the statements about the two passes) -/

/-- The first test of the loop of `write_walk`: the objects at which it
returns at once. -/
def walk_leaf (heap : Heap) (obj : ScmObj) : Bool :=
  !SCM_PTRP obj || SCM_SYMBOLP obj || SCM_KEYWORDP obj || SCM_NUMBERP heap obj

/-- The references that pass 1 follows from an object: the car and the cdr of
a pair, the elements of a vector. -/
def walk_children (heap : Heap) (obj : ScmObj) : List ScmObj :=
  match deref heap obj with
  | some (.pair car cdr) => [car, cdr]
  | some (.vector elts) => elts
  | _ => []

/-- The objects that pass 1 enters in the table: pointers to heap objects
other than numbers, that is pairs, strings and vectors. -/
def Entered (heap : Heap) (obj : ScmObj) : Prop :=
  walk_leaf heap obj = false ∧ deref heap obj ≠ none

/-- A reference from `p` to an object that pass 1 enters. -/
def WalkEdge (heap : Heap) (p c : ScmObj) : Prop :=
  c ∈ walk_children heap p ∧ Entered heap c

/-- The object `x` is reached from the root `root` along references. -/
def Reaches (heap : Heap) (root x : ScmObj) : Prop :=
  Entered heap root ∧ Relation.ReflTransGen (WalkEdge heap) root x

/-- A finite graph of built-in values: the heap holds objects at the
addresses of `dom` only, and every reference held by an object is to an
object at which pass 1 returns at once or to an object of the heap. -/
def WalkGraph (heap : Heap) (dom : List Nat) : Prop :=
  (∀ a o, heap a = some o → a ∈ dom) ∧
  ∀ p, ∀ c ∈ walk_children heap p, walk_leaf heap c = true ∨ Entered heap c

/-- Number of references to `x`: the reference of the root, and the
references held by the objects of the list `R`. -/
def references (heap : Heap) (root : ScmObj) (R : List ScmObj) (x : ScmObj) : Nat :=
  [root].count x + (R.map fun p => (walk_children heap p).count x).sum

/-- State of `x` in the table of pass 1: 0 without entry, 1 with the entry
`SCM_FALSE` (seen once), 2 with another entry (seen again). -/
def walk_level (ht : ScmHashTable) (x : ScmObj) : Nat :=
  match ht x with
  | none => 0
  | some v => if v = SCM_FALSE then 1 else 2

/-- Number of addresses of `dom` without entry in the table. -/
def unvisited (dom : List Nat) (ht : ScmHashTable) : Nat :=
  (dom.filter fun a => decide (ht (.ptr a) = none)).length

/-- What a walk from the objects `starts`, one after the other, has done to
the table `ht`: it returned; the objects `new` got their entry in it, each of
them reached from one of `starts`; and the state of every object is its former
state raised, up to 2, by the number of times it is among `starts` and by the
number of references to it that the objects of `new` hold. -/
def WalkPost (heap : Heap) (starts : List ScmObj) (ht : ScmHashTable)
    (r : ScmHashTable × Outcome) : Prop :=
  r.2 = .done ∧ ∃ new : List ScmObj, new.Nodup ∧
    (∀ p ∈ new, ht p = none ∧ Entered heap p ∧
      ∃ s ∈ starts, Relation.ReflTransGen (WalkEdge heap) s p) ∧
    (∀ x, r.1 x ≠ none ↔ (ht x ≠ none ∨ x ∈ new)) ∧
    (∀ s ∈ starts, Entered heap s → r.1 s ≠ none) ∧
    ∀ x, Entered heap x →
      walk_level r.1 x
        = min 2 (walk_level ht x + starts.count x
            + (new.map fun p => (walk_children heap p).count x).sum)

/-- The step `f` does on a port with the port data `d` what it does on a port
without port data: it ends in the same way with the same tokens on the port,
and leaves the port data as they are. -/
def Follows (d : Option (Nat × ScmHashTable)) (f : ScmPort → ScmPort × Outcome) : Prop :=
  ∀ o : List Tok,
    f { out := o, data := d }
      = ({ out := (f { out := o, data := none }).1.out, data := d },
          (f { out := o, data := none }).2) ∧
    (f { out := o, data := none }).1.data = none

/-- Number of references to `x` in the whole heap: the reference of the root
and the references held by the objects at the addresses of `dom`. -/
def dom_references (heap : Heap) (root : ScmObj) (dom : List Nat) (x : ScmObj) : Nat :=
  [root].count x + (dom.map fun a => (walk_children heap (.ptr a)).count x).sum

/-! # Theorems -/

/-! ## Preservation of port properties by pass 2 -/


section Preserve

variable (I : ScmPort → Prop)

theorem andThen_preserves {σ : Type} (J : σ → Prop) (r : σ × Outcome) (k : σ → σ × Outcome)
    (hr : J r.1) (hk : ∀ s, J s → J (k s).1) : J (andThen r k).1 := by
  obtain ⟨s, o⟩ := r
  cases o
  · exact hk s hr
  · exact hr
  · exact hr
  · exact hr

theorem putc_eq_putz (c : Char) (p : ScmPort) : Scm_PutcUnsafe c p = Scm_PutzUnsafe [c] p := rfl

theorem string_print_loop_preserves (htext : ∀ p s, I p → I (Scm_PutzUnsafe s p)) :
    ∀ (cs : List Char) (p : ScmPort) (nc : Int), I p → I (string_print_loop cs p nc).1 := by
  intro cs
  induction cs with
  | nil => intro p nc hp; exact hp
  | cons c cs ih =>
    intro p nc hp
    unfold string_print_loop
    split
    · exact ih _ _ (htext _ _ hp)
    · exact ih _ _ (htext _ _ hp)

theorem string_print_preserves (htext : ∀ p s, I p → I (Scm_PutzUnsafe s p))
    (cs : List Char) (p : ScmPort) (mode : Nat) (hp : I p) : I (string_print cs p mode).1 := by
  unfold string_print
  split
  · exact htext _ _ hp
  · exact htext _ _ (string_print_loop_preserves I htext _ _ _ (htext _ _ hp))

theorem write_general_preserves (htext : ∀ p s, I p → I (Scm_PutzUnsafe s p))
    (heap : Heap) (obj : ScmObj) (p : ScmPort) (ctx : ScmWriteContext) (hp : I p) :
    I (write_general heap obj p ctx).1 := by
  unfold write_general class_print
  split
  · exact htext _ _ hp
  · exact htext _ _ hp
  · split
    · exact string_print_preserves I htext _ _ _ hp
    · exact htext _ _ hp
    · exact htext _ _ hp
    · exact hp
  · exact hp

theorem write_immediate_preserves (htext : ∀ p s, I p → I (Scm_PutzUnsafe s p))
    (obj : ScmObj) (p : ScmPort) (ctx : ScmWriteContext) (hp : I p) :
    I (write_immediate obj p ctx).1 := by
  unfold write_immediate
  split <;> try (first | exact htext _ _ hp | exact hp)
  split
  · exact htext _ _ hp
  · split
    · exact htext _ _ (htext _ _ hp)
    · split
      · exact htext _ _ (htext _ _ hp)
      · exact htext _ _ (htext _ _ hp)

theorem write_list_loop_preserves (htext : ∀ p s, I p → I (Scm_PutzUnsafe s p))
    (heap : Heap) (rec : ScmObj → ScmPort → ScmPort × Outcome)
    (hrec : ∀ obj p, I p → I (rec obj p).1) :
    ∀ (fuel : Nat) (obj : ScmObj) (p : ScmPort), I p →
      I (write_list_loop heap rec fuel obj p).1 := by
  intro fuel
  induction fuel with
  | zero => intro obj p hp; exact hp
  | succ n ih =>
    intro obj p hp
    unfold write_list_loop
    apply andThen_preserves I _ _ (hrec _ _ hp)
    intro s hs
    dsimp only
    split
    · exact htext _ _ hs
    · split
      · exact andThen_preserves I _ _ (hrec _ _ (htext _ _ hs)) (fun s hs => htext _ _ hs)
      · split
        · exact andThen_preserves I _ _ (hrec _ _ (htext _ _ hs)) (fun s hs => htext _ _ hs)
        · exact ih _ _ (htext _ _ hs)

theorem write_vector_elts_preserves (htext : ∀ p s, I p → I (Scm_PutzUnsafe s p))
    (rec : ScmObj → ScmPort → ScmPort × Outcome)
    (hrec : ∀ obj p, I p → I (rec obj p).1) :
    ∀ (es : List ScmObj) (p : ScmPort), I p → I (write_vector_elts rec es p).1 := by
  intro es
  induction es with
  | nil => intro p hp; exact hp
  | cons e es ih =>
    intro p hp
    cases es with
    | nil =>
      unfold write_vector_elts
      exact andThen_preserves I _ _ (hrec _ _ hp) (fun s hs => htext _ _ hs)
    | cons e2 es =>
      unfold write_vector_elts
      exact andThen_preserves I _ _ (hrec _ _ hp) (fun s hs => ih _ (htext _ _ hs))

theorem write_aggregate_preserves (htext : ∀ p s, I p → I (Scm_PutzUnsafe s p))
    (heap : Heap) (ctx : ScmWriteContext) (rec : ScmObj → ScmPort → ScmPort × Outcome)
    (hrec : ∀ obj p, I p → I (rec obj p).1) (fuel : Nat) (obj : ScmObj) (p : ScmPort)
    (hp : I p) : I (write_aggregate heap ctx rec fuel obj p).1 := by
  unfold write_aggregate
  split
  · split
    · exact hrec _ _ (htext _ _ hp)
    · exact write_list_loop_preserves I htext heap rec hrec _ _ _ (htext _ _ hp)
  · split
    · exact write_vector_elts_preserves I htext rec hrec _ _ (htext _ _ hp)
    · exact write_general_preserves I htext _ _ _ _ hp

/-- Every property of a port that is kept by putting text and by the table
consultation on a tracked object is kept by pass 2, for every amount of fuel. -/
theorem write_ss_rec_preserves (heap : Heap) (ctx : ScmWriteContext)
    (htext : ∀ p s, I p → I (Scm_PutzUnsafe s p))
    (hlabel : ∀ obj p, Tracked heap obj → I p → I (write_label obj p).port) :
    ∀ (fuel : Nat) (obj : ScmObj) (p : ScmPort), I p →
      I (write_ss_rec heap ctx fuel obj p).1 := by
  intro fuel
  induction fuel with
  | zero => intro obj p hp; exact hp
  | succ n ih =>
    intro obj p hp
    unfold write_ss_rec
    split
    · exact hp
    · split
      · exact write_immediate_preserves I htext _ _ _ hp
      · split
        · exact write_general_preserves I htext _ _ _ _ hp
        · split
          · exact write_general_preserves I htext _ _ _ _ hp
          · rename_i h1 h2 h3
            have ht : Tracked heap obj := ⟨by simpa using h1, by simpa using h2, h3⟩
            have hl := hlabel obj p ht hp
            split
            · rename_i p2 heq
              rw [heq] at hl
              exact hl
            · rename_i p2 heq
              rw [heq] at hl
              exact write_aggregate_preserves I htext heap ctx _ ih _ _ _ hl

end Preserve

/-! ## A cycle through a quote form: pass 2 does not return -/


theorem andThen_not_done {σ : Type} (r : σ × Outcome) (k : σ → σ × Outcome)
    (h : r.2 ≠ Outcome.done) : andThen r k = r := by
  obtain ⟨s, o⟩ := r
  cases o <;> first | rfl | exact absurd rfl h

theorem quoteCycle_rec_loops (ctx : ScmWriteContext) (hf : ctx.flags = 0) :
    ∀ (fuel : Nat) (port : ScmPort),
      (∃ c ht, port.data = some (c, ht) ∧ ht (.ptr 1) = some SCM_FALSE) →
      (write_ss_rec quoteCycleHeap ctx fuel (.ptr 1) port).2 = Outcome.outOfFuel := by
  intro fuel
  induction fuel with
  | zero => intro port _; rfl
  | succ n ih =>
    intro port ⟨c, ht, hd, hv⟩
    have h1 : write_label (.ptr 1) port = .goOn port := by
      simp [write_label, hd, Scm_HashTableGet, hv]
    have h2 : write_aggregate quoteCycleHeap ctx (write_ss_rec quoteCycleHeap ctx n) n (.ptr 1) port
        = write_ss_rec quoteCycleHeap ctx n (.ptr 1) (Scm_PutzUnsafe [Char.ofNat 39] port) := by
      rfl
    have h3 : write_ss_rec quoteCycleHeap ctx (n + 1) (.ptr 1) port
        = write_ss_rec quoteCycleHeap ctx n (.ptr 1) (Scm_PutzUnsafe [Char.ofNat 39] port) := by
      rw [← h2]
      simp [write_ss_rec, hf, h1, SCM_PTRP, SCM_NUMBERP, deref, quoteCycleHeap]
    rw [h3]
    exact ih _ ⟨c, ht, by simp [Scm_PutzUnsafe, hd], hv⟩

theorem quoteCycle_walk (ctx : ScmWriteContext) (n : Nat) :
    write_walk quoteCycleHeap ctx (n + 3) (.ptr 0) (fun _ => none)
      = (Scm_HashTablePut (Scm_HashTablePut (Scm_HashTablePut (fun _ => none)
          (.ptr 0) SCM_FALSE) (.ptr 1) SCM_FALSE) (.ptr 0) SCM_TRUE, Outcome.done) := by
  rfl

/-- C1 (failing input): on the two-pair cycle `p = (q)`, `q = (quote . p)` the
circular-safe write started at `p` does not return, whatever the fuel: pass 1
flags `p` only, and pass 2 prints `q` through the quote shorthand, which steps
over the flagged cell `p` straight to its car, `q` again.  The run puts `#0=(`
and then quote characters without end. -/
theorem write_ss_quote_cycle_never_returns (mode : Nat) (limit : Int) (fuel : Nat)
    (port : ScmPort) :
    (write_ss quoteCycleHeap { mode := mode, flags := 0, limit := limit } fuel (.ptr 0) port).2
      = Outcome.outOfFuel := by
  match fuel with
  | 0 => rfl
  | 1 => rfl
  | 2 => rfl
  | n + 3 =>
    simp only [write_ss, make_walker_port, quoteCycle_walk]
    have hrec := quoteCycle_rec_loops { mode := mode, flags := 0, limit := limit } rfl (n + 2)
      (Scm_PutcUnsafe '(' (ScmPort.mk (port.out ++ [Tok.label 0])
        (some (1, Scm_HashTablePut (Scm_HashTablePut (Scm_HashTablePut
          (Scm_HashTablePut (fun _ => none) (.ptr 0) SCM_FALSE) (.ptr 1) SCM_FALSE)
          (.ptr 0) SCM_TRUE) (.ptr 0) (.int 0)))))
      ⟨_, _, rfl, rfl⟩
    have hstep : ∀ P : ScmPort, P.data = some (0, Scm_HashTablePut (Scm_HashTablePut
          (Scm_HashTablePut (fun _ => none) (.ptr 0) SCM_FALSE) (.ptr 1) SCM_FALSE)
          (.ptr 0) SCM_TRUE) →
        write_ss_rec quoteCycleHeap { mode := mode, flags := 0, limit := limit } (n + 3)
          (.ptr 0) P
        = write_list_loop quoteCycleHeap
            (write_ss_rec quoteCycleHeap { mode := mode, flags := 0, limit := limit } (n + 2))
            (n + 2) (.ptr 0)
            (Scm_PutcUnsafe '(' (ScmPort.mk (P.out ++ [Tok.label 0])
              (some (1, Scm_HashTablePut (Scm_HashTablePut (Scm_HashTablePut
                (Scm_HashTablePut (fun _ => none) (.ptr 0) SCM_FALSE) (.ptr 1) SCM_FALSE)
                (.ptr 0) SCM_TRUE) (.ptr 0) (.int 0))))) := by
      intro P hP
      obtain ⟨o, d⟩ := P
      cases hP
      have e1 : SCM_PTRP (.ptr 0) = true := rfl
      have e2 : SCM_NUMBERP quoteCycleHeap (.ptr 0) = false := rfl
      have e3 : deref quoteCycleHeap (.ptr 0) = some (.pair (.ptr 1) SCM_NIL) := rfl
      have e4 : SCM_PAIRP quoteCycleHeap (.ptr 0) = true := rfl
      have e5 : SCM_PAIRP quoteCycleHeap (SCM_CDR quoteCycleHeap (.ptr 0)) = false := rfl
      simp [write_ss_rec, write_label, write_aggregate, e1, e2, e3, e4, e5,
        Scm_HashTableGet, Scm_HashTablePut, SCM_TRUE, SCM_FALSE]
    have hcar : SCM_CAR quoteCycleHeap (.ptr 0) = .ptr 1 := rfl
    rw [hstep _ rfl, write_list_loop, hcar, andThen_not_done _ _ (by rw [hrec]; decide)]
    exact hrec

/-! ## Pass 1 keeps table properties -/

theorem write_walk_elts_preserves (I : ScmHashTable → Prop)
    (rec : ScmObj → ScmHashTable → ScmHashTable × Outcome)
    (hrec : ∀ obj ht, I ht → I (rec obj ht).1) :
    ∀ (es : List ScmObj) (ht : ScmHashTable), I ht → I (write_walk_elts rec es ht).1 := by
  intro es
  induction es with
  | nil => intro ht h; exact h
  | cons e es ih =>
    intro ht h
    unfold write_walk_elts
    apply andThen_preserves I
    · split
      · exact hrec _ _ h
      · exact h
    · intro s hs; exact ih s hs

/-- Every property of the table that is kept by entering a fresh key with
`SCM_FALSE` and by setting an entry that is present to `SCM_TRUE` is kept by
pass 1. -/
theorem write_walk_preserves (heap : Heap) (ctx : ScmWriteContext) (I : ScmHashTable → Prop)
    (hnew : ∀ ht x, ht x = none → I ht → I (Scm_HashTablePut ht x SCM_FALSE))
    (hagain : ∀ ht x v, ht x = some v → I ht → I (Scm_HashTablePut ht x SCM_TRUE)) :
    ∀ (fuel : Nat) (obj : ScmObj) (ht : ScmHashTable), I ht →
      I (write_walk heap ctx fuel obj ht).1 := by
  intro fuel
  induction fuel with
  | zero => intro obj ht h; exact h
  | succ n ih =>
    intro obj ht h
    unfold write_walk
    split
    · exact h
    · split
      · split
        · rename_i v hv; exact hagain _ _ _ hv h
        · rename_i hv
          apply andThen_preserves I
          · split
            · exact ih _ _ (hnew _ _ hv h)
            · exact hnew _ _ hv h
          · intro s hs; exact ih _ _ hs
      · split
        · split
          · rename_i v hv; exact hagain _ _ _ hv h
          · rename_i hv; exact hnew _ _ hv h
        · split
          · rename_i v hv; exact hagain _ _ _ hv h
          · rename_i hv
            exact write_walk_elts_preserves I _ (ih) _ _ (hnew _ _ hv h)
        · split
          · rename_i v hv; exact hagain _ _ _ hv h
          · rename_i hv; exact hnew _ _ hv h

theorem write_walk_table (heap : Heap) (ctx : ScmWriteContext) (fuel : Nat) (obj : ScmObj) :
    WalkTable (write_walk heap ctx fuel obj (fun _ => none)).1 := by
  apply write_walk_preserves heap ctx WalkTable
  · intro ht x _ h y v hy
    unfold Scm_HashTablePut at hy
    split at hy
    · left; exact (Option.some.inj hy).symm
    · exact h y v hy
  · intro ht x _ _ h y v hy
    unfold Scm_HashTablePut at hy
    split at hy
    · right; exact (Option.some.inj hy).symm
    · exact h y v hy
  · intro x v hx; cases hx

/-! ## The label discipline of pass 2 -/

theorem scanToks_append : ∀ (a b : List Tok) (k : Nat),
    scanToks k (a ++ b) = (scanToks k a).bind (fun k2 => scanToks k2 b) := by
  intro a
  induction a with
  | nil => intro b k; rfl
  | cons t a ih =>
    intro b k
    cases t with
    | text cs => simpa [scanToks] using ih b k
    | label n =>
      simp only [List.cons_append, scanToks]
      split
      · exact ih b (k + 1)
      · rfl
    | backref n =>
      simp only [List.cons_append, scanToks]
      split
      · exact ih b k
      · rfl

theorem scanToks_mono : ∀ (a : List Tok) (k c : Nat), scanToks k a = some c → k ≤ c := by
  intro a
  induction a with
  | nil => intro k c h; simp [scanToks] at h; omega
  | cons t a ih =>
    intro k c h
    cases t with
    | text cs => exact ih k c (by simpa [scanToks] using h)
    | label n =>
      simp only [scanToks] at h
      split at h
      · have := ih _ _ h; omega
      · cases h
    | backref n =>
      simp only [scanToks] at h
      split at h
      · exact ih _ _ h
      · cases h

theorem scanToks_labels : ∀ (a : List Tok) (k c : Nat), scanToks k a = some c →
    labels a = List.range' k (c - k) := by
  intro a
  induction a with
  | nil => intro k c h; simp [scanToks] at h; subst h; simp [labels]
  | cons t a ih =>
    intro k c h
    cases t with
    | text cs => exact ih k c (by simpa [scanToks] using h)
    | label n =>
      simp only [scanToks] at h
      split at h
      · rename_i hn
        have hm := scanToks_mono _ _ _ h
        have := ih _ _ h
        have e : c - k = (c - (k + 1)) + 1 := by omega
        rw [labels, this, e, List.range'_succ, hn]
      · cases h
    | backref n =>
      simp only [scanToks] at h
      split at h
      · exact ih _ _ h
      · cases h

theorem scanToks_backref (pre post : List Tok) (n : Int) (c : Nat)
    (h : scanToks 0 (pre ++ Tok.backref n :: post) = some c) :
    ∃ m : Nat, n = (m : Int) ∧ m ∈ labels pre ∧ (labels pre).Nodup := by
  rw [scanToks_append] at h
  cases hp : scanToks 0 pre with
  | none => rw [hp] at h; cases h
  | some k =>
    rw [hp] at h
    simp only [Option.bind, scanToks] at h
    split at h
    · rename_i hn
      have hl := scanToks_labels _ _ _ hp
      refine ⟨n.toNat, by omega, ?_, ?_⟩
      · rw [hl]; simp [List.mem_range']; omega
      · rw [hl]; exact List.nodup_range' _ _
    · cases h

theorem emitInv_text (base : List Tok) (p : ScmPort) (s : List Char) (h : EmitInv base p) :
    EmitInv base (Scm_PutzUnsafe s p) := by
  obtain ⟨toks, c, ht, ho, hd, hs, hi⟩ := h
  refine ⟨toks ++ [Tok.text s], c, ht, ?_, hd, ?_, hi⟩
  · simp [Scm_PutzUnsafe, ho]
  · rw [scanToks_append, hs]; rfl

theorem emitInv_label (base : List Tok) (obj : ScmObj) (p : ScmPort) (h : EmitInv base p) :
    EmitInv base (write_label obj p).port := by
  obtain ⟨toks, c, ht, ho, hd, hs, hi⟩ := h
  unfold write_label
  rw [hd]
  dsimp only [Scm_HashTableGet]
  cases hv : ht obj with
  | none => exact ⟨toks, c, ht, ho, hd, hs, hi⟩
  | some v =>
    dsimp only
    split
    · exact ⟨toks, c, ht, ho, hd, hs, hi⟩
    · cases v with
      | int n =>
        refine ⟨toks ++ [Tok.backref n], c, ht, ?_, rfl, ?_, hi⟩
        · simp [LabelStep.port, ho]
        · have := hi obj n hv
          rw [scanToks_append, hs]
          simp [scanToks, this]
      | _ =>
        refine ⟨toks ++ [Tok.label c], c + 1, _, ?_, rfl, ?_, ?_⟩
        · simp [LabelStep.port, ho]
        · rw [scanToks_append, hs]
          simp [scanToks]
        · intro x n hx
          unfold Scm_HashTablePut at hx
          split at hx
          · cases hx; omega
          · have := hi x n hx; omega

theorem write_ss_rec_emitInv (heap : Heap) (ctx : ScmWriteContext) (base : List Tok)
    (fuel : Nat) (obj : ScmObj) (p : ScmPort) (h : EmitInv base p) :
    EmitInv base (write_ss_rec heap ctx fuel obj p).1 :=
  write_ss_rec_preserves (EmitInv base) heap ctx (emitInv_text base)
    (fun obj p _ hp => emitInv_label base obj p hp) fuel obj p h

/-- The tokens that a write/ss adds to the port pass `scanToks`. -/
theorem write_ss_scan (heap : Heap) (ctx : ScmWriteContext) (fuel : Nat) (obj : ScmObj)
    (port : ScmPort) :
    ∃ toks c, (write_ss heap ctx fuel obj port).1.out = port.out ++ toks ∧
      scanToks 0 toks = some c := by
  unfold write_ss
  simp only [make_walker_port]
  have hw := write_walk_table heap ctx fuel obj
  generalize write_walk heap ctx fuel obj (fun _ => none) = w at hw
  obtain ⟨ht, o⟩ := w
  cases o with
  | done =>
    have h0 : EmitInv port.out { port with data := some (0, ht) } := by
      refine ⟨[], 0, ht, by simp, rfl, rfl, ?_⟩
      intro x n hx
      rcases hw x _ hx with h | h <;> cases h
    obtain ⟨toks, c, ht2, ho, _, hs, _⟩ := write_ss_rec_emitInv heap ctx port.out fuel obj _ h0
    exact ⟨toks, c, ho, hs⟩
  | outOfFuel => exact ⟨[], 0, by simp, rfl⟩
  | panic => exact ⟨[], 0, by simp, rfl⟩
  | error => exact ⟨[], 0, by simp, rfl⟩

/-- C2: in the tokens that a circular-safe write puts on the port, every back
reference `#N#` comes after exactly one defining label `#N=` with the same
`N`, and no index is carried by two defining labels.  This holds for every
heap, every root and every amount of fuel, hence also for the text put by a
run that does not return. -/
theorem write_ss_backrefs_resolve (heap : Heap) (ctx : ScmWriteContext) (fuel : Nat)
    (obj : ScmObj) (port : ScmPort) :
    ∃ toks, (write_ss heap ctx fuel obj port).1.out = port.out ++ toks ∧
      (∀ pre n post, toks = pre ++ Tok.backref n :: post →
        ∃ m : Nat, n = (m : Int) ∧ (labels pre).count m = 1) ∧
      (∀ m : Nat, (labels toks).count m ≤ 1) := by
  obtain ⟨toks, c, ho, hs⟩ := write_ss_scan heap ctx fuel obj port
  refine ⟨toks, ho, ?_, ?_⟩
  · intro pre n post he
    subst he
    obtain ⟨m, hm, hmem, hnd⟩ := scanToks_backref pre post n c hs
    exact ⟨m, hm, List.count_eq_one_of_mem hnd hmem⟩
  · intro m
    rw [scanToks_labels _ _ _ hs]
    exact List.nodup_iff_count_le_one.mp (List.nodup_range' _ _) m

theorem keepsIndices_refl (p : ScmPort) : KeepsIndices p p :=
  fun c ht h => ⟨c, ht, h, fun _ _ hx => hx⟩

theorem keepsIndices_trans {p q r : ScmPort} (h1 : KeepsIndices p q) (h2 : KeepsIndices q r) :
    KeepsIndices p r := by
  intro c ht h
  obtain ⟨c2, ht2, hq, hk⟩ := h1 c ht h
  obtain ⟨c3, ht3, hr, hk2⟩ := h2 c2 ht2 hq
  exact ⟨c3, ht3, hr, fun x n hx => hk2 x n (hk x n hx)⟩

theorem keepsIndices_label (obj : ScmObj) (p : ScmPort) :
    KeepsIndices p (write_label obj p).port := by
  intro c ht hd
  unfold write_label
  rw [hd]
  dsimp only [Scm_HashTableGet]
  cases hv : ht obj with
  | none => exact ⟨c, ht, hd, fun _ _ hx => hx⟩
  | some v =>
    dsimp only
    split
    · exact ⟨c, ht, hd, fun _ _ hx => hx⟩
    · cases v with
      | int n => exact ⟨c, ht, rfl, fun _ _ hx => hx⟩
      | _ =>
        refine ⟨c + 1, _, rfl, ?_⟩
        intro x n hx
        unfold Scm_HashTablePut
        split
        · rename_i hxo
          rw [hxo, hv] at hx
          cases hx
        · exact hx

theorem write_ss_rec_keepsIndices (heap : Heap) (ctx : ScmWriteContext) (fuel : Nat)
    (obj : ScmObj) (p : ScmPort) : KeepsIndices p (write_ss_rec heap ctx fuel obj p).1 :=
  write_ss_rec_preserves (KeepsIndices p) heap ctx
    (fun _ _ hq => keepsIndices_trans hq (fun c ht h => ⟨c, ht, h, fun _ _ hx => hx⟩))
    (fun obj q _ hq => keepsIndices_trans hq (keepsIndices_label obj q)) fuel obj p
    (keepsIndices_refl p)

/-- C8: the defining labels that one circular-safe write puts on the port
carry, left to right, the indices 0, 1, 2, ... without gaps (the k-th label is
`#k=`), for every heap, root and fuel; and a call of pass 2, whatever its
argument, leaves every index that the table already holds as it is. -/
theorem write_ss_labels_count_up (heap : Heap) (ctx : ScmWriteContext) (fuel : Nat)
    (obj : ScmObj) (port : ScmPort) :
    (∃ toks, (write_ss heap ctx fuel obj port).1.out = port.out ++ toks ∧
      labels toks = List.range (labels toks).length) ∧
    (∀ (fuel2 : Nat) (obj2 : ScmObj) (p : ScmPort),
      KeepsIndices p (write_ss_rec heap ctx fuel2 obj2 p).1) := by
  refine ⟨?_, fun fuel2 obj2 p => write_ss_rec_keepsIndices heap ctx fuel2 obj2 p⟩
  obtain ⟨toks, c, ho, hs⟩ := write_ss_scan heap ctx fuel obj port
  refine ⟨toks, ho, ?_⟩
  have hl := scanToks_labels _ _ _ hs
  rw [hl]
  simp [List.range_eq_range']

/-! ## Zero-length strings and vectors -/

theorem noIndex_label (heap : Heap) (x : ScmObj)
    (hx : deref heap x = some (.string []) ∨ deref heap x = some (.vector []))
    (obj : ScmObj) (p : ScmPort) (ht : Tracked heap obj) (h : NoIndex x p) :
    NoIndex x (write_label obj p).port := by
  have hne : x ≠ obj := by
    intro e
    subst e
    exact ht.2.2 hx
  intro c tb n hd
  unfold write_label at hd
  cases hpd : p.data with
  | none =>
    rw [hpd] at hd
    exact h c tb n (by simpa [LabelStep.port] using hd)
  | some d =>
    obtain ⟨c0, t0⟩ := d
    rw [hpd] at hd
    dsimp only [Scm_HashTableGet] at hd
    cases hv : t0 obj with
    | none =>
      rw [hv] at hd
      exact h c tb n (by simpa [LabelStep.port] using hd)
    | some v =>
      rw [hv] at hd
      dsimp only at hd
      split at hd
      · exact h c tb n (by simpa [LabelStep.port] using hd)
      · cases v with
        | int m =>
          simp only [LabelStep.port] at hd
          have := h c0 t0 n hpd
          cases hd
          exact this
        | _ =>
          simp only [LabelStep.port] at hd
          cases hd
          unfold Scm_HashTablePut
          rw [if_neg hne]
          exact h c0 t0 n hpd

theorem string_print_nil (p : ScmPort) (mode : Nat) :
    (string_print [] p mode).1 =
      if mode = SCM_WRITE_DISPLAY then Scm_PutzUnsafe [] p
      else Scm_PutcUnsafe '"' (Scm_PutcUnsafe '"' p) := by
  unfold string_print
  split <;> rfl

theorem write_general_empty (heap : Heap) (ctx : ScmWriteContext) (x : ScmObj)
    (hx : deref heap x = some (.string []) ∨ deref heap x = some (.vector [])) (p : ScmPort) :
    ∃ texts : List (List Char),
      write_general heap x p ctx = ({ p with out := p.out ++ texts.map Tok.text }, Outcome.done) ∧
      texts.flatten = emptyAggregateText heap ctx x := by
  cases x with
  | ptr a =>
    simp only [deref] at hx
    rcases hx with h | h
    · by_cases hm : SCM_WRITE_MODE ctx = SCM_WRITE_DISPLAY
      · refine ⟨[[]], ?_, ?_⟩
        · simp [write_general, class_print, h, string_print, hm, Scm_PutzUnsafe]
        · simp [emptyAggregateText, deref, h, hm]
      · refine ⟨[['"'], ['"']], ?_, ?_⟩
        · simp [write_general, class_print, h, string_print, hm, Scm_PutcUnsafe,
            string_print_loop]
        · simp [emptyAggregateText, deref, h, hm]
    · refine ⟨["#()".toList], ?_, ?_⟩
      · simp [write_general, class_print, h, Scm_PutzUnsafe]
      · simp [emptyAggregateText, deref, h]
  | _ => simp [deref] at hx

theorem write_ss_rec_empty (heap : Heap) (ctx : ScmWriteContext) (x : ScmObj)
    (hx : deref heap x = some (.string []) ∨ deref heap x = some (.vector []))
    (fuel : Nat) (p : ScmPort) :
    write_ss_rec heap ctx (fuel + 1) x p =
      if ctx.flags &&& WRITE_LIMITED ≠ 0 ∧ outlen p ≥ ctx.limit then (p, Outcome.done)
      else write_general heap x p ctx := by
  have hp : SCM_PTRP x = true := by
    cases x <;> simp [deref] at hx
    rfl
  have hn : SCM_NUMBERP heap x = false := by
    cases x <;> simp [deref] at hx
    unfold SCM_NUMBERP
    rcases hx with h | h <;> simp [deref, h]
  unfold write_ss_rec
  simp [hp, hn, hx]

theorem labels_append_texts (toks : List Tok) (texts : List (List Char)) :
    labels (toks ++ texts.map Tok.text) = labels toks := by
  induction toks with
  | nil =>
    induction texts with
    | nil => rfl
    | cons t ts ih => simpa [labels] using ih
  | cons t toks ih =>
    cases t <;> simp [labels, ih]

theorem render_append (a b : List Tok) : render (a ++ b) = render a ++ render b := by
  induction a with
  | nil => rfl
  | cons t a ih => simp [render, ih]

theorem render_texts (texts : List (List Char)) : render (texts.map Tok.text) = texts.flatten := by
  induction texts with
  | nil => rfl
  | cons t ts ih => simp [render, Tok.chars, ih]

/-- C9: let `x` be a zero-length string or a zero-length vector of any heap,
referenced any number of times.  Each call of pass 2 on `x`, in whatever state
the table is (also with `x` flagged as shared by pass 1), puts text tokens only
and leaves the counter and the table alone; unless the call is cut off by the
length limit, the text is the plain rendering (two double quotes, or nothing
in display mode, for the string; `#()` for the vector).  And no call of pass 2
on any object gives `x` an index, so no back reference to `x` is ever put. -/
theorem empty_aggregate_never_labelled (heap : Heap) (ctx : ScmWriteContext) (x : ScmObj)
    (hx : deref heap x = some (.string []) ∨ deref heap x = some (.vector [])) :
    (∀ (fuel : Nat) (p : ScmPort),
      ∃ texts : List (List Char),
        (write_ss_rec heap ctx fuel x p).1 = { p with out := p.out ++ texts.map Tok.text }) ∧
    (∀ (fuel : Nat) (p : ScmPort),
      ¬ (ctx.flags &&& WRITE_LIMITED ≠ 0 ∧ outlen p ≥ ctx.limit) →
      (write_ss_rec heap ctx (fuel + 1) x p).2 = Outcome.done ∧
      (write_ss_rec heap ctx (fuel + 1) x p).1.data = p.data ∧
      labels (write_ss_rec heap ctx (fuel + 1) x p).1.out = labels p.out ∧
      render (write_ss_rec heap ctx (fuel + 1) x p).1.out
        = render p.out ++ emptyAggregateText heap ctx x) ∧
    (∀ (fuel : Nat) (obj : ScmObj) (p : ScmPort),
      NoIndex x p → NoIndex x (write_ss_rec heap ctx fuel obj p).1) := by
  refine ⟨?_, ?_, ?_⟩
  · intro fuel p
    cases fuel with
    | zero => exact ⟨[], by simp [write_ss_rec]⟩
    | succ n =>
      rw [write_ss_rec_empty heap ctx x hx]
      split
      · exact ⟨[], by simp⟩
      · obtain ⟨texts, h, _⟩ := write_general_empty heap ctx x hx p
        exact ⟨texts, by rw [h]⟩
  · intro fuel p hlim
    rw [write_ss_rec_empty heap ctx x hx, if_neg hlim]
    obtain ⟨texts, h, ht⟩ := write_general_empty heap ctx x hx p
    rw [h]
    refine ⟨rfl, rfl, labels_append_texts _ _, ?_⟩
    simp only [render_append, render_texts, ht]
  · intro fuel obj p h
    exact write_ss_rec_preserves (NoIndex x) heap ctx
      (fun q s hq c ht n hd => hq c ht n hd)
      (fun obj q ht hq => noIndex_label heap x hx obj q ht hq) fuel obj p h


/-- C9 (witness): the empty string at address 4 of `emptyTwiceHeap`, which the
list `(e e v v)` references twice. -/
theorem empty_aggregate_never_labelled_witness :
    (deref emptyTwiceHeap (.ptr 4) = some (.string []) ∨
      deref emptyTwiceHeap (.ptr 4) = some (.vector [])) ∧
    (∀ (fuel : Nat) (obj : ScmObj) (p : ScmPort),
      NoIndex (.ptr 4) p →
        NoIndex (.ptr 4) (write_ss_rec emptyTwiceHeap ⟨0, 0, 0⟩ fuel obj p).1) ∧
    render (write_ss emptyTwiceHeap ⟨0, 0, 0⟩ 8 (.ptr 0) ⟨[], none⟩).1.out
      = [Char.ofNat 40, '"', '"', ' ', '"', '"', ' ', '#', Char.ofNat 40, Char.ofNat 41, ' ',
          '#', Char.ofNat 40, Char.ofNat 41, Char.ofNat 41] :=
  ⟨Or.inl rfl,
    (empty_aggregate_never_labelled emptyTwiceHeap ⟨0, 0, 0⟩ (.ptr 4) (Or.inl rfl)).2.2,
    by decide⟩

/-! ## Pass 2 with and without the length limit -/

theorem string_print_loop_out : ∀ (cs : List Char) (p : ScmPort) (nc : Int),
    (string_print_loop cs p nc).1
      = { p with out := p.out ++ cs.map (fun ch => Tok.text (string_escape ch)) } := by
  intro cs
  induction cs with
  | nil => intro p nc; simp [string_print_loop]
  | cons c cs ih =>
    intro p nc
    unfold string_print_loop
    split
    · rename_i h
      rw [ih]
      simp [Scm_PutcUnsafe, h]
    · rw [ih]
      simp [Scm_PutzUnsafe]

theorem string_print_out (cs : List Char) (p : ScmPort) (mode : Nat) :
    (string_print cs p mode).1 = { p with out := p.out ++ string_toks cs mode } := by
  unfold string_print string_toks
  split
  · simp [Scm_PutzUnsafe]
  · simp [string_print_loop_out, Scm_PutcUnsafe]

/-- What `write_general` does to a port depends on the context through its
mode only, and consists in appending tokens that do not depend on the port. -/
theorem write_general_uniform (heap : Heap) (obj : ScmObj) (mode : Nat) :
    ∃ (toks : List Tok) (o : Outcome), ∀ (ctx : ScmWriteContext) (p : ScmPort),
      ctx.mode = mode → write_general heap obj p ctx = ({ p with out := p.out ++ toks }, o) := by
  cases obj with
  | symbol name => exact ⟨[Tok.text name], .done, fun _ _ _ => rfl⟩
  | keyword name => exact ⟨[Tok.text (':' :: name)], .done, fun _ _ _ => rfl⟩
  | ptr a =>
    cases h : heap a with
    | none => exact ⟨[], .panic, fun _ p _ => by simp [write_general, class_print, h]⟩
    | some ho =>
      cases ho with
      | string cs =>
        refine ⟨string_toks cs (mode &&& SCM_WRITE_MODE_MASK), .done, fun ctx p hm => ?_⟩
        simp [write_general, class_print, h, string_print_out, SCM_WRITE_MODE, hm]
      | number t => exact ⟨[Tok.text t], .done, fun _ p _ => by
          simp [write_general, class_print, h, Scm_PutzUnsafe]⟩
      | vector es =>
        cases es with
        | nil => exact ⟨[Tok.text "#()".toList], .done, fun _ p _ => by
            simp [write_general, class_print, h, Scm_PutzUnsafe]⟩
        | cons e es => exact ⟨[], .panic, fun _ p _ => by
            simp [write_general, class_print, h]⟩
      | pair a d => exact ⟨[], .panic, fun _ p _ => by simp [write_general, class_print, h]⟩
  | immediate k => exact ⟨[], .panic, fun _ p _ => by simp [write_general, class_print]⟩
  | int n => exact ⟨[], .panic, fun _ p _ => by simp [write_general, class_print]⟩
  | char c => exact ⟨[], .panic, fun _ p _ => by simp [write_general, class_print]⟩

theorem write_immediate_uniform (obj : ScmObj) (mode : Nat) :
    ∃ (toks : List Tok) (o : Outcome), ∀ (ctx : ScmWriteContext) (p : ScmPort),
      ctx.mode = mode → write_immediate obj p ctx = ({ p with out := p.out ++ toks }, o) := by
  cases obj with
  | immediate k =>
    match k with
    | 0 => exact ⟨[Tok.text "#f".toList], .done, fun _ _ _ => rfl⟩
    | 1 => exact ⟨[Tok.text "#t".toList], .done, fun _ _ _ => rfl⟩
    | 2 => exact ⟨[Tok.text "()".toList], .done, fun _ _ _ => rfl⟩
    | 3 => exact ⟨[Tok.text "#<eof>".toList], .done, fun _ _ _ => rfl⟩
    | 4 => exact ⟨[Tok.text "#<undef>".toList], .done, fun _ _ _ => rfl⟩
    | 5 => exact ⟨[Tok.text "#<unbound>".toList], .done, fun _ _ _ => rfl⟩
    | k + 6 => exact ⟨[], .panic, fun _ p _ => by simp [write_immediate]⟩
  | int n => exact ⟨[Tok.text (fmt_ld n)], .done, fun _ _ _ => rfl⟩
  | char ch =>
    by_cases hd : mode &&& SCM_WRITE_MODE_MASK = SCM_WRITE_DISPLAY
    · exact ⟨[Tok.text [ch]], .done, fun ctx p hm => by
        simp [write_immediate, SCM_WRITE_MODE, hm, hd, Scm_PutcUnsafe]⟩
    · by_cases h1 : ch.toNat ≤ 0x20
      · exact ⟨[Tok.text "#\\".toList, Tok.text (char_names.getD ch.toNat [])], .done,
          fun ctx p hm => by
            simp [write_immediate, SCM_WRITE_MODE, hm, hd, h1, Scm_PutzUnsafe]⟩
      · by_cases h2 : ch.toNat = 0x7f
        · exact ⟨[Tok.text "#\\".toList, Tok.text "del".toList], .done,
            fun ctx p hm => by
              simp [write_immediate, SCM_WRITE_MODE, hm, hd, h1, h2, Scm_PutzUnsafe]⟩
        · exact ⟨[Tok.text "#\\".toList, Tok.text [ch]], .done,
            fun ctx p hm => by
              simp [write_immediate, SCM_WRITE_MODE, hm, hd, h1, h2, Scm_PutzUnsafe,
                Scm_PutcUnsafe]⟩
  | symbol name => exact ⟨[], .panic, fun _ p _ => by simp [write_immediate]⟩
  | keyword name => exact ⟨[], .panic, fun _ p _ => by simp [write_immediate]⟩
  | ptr a => exact ⟨[], .panic, fun _ p _ => by simp [write_immediate]⟩


theorem sim_append (w : Nat) (pu pl : ScmPort) (toks : List Tok) (h : Sim w pu pl) :
    Sim w { pu with out := pu.out ++ toks } { pl with out := pl.out ++ toks } := by
  obtain ⟨hu, hl, ht, hd⟩ := h
  refine ⟨hu, hl, ?_, ?_⟩
  · simp only [render_append]
    rcases hd with he | hw
    · rw [he]
    · have hlu : w ≤ (render pu.out).length := by
        have := congrArg List.length ht
        simp only [List.length_take] at this
        omega
      rw [List.take_append_of_le_length hw, List.take_append_of_le_length hlu, ht]
  · simp only [render_append]
    rcases hd with he | hw
    · left; rw [he]
    · right; simp only [List.length_append]; omega

theorem sim_skip (w : Nat) (pu pl pu2 : ScmPort) (toks : List Tok) (h : Sim w pu pl)
    (hw : w ≤ (render pl.out).length) (hd2 : pu2.data = none) (ho : pu2.out = pu.out ++ toks) :
    Sim w pu2 pl := by
  obtain ⟨_, hl, ht, _⟩ := h
  refine ⟨hd2, hl, ?_, Or.inr hw⟩
  have hlu : w ≤ (render pu.out).length := by
    have := congrArg List.length ht
    simp only [List.length_take] at this
    omega
  rw [ho, render_append, List.take_append_of_le_length hlu, ht]

theorem sim_putz (w : Nat) (pu pl : ScmPort) (s : List Char) (h : Sim w pu pl) :
    Sim w (Scm_PutzUnsafe s pu) (Scm_PutzUnsafe s pl) :=
  sim_append w pu pl [Tok.text s] h

theorem sim_putc (w : Nat) (pu pl : ScmPort) (c : Char) (h : Sim w pu pl) :
    Sim w (Scm_PutcUnsafe c pu) (Scm_PutcUnsafe c pl) :=
  sim_append w pu pl [Tok.text [c]] h

theorem andThen_done {σ : Type} (r : σ × Outcome) (k : σ → σ × Outcome) (s2 : σ)
    (h : andThen r k = (s2, Outcome.done)) :
    ∃ s1, r = (s1, Outcome.done) ∧ k s1 = (s2, Outcome.done) := by
  obtain ⟨s, o⟩ := r
  cases o
  · exact ⟨s, rfl, h⟩
  · simp [andThen] at h
  · simp [andThen] at h
  · simp [andThen] at h

theorem simulates_andThen (w : Nat) (fU fL : ScmPort → ScmPort × Outcome)
    (kU kL : ScmPort → ScmPort × Outcome) (hf : Simulates w fU fL) (hk : Simulates w kU kL) :
    Simulates w (fun p => andThen (fU p) kU) (fun p => andThen (fL p) kL) := by
  intro pu pl pu2 hs hu
  obtain ⟨pu1, h1, h2⟩ := andThen_done _ _ _ hu
  obtain ⟨pl1, hl1, hs1⟩ := hf pu pl pu1 hs h1
  obtain ⟨pl2, hl2, hs2⟩ := hk pu1 pl1 pu2 hs1 h2
  refine ⟨pl2, ?_, hs2⟩
  show andThen (fL pl) kL = _
  rw [hl1]
  exact hl2

theorem simulates_putc_done (w : Nat) (c : Char) :
    Simulates w (fun p => (Scm_PutcUnsafe c p, Outcome.done))
      (fun p => (Scm_PutcUnsafe c p, Outcome.done)) := by
  intro pu pl pu2 hs hu
  cases hu
  exact ⟨_, rfl, sim_putc w pu pl c hs⟩

theorem shared_cdr_none (obj : ScmObj) (p : ScmPort) (h : p.data = none) :
    shared_cdr obj p = false := by
  simp [shared_cdr, h]

theorem write_list_loop_sim (w : Nat) (heap : Heap)
    (recU recL : ScmObj → ScmPort → ScmPort × Outcome)
    (hrec : ∀ obj, Simulates w (recU obj) (recL obj)) :
    ∀ (fuel : Nat) (obj : ScmObj),
      Simulates w (write_list_loop heap recU fuel obj) (write_list_loop heap recL fuel obj) := by
  intro fuel
  induction fuel with
  | zero => intro obj pu pl pu2 _ hu; simp [write_list_loop] at hu
  | succ n ih =>
    intro obj pu pl pu2 hs hu
    unfold write_list_loop at hu ⊢
    refine simulates_andThen w (recU (SCM_CAR heap obj)) (recL (SCM_CAR heap obj)) _ _
      (hrec _) ?_ pu pl pu2 hs hu
    intro qu ql qu2 hq hu2
    dsimp only at hu2 ⊢
    rw [shared_cdr_none _ _ hq.1] at hu2
    rw [shared_cdr_none _ _ hq.2.1]
    split at hu2
    · rename_i hn
      rw [if_pos hn]
      exact simulates_putc_done w ')' qu ql qu2 hq hu2
    · rename_i hn
      rw [if_neg hn]
      split at hu2
      · rename_i hp
        rw [if_pos hp]
        exact simulates_andThen w (fun p => recU _ (Scm_PutzUnsafe " . ".toList p))
          (fun p => recL _ (Scm_PutzUnsafe " . ".toList p)) _ _
          (fun a b c hab hc => hrec _ _ _ c (sim_putz w a b _ hab) hc)
          (simulates_putc_done w ')') qu ql qu2 hq hu2
      · rename_i hp
        rw [if_neg hp]
        simp only [Bool.false_eq_true, if_false] at hu2 ⊢
        exact ih _ _ _ _ (sim_putc w qu ql ' ' hq) hu2

theorem write_vector_elts_sim (w : Nat)
    (recU recL : ScmObj → ScmPort → ScmPort × Outcome)
    (hrec : ∀ obj, Simulates w (recU obj) (recL obj)) :
    ∀ (es : List ScmObj),
      Simulates w (write_vector_elts recU es) (write_vector_elts recL es) := by
  intro es
  induction es with
  | nil => intro pu pl pu2 _ hu; simp [write_vector_elts] at hu
  | cons e es ih =>
    cases es with
    | nil =>
      intro pu pl pu2 hs hu
      unfold write_vector_elts at hu ⊢
      exact simulates_andThen w (recU e) (recL e) _ _ (hrec e) (simulates_putc_done w ')')
        pu pl pu2 hs hu
    | cons e2 es =>
      intro pu pl pu2 hs hu
      unfold write_vector_elts at hu ⊢
      exact simulates_andThen w (recU e) (recL e) _ _ (hrec e)
        (fun a b c hab hc => ih _ _ c (sim_putc w a b ' ' hab) hc) pu pl pu2 hs hu


theorem write_label_none (obj : ScmObj) (p : ScmPort) (h : p.data = none) :
    write_label obj p = .goOn p := by
  simp [write_label, h]

/-- On a port without identity table, pass 2 only appends to the port. -/
theorem write_ss_rec_appends (heap : Heap) (ctx : ScmWriteContext) (fuel : Nat) (obj : ScmObj)
    (p : ScmPort) (h : p.data = none) :
    (write_ss_rec heap ctx fuel obj p).1.data = none ∧
      ∃ toks, (write_ss_rec heap ctx fuel obj p).1.out = p.out ++ toks := by
  apply write_ss_rec_preserves (fun q => q.data = none ∧ ∃ toks, q.out = p.out ++ toks) heap ctx
  · intro q s ⟨hq, toks, ho⟩
    exact ⟨hq, toks ++ [Tok.text s], by simp [Scm_PutzUnsafe, ho]⟩
  · intro o q _ ⟨hq, toks, ho⟩
    rw [write_label_none o q hq]
    exact ⟨hq, toks, ho⟩
  · exact ⟨h, [], by simp⟩

theorem write_general_sim (w : Nat) (heap : Heap) (obj : ScmObj) (ctxU ctxL : ScmWriteContext)
    (hm : ctxL.mode = ctxU.mode) :
    Simulates w (fun p => write_general heap obj p ctxU) (fun p => write_general heap obj p ctxL) := by
  obtain ⟨toks, o, h⟩ := write_general_uniform heap obj ctxU.mode
  intro pu pl pu2 hs hu
  simp only [h ctxU pu rfl] at hu
  simp only [h ctxL pl hm]
  cases hu
  exact ⟨_, rfl, sim_append w pu pl toks hs⟩

theorem write_immediate_sim (w : Nat) (obj : ScmObj) (ctxU ctxL : ScmWriteContext)
    (hm : ctxL.mode = ctxU.mode) :
    Simulates w (fun p => write_immediate obj p ctxU) (fun p => write_immediate obj p ctxL) := by
  obtain ⟨toks, o, h⟩ := write_immediate_uniform obj ctxU.mode
  intro pu pl pu2 hs hu
  simp only [h ctxU pu rfl] at hu
  simp only [h ctxL pl hm]
  cases hu
  exact ⟨_, rfl, sim_append w pu pl toks hs⟩

theorem write_aggregate_sim (w : Nat) (heap : Heap) (ctxU ctxL : ScmWriteContext)
    (hm : ctxL.mode = ctxU.mode)
    (recU recL : ScmObj → ScmPort → ScmPort × Outcome)
    (hrec : ∀ obj, Simulates w (recU obj) (recL obj)) (fuel : Nat) (obj : ScmObj) :
    Simulates w (write_aggregate heap ctxU recU fuel obj)
      (write_aggregate heap ctxL recL fuel obj) := by
  intro pu pl pu2 hs hu
  unfold write_aggregate at hu ⊢
  split at hu
  · rename_i hp
    rw [if_pos hp]
    split at hu
    · exact hrec _ _ _ _ (sim_putz w pu pl _ hs) hu
    · exact write_list_loop_sim w heap recU recL hrec _ _ _ _ _ (sim_putc w pu pl _ hs) hu
  · rename_i hp
    rw [if_neg hp]
    split at hu
    · exact write_vector_elts_sim w recU recL hrec _ _ _ _ (sim_putz w pu pl _ hs) hu
    · exact write_general_sim w heap obj ctxU ctxL hm pu pl pu2 hs hu

/-- The run of pass 2 with length limit `w` follows the run without limit:
with the same fuel it returns whenever the unlimited run does, and the two
texts are related by `Sim`. -/
theorem write_ss_rec_sim (heap : Heap) (mode : Nat) (lim : Int) (w : Nat) :
    ∀ (fuel : Nat) (obj : ScmObj),
      Simulates w (write_ss_rec heap ⟨mode, 0, lim⟩ fuel obj)
        (write_ss_rec heap ⟨mode, WRITE_LIMITED, (w : Int)⟩ fuel obj) := by
  intro fuel
  induction fuel with
  | zero => intro obj pu pl pu2 _ hu; simp [write_ss_rec] at hu
  | succ n ih =>
    intro obj pu pl pu2 hs hu
    have hflag : WRITE_LIMITED &&& WRITE_LIMITED ≠ 0 := by decide
    by_cases hcut : (w : Int) ≤ outlen pl
    · refine ⟨pl, ?_, ?_⟩
      · unfold write_ss_rec
        rw [if_pos ⟨hflag, hcut⟩]
      · have ha := write_ss_rec_appends heap ⟨mode, 0, lim⟩ (n + 1) obj pu hs.1
        rw [hu] at ha
        obtain ⟨hd, toks, ho⟩ := ha
        have hw : w ≤ (render pl.out).length := by
          unfold outlen at hcut
          exact_mod_cast hcut
        exact sim_skip w pu pl pu2 toks hs hw hd ho
    · unfold write_ss_rec at hu ⊢
      have hcl : ¬ (WRITE_LIMITED &&& WRITE_LIMITED ≠ 0 ∧ outlen pl ≥ (w : Int)) :=
        fun h => hcut h.2
      have hcu : ¬ ((0 : Nat) &&& WRITE_LIMITED ≠ 0 ∧ outlen pu ≥ lim) := by
        intro h; exact h.1 (Nat.zero_and _)
      simp only [if_neg hcl]
      simp only [if_neg hcu] at hu
      split at hu
      · rename_i h1
        rw [if_pos h1]
        exact write_immediate_sim w obj _ _ rfl pu pl pu2 hs hu
      · rename_i h1
        rw [if_neg h1]
        split at hu
        · rename_i h2
          rw [if_pos h2]
          exact write_general_sim w heap obj _ _ rfl pu pl pu2 hs hu
        · rename_i h2
          rw [if_neg h2]
          split at hu
          · rename_i h3
            rw [if_pos h3]
            exact write_general_sim w heap obj _ _ rfl pu pl pu2 hs hu
          · rename_i h3
            rw [if_neg h3]
            rw [write_label_none obj pu hs.1] at hu
            rw [write_label_none obj pl hs.2.1]
            exact write_aggregate_sim w heap _ _ rfl _ _ ih n obj pu pl pu2 hs hu

/-- C4: whenever the plain write of `obj` returns (with text `R` on a fresh
string port), `Scm_WriteLimited` with a width `width >= 0` and the same fuel
returns and delivers to the destination port exactly the first `width`
characters of `R` (all of `R` when `R` is not longer than `width`): a prefix of
`R` of at most `width` characters. -/
theorem Scm_WriteLimited_prefix (heap : Heap) (fuel : Nat) (obj : ScmObj) (port : ScmPort)
    (mode : Nat) (width : Int) (hw : 0 ≤ width) (pu : ScmPort)
    (hu : write_ss_rec heap ⟨mode, 0, 0⟩ fuel obj Scm_MakeOutputStringPort
      = (pu, Outcome.done)) :
    ∃ (ret : Int) (delivered : List Char),
      Scm_WriteLimited heap fuel obj port mode width
        = (SCM_PUTS delivered port, Outcome.done, ret) ∧
      delivered = (render pu.out).take width.toNat ∧
      delivered <+: render pu.out ∧
      (delivered.length : Int) ≤ width := by
  lift width to ℕ using hw with w
  have hs0 : Sim w Scm_MakeOutputStringPort Scm_MakeOutputStringPort :=
    ⟨rfl, rfl, rfl, Or.inl rfl⟩
  obtain ⟨pl, hl, hsim⟩ := write_ss_rec_sim heap mode 0 w fuel obj _ _ pu hs0 hu
  obtain ⟨_, _, ht, hd⟩ := hsim
  have hpre : List.take w (render pu.out) <+: render pu.out := List.take_prefix _ _
  have hlen : ((List.take w (render pu.out)).length : Int) ≤ (w : Int) := by
    simp only [List.length_take]
    exact_mod_cast Nat.min_le_left _ _
  by_cases hnc : outlen pl > (w : Int)
  · refine ⟨-1, (render pu.out).take w, ?_, by simp, hpre, hlen⟩
    have hlt : w ≤ (render pl.out).length := by
      unfold outlen at hnc
      have : w < (render pl.out).length := by exact_mod_cast hnc
      omega
    have hsub : Scm_Substring (Scm_GetOutputString pl) 0 (w : Int)
        = some ((render pu.out).take w) := by
      have h2 : ¬ ((w : Int) > ((render pl.out).length : Int)) := by
        have : ((w : Int)) ≤ ((render pl.out).length : Int) := by exact_mod_cast hlt
        omega
      simp [Scm_Substring, Scm_GetOutputString, h2, ht]
    simp only [Scm_WriteLimited, hl, if_pos hnc, hsub]
  · refine ⟨outlen pl, (render pu.out).take w, ?_, by simp, hpre, hlen⟩
    have hle : (render pl.out).length ≤ w := by
      unfold outlen at hnc
      have : ¬ (w < (render pl.out).length) := by
        intro h; apply hnc; exact_mod_cast h
      omega
    have heq : render pl.out = (render pu.out).take w := by
      rw [← ht, List.take_of_length_le hle]
    simp only [Scm_WriteLimited, hl, if_neg hnc, Scm_GetOutputString, heq]

/-- C4 (witness): the string `hello world` in write mode with width 5; the text
delivered is the five characters `"hell` and the result is -1. -/
theorem Scm_WriteLimited_prefix_witness :
    (∃ (ret : Int) (delivered : List Char),
      Scm_WriteLimited limitedHeap 2 (.ptr 0) ⟨[], none⟩ SCM_WRITE_WRITE 5
        = (SCM_PUTS delivered ⟨[], none⟩, Outcome.done, ret) ∧
      delivered = ['"', 'h', 'e', 'l', 'l']) ∧
    (Scm_WriteLimited limitedHeap 2 (.ptr 0) ⟨[], none⟩ SCM_WRITE_WRITE 5).2.2 = -1 := by
  refine ⟨?_, by decide⟩
  obtain ⟨ret, delivered, h1, h2, _, _⟩ :=
    Scm_WriteLimited_prefix limitedHeap 2 (.ptr 0) ⟨[], none⟩ SCM_WRITE_WRITE 5 (by decide)
      (write_ss_rec limitedHeap ⟨SCM_WRITE_WRITE, 0, 0⟩ 2 (.ptr 0) Scm_MakeOutputStringPort).1
      rfl
  refine ⟨ret, delivered, h1, ?_⟩
  rw [h2]
  decide

/-- C3 (failing input): for the list `(quote 5)`, whose rendering is the two
characters quote and `5`, `Scm_WriteLimited` with width 1 delivers the single
quote character and returns 1 instead of -1; and with width 0 it returns 0 and
delivers nothing, for every object. -/
theorem Scm_WriteLimited_cut_not_reported :
    (Scm_WriteLimited limitedHeap 4 (.ptr 1) ⟨[], none⟩ SCM_WRITE_WRITE 1).2
      = (Outcome.done, 1) ∧
    render (Scm_WriteLimited limitedHeap 4 (.ptr 1) ⟨[], none⟩ SCM_WRITE_WRITE 1).1.out
      = [Char.ofNat 39] ∧
    render (write_ss_rec limitedHeap ⟨SCM_WRITE_WRITE, 0, 0⟩ 4 (.ptr 1) ⟨[], none⟩).1.out
      = [Char.ofNat 39, '5'] ∧
    (∀ (heap : Heap) (fuel : Nat) (obj : ScmObj) (port : ScmPort) (mode : Nat),
      Scm_WriteLimited heap (fuel + 1) obj port mode 0 = (SCM_PUTS [] port, Outcome.done, 0)) := by
  refine ⟨by decide, by decide, by decide, ?_⟩
  intro heap fuel obj port mode
  have h : write_ss_rec heap ⟨mode, WRITE_LIMITED, 0⟩ (fuel + 1) obj Scm_MakeOutputStringPort
      = (Scm_MakeOutputStringPort, Outcome.done) := by
    unfold write_ss_rec
    have ha : WRITE_LIMITED &&& WRITE_LIMITED ≠ 0 := by decide
    have hb : outlen Scm_MakeOutputStringPort ≥ (0 : Int) := by decide
    rw [if_pos ⟨ha, hb⟩]
  simp only [Scm_WriteLimited, h]
  rfl

/-- C5 (failing input): in the list `(p q)` with `p = (1)` and
`q = (quote . p)` the cell `p` is flagged by pass 1 and gets the label `#0=`,
but where `p` is reached again, as the cdr of `q`, no back reference is put:
the quote shorthand prints the car of `p` once more.  The text is
`(#0=(1) (quote-char)1)` and contains no back reference at all. -/
theorem write_ss_quote_shared_reexpanded :
    (write_ss quoteSharedHeap ⟨0, 0, 0⟩ 8 (.ptr 0) ⟨[], none⟩).2 = Outcome.done ∧
    (write_ss quoteSharedHeap ⟨0, 0, 0⟩ 8 (.ptr 0) ⟨[], none⟩).1.out
      = [Tok.text [Char.ofNat 40], Tok.label 0, Tok.text [Char.ofNat 40], Tok.text ['1'],
          Tok.text [Char.ofNat 41], Tok.text [' '], Tok.text [Char.ofNat 39], Tok.text ['1'],
          Tok.text [Char.ofNat 41]] := by
  refine ⟨by decide, by decide⟩

/-! ## Circular lists of fixnums -/

theorem circularHeap_at (es : List Int) (i : Nat) (h : i < es.length) :
    circularHeap es i = some (.pair (.int (es.get ⟨i, h⟩)) (.ptr ((i + 1) % es.length))) := by
  simp [circularHeap, h]

theorem circ_pairp (es : List Int) (i : Nat) (h : i < es.length) :
    SCM_PAIRP (circularHeap es) (.ptr i) = true := by
  simp [SCM_PAIRP, deref, circularHeap_at es i h]

theorem circ_car (es : List Int) (i : Nat) (h : i < es.length) :
    SCM_CAR (circularHeap es) (.ptr i) = .int (es.get ⟨i, h⟩) := by
  simp [SCM_CAR, deref, circularHeap_at es i h]

theorem circ_cdr (es : List Int) (i : Nat) (h : i < es.length) :
    SCM_CDR (circularHeap es) (.ptr i) = .ptr ((i + 1) % es.length) := by
  simp [SCM_CDR, deref, circularHeap_at es i h]

theorem circ_numberp (es : List Int) (i : Nat) (h : i < es.length) :
    SCM_NUMBERP (circularHeap es) (.ptr i) = false := by
  simp [SCM_NUMBERP, deref, circularHeap_at es i h]

theorem markedBelow_put (m : Nat) :
    Scm_HashTablePut (markedBelow m) (.ptr m) SCM_FALSE = markedBelow (m + 1) := by
  funext k
  cases k with
  | ptr a =>
    simp only [Scm_HashTablePut, markedBelow, ScmObj.ptr.injEq]
    by_cases h : a = m
    · simp [h]
    · have : (a < m + 1) ↔ (a < m) := by omega
      simp [h, this]
  | _ => simp [Scm_HashTablePut, markedBelow]

/-- Pass 1 on the circular list from cell `i` on, the cells before `i` being
entered already: all cells get entered and cell 0 is flagged. -/
theorem circ_walk (es : List Int) (ctx : ScmWriteContext) :
    ∀ (d i : Nat), i + d + 1 = es.length → ∀ (k : Nat),
      write_walk (circularHeap es) ctx (d + 2 + k) (.ptr i) (markedBelow i)
        = (Scm_HashTablePut (markedBelow es.length) (.ptr 0) SCM_TRUE, Outcome.done) := by
  intro d
  induction d with
  | zero =>
    intro i hi k
    have hlt : i < es.length := by omega
    have hnext : (i + 1) % es.length = 0 := by
      have : i + 1 = es.length := by omega
      rw [this, Nat.mod_self]
    have h0 : 0 < es.length := by omega
    have e : 0 + 2 + k = (k + 1) + 1 := by omega
    rw [e, write_walk]
    simp only [SCM_PTRP, SCM_SYMBOLP, SCM_KEYWORDP, circ_numberp es i hlt, circ_pairp es i hlt,
      circ_car es i hlt, circ_cdr es i hlt, hnext]
    have hg : Scm_HashTableGet (markedBelow i) (.ptr i) = none := by
      simp [Scm_HashTableGet, markedBelow]
    simp only [hg, markedBelow_put]
    simp only [Bool.not_true, Bool.or_self, Bool.false_eq_true, if_false, if_true, andThen]
    rw [write_walk]
    have hg2 : Scm_HashTableGet (markedBelow (i + 1)) (.ptr 0) = some SCM_FALSE := by
      simp [Scm_HashTableGet, markedBelow]
    simp only [SCM_PTRP, SCM_SYMBOLP, SCM_KEYWORDP, circ_numberp es 0 h0, circ_pairp es 0 h0,
      hg2]
    have : i + 1 = es.length := by omega
    simp [this]
  | succ d ih =>
    intro i hi k
    have hlt : i < es.length := by omega
    have hnext : (i + 1) % es.length = i + 1 := Nat.mod_eq_of_lt (by omega)
    have e : d + 1 + 2 + k = (d + 2 + k) + 1 := by omega
    rw [e, write_walk]
    simp only [SCM_PTRP, SCM_SYMBOLP, SCM_KEYWORDP, circ_numberp es i hlt, circ_pairp es i hlt,
      circ_car es i hlt, circ_cdr es i hlt, hnext]
    have hg : Scm_HashTableGet (markedBelow i) (.ptr i) = none := by
      simp [Scm_HashTableGet, markedBelow]
    simp only [hg, markedBelow_put]
    simp only [Bool.not_true, Bool.or_self, Bool.false_eq_true, if_false, if_true, andThen]
    exact ih (i + 1) (by omega) k


theorem limit_off (ctx : ScmWriteContext) (hf : ctx.flags = 0) (p : ScmPort) :
    ¬ (ctx.flags &&& WRITE_LIMITED ≠ 0 ∧ outlen p ≥ ctx.limit) := by
  intro h
  apply h.1
  rw [hf]
  exact Nat.zero_and _

theorem write_ss_rec_int (heap : Heap) (ctx : ScmWriteContext) (hf : ctx.flags = 0)
    (fuel : Nat) (e : Int) (p : ScmPort) :
    write_ss_rec heap ctx (fuel + 1) (.int e) p = (Scm_PutzUnsafe (fmt_ld e) p, Outcome.done) := by
  rw [write_ss_rec, if_neg (limit_off ctx hf p)]
  simp [SCM_PTRP, write_immediate]

theorem circTail_drop_last (es : List Int) (i : Nat) (h : i + 1 = es.length) :
    circTail (es.drop i) = [Tok.text (fmt_ld (es.get ⟨i, by omega⟩)), Tok.text " . ".toList,
      Tok.backref 0, Tok.text [Char.ofNat 41]] := by
  have hi : i < es.length := by omega
  rw [List.drop_eq_getElem_cons hi, List.drop_of_length_le (by omega)]
  simp [circTail]

theorem circTail_drop_step (es : List Int) (i : Nat) (h : i + 1 < es.length) :
    circTail (es.drop i) = Tok.text (fmt_ld (es.get ⟨i, by omega⟩)) :: Tok.text [' '] ::
      circTail (es.drop (i + 1)) := by
  have hi : i < es.length := by omega
  rw [List.drop_eq_getElem_cons hi, List.drop_eq_getElem_cons h]
  simp [circTail]

/-- The list loop of pass 2 on the circular list from cell `i` on, once cell 0
carries index 0 and no other cell is flagged. -/
theorem circ_loop (es : List Int) (ctx : ScmWriteContext) (hf : ctx.flags = 0)
    (c : Nat) (ht : ScmHashTable) (h0 : ht (.ptr 0) = some (.int 0))
    (hrest : ∀ j, 0 < j → j < es.length → ht (.ptr j) = some SCM_FALSE) (F : Nat) :
    ∀ (d i : Nat), i + d + 1 = es.length → ∀ (k : Nat) (p : ScmPort),
      p.data = some (c, ht) →
      write_list_loop (circularHeap es) (write_ss_rec (circularHeap es) ctx (F + 1))
          (d + 1 + k) (.ptr i) p
        = ({ p with out := p.out ++ circTail (es.drop i) }, Outcome.done) := by
  intro d
  induction d with
  | zero =>
    intro i hi k p hp
    have hlt : i < es.length := by omega
    have hpos : 0 < es.length := by omega
    have hnext : (i + 1) % es.length = 0 := by
      have : i + 1 = es.length := by omega
      rw [this, Nat.mod_self]
    have e : 0 + 1 + k = k + 1 := by omega
    rw [e, write_list_loop, circ_car es i hlt, write_ss_rec_int _ _ hf]
    simp only [andThen, circ_cdr es i hlt, hnext]
    have hnn : SCM_NULLP (.ptr 0) = false := rfl
    have hsh : shared_cdr (.ptr 0) (Scm_PutzUnsafe (fmt_ld (es.get ⟨i, hlt⟩)) p) = true := by
      simp [shared_cdr, Scm_PutzUnsafe, hp, Scm_HashTableGet, h0, SCM_FALSE]
    simp only [hnn, circ_pairp es 0 hpos, hsh, Bool.not_true, Bool.false_eq_true, if_false,
      if_true]
    have hback : ∀ q : ScmPort, q.data = some (c, ht) →
        write_ss_rec (circularHeap es) ctx (F + 1) (.ptr 0) q
          = ({ q with out := q.out ++ [Tok.backref 0] }, Outcome.done) := by
      intro q hq
      rw [write_ss_rec, if_neg (limit_off ctx hf q)]
      have hd : deref (circularHeap es) (.ptr 0)
          = some (.pair (.int (es.get ⟨0, hpos⟩)) (.ptr ((0 + 1) % es.length))) := by
        simp [deref, circularHeap_at es 0 hpos]
      simp [SCM_PTRP, circ_numberp es 0 hpos, hd, write_label, hq, Scm_HashTableGet, h0,
        SCM_FALSE]
    rw [hback _ (by simp [Scm_PutzUnsafe, hp])]
    simp only [andThen, circTail_drop_last es i (by omega)]
    simp [Scm_PutzUnsafe, Scm_PutcUnsafe]
  | succ d ih =>
    intro i hi k p hp
    have hlt : i < es.length := by omega
    have hnext : (i + 1) % es.length = i + 1 := Nat.mod_eq_of_lt (by omega)
    have e : d + 1 + 1 + k = (d + 1 + k) + 1 := by omega
    rw [e, write_list_loop, circ_car es i hlt, write_ss_rec_int _ _ hf]
    simp only [andThen, circ_cdr es i hlt, hnext]
    have hnn : SCM_NULLP (.ptr (i + 1)) = false := rfl
    have hsh : shared_cdr (.ptr (i + 1)) (Scm_PutzUnsafe (fmt_ld (es.get ⟨i, hlt⟩)) p)
        = false := by
      simp [shared_cdr, Scm_PutzUnsafe, hp, Scm_HashTableGet,
        hrest (i + 1) (by omega) (by omega)]
    simp only [hnn, circ_pairp es (i + 1) (by omega), hsh, Bool.not_true, Bool.false_eq_true,
      if_false]
    rw [ih (i + 1) (by omega) k _ (by simp [Scm_PutzUnsafe, Scm_PutcUnsafe, hp])]
    rw [circTail_drop_step es i (by omega)]
    simp [Scm_PutzUnsafe, Scm_PutcUnsafe]


theorem render_circTail : ∀ (l : List Int), l ≠ [] →
    render (circTail l) = [' '].intercalate (l.map fmt_ld) ++ " . #0#)".toList := by
  intro l
  induction l with
  | nil => intro h; exact absurd rfl h
  | cons e rest ih =>
    intro _
    cases rest with
    | nil =>
      simp [circTail, render, Tok.chars, List.intercalate]
      decide
    | cons e2 rest =>
      have := ih (by simp)
      simp only [circTail, render, Tok.chars, this]
      simp [List.intercalate, List.intersperse]

/-- C6: for every non-empty list `es` of fixnums, the circular list whose
cells hold `es` (the cdr of the last cell being the first cell) is written by
the circular-safe write, with any fuel from `es.length + 2` on, as the label
`#0=`, an opening parenthesis, the elements separated by single spaces, and
` . #0#)`. -/
theorem write_ss_circular_list (es : List Int) (hne : es ≠ []) (mode : Nat) (limit : Int)
    (k : Nat) (port : ScmPort) :
    write_ss (circularHeap es) ⟨mode, 0, limit⟩ (es.length + 2 + k) (.ptr 0) port
      = (⟨port.out ++ (Tok.label 0 :: Tok.text [Char.ofNat 40] :: circTail es), none⟩,
          Outcome.done) ∧
    render (Tok.label 0 :: Tok.text [Char.ofNat 40] :: circTail es)
      = "#0=(".toList ++ [' '].intercalate (es.map fmt_ld) ++ " . #0#)".toList := by
  have hpos : 0 < es.length := List.length_pos.mpr hne
  constructor
  · have hw := circ_walk es ⟨mode, 0, limit⟩ (es.length - 1) 0 (by omega) (k + 1)
    have e1 : es.length - 1 + 2 + (k + 1) = es.length + 2 + k := by omega
    rw [e1] at hw
    have hm0 : markedBelow 0 = (fun _ => none) := by
      funext x
      cases x <;> simp [markedBelow]
    rw [hm0] at hw
    simp only [write_ss, make_walker_port, hw]
    have e2 : es.length + 2 + k = (es.length + 1 + k) + 1 := by omega
    rw [e2, write_ss_rec, if_neg (limit_off _ rfl _)]
    have hd : deref (circularHeap es) (.ptr 0)
        = some (.pair (.int (es.get ⟨0, hpos⟩)) (.ptr ((0 + 1) % es.length))) := by
      simp [deref, circularHeap_at es 0 hpos]
    have hne2 : ¬ (deref (circularHeap es) (.ptr 0) = some (.string []) ∨
        deref (circularHeap es) (.ptr 0) = some (.vector [])) := by
      simp [hd]
    have hq : quote_shorthand (ScmObj.int (es.get ⟨0, hpos⟩)) = none := by
      simp [quote_shorthand, SCM_SYM_QUOTE, SCM_SYM_QUASIQUOTE, SCM_SYM_UNQUOTE,
        SCM_SYM_UNQUOTE_SPLICING]
    have hlab : write_label (.ptr 0)
        ⟨port.out, some (0, Scm_HashTablePut (markedBelow es.length) (.ptr 0) SCM_TRUE)⟩
        = .goOn ⟨port.out ++ [Tok.label 0],
            some (1, Scm_HashTablePut (Scm_HashTablePut (markedBelow es.length) (.ptr 0)
              SCM_TRUE) (.ptr 0) (.int 0))⟩ := by
      simp [write_label, Scm_HashTableGet, Scm_HashTablePut, SCM_TRUE, SCM_FALSE]
    have hl := circ_loop es ⟨mode, 0, limit⟩ rfl 1
      (Scm_HashTablePut (Scm_HashTablePut (markedBelow es.length) (.ptr 0) SCM_TRUE)
        (.ptr 0) (.int 0))
      (by simp [Scm_HashTablePut])
      (by
        intro j hj hjn
        have : j ≠ 0 := by omega
        simp [Scm_HashTablePut, markedBelow, this, hjn])
      (es.length + k) (es.length - 1) 0 (by omega) (k + 1)
    have e3 : es.length - 1 + 1 + (k + 1) = es.length + 1 + k := by omega
    have e4 : es.length + k + 1 = es.length + 1 + k := by omega
    rw [e3, e4] at hl
    simp only [SCM_PTRP, circ_numberp es 0 hpos, if_neg hne2, hlab, write_aggregate,
      circ_pairp es 0 hpos, circ_car es 0 hpos, hq, Bool.not_true, Bool.false_eq_true,
      if_false, if_true, ite_self]
    rw [hl _ rfl]
    simp [Scm_PutcUnsafe]
  · have hz : Nat.toDigits 10 0 = ['0'] := by decide
    have hc : Char.ofNat 40 = '(' := by decide
    simp only [render, Tok.chars, render_circTail es hne, hz, hc]
    simp


/-- C6 (witness): the one-cell circular list holding 1 is written as
`#0=(1 . #0#)`. -/
theorem write_ss_circular_list_witness :
    ([1] : List Int) ≠ [] ∧
    write_ss (circularHeap [1]) ⟨0, 0, 0⟩ 3 (.ptr 0) ⟨[], none⟩
      = (⟨[Tok.label 0, Tok.text [Char.ofNat 40], Tok.text ['1'], Tok.text [' ', '.', ' '],
            Tok.backref 0, Tok.text [Char.ofNat 41]], none⟩, Outcome.done) ∧
    render [Tok.label 0, Tok.text [Char.ofNat 40], Tok.text ['1'], Tok.text [' ', '.', ' '],
            Tok.backref 0, Tok.text [Char.ofNat 41]]
      = ['#', '0', '=', Char.ofNat 40, '1', ' ', '.', ' ', '#', '0', '#', Char.ofNat 41] :=
  ⟨by decide, (write_ss_circular_list [1] (by decide) 0 0 0 ⟨[], none⟩).1, by decide⟩

/-! ## A proper list of atoms referenced twice -/

theorem ptrp_ptr (a : Nat) : SCM_PTRP (.ptr a) = true := rfl
theorem symbolp_ptr (a : Nat) : SCM_SYMBOLP (.ptr a) = false := rfl
theorem keywordp_ptr (a : Nat) : SCM_KEYWORDP (.ptr a) = false := rfl

theorem twice_cell (es : List ScmObj) (i : Nat) (h : i < es.length) :
    twiceHeap es (i + 2)
      = some (.pair (es.get ⟨i, h⟩) (if i + 1 < es.length then .ptr (i + 3) else SCM_NIL)) := by
  simp [twiceHeap, h]

theorem twice_pairp (es : List ScmObj) (i : Nat) (h : i < es.length) :
    SCM_PAIRP (twiceHeap es) (.ptr (i + 2)) = true := by
  simp [SCM_PAIRP, deref, twice_cell es i h]

theorem twice_car (es : List ScmObj) (i : Nat) (h : i < es.length) :
    SCM_CAR (twiceHeap es) (.ptr (i + 2)) = es.get ⟨i, h⟩ := by
  simp [SCM_CAR, deref, twice_cell es i h]

theorem twice_cdr (es : List ScmObj) (i : Nat) (h : i < es.length) :
    SCM_CDR (twiceHeap es) (.ptr (i + 2))
      = if i + 1 < es.length then .ptr (i + 3) else SCM_NIL := by
  simp [SCM_CDR, deref, twice_cell es i h]

theorem twice_numberp (es : List ScmObj) (i : Nat) (h : i < es.length) :
    SCM_NUMBERP (twiceHeap es) (.ptr (i + 2)) = false := by
  simp [SCM_NUMBERP, deref, twice_cell es i h]

theorem walk_atom (heap : Heap) (ctx : ScmWriteContext) (e : ScmObj) (he : IsAtom e)
    (fuel : Nat) (ht : ScmHashTable) :
    (if SCM_PTRP e then write_walk heap ctx (fuel + 1) e ht else (ht, Outcome.done))
      = (ht, Outcome.done) := by
  rcases he with ⟨n, rfl⟩ | ⟨s, rfl⟩
  · simp [SCM_PTRP]
  · simp [SCM_PTRP, write_walk, SCM_SYMBOLP]

theorem write_walk_nil (heap : Heap) (ctx : ScmWriteContext) (fuel : Nat) (ht : ScmHashTable) :
    write_walk heap ctx (fuel + 1) SCM_NIL ht = (ht, Outcome.done) := by
  simp [write_walk, SCM_PTRP, SCM_NIL]

theorem twiceMarked_put (m : Nat) :
    Scm_HashTablePut (twiceMarked m) (.ptr (m + 2)) SCM_FALSE = twiceMarked (m + 1) := by
  funext k
  cases k with
  | ptr a =>
    simp only [Scm_HashTablePut, twiceMarked, ScmObj.ptr.injEq]
    by_cases h : a = m + 2
    · simp [h]
    · have : (a = 0 ∨ 2 ≤ a ∧ a < m + 1 + 2) ↔ (a = 0 ∨ 2 ≤ a ∧ a < m + 2) := by omega
      simp [h, this]
  | _ => simp [Scm_HashTablePut, twiceMarked]

/-- Pass 1 along the cells of `s` from cell `i` on. -/
theorem twice_walk_s (es : List ScmObj) (hat : ∀ e ∈ es, IsAtom e) (ctx : ScmWriteContext) :
    ∀ (d i : Nat), i + d + 1 = es.length → ∀ (k : Nat),
      write_walk (twiceHeap es) ctx (d + 2 + k) (.ptr (i + 2)) (twiceMarked i)
        = (twiceMarked es.length, Outcome.done) := by
  intro d
  induction d with
  | zero =>
    intro i hi k
    have hlt : i < es.length := by omega
    have hlast : ¬ (i + 1 < es.length) := by omega
    have e : 0 + 2 + k = (k + 1) + 1 := by omega
    rw [e, write_walk]
    have hg : Scm_HashTableGet (twiceMarked i) (.ptr (i + 2)) = none := by
      simp [Scm_HashTableGet, twiceMarked]
    simp only [ptrp_ptr, symbolp_ptr, keywordp_ptr, twice_numberp es i hlt, twice_pairp es i hlt,
      twice_car es i hlt, twice_cdr es i hlt, hg, twiceMarked_put, if_neg hlast]
    simp only [Bool.not_true, Bool.or_self, Bool.false_eq_true, if_false, if_true]
    rw [walk_atom _ _ _ (hat _ (List.get_mem es i hlt))]
    simp only [andThen, write_walk_nil]
    have : i + 1 = es.length := by omega
    rw [this]
  | succ d ih =>
    intro i hi k
    have hlt : i < es.length := by omega
    have hnext : i + 1 < es.length := by omega
    have e : d + 1 + 2 + k = (d + 1 + k + 1) + 1 := by omega
    rw [e, write_walk]
    have hg : Scm_HashTableGet (twiceMarked i) (.ptr (i + 2)) = none := by
      simp [Scm_HashTableGet, twiceMarked]
    simp only [ptrp_ptr, symbolp_ptr, keywordp_ptr, twice_numberp es i hlt, twice_pairp es i hlt,
      twice_car es i hlt, twice_cdr es i hlt, hg, twiceMarked_put, if_pos hnext]
    simp only [Bool.not_true, Bool.or_self, Bool.false_eq_true, if_false, if_true]
    rw [walk_atom _ _ _ (hat _ (List.get_mem es i hlt))]
    simp only [andThen]
    have e2 : d + 1 + k + 1 = d + 2 + k := by omega
    rw [e2]
    exact ih (i + 1) (by omega) k

theorem twice_walk (es : List ScmObj) (hne : es ≠ []) (hat : ∀ e ∈ es, IsAtom e)
    (ctx : ScmWriteContext) (k : Nat) :
    write_walk (twiceHeap es) ctx (es.length + 2 + k) (.ptr 0) (fun _ => none)
      = (twiceTable es.length, Outcome.done) := by
  have hpos : 0 < es.length := List.length_pos.mpr hne
  have e : es.length + 2 + k = (es.length + 1 + k) + 1 := by omega
  rw [e, write_walk]
  have h0 : deref (twiceHeap es) (.ptr 0) = some (.pair (.ptr 2) (.ptr 1)) := by
    simp [deref, twiceHeap]
  have h1 : deref (twiceHeap es) (.ptr 1) = some (.pair (.ptr 2) SCM_NIL) := by
    simp [deref, twiceHeap]
  have hput0 : Scm_HashTablePut (fun _ => none) (.ptr 0) SCM_FALSE = twiceMarked 0 := by
    funext x
    cases x with
    | ptr a =>
      simp only [Scm_HashTablePut, twiceMarked, ScmObj.ptr.injEq]
      have : (a = 0 ∨ 2 ≤ a ∧ a < 0 + 2) ↔ a = 0 := by omega
      simp [this]
    | _ => simp [Scm_HashTablePut, twiceMarked]
  have hs := twice_walk_s es hat ctx (es.length - 1) 0 (by omega) (k + 1)
  have e2 : es.length - 1 + 2 + (k + 1) = es.length + 1 + k + 1 := by omega
  have hs2 := twice_walk_s es hat ctx (es.length - 1) 0 (by omega) k
  have e3 : es.length - 1 + 2 + k = es.length + 1 + k := by omega
  rw [e3] at hs2
  simp only [SCM_PTRP, SCM_SYMBOLP, SCM_KEYWORDP, SCM_NUMBERP, SCM_PAIRP, SCM_CAR, SCM_CDR, h0,
    Scm_HashTableGet, hput0, hs2]
  simp only [Bool.not_true, Bool.or_self, Bool.false_eq_true, if_false, if_true, andThen]
  have e4 : es.length + 1 + k = (es.length + k) + 1 := by omega
  rw [e4, write_walk]
  have hg1 : twiceMarked es.length (.ptr 1) = none := by simp [twiceMarked]
  simp only [SCM_PTRP, SCM_SYMBOLP, SCM_KEYWORDP, SCM_NUMBERP, SCM_PAIRP, SCM_CAR, SCM_CDR, h1,
    Scm_HashTableGet, hg1]
  simp only [Bool.not_true, Bool.or_self, Bool.false_eq_true, if_false, if_true, andThen]
  have e5 : es.length + k = (es.length - 1 + k) + 1 := by omega
  rw [e5, write_walk]
  have h2 := twice_cell es 0 hpos
  have hg2 : Scm_HashTablePut (twiceMarked es.length) (.ptr 1) SCM_FALSE (.ptr 2)
      = some SCM_FALSE := by
    simp [Scm_HashTablePut, twiceMarked, hpos]
  simp only [SCM_PTRP, SCM_SYMBOLP, SCM_KEYWORDP, SCM_NUMBERP, SCM_PAIRP, deref, h2,
    Scm_HashTableGet, hg2]
  simp only [Bool.not_true, Bool.or_self, Bool.false_eq_true, if_false, if_true, andThen]
  rw [write_walk_nil]
  congr 1
  funext x
  cases x with
  | ptr a =>
    simp only [Scm_HashTablePut, twiceMarked, twiceTable, ScmObj.ptr.injEq]
    by_cases ha2 : a = 2
    · simp [ha2]
    · by_cases ha1 : a = 1
      · simp [ha1, hpos]
      · have : (a = 0 ∨ 2 ≤ a ∧ a < es.length + 2) ↔ a < es.length + 2 := by omega
        simp [ha2, ha1, this]
  | _ => simp [Scm_HashTablePut, twiceMarked, twiceTable]


theorem write_label_unflagged (x : ScmObj) (p : ScmPort) (h : Unflagged p.data x) :
    write_label x p = .goOn p := by
  unfold write_label
  cases hd : p.data with
  | none => rfl
  | some d =>
    obtain ⟨c, ht⟩ := d
    rw [hd] at h
    simp only [Unflagged] at h
    rcases h with h | h <;> simp [Scm_HashTableGet, h]

theorem shared_cdr_unflagged (x : ScmObj) (p : ScmPort) (h : Unflagged p.data x) :
    shared_cdr x p = false := by
  unfold shared_cdr
  cases hd : p.data with
  | none => rfl
  | some d =>
    obtain ⟨c, ht⟩ := d
    rw [hd] at h
    simp only [Unflagged] at h
    rcases h with h | h <;> simp [Scm_HashTableGet, h]

theorem write_ss_rec_atom (heap : Heap) (ctx : ScmWriteContext) (hf : ctx.flags = 0)
    (e : ScmObj) (he : IsAtom e) (fuel : Nat) (p : ScmPort) (hu : Unflagged p.data e) :
    write_ss_rec heap ctx (fuel + 1) e p = ({ p with out := p.out ++ atomToks e }, Outcome.done) := by
  rcases he with ⟨n, rfl⟩ | ⟨s, rfl⟩
  · rw [write_ss_rec_int heap ctx hf]
    rfl
  · rw [write_ss_rec, if_neg (limit_off ctx hf p)]
    simp [SCM_PTRP, SCM_NUMBERP, deref, write_label_unflagged _ p hu, write_aggregate,
      SCM_PAIRP, write_general, class_print, Scm_PutzUnsafe, atomToks]

theorem listTail_drop_last (es : List ScmObj) (i : Nat) (h : i + 1 = es.length) :
    listTail (es.drop i) = atomToks (es.get ⟨i, by omega⟩) ++ [Tok.text [Char.ofNat 41]] := by
  have hi : i < es.length := by omega
  rw [List.drop_eq_getElem_cons hi, List.drop_of_length_le (by omega)]
  simp [listTail]

theorem listTail_drop_step (es : List ScmObj) (i : Nat) (h : i + 1 < es.length) :
    listTail (es.drop i) = atomToks (es.get ⟨i, by omega⟩) ++ Tok.text [' '] ::
      listTail (es.drop (i + 1)) := by
  have hi : i < es.length := by omega
  rw [List.drop_eq_getElem_cons hi, List.drop_eq_getElem_cons h]
  simp [listTail]

/-- The list loop of pass 2 along the cells of `s` from cell `i` on, on a port
in whose table neither the later cells of `s` nor the atoms are flagged. -/
theorem twice_loop (es : List ScmObj) (hat : ∀ e ∈ es, IsAtom e) (ctx : ScmWriteContext)
    (hf : ctx.flags = 0) (F : Nat) :
    ∀ (d i : Nat), i + d + 1 = es.length → ∀ (k : Nat) (p : ScmPort),
      (∀ j, 3 ≤ j → Unflagged p.data (.ptr j)) → (∀ e, IsAtom e → Unflagged p.data e) →
      write_list_loop (twiceHeap es) (write_ss_rec (twiceHeap es) ctx (F + 1))
          (d + 1 + k) (.ptr (i + 2)) p
        = ({ p with out := p.out ++ listTail (es.drop i) }, Outcome.done) := by
  intro d
  induction d with
  | zero =>
    intro i hi k p hcells hatoms
    have hlt : i < es.length := by omega
    have hlast : ¬ (i + 1 < es.length) := by omega
    have hae := hat _ (List.get_mem es i hlt)
    have e : 0 + 1 + k = k + 1 := by omega
    rw [e, write_list_loop, twice_car es i hlt,
      write_ss_rec_atom _ _ hf _ hae _ _ (hatoms _ hae)]
    simp only [andThen, twice_cdr es i hlt, if_neg hlast]
    have hnn : SCM_NULLP SCM_NIL = true := rfl
    simp only [hnn, if_true, listTail_drop_last es i (by omega)]
    simp [Scm_PutcUnsafe]
  | succ d ih =>
    intro i hi k p hcells hatoms
    have hlt : i < es.length := by omega
    have hnext : i + 1 < es.length := by omega
    have hae := hat _ (List.get_mem es i hlt)
    have e : d + 1 + 1 + k = (d + 1 + k) + 1 := by omega
    rw [e, write_list_loop, twice_car es i hlt,
      write_ss_rec_atom _ _ hf _ hae _ _ (hatoms _ hae)]
    simp only [andThen, twice_cdr es i hlt, if_pos hnext]
    have hnn : SCM_NULLP (.ptr (i + 3)) = false := rfl
    have hsh : shared_cdr (.ptr (i + 3)) { p with out := p.out ++ atomToks (es.get ⟨i, hlt⟩) }
        = false := shared_cdr_unflagged _ _ (hcells _ (by omega))
    have hpp := twice_pairp es (i + 1) hnext
    simp only [hnn, hpp, hsh, Bool.not_true, Bool.false_eq_true, if_false]
    have ih2 := ih (i + 1) (by omega) k
      (Scm_PutcUnsafe ' ' { p with out := p.out ++ atomToks (es.get ⟨i, hlt⟩) }) hcells hatoms
    have e3 : i + 1 + 2 = i + 3 := rfl
    rw [e3] at ih2
    rw [ih2, listTail_drop_step es i hnext]
    simp [Scm_PutcUnsafe]


theorem twice_quote_test (es : List ScmObj) (hpos : 0 < es.length) :
    (if SCM_PAIRP (twiceHeap es) (SCM_CDR (twiceHeap es) (.ptr 2)) &&
        SCM_NULLP (SCM_CDDR (twiceHeap es) (.ptr 2)) then
      quote_shorthand (SCM_CAR (twiceHeap es) (.ptr 2)) else none)
    = (if es.length = 2 then quote_shorthand (es.headD SCM_FALSE) else none) := by
  have hcar := twice_car es 0 hpos
  have hcdr := twice_cdr es 0 hpos
  simp only [Nat.zero_add] at hcar hcdr
  have hhead : es.get ⟨0, hpos⟩ = es.headD SCM_FALSE := by
    cases es with
    | nil => simp at hpos
    | cons e rest => rfl
  by_cases h1 : 1 < es.length
  · have hp3 := twice_pairp es 1 h1
    have hcdr3 := twice_cdr es 1 h1
    have e3 : 1 + 2 = 3 := rfl
    have e4 : 1 + 3 = 4 := rfl
    rw [e3] at hp3 hcdr3
    simp only [e4, Nat.reduceAdd] at hcdr3
    rw [SCM_CDDR, hcdr, if_pos h1, hp3, hcdr3, hcar, hhead]
    by_cases h2 : 2 < es.length
    · have hne : es.length ≠ 2 := by omega
      have hnn : SCM_NULLP (.ptr 4) = false := rfl
      simp [h2, hne, hnn]
    · have he : es.length = 2 := by omega
      have hnn : SCM_NULLP SCM_NIL = true := rfl
      simp [h2, he, hnn]
  · have hne : es.length ≠ 2 := by omega
    have hpn : SCM_PAIRP (twiceHeap es) SCM_NIL = false := rfl
    rw [hcdr, if_neg h1, hpn]
    simp [hne]

/-- Pass 2 on the head cell of `s` after the table consultation. -/
theorem twice_aggregate (es : List ScmObj) (hne : es ≠ []) (hat : ∀ e ∈ es, IsAtom e)
    (ctx : ScmWriteContext) (hf : ctx.flags = 0) (F k : Nat) (p : ScmPort)
    (hcells : ∀ j, 3 ≤ j → Unflagged p.data (.ptr j))
    (hatoms : ∀ e, IsAtom e → Unflagged p.data e) :
    write_aggregate (twiceHeap es) ctx (write_ss_rec (twiceHeap es) ctx (F + 1))
        (es.length + k) (.ptr 2) p
      = ({ p with out := p.out ++ listToks es }, Outcome.done) := by
  have hpos : 0 < es.length := List.length_pos.mpr hne
  have hp2 := twice_pairp es 0 hpos
  simp only [Nat.zero_add] at hp2
  unfold write_aggregate listToks
  rw [if_pos hp2, twice_quote_test es hpos]
  split
  · rename_i pre hq
    have hlen : es.length = 2 := by
      by_contra hc
      rw [if_neg hc] at hq
      cases hq
    have h1 : 1 < es.length := by omega
    have hcdr := twice_cdr es 0 hpos
    have hcar3 := twice_car es 1 h1
    have e3 : 1 + 2 = 3 := rfl
    rw [e3] at hcar3
    simp only [Nat.zero_add, if_pos h1] at hcdr
    have hg : es.get ⟨1, h1⟩ = es.getD 1 SCM_FALSE := by
      simp [List.getD_eq_getElem?_getD, List.getElem?_eq_getElem h1]
    have ha := hat _ (List.get_mem es 1 h1)
    rw [SCM_CADR, hcdr, hcar3,
      write_ss_rec_atom _ _ hf _ ha F (Scm_PutzUnsafe pre p) (hatoms _ ha), hg]
    simp [Scm_PutzUnsafe]
  · have hl := twice_loop es hat ctx hf F (es.length - 1) 0 (by omega) k
      (Scm_PutcUnsafe (Char.ofNat 40) p) hcells hatoms
    have e1 : es.length - 1 + 1 + k = es.length + k := by omega
    have e2 : (0 : Nat) + 2 = 2 := rfl
    rw [e1, e2] at hl
    rw [hl]
    simp [Scm_PutcUnsafe]




/-- Pass 2 on the head cell of `s` when it is not flagged. -/
theorem twice_rec_s (es : List ScmObj) (hne : es ≠ []) (hat : ∀ e ∈ es, IsAtom e)
    (ctx : ScmWriteContext) (hf : ctx.flags = 0) (k : Nat) (p : ScmPort)
    (h2 : Unflagged p.data (.ptr 2))
    (hcells : ∀ j, 3 ≤ j → Unflagged p.data (.ptr j))
    (hatoms : ∀ e, IsAtom e → Unflagged p.data e) :
    write_ss_rec (twiceHeap es) ctx (es.length + 1 + k) (.ptr 2) p
      = ({ p with out := p.out ++ listToks es }, Outcome.done) := by
  have hpos : 0 < es.length := List.length_pos.mpr hne
  have hn := twice_numberp es 0 hpos
  have hc := twice_cell es 0 hpos
  simp only [Nat.zero_add] at hn hc
  have hne2 : ¬ (deref (twiceHeap es) (.ptr 2) = some (.string []) ∨
      deref (twiceHeap es) (.ptr 2) = some (.vector [])) := by
    simp [deref, hc]
  have e : es.length + 1 + k = (es.length + k) + 1 := by omega
  rw [e, write_ss_rec, if_neg (limit_off ctx hf p)]
  simp only [ptrp_ptr, hn, if_neg hne2, write_label_unflagged _ p h2, Bool.not_true,
    Bool.false_eq_true, if_false]
  have ha := twice_aggregate es hne hat ctx hf (es.length - 1 + k) k p hcells hatoms
  have e2 : es.length - 1 + k + 1 = es.length + k := by omega
  rw [e2] at ha
  exact ha

/-- Pass 2 on the head cell of `s` once it carries index 0. -/
theorem twice_rec_back (es : List ScmObj) (hne : es ≠ [])
    (ctx : ScmWriteContext) (hf : ctx.flags = 0) (fuel c : Nat) (ht : ScmHashTable) (p : ScmPort)
    (hp : p.data = some (c, ht)) (h2 : ht (.ptr 2) = some (.int 0)) :
    write_ss_rec (twiceHeap es) ctx (fuel + 1) (.ptr 2) p
      = ({ p with out := p.out ++ [Tok.backref 0] }, Outcome.done) := by
  have hpos : 0 < es.length := List.length_pos.mpr hne
  have hn := twice_numberp es 0 hpos
  have hc := twice_cell es 0 hpos
  simp only [Nat.zero_add] at hn hc
  have hne2 : ¬ (deref (twiceHeap es) (.ptr 2) = some (.string []) ∨
      deref (twiceHeap es) (.ptr 2) = some (.vector [])) := by
    simp [deref, hc]
  rw [write_ss_rec, if_neg (limit_off ctx hf p)]
  simp [ptrp_ptr, hn, if_neg hne2, write_label, hp, Scm_HashTableGet, h2, SCM_FALSE]

theorem twiceTable_unflagged_cells (n c : Nat) (v : ScmObj) (j : Nat) (hj : 3 ≤ j) :
    Unflagged (some (c, Scm_HashTablePut (twiceTable n) (.ptr 2) v)) (.ptr j) := by
  have hne : j ≠ 2 := by omega
  simp only [Unflagged, Scm_HashTablePut, twiceTable, ScmObj.ptr.injEq, hne, if_false]
  by_cases h : j < n + 2
  · right; simp [h]
  · left; simp [h]

theorem twiceTable_unflagged_atoms (n c : Nat) (v : ScmObj) (e : ScmObj) (he : IsAtom e) :
    Unflagged (some (c, Scm_HashTablePut (twiceTable n) (.ptr 2) v)) e := by
  rcases he with ⟨m, rfl⟩ | ⟨s, rfl⟩ <;> simp [Unflagged, Scm_HashTablePut, twiceTable]

/-- Pass 2 on the head cell of `s` when pass 1 has flagged it: the label is
put, then the list. -/
theorem twice_rec_label (es : List ScmObj) (hne : es ≠ []) (hat : ∀ e ∈ es, IsAtom e)
    (ctx : ScmWriteContext) (hf : ctx.flags = 0) (k : Nat) (p : ScmPort)
    (hp : p.data = some (0, twiceTable es.length)) :
    write_ss_rec (twiceHeap es) ctx (es.length + 1 + k) (.ptr 2) p
      = (⟨p.out ++ Tok.label 0 :: listToks es,
          some (1, Scm_HashTablePut (twiceTable es.length) (.ptr 2) (.int 0))⟩,
          Outcome.done) := by
  have hpos : 0 < es.length := List.length_pos.mpr hne
  have hn := twice_numberp es 0 hpos
  have hc := twice_cell es 0 hpos
  simp only [Nat.zero_add] at hn hc
  have hne2 : ¬ (deref (twiceHeap es) (.ptr 2) = some (.string []) ∨
      deref (twiceHeap es) (.ptr 2) = some (.vector [])) := by
    simp [deref, hc]
  have hlab : write_label (.ptr 2) p
      = .goOn ⟨p.out ++ [Tok.label 0],
          some (1, Scm_HashTablePut (twiceTable es.length) (.ptr 2) (.int 0))⟩ := by
    simp [write_label, hp, Scm_HashTableGet, twiceTable, SCM_TRUE, SCM_FALSE]
  have e : es.length + 1 + k = (es.length + k) + 1 := by omega
  rw [e, write_ss_rec, if_neg (limit_off ctx hf p)]
  simp only [ptrp_ptr, hn, if_neg hne2, hlab, Bool.not_true, Bool.false_eq_true, if_false]
  have ha := twice_aggregate es hne hat ctx hf (es.length - 1 + k) k
    ⟨p.out ++ [Tok.label 0], some (1, Scm_HashTablePut (twiceTable es.length) (.ptr 2) (.int 0))⟩
    (fun j hj => twiceTable_unflagged_cells _ _ _ j hj)
    (fun e he => twiceTable_unflagged_atoms _ _ _ e he)
  have e2 : es.length - 1 + k + 1 = es.length + k := by omega
  rw [e2] at ha
  rw [ha]
  simp

/-- C7: let `s` be a non-empty proper list of fixnums and symbols, laid out in
cells of its own, and `l = (s s)` the two-element list whose elements are both
`s`.  The plain write of `s` returns with some tokens `R`, and the
circular-safe write of `l` puts an opening parenthesis, the label `#0=`, `R`, a
space, the back reference `#0#` and a closing parenthesis: the text
`(#0=` ++ `R` ++ ` #0#)`. -/
theorem write_ss_shared_twice (es : List ScmObj) (hne : es ≠ []) (hat : ∀ e ∈ es, IsAtom e)
    (mode : Nat) (limit : Int) (k : Nat) (port : ScmPort) :
    ∃ R : List Tok,
      write_ss_rec (twiceHeap es) ⟨mode, 0, limit⟩ (es.length + 1 + k) (.ptr 2) ⟨[], none⟩
        = (⟨R, none⟩, Outcome.done) ∧
      write_ss (twiceHeap es) ⟨mode, 0, limit⟩ (es.length + 3 + k) (.ptr 0) port
        = (⟨port.out ++ (Tok.text [Char.ofNat 40] :: Tok.label 0 :: R ++
              [Tok.text [' '], Tok.backref 0, Tok.text [Char.ofNat 41]]), none⟩,
            Outcome.done) ∧
      render (Tok.text [Char.ofNat 40] :: Tok.label 0 :: R ++
              [Tok.text [' '], Tok.backref 0, Tok.text [Char.ofNat 41]])
        = [Char.ofNat 40, '#', '0', '='] ++ render R ++ [' ', '#', '0', '#', Char.ofNat 41] := by
  refine ⟨listToks es, ?_, ?_, ?_⟩
  · have h := twice_rec_s es hne hat ⟨mode, 0, limit⟩ rfl k ⟨[], none⟩ trivial
      (fun _ _ => trivial) (fun _ _ => trivial)
    rw [h]
    simp
  · have hpos : 0 < es.length := List.length_pos.mpr hne
    have hw := twice_walk es hne hat ⟨mode, 0, limit⟩ (k + 1)
    have e1 : es.length + 2 + (k + 1) = es.length + 3 + k := by omega
    rw [e1] at hw
    simp only [write_ss, make_walker_port, hw]
    have h0 : twiceHeap es 0 = some (.pair (.ptr 2) (.ptr 1)) := by simp [twiceHeap]
    have h1 : twiceHeap es 1 = some (.pair (.ptr 2) SCM_NIL) := by simp [twiceHeap]
    have hn0 : SCM_NUMBERP (twiceHeap es) (.ptr 0) = false := by simp [SCM_NUMBERP, deref, h0]
    have hne0 : ¬ (deref (twiceHeap es) (.ptr 0) = some (.string []) ∨
        deref (twiceHeap es) (.ptr 0) = some (.vector [])) := by
      simp [deref, h0]
    have hp0 : SCM_PAIRP (twiceHeap es) (.ptr 0) = true := by simp [SCM_PAIRP, deref, h0]
    have hp1 : SCM_PAIRP (twiceHeap es) (.ptr 1) = true := by simp [SCM_PAIRP, deref, h1]
    have hcar0 : SCM_CAR (twiceHeap es) (.ptr 0) = .ptr 2 := by simp [SCM_CAR, deref, h0]
    have hcdr0 : SCM_CDR (twiceHeap es) (.ptr 0) = .ptr 1 := by simp [SCM_CDR, deref, h0]
    have hcar1 : SCM_CAR (twiceHeap es) (.ptr 1) = .ptr 2 := by simp [SCM_CAR, deref, h1]
    have hcdr1 : SCM_CDR (twiceHeap es) (.ptr 1) = SCM_NIL := by simp [SCM_CDR, deref, h1]
    have hq : quote_shorthand (.ptr 2) = none := by
      simp [quote_shorthand, SCM_SYM_QUOTE, SCM_SYM_QUASIQUOTE, SCM_SYM_UNQUOTE,
        SCM_SYM_UNQUOTE_SPLICING]
    have hu0 : ∀ out : List Tok,
        Unflagged (ScmPort.mk out (some (0, twiceTable es.length))).data (.ptr 0) := by
      intro out
      right
      simp [twiceTable]
    have e2 : es.length + 3 + k = (es.length + 2 + k) + 1 := by omega
    rw [e2, write_ss_rec, if_neg (limit_off _ rfl _)]
    simp only [ptrp_ptr, hn0, if_neg hne0, write_label_unflagged _ _ (hu0 _), Bool.not_true,
      Bool.false_eq_true, if_false, write_aggregate, hp0, if_true, SCM_CDDR, hcdr0, hp1, hcdr1,
      hcar0, hq]
    have hnn : SCM_NULLP SCM_NIL = true := rfl
    have hn1 : SCM_NULLP (.ptr 1) = false := rfl
    simp only [hnn, Bool.and_self, if_true]
    have e3 : es.length + 2 + k = (es.length + 1 + k) + 1 := by omega
    have hlab := twice_rec_label es hne hat ⟨mode, 0, limit⟩ rfl (k + 1)
      (Scm_PutcUnsafe (Char.ofNat 40) ⟨port.out, some (0, twiceTable es.length)⟩) rfl
    have e4 : es.length + 1 + (k + 1) = es.length + 2 + k := by omega
    rw [e4] at hlab
    conv => lhs; rw [e3, write_list_loop]
    rw [← e3, hcar0, hlab]
    simp only [andThen, hcdr0, hn1, hp1, Bool.not_true, Bool.false_eq_true, if_false]
    have hsh : ∀ out : List Tok, shared_cdr (.ptr 1)
        ⟨out, some (1, Scm_HashTablePut (twiceTable es.length) (.ptr 2) (.int 0))⟩ = false := by
      intro out
      apply shared_cdr_unflagged
      right
      simp [Scm_HashTablePut, twiceTable, hpos]
    rw [hsh]
    simp only [Bool.false_eq_true, if_false]
    have e5 : es.length + 1 + k = (es.length + k) + 1 := by omega
    conv => lhs; rw [e5, write_list_loop]
    have hb : ∀ p : ScmPort,
        p.data = some (1, Scm_HashTablePut (twiceTable es.length) (.ptr 2) (.int 0)) →
        write_ss_rec (twiceHeap es) ⟨mode, 0, limit⟩ (es.length + 2 + k) (.ptr 2) p
          = ({ p with out := p.out ++ [Tok.backref 0] }, Outcome.done) := by
      intro p hp
      have hb0 := twice_rec_back es hne ⟨mode, 0, limit⟩ rfl (es.length + 1 + k) 1
        (Scm_HashTablePut (twiceTable es.length) (.ptr 2) (.int 0)) p hp
        (by simp [Scm_HashTablePut])
      have e6 : es.length + 1 + k + 1 = es.length + 2 + k := by omega
      rw [e6] at hb0
      exact hb0
    rw [hcar1, hb _ rfl]
    simp only [andThen, hcdr1, hnn, if_true]
    simp [Scm_PutcUnsafe]
  · have hz : Nat.toDigits 10 0 = ['0'] := by decide
    have hf0 : fmt_ld 0 = ['0'] := by decide
    simp [render, render_append, Tok.chars, hz, hf0]


/-- C7 (witness): for `s = (a b)` the list `(s s)` is written as
`(#0=(a b) #0#)`. -/
theorem write_ss_shared_twice_witness :
    ([.symbol ['a'], .symbol ['b']] : List ScmObj) ≠ [] ∧
    (∀ e ∈ ([.symbol ['a'], .symbol ['b']] : List ScmObj), IsAtom e) ∧
    (∃ R : List Tok,
      write_ss_rec (twiceHeap [.symbol ['a'], .symbol ['b']]) ⟨0, 0, 0⟩ 3 (.ptr 2) ⟨[], none⟩
        = (⟨R, none⟩, Outcome.done) ∧
      write_ss (twiceHeap [.symbol ['a'], .symbol ['b']]) ⟨0, 0, 0⟩ 5 (.ptr 0) ⟨[], none⟩
        = (⟨Tok.text [Char.ofNat 40] :: Tok.label 0 :: R ++
              [Tok.text [' '], Tok.backref 0, Tok.text [Char.ofNat 41]], none⟩,
            Outcome.done)) ∧
    render (write_ss (twiceHeap [.symbol ['a'], .symbol ['b']]) ⟨0, 0, 0⟩ 5 (.ptr 0)
        ⟨[], none⟩).1.out
      = [Char.ofNat 40, '#', '0', '=', Char.ofNat 40, 'a', ' ', 'b', Char.ofNat 41, ' ', '#', '0',
          '#', Char.ofNat 41] := by
  have hat : ∀ e ∈ ([.symbol ['a'], .symbol ['b']] : List ScmObj), IsAtom e := by
    intro e he
    simp only [List.mem_cons, List.mem_singleton, List.not_mem_nil, or_false] at he
    rcases he with rfl | rfl
    · exact Or.inr ⟨_, rfl⟩
    · exact Or.inr ⟨_, rfl⟩
  refine ⟨by decide, hat, ?_, by decide⟩
  obtain ⟨R, h1, h2, _⟩ :=
    write_ss_shared_twice [.symbol ['a'], .symbol ['b']] (by decide) hat 0 0 0 ⟨[], none⟩
  exact ⟨R, h1, h2⟩

/-! ## Reading back what pass 2 wrote -/

theorem digitChar_isDigit (m : Nat) (h : m < 10) :
    (Nat.digitChar m).isDigit = true ∧ (Nat.digitChar m).toNat - 48 = m := by
  interval_cases m <;> decide

theorem readDigits_append (pre : List Char) (hpre : ∀ c ∈ pre, c.isDigit = true) :
    ∀ (rest : List Char) (k : Nat),
      readDigits (pre ++ rest) k
        = readDigits rest (pre.foldl (fun acc c => acc * 10 + (c.toNat - 48)) k) := by
  induction pre with
  | nil => intro rest k; rfl
  | cons c pre ih =>
    intro rest k
    have hc := hpre c (List.mem_cons_self _ _)
    simp only [List.cons_append, readDigits, hc, if_true, List.foldl_cons]
    exact ih (fun x hx => hpre x (List.mem_cons_of_mem _ hx)) rest _

theorem toDigitsCore_spec : ∀ (fuel n : Nat) (acc : List Char), n < fuel →
    ∃ pre, Nat.toDigitsCore 10 fuel n acc = pre ++ acc ∧ pre ≠ [] ∧
      (∀ c ∈ pre, c.isDigit = true) ∧
      ∀ k, pre.foldl (fun a c => a * 10 + (c.toNat - 48)) k = k * 10 ^ pre.length + n := by
  intro fuel
  induction fuel with
  | zero => intro n acc h; omega
  | succ f ih =>
    intro n acc h
    have hd := digitChar_isDigit (n % 10) (Nat.mod_lt _ (by decide))
    unfold Nat.toDigitsCore
    by_cases h0 : n / 10 = 0
    · simp only [h0, if_true]
      refine ⟨[Nat.digitChar (n % 10)], rfl, by simp, ?_, ?_⟩
      · intro c hc
        simp only [List.mem_singleton] at hc
        rw [hc]; exact hd.1
      · intro k
        simp only [List.foldl_cons, List.foldl_nil, hd.2, List.length_singleton, pow_one]
        omega
    · simp only [h0, if_false]
      obtain ⟨pre, he, _, hdig, hval⟩ := ih (n / 10) (Nat.digitChar (n % 10) :: acc) (by omega)
      refine ⟨pre ++ [Nat.digitChar (n % 10)], by simp [he], by simp, ?_, ?_⟩
      · intro c hc
        simp only [List.mem_append, List.mem_singleton] at hc
        rcases hc with hc | hc
        · exact hdig c hc
        · rw [hc]; exact hd.1
      · intro k
        simp only [List.foldl_append, List.foldl_cons, List.foldl_nil, hval, hd.2,
          List.length_append, List.length_singleton, pow_succ]
        have := Nat.div_add_mod n 10
        nlinarith [this]

theorem toDigits_spec (n : Nat) :
    Nat.toDigits 10 n ≠ [] ∧ (∀ c ∈ Nat.toDigits 10 n, c.isDigit = true) ∧
      (Nat.toDigits 10 n).foldl (fun a c => a * 10 + (c.toNat - 48)) 0 = n := by
  obtain ⟨pre, he, hne, hdig, hval⟩ := toDigitsCore_spec (n + 1) n [] (by omega)
  have e : Nat.toDigits 10 n = pre := by
    unfold Nat.toDigits
    rw [he]; simp
  rw [e]
  exact ⟨hne, hdig, by simpa using hval 0⟩

theorem follow_not_digit (rest : List Char) (h : Follow rest) :
    ∀ k, readDigits rest k = (k, rest) := by
  intro k
  rcases h with rfl | ⟨c, r, rfl, hc⟩
  · rfl
  · have : c.isDigit = false := by
      simp only [isDelimiter, Bool.or_eq_true, decide_eq_true_eq] at hc
      rcases hc with ((rfl | rfl) | rfl) | rfl <;> decide
    simp [readDigits, this]

/-- Reading the digits that the writer puts for `n` gives `n` back. -/
theorem readDigits_toDigits (n : Nat) (rest : List Char) (h : Follow rest) :
    readDigits (Nat.toDigits 10 n ++ rest) 0 = (n, rest) := by
  obtain ⟨_, hdig, hval⟩ := toDigits_spec n
  rw [readDigits_append _ hdig, hval, follow_not_digit rest h]


theorem readString_cons (c : Char) (rest : List Char) :
    readString (c :: rest)
      = if c = '"' then some ([], rest)
        else if c = '\\' then
          match rest with
          | [] => none
          | x :: rest2 =>
            match unescape x, readString rest2 with
            | some ch, some r => some (ch :: r.1, r.2)
            | _, _ => none
        else
          match readString rest with
          | some r => some (c :: r.1, r.2)
          | none => none := by
  rw [readString.eq_def]

theorem readString_escape_one (c : Char) (tl : List Char) :
    readString (string_escape c ++ tl)
      = match readString tl with
        | some r => some (c :: r.1, r.2)
        | none => none := by
  unfold string_escape
  by_cases h1 : c = '\\'
  · subst h1
    simp [readString, unescape]
    cases readString tl <;> rfl
  by_cases h2 : c = '"'
  · subst h2
    simp [readString, unescape]
    cases readString tl <;> rfl
  by_cases h3 : c = '\n'
  · subst h3
    simp [readString, unescape]
    cases readString tl <;> rfl
  by_cases h4 : c = '\t'
  · subst h4
    simp [readString, unescape]
    cases readString tl <;> rfl
  by_cases h5 : c = '\r'
  · subst h5
    simp [readString, unescape]
    cases readString tl <;> rfl
  by_cases h6 : c = Char.ofNat 12
  · subst h6
    simp [readString, unescape]
    cases readString tl <;> rfl
  by_cases h7 : c = Char.ofNat 0
  · subst h7
    simp [readString, unescape]
    cases readString tl <;> rfl
  simp only [h1, h2, h3, h4, h5, h6, h7, if_false, List.cons_append, List.nil_append]
  rw [readString_cons]
  simp [h1, h2]

/-- Reading the escaped characters of a string up to the closing quote gives
the string back. -/
theorem readString_escaped (cs rest : List Char) :
    readString (cs.flatMap string_escape ++ '"' :: rest) = some (cs, rest) := by
  induction cs with
  | nil => simp [readString_cons]
  | cons c cs ih =>
    simp only [List.flatMap_cons, List.append_assoc]
    rw [readString_escape_one, ih]

theorem takeWhile_follow (more rest : List Char)
    (hm : ∀ c ∈ more, isDelimiter c = false) (h : Follow rest) :
    (more ++ rest).takeWhile (fun x => !isDelimiter x) = more ∧
    (more ++ rest).dropWhile (fun x => !isDelimiter x) = rest := by
  induction more with
  | nil =>
    rcases h with rfl | ⟨c, r, rfl, hc⟩
    · simp
    · simp [List.takeWhile, List.dropWhile, hc]
  | cons c more ih =>
    have hc := hm c (List.mem_cons_self _ _)
    have := ih (fun x hx => hm x (List.mem_cons_of_mem _ hx))
    simp [List.takeWhile, List.dropWhile, hc, this.1, this.2]

theorem char_names_spec : ∀ n, n < 33 →
    2 ≤ (char_names.getD n []).length ∧
      (char_names.getD n []).tail.all (fun c => !isDelimiter c) = true ∧
      readCharName (char_names.getD n []) = some (Char.ofNat n) := by
  decide


theorem read_datum (fuel : Nat) (c : Char) (rest : List Char) :
    read (fuel + 1) .datum (c :: rest) = readDatumStep (read fuel) c rest := rfl

theorem read_tail (fuel : Nat) (c : Char) (rest : List Char) :
    read (fuel + 1) .tail (c :: rest) = readTailStep (read fuel) c rest := rfl

theorem read_vtail (fuel : Nat) (c : Char) (rest : List Char) :
    read (fuel + 1) .vtail (c :: rest) = readVtailStep (read fuel) c rest := rfl


theorem charName_spec (c : Char) :
    ∃ c0 more, charName c = c0 :: more ∧ (∀ x ∈ more, isDelimiter x = false) ∧
      readCharName (c0 :: more) = some c := by
  unfold charName
  by_cases h1 : c.toNat ≤ 0x20
  · rw [if_pos h1]
    obtain ⟨hlen, hall, hread⟩ := char_names_spec c.toNat (by omega)
    cases hn : char_names.getD c.toNat [] with
    | nil => rw [hn] at hlen; simp at hlen
    | cons c0 more =>
      rw [hn] at hall hread
      refine ⟨c0, more, rfl, ?_, ?_⟩
      · intro x hx
        simp only [List.tail_cons, List.all_eq_true, Bool.not_eq_true'] at hall
        exact hall x hx
      · rw [hread, Char.ofNat_toNat]
  · rw [if_neg h1]
    by_cases h2 : c.toNat = 0x7f
    · rw [if_pos h2]
      refine ⟨'d', ['e', 'l'], rfl, by decide, ?_⟩
      have : c = Char.ofNat 0x7f := by rw [← h2, Char.ofNat_toNat]
      rw [this]
      decide
    · rw [if_neg h2]
      exact ⟨c, [], rfl, by simp, rfl⟩

theorem read_char (fuel : Nat) (c : Char) (rest : List Char) (h : Follow rest) :
    read (fuel + 1) .datum ('#' :: '\\' :: charName c ++ rest) = some (Datum.char c, rest) := by
  obtain ⟨c0, more, hn, hm, hr⟩ := charName_spec c
  obtain ⟨ht, hd⟩ := takeWhile_follow more rest hm h
  have h1 : ('#' : Char) ≠ Char.ofNat 40 := by decide
  have h2 : ('\\' : Char) ≠ 't' := by decide
  have h3 : ('\\' : Char) ≠ 'f' := by decide
  rw [hn]
  simp only [List.cons_append, read_datum, readDatumStep, if_neg h1, if_true, if_neg h2,
    if_neg h3, ht, hd, hr]

theorem read_str (fuel : Nat) (cs rest : List Char) :
    read (fuel + 1) .datum ('"' :: (cs.flatMap string_escape ++ ['"']) ++ rest)
      = some (Datum.str cs, rest) := by
  have h1 : ('"' : Char) ≠ Char.ofNat 40 := by decide
  have h2 : ('"' : Char) ≠ '#' := by decide
  have e : '"' :: (cs.flatMap string_escape ++ ['"']) ++ rest
      = '"' :: (cs.flatMap string_escape ++ '"' :: rest) := by simp
  rw [e, read_datum]
  simp only [readDatumStep, if_neg h1, if_neg h2, if_true, readString_escaped]

theorem read_int (fuel : Nat) (n : Int) (rest : List Char) (h : Follow rest) :
    read (fuel + 1) .datum (fmt_ld n ++ rest) = some (Datum.int n, rest) := by
  unfold fmt_ld
  by_cases hn : n < 0
  · rw [if_pos hn]
    obtain ⟨hne, hdig, _⟩ := toDigits_spec n.natAbs
    have h1 : ('-' : Char) ≠ Char.ofNat 40 := by decide
    have h2 : ('-' : Char) ≠ '#' := by decide
    have h3 : ('-' : Char) ≠ '"' := by decide
    cases hd : Nat.toDigits 10 n.natAbs with
    | nil => exact absurd hd hne
    | cons d ds =>
      have hdd : d.isDigit = true := hdig d (by rw [hd]; exact List.mem_cons_self _ _)
      have hr := readDigits_toDigits n.natAbs rest h
      rw [hd] at hr
      simp only [List.cons_append] at hr ⊢
      rw [read_datum]
      have e : -((n.natAbs : Nat) : Int) = n := by omega
      simp only [readDatumStep, if_neg h1, if_neg h2, if_neg h3, if_true, hdd, hr, e]
  · rw [if_neg hn]
    obtain ⟨hne, hdig, _⟩ := toDigits_spec n.toNat
    cases hd : Nat.toDigits 10 n.toNat with
    | nil => exact absurd hd hne
    | cons d ds =>
      have hdd : d.isDigit = true := hdig d (by rw [hd]; exact List.mem_cons_self _ _)
      have h1 : d ≠ Char.ofNat 40 := by intro e; rw [e] at hdd; exact absurd hdd (by decide)
      have h2 : d ≠ '#' := by intro e; rw [e] at hdd; exact absurd hdd (by decide)
      have h3 : d ≠ '"' := by intro e; rw [e] at hdd; exact absurd hdd (by decide)
      have h4 : d ≠ '-' := by intro e; rw [e] at hdd; exact absurd hdd (by decide)
      have hr := readDigits_toDigits n.toNat rest h
      rw [hd] at hr
      simp only [List.cons_append] at hr ⊢
      rw [read_datum]
      have e : ((n.toNat : Nat) : Int) = n := Int.toNat_of_nonneg (by omega)
      simp only [readDatumStep, if_neg h1, if_neg h2, if_neg h3, if_neg h4, hdd, if_true, hr, e]

theorem text_bool (b : Bool) : (Datum.bool b).text = (Datum.bool b).atomText := by
  cases b <;> rfl
theorem text_nil : Datum.nil.text = Datum.nil.atomText := rfl
theorem text_int (n : Int) : (Datum.int n).text = fmt_ld n := rfl
theorem text_char (c : Char) : (Datum.char c).text = '#' :: '\\' :: charName c := rfl
theorem text_str (cs : List Char) :
    (Datum.str cs).text = '"' :: (cs.flatMap string_escape ++ ['"']) := rfl
theorem text_pair (a d : Datum) : (Datum.pair a d).text = '(' :: (a.text ++ d.tailText) := by
  rw [Datum.text]
theorem text_vec_nil : (Datum.vec []).text = "#()".toList := by
  rw [Datum.text]
theorem text_vec_cons (e : Datum) (es : List Datum) :
    (Datum.vec (e :: es)).text = '#' :: '(' :: (e.text ++ Datum.vecTail es) := by
  rw [Datum.text]

/-- The text of a tree starts with a character that is neither a closing
parenthesis nor a dot. -/
theorem text_head (d : Datum) : ∃ c tl, d.text = c :: tl ∧ c ≠ Char.ofNat 41 ∧ c ≠ '.' := by
  cases d with
  | pair a d => exact ⟨_, _, text_pair a d, by decide, by decide⟩
  | vec es =>
    cases es with
    | nil => exact ⟨_, _, rfl, by decide, by decide⟩
    | cons e es => exact ⟨_, _, text_vec_cons e es, by decide, by decide⟩
  | bool b => cases b <;> exact ⟨_, _, rfl, by decide, by decide⟩
  | nil => exact ⟨_, _, rfl, by decide, by decide⟩
  | char c => exact ⟨_, _, rfl, by decide, by decide⟩
  | str cs => exact ⟨_, _, rfl, by decide, by decide⟩
  | int n =>
    rw [text_int]
    unfold fmt_ld
    by_cases hn : n < 0
    · rw [if_pos hn]
      exact ⟨_, _, rfl, by decide, by decide⟩
    · rw [if_neg hn]
      obtain ⟨hne, hdig, _⟩ := toDigits_spec n.toNat
      cases hd : Nat.toDigits 10 n.toNat with
      | nil => exact absurd hd hne
      | cons d ds =>
        have hdd : d.isDigit = true := hdig d (by rw [hd]; exact List.mem_cons_self _ _)
        refine ⟨d, ds, rfl, ?_, ?_⟩
        · intro e; rw [e] at hdd; exact absurd hdd (by decide)
        · intro e; rw [e] at hdd; exact absurd hdd (by decide)


theorem size_pair (a d : Datum) : (Datum.pair a d).size = a.size + d.size + 1 := by
  rw [Datum.size]
theorem size_vec (es : List Datum) : (Datum.vec es).size = Datum.size.sizeList es + 1 := by
  rw [Datum.size]
theorem sizeList_cons (e : Datum) (es : List Datum) :
    Datum.size.sizeList (e :: es) = e.size + Datum.size.sizeList es := by
  rw [Datum.size.sizeList]
theorem size_pos (d : Datum) : 1 ≤ d.size := by
  cases d <;> simp [Datum.size]

theorem tailText_nil : Datum.nil.tailText = [Char.ofNat 41] := rfl
theorem tailText_pair (a d : Datum) :
    (Datum.pair a d).tailText = ' ' :: (a.text ++ d.tailText) := by
  rw [Datum.tailText]
theorem vecTail_nil : Datum.vecTail [] = [Char.ofNat 41] := rfl
theorem vecTail_cons (e : Datum) (es : List Datum) :
    Datum.vecTail (e :: es) = ' ' :: (e.text ++ Datum.vecTail es) := by
  rw [Datum.vecTail]

/-- The list tail of a tree that is neither the empty list nor a pair is the
dotted form. -/
theorem tailText_other (d : Datum) (h1 : d ≠ Datum.nil) (h2 : ∀ a b, d ≠ Datum.pair a b) :
    d.tailText = ' ' :: '.' :: ' ' :: (d.text ++ [Char.ofNat 41]) := by
  cases d with
  | nil => exact absurd rfl h1
  | pair a b => exact absurd rfl (h2 a b)
  | bool b => cases b <;> rfl
  | int n => rfl
  | char c => rfl
  | str cs => rfl
  | vec es =>
    cases es with
    | nil => rfl
    | cons e es => rw [Datum.tailText, text_vec_cons]; rfl

theorem follow_close (rest : List Char) : Follow (Char.ofNat 41 :: rest) :=
  Or.inr ⟨_, _, rfl, by decide⟩

theorem follow_space (rest : List Char) : Follow (' ' :: rest) :=
  Or.inr ⟨_, _, rfl, by decide⟩

theorem follow_tailText (d : Datum) (rest : List Char) : Follow (d.tailText ++ rest) := by
  by_cases h1 : d = Datum.nil
  · subst h1; exact follow_close rest
  · by_cases h2 : ∃ a b, d = Datum.pair a b
    · obtain ⟨a, b, rfl⟩ := h2
      rw [tailText_pair]; exact follow_space _
    · rw [tailText_other d h1 (fun a b e => h2 ⟨a, b, e⟩)]
      exact follow_space _

theorem follow_vecTail (es : List Datum) (rest : List Char) :
    Follow (Datum.vecTail es ++ rest) := by
  cases es with
  | nil => exact follow_close rest
  | cons e es => rw [vecTail_cons]; exact follow_space _

/-- Reading a vector with elements, given that its first element and the rest
read back. -/
theorem read_vec_of (e : Datum) (es : List Datum)
    (he : ∀ fuel rest, e.size ≤ fuel → Follow rest →
      read fuel .datum (e.text ++ rest) = some (e, rest))
    (hes : ∀ fuel rest, Datum.size.sizeList es + 1 ≤ fuel →
      read fuel .vtail (Datum.vecTail es ++ rest) = some (Datum.vec es, rest))
    (fuel : Nat) (rest : List Char) (hf : (Datum.vec (e :: es)).size ≤ fuel) :
    read fuel .datum ((Datum.vec (e :: es)).text ++ rest) = some (Datum.vec (e :: es), rest) := by
  rw [size_vec, sizeList_cons] at hf
  have hpos := size_pos e
  obtain ⟨f, rfl⟩ : ∃ f, fuel = f + 1 := ⟨fuel - 1, by omega⟩
  obtain ⟨c, tl, hc, hne, _⟩ := text_head e
  have h1 : ('#' : Char) ≠ Char.ofNat 40 := by decide
  have h2 : (Char.ofNat 40 : Char) ≠ 't' := by decide
  have h3 : (Char.ofNat 40 : Char) ≠ 'f' := by decide
  have h4 : (Char.ofNat 40 : Char) ≠ '\\' := by decide
  have hread := he f (Datum.vecTail es ++ rest) (by omega) (follow_vecTail es rest)
  have hread2 := hes f rest (by omega)
  rw [text_vec_cons]
  simp only [List.cons_append, List.append_assoc, read_datum, readDatumStep, if_neg h1, if_true,
    if_neg h2, if_neg h3, if_neg h4]
  rw [hc] at hread ⊢
  simp only [List.cons_append] at hread ⊢
  simp only [if_neg hne, hread, hread2]

/-- Reading a dotted tail, given that the tree after the dot reads back. -/
theorem read_dotted (d : Datum) (h1 : d ≠ Datum.nil) (h2 : ∀ a b, d ≠ Datum.pair a b)
    (hd : ∀ fuel rest, d.size ≤ fuel → Follow rest →
      read fuel .datum (d.text ++ rest) = some (d, rest))
    (fuel : Nat) (rest : List Char) (hf : d.size + 1 ≤ fuel) :
    read fuel .tail (d.tailText ++ rest) = some (d, rest) := by
  obtain ⟨f, rfl⟩ : ∃ f, fuel = f + 1 := ⟨fuel - 1, by omega⟩
  have h3 : (' ' : Char) ≠ Char.ofNat 41 := by decide
  have hread := hd f (Char.ofNat 41 :: rest) (by omega) (follow_close rest)
  rw [tailText_other d h1 h2]
  simp only [List.cons_append, List.append_assoc, read_tail, readTailStep, if_neg h3, if_true,
    List.take, List.drop, List.singleton_append, List.nil_append, hread]



mutual
/-- Reading the text of a tree gives the tree back. -/
theorem read_text : ∀ (d : Datum) (fuel : Nat) (rest : List Char), d.size ≤ fuel → Follow rest →
    read fuel .datum (d.text ++ rest) = some (d, rest)
  | .bool b, fuel, rest, hf, _ => by
    obtain ⟨f, rfl⟩ : ∃ f, fuel = f + 1 := ⟨fuel - 1, by have := size_pos (.bool b); omega⟩
    cases b <;> rfl
  | .nil, fuel, rest, hf, _ => by
    obtain ⟨f, rfl⟩ : ∃ f, fuel = f + 1 := ⟨fuel - 1, by have := size_pos .nil; omega⟩
    rfl
  | .int n, fuel, rest, hf, hr => by
    obtain ⟨f, rfl⟩ : ∃ f, fuel = f + 1 := ⟨fuel - 1, by have := size_pos (.int n); omega⟩
    rw [text_int]
    exact read_int f n rest hr
  | .char c, fuel, rest, hf, hr => by
    obtain ⟨f, rfl⟩ : ∃ f, fuel = f + 1 := ⟨fuel - 1, by have := size_pos (.char c); omega⟩
    rw [text_char]
    exact read_char f c rest hr
  | .str cs, fuel, rest, hf, _ => by
    obtain ⟨f, rfl⟩ : ∃ f, fuel = f + 1 := ⟨fuel - 1, by have := size_pos (.str cs); omega⟩
    rw [text_str]
    exact read_str f cs rest
  | .vec [], fuel, rest, hf, _ => by
    obtain ⟨f, rfl⟩ : ∃ f, fuel = f + 1 := ⟨fuel - 1, by have := size_pos (.vec []); omega⟩
    rfl
  | .vec (e :: es), fuel, rest, hf, _ =>
    read_vec_of e es (read_text e) (read_vecTail es) fuel rest hf
  | .pair a d, fuel, rest, hf, _ => by
    rw [size_pair] at hf
    have hpa := size_pos a
    obtain ⟨f, rfl⟩ : ∃ f, fuel = f + 1 := ⟨fuel - 1, by omega⟩
    obtain ⟨c, tl, hc, hne, _⟩ := text_head a
    have hread := read_text a f (d.tailText ++ rest) (by omega) (follow_tailText d rest)
    have hread2 := read_tailText d f rest (by omega)
    rw [text_pair]
    simp only [List.cons_append, List.append_assoc, read_datum, readDatumStep, if_true]
    rw [hc] at hread ⊢
    simp only [List.cons_append] at hread ⊢
    simp only [if_neg hne, hread, hread2]
/-- Reading the rest of a list gives the cdr back. -/
theorem read_tailText : ∀ (d : Datum) (fuel : Nat) (rest : List Char), d.size + 1 ≤ fuel →
    read fuel .tail (d.tailText ++ rest) = some (d, rest)
  | .nil, fuel, rest, hf => by
    obtain ⟨f, rfl⟩ : ∃ f, fuel = f + 1 := ⟨fuel - 1, by omega⟩
    rfl
  | .pair a d, fuel, rest, hf => by
    rw [size_pair] at hf
    obtain ⟨f, rfl⟩ : ∃ f, fuel = f + 1 := ⟨fuel - 1, by omega⟩
    obtain ⟨c, tl, hc, _, hnd⟩ := text_head a
    have h3 : (' ' : Char) ≠ Char.ofNat 41 := by decide
    have hread := read_text a f (d.tailText ++ rest) (by omega) (follow_tailText d rest)
    have hread2 := read_tailText d f rest (by omega)
    rw [tailText_pair]
    simp only [List.cons_append, List.append_assoc, read_tail, readTailStep, if_neg h3, if_true]
    rw [hc] at hread ⊢
    simp only [List.cons_append] at hread ⊢
    have htake : ¬ List.take 2 (c :: (tl ++ (d.tailText ++ rest))) = ['.', ' '] := by
      intro h
      cases htl : tl ++ (d.tailText ++ rest) with
      | nil => rw [htl] at h; simp at h
      | cons x xs => rw [htl] at h; simp at h; exact hnd h.1
    simp only [if_neg htake, hread, hread2]
  | .bool b, fuel, rest, hf =>
    read_dotted (.bool b) (by simp) (by simp) (fun f r hf hr => by
      obtain ⟨f2, rfl⟩ : ∃ f2, f = f2 + 1 := ⟨f - 1, by have := size_pos (.bool b); omega⟩
      cases b <;> rfl) fuel rest hf
  | .int n, fuel, rest, hf =>
    read_dotted (.int n) (by simp) (by simp) (fun f r hf hr => by
      obtain ⟨f2, rfl⟩ : ∃ f2, f = f2 + 1 := ⟨f - 1, by have := size_pos (.int n); omega⟩
      rw [text_int]
      exact read_int f2 n r hr) fuel rest hf
  | .char c, fuel, rest, hf =>
    read_dotted (.char c) (by simp) (by simp) (fun f r hf hr => by
      obtain ⟨f2, rfl⟩ : ∃ f2, f = f2 + 1 := ⟨f - 1, by have := size_pos (.char c); omega⟩
      rw [text_char]
      exact read_char f2 c r hr) fuel rest hf
  | .str cs, fuel, rest, hf =>
    read_dotted (.str cs) (by simp) (by simp) (fun f r hf _ => by
      obtain ⟨f2, rfl⟩ : ∃ f2, f = f2 + 1 := ⟨f - 1, by have := size_pos (.str cs); omega⟩
      rw [text_str]
      exact read_str f2 cs r) fuel rest hf
  | .vec [], fuel, rest, hf =>
    read_dotted (.vec []) (by simp) (by simp) (fun f r hf _ => by
      obtain ⟨f2, rfl⟩ : ∃ f2, f = f2 + 1 := ⟨f - 1, by have := size_pos (.vec []); omega⟩
      rfl) fuel rest hf
  | .vec (e :: es), fuel, rest, hf =>
    read_dotted (.vec (e :: es)) (by simp) (by simp)
      (fun f r hf _ => read_vec_of e es (read_text e) (read_vecTail es) f r hf) fuel rest hf
/-- Reading the rest of a vector gives the remaining elements back. -/
theorem read_vecTail : ∀ (es : List Datum) (fuel : Nat) (rest : List Char),
    Datum.size.sizeList es + 1 ≤ fuel →
    read fuel .vtail (Datum.vecTail es ++ rest) = some (Datum.vec es, rest)
  | [], fuel, rest, hf => by
    obtain ⟨f, rfl⟩ : ∃ f, fuel = f + 1 := ⟨fuel - 1, by omega⟩
    rfl
  | e :: es, fuel, rest, hf => by
    rw [sizeList_cons] at hf
    have hpe := size_pos e
    obtain ⟨f, rfl⟩ : ∃ f, fuel = f + 1 := ⟨fuel - 1, by omega⟩
    have h3 : (' ' : Char) ≠ Char.ofNat 41 := by decide
    have hread := read_text e f (Datum.vecTail es ++ rest) (by omega) (follow_vecTail es rest)
    have hread2 := read_vecTail es f rest (by omega)
    rw [vecTail_cons]
    simp only [List.cons_append, List.append_assoc, read_vtail, readVtailStep, if_neg h3, if_true,
      hread, hread2]
end


theorem size_atom_le (d : Datum) (h : d.size = 1) : d.size ≤ d.text.length := by
  obtain ⟨c, tl, hc, _, _⟩ := text_head d
  rw [h, hc]
  simp

mutual
theorem size_le_text : ∀ d : Datum, d.size ≤ d.text.length
  | .pair a d => by
    have h1 := size_le_text a
    have h2 := size_le_tailText d
    rw [size_pair, text_pair]
    simp only [List.length_cons, List.length_append]
    omega
  | .vec [] => by rw [size_vec]; decide
  | .vec (e :: es) => by
    have h1 := size_le_text e
    have h2 := size_le_vecTail es
    rw [size_vec, sizeList_cons, text_vec_cons]
    simp only [List.length_cons, List.length_append]
    omega
  | .bool b => size_atom_le _ rfl
  | .nil => size_atom_le _ rfl
  | .int n => size_atom_le _ rfl
  | .char c => size_atom_le _ rfl
  | .str cs => size_atom_le _ rfl
theorem size_le_tailText : ∀ d : Datum, d.size ≤ d.tailText.length
  | .nil => by decide
  | .pair a d => by
    have h1 := size_le_text a
    have h2 := size_le_tailText d
    rw [size_pair, tailText_pair]
    simp only [List.length_cons, List.length_append]
    omega
  | .vec [] => by rw [size_vec]; decide
  | .vec (e :: es) => by
    have h1 := size_le_text e
    have h2 := size_le_vecTail es
    rw [tailText_other _ (by simp) (by simp), size_vec, sizeList_cons, text_vec_cons]
    simp only [List.length_cons, List.length_append]
    omega
  | .bool b => by
    rw [tailText_other _ (by simp) (by simp)]
    simp only [List.length_cons, List.length_append]
    have : (Datum.bool b).size = 1 := rfl
    omega
  | .int n => by
    rw [tailText_other _ (by simp) (by simp)]
    simp only [List.length_cons, List.length_append]
    have : (Datum.int n).size = 1 := rfl
    omega
  | .char c => by
    rw [tailText_other _ (by simp) (by simp)]
    simp only [List.length_cons, List.length_append]
    have : (Datum.char c).size = 1 := rfl
    omega
  | .str cs => by
    rw [tailText_other _ (by simp) (by simp)]
    simp only [List.length_cons, List.length_append]
    have : (Datum.str cs).size = 1 := rfl
    omega
theorem size_le_vecTail : ∀ es : List Datum,
    Datum.size.sizeList es + 1 ≤ (Datum.vecTail es).length
  | [] => by decide
  | e :: es => by
    have h1 := size_le_text e
    have h2 := size_le_vecTail es
    rw [sizeList_cons, vecTail_cons]
    simp only [List.length_cons, List.length_append]
    omega
end

/-- The reader gives back every tree from its write-mode text. -/
theorem readText_text (d : Datum) : readText d.text = some d := by
  have h := read_text d (d.text.length + 1) [] (by have := size_le_text d; omega) (Or.inl rfl)
  rw [List.append_nil] at h
  simp [readText, h]


/-! ## Pass 2 on an acyclic value puts the text of its tree -/

theorem writes_done_putc (c : Char) :
    Writes (fun p => (Scm_PutcUnsafe c p, Outcome.done)) [c] := by
  intro p _
  exact ⟨[Tok.text [c]], rfl, by simp [render, Tok.chars]⟩

theorem writes_andThen (f k : ScmPort → ScmPort × Outcome) (t1 t2 : List Char)
    (hf : Writes f t1) (hk : Writes k t2) : Writes (fun p => andThen (f p) k) (t1 ++ t2) := by
  intro p hp
  obtain ⟨toks1, h1, r1⟩ := hf p hp
  obtain ⟨toks2, h2, r2⟩ := hk { p with out := p.out ++ toks1 } hp
  refine ⟨toks1 ++ toks2, ?_, by rw [render_append, r1, r2]⟩
  simp only [h1, andThen, h2, List.append_assoc]

theorem writes_after_putz (f : ScmPort → ScmPort × Outcome) (s t : List Char)
    (hf : Writes f t) : Writes (fun p => f (Scm_PutzUnsafe s p)) (s ++ t) := by
  intro p hp
  obtain ⟨toks, h, r⟩ := hf (Scm_PutzUnsafe s p) hp
  refine ⟨Tok.text s :: toks, ?_, by simp [render, Tok.chars, r]⟩
  simp only [h]
  simp [Scm_PutzUnsafe]

theorem writes_after_putc (f : ScmPort → ScmPort × Outcome) (c : Char) (t : List Char)
    (hf : Writes f t) : Writes (fun p => f (Scm_PutcUnsafe c p)) (c :: t) :=
  writes_after_putz f [c] t hf

theorem writes_congr (f g : ScmPort → ScmPort × Outcome) (t : List Char)
    (h : ∀ p, p.data = none → f p = g p) (hg : Writes g t) : Writes f t := by
  intro p hp
  rw [h p hp]
  exact hg p hp

theorem represents_bool (heap : Heap) (obj : ScmObj) (b : Bool) :
    Represents heap obj (.bool b) ↔ obj = if b then SCM_TRUE else SCM_FALSE := by
  rw [Represents]
theorem represents_nil (heap : Heap) (obj : ScmObj) :
    Represents heap obj .nil ↔ obj = SCM_NIL := by
  rw [Represents]
theorem represents_int (heap : Heap) (obj : ScmObj) (n : Int) :
    Represents heap obj (.int n) ↔ obj = ScmObj.int n := by
  rw [Represents]
theorem represents_char (heap : Heap) (obj : ScmObj) (c : Char) :
    Represents heap obj (.char c) ↔ obj = ScmObj.char c := by
  rw [Represents]
theorem represents_str (heap : Heap) (obj : ScmObj) (cs : List Char) :
    Represents heap obj (.str cs) ↔ ∃ a, obj = ScmObj.ptr a ∧ heap a = some (HeapObj.string cs) := by
  rw [Represents]
theorem represents_pair (heap : Heap) (obj : ScmObj) (da dd : Datum) :
    Represents heap obj (.pair da dd) ↔
      ∃ a x y, obj = ScmObj.ptr a ∧ heap a = some (HeapObj.pair x y) ∧
        Represents heap x da ∧ Represents heap y dd := by
  rw [Represents]
theorem represents_vec (heap : Heap) (obj : ScmObj) (ds : List Datum) :
    Represents heap obj (.vec ds) ↔
      ∃ a es, obj = ScmObj.ptr a ∧ heap a = some (HeapObj.vector es) ∧
        Represents.representsList heap es ds := by
  rw [Represents]

/-- A word that unfolds to a tree is not a symbol, so it never triggers the
quote shorthand. -/
theorem represents_no_quote (heap : Heap) (x : ScmObj) (d : Datum) (h : Represents heap x d) :
    quote_shorthand x = none := by
  have hx : ∀ s, x ≠ ScmObj.symbol s := by
    intro s e
    subst e
    cases d with
    | bool b => rw [represents_bool] at h; cases b <;> cases h
    | nil => rw [represents_nil] at h; cases h
    | int n => rw [represents_int] at h; cases h
    | char c => rw [represents_char] at h; cases h
    | str cs => rw [represents_str] at h; obtain ⟨a, h1, _⟩ := h; cases h1
    | pair a b => rw [represents_pair] at h; obtain ⟨a, _, _, h1, _⟩ := h; cases h1
    | vec es => rw [represents_vec] at h; obtain ⟨a, _, h1, _⟩ := h; cases h1
  simp [quote_shorthand, SCM_SYM_QUOTE, SCM_SYM_QUASIQUOTE, SCM_SYM_UNQUOTE,
    SCM_SYM_UNQUOTE_SPLICING, hx]


theorem render_string_toks (cs : List Char) (mode : Nat) (hm : mode ≠ SCM_WRITE_DISPLAY) :
    render (string_toks cs mode) = '"' :: (cs.flatMap string_escape ++ ['"']) := by
  unfold string_toks
  rw [if_neg hm]
  simp only [render, Tok.chars, render_append, List.cons_append, List.nil_append,
    List.append_nil, List.singleton_append]
  congr 1
  induction cs with
  | nil => rfl
  | cons c cs ih =>
    simp only [List.map_cons, render, Tok.chars, List.flatMap_cons, List.append_assoc]
    rw [ih]

theorem writes_immediate (heap : Heap) (ctx : ScmWriteContext) (hf : ctx.flags = 0)
    (F : Nat) (obj : ScmObj) (t : List Char) (hp : SCM_PTRP obj = false)
    (h : Writes (fun p => write_immediate obj p ctx) t) :
    Writes (write_ss_rec heap ctx (F + 1) obj) t := by
  apply writes_congr _ _ t _ h
  intro p _
  rw [write_ss_rec, if_neg (limit_off ctx hf p)]
  simp [hp]

theorem writes_bool (heap : Heap) (ctx : ScmWriteContext) (hf : ctx.flags = 0) (F : Nat)
    (obj : ScmObj) (b : Bool) (h : Represents heap obj (.bool b)) :
    Writes (write_ss_rec heap ctx (F + 1) obj) (Datum.bool b).text := by
  rw [represents_bool] at h
  subst h
  cases b
  · exact writes_immediate heap ctx hf F _ _ rfl
      (fun p _ => ⟨[Tok.text "#f".toList], rfl, rfl⟩)
  · exact writes_immediate heap ctx hf F _ _ rfl
      (fun p _ => ⟨[Tok.text "#t".toList], rfl, rfl⟩)

theorem writes_nil (heap : Heap) (ctx : ScmWriteContext) (hf : ctx.flags = 0) (F : Nat)
    (obj : ScmObj) (h : Represents heap obj .nil) :
    Writes (write_ss_rec heap ctx (F + 1) obj) Datum.nil.text := by
  rw [represents_nil] at h
  subst h
  exact writes_immediate heap ctx hf F _ _ rfl
    (fun p _ => ⟨[Tok.text "()".toList], rfl, rfl⟩)

theorem writes_int (heap : Heap) (ctx : ScmWriteContext) (hf : ctx.flags = 0) (F : Nat)
    (obj : ScmObj) (n : Int) (h : Represents heap obj (.int n)) :
    Writes (write_ss_rec heap ctx (F + 1) obj) (Datum.int n).text := by
  rw [represents_int] at h
  subst h
  exact writes_immediate heap ctx hf F (.int n) _ rfl
    (fun p _ => ⟨[Tok.text (fmt_ld n)], rfl, by simp [render, Tok.chars, text_int]⟩)

theorem writes_char (heap : Heap) (ctx : ScmWriteContext) (hf : ctx.flags = 0)
    (hm : SCM_WRITE_MODE ctx ≠ SCM_WRITE_DISPLAY) (F : Nat)
    (obj : ScmObj) (c : Char) (h : Represents heap obj (.char c)) :
    Writes (write_ss_rec heap ctx (F + 1) obj) (Datum.char c).text := by
  rw [represents_char] at h
  subst h
  apply writes_immediate heap ctx hf F (.char c) _ rfl
  intro p _
  refine ⟨[Tok.text "#\\".toList, Tok.text (charName c)], ?_, ?_⟩
  · simp only [write_immediate, if_neg hm, charName]
    by_cases h1 : c.toNat ≤ 0x20
    · simp [h1, Scm_PutzUnsafe]
    · by_cases h2 : c.toNat = 0x7f
      · simp [h1, h2, Scm_PutzUnsafe]
      · simp [h1, h2, Scm_PutzUnsafe, Scm_PutcUnsafe]
  · simp [render, Tok.chars, text_char]

theorem writes_str (heap : Heap) (ctx : ScmWriteContext) (hf : ctx.flags = 0)
    (hm : SCM_WRITE_MODE ctx ≠ SCM_WRITE_DISPLAY) (F : Nat)
    (obj : ScmObj) (cs : List Char) (h : Represents heap obj (.str cs)) :
    Writes (write_ss_rec heap ctx (F + 1) obj) (Datum.str cs).text := by
  rw [represents_str] at h
  obtain ⟨a, rfl, ha⟩ := h
  intro p hp
  refine ⟨string_toks cs (SCM_WRITE_MODE ctx), ?_, by rw [render_string_toks _ _ hm, text_str]⟩
  have hg : write_general heap (.ptr a) p ctx
      = ({ p with out := p.out ++ string_toks cs (SCM_WRITE_MODE ctx) }, Outcome.done) := by
    simp [write_general, class_print, ha, string_print_out]
  have hn : SCM_NUMBERP heap (.ptr a) = false := by simp [SCM_NUMBERP, deref, ha]
  have hpp : SCM_PAIRP heap (.ptr a) = false := by simp [SCM_PAIRP, deref, ha]
  have hd : deref heap (.ptr a) = some (.string cs) := by simp [deref, ha]
  rw [write_ss_rec, if_neg (limit_off ctx hf p)]
  simp only [ptrp_ptr, hn, Bool.not_true, Bool.false_eq_true, if_false]
  split
  · exact hg
  · rw [write_label_none _ _ hp]
    simp only [write_aggregate, hpp, Bool.false_eq_true, if_false, hd]
    exact hg


theorem writes_loop_nil (heap : Heap) (rec : ScmObj → ScmPort → ScmPort × Outcome)
    (lf a : Nat) (x : ScmObj) (ta : List Char)
    (ha : heap a = some (.pair x SCM_NIL)) (hx : Writes (rec x) ta) :
    Writes (write_list_loop heap rec (lf + 1) (.ptr a)) (ta ++ [Char.ofNat 41]) := by
  have hcar : SCM_CAR heap (.ptr a) = x := by simp [SCM_CAR, deref, ha]
  have hcdr : SCM_CDR heap (.ptr a) = SCM_NIL := by simp [SCM_CDR, deref, ha]
  have hnn : SCM_NULLP SCM_NIL = true := rfl
  apply writes_congr _ (fun p => andThen (rec x p) (fun p => (Scm_PutcUnsafe (Char.ofNat 41) p,
    Outcome.done))) _ _ (writes_andThen _ _ _ _ hx (writes_done_putc _))
  intro p _
  rw [write_list_loop, hcar]
  simp only [hcdr, hnn, if_true]

theorem writes_loop_dotted (heap : Heap) (rec : ScmObj → ScmPort → ScmPort × Outcome)
    (lf a : Nat) (x y : ScmObj) (ta td : List Char)
    (ha : heap a = some (.pair x y)) (hn : SCM_NULLP y = false) (hp : SCM_PAIRP heap y = false)
    (hx : Writes (rec x) ta) (hy : Writes (rec y) td) :
    Writes (write_list_loop heap rec (lf + 1) (.ptr a))
      (ta ++ (' ' :: '.' :: ' ' :: (td ++ [Char.ofNat 41]))) := by
  have hcar : SCM_CAR heap (.ptr a) = x := by simp [SCM_CAR, deref, ha]
  have hcdr : SCM_CDR heap (.ptr a) = y := by simp [SCM_CDR, deref, ha]
  have hk : Writes (fun p => andThen (rec y (Scm_PutzUnsafe " . ".toList p))
      (fun p => (Scm_PutcUnsafe (Char.ofNat 41) p, Outcome.done)))
      (" . ".toList ++ td ++ [Char.ofNat 41]) :=
    writes_andThen (fun p => rec y (Scm_PutzUnsafe " . ".toList p)) _ _ _
      (writes_after_putz _ _ _ hy) (writes_done_putc _)
  have hk2 := writes_andThen _ _ _ _ hx hk
  have e : ta ++ (" . ".toList ++ td ++ [Char.ofNat 41])
      = ta ++ (' ' :: '.' :: ' ' :: (td ++ [Char.ofNat 41])) := by
    have : " . ".toList = [' ', '.', ' '] := rfl
    rw [this]; simp
  rw [e] at hk2
  apply writes_congr _ _ _ _ hk2
  intro p _
  rw [write_list_loop, hcar]
  simp only [hcdr, hn, hp, Bool.not_false, Bool.false_eq_true, if_false, if_true]

theorem writes_loop_pair (heap : Heap) (rec : ScmObj → ScmPort → ScmPort × Outcome)
    (lf a : Nat) (x y : ScmObj) (ta tl : List Char)
    (ha : heap a = some (.pair x y)) (hp : SCM_PAIRP heap y = true)
    (hx : Writes (rec x) ta) (hy : Writes (write_list_loop heap rec lf y) tl) :
    Writes (write_list_loop heap rec (lf + 1) (.ptr a)) (ta ++ (' ' :: tl)) := by
  have hcar : SCM_CAR heap (.ptr a) = x := by simp [SCM_CAR, deref, ha]
  have hcdr : SCM_CDR heap (.ptr a) = y := by simp [SCM_CDR, deref, ha]
  have hn : SCM_NULLP y = false := by
    cases y <;> simp [SCM_PAIRP, deref] at hp
    rfl
  intro p hpd
  obtain ⟨toks1, h1, r1⟩ := hx p hpd
  obtain ⟨toks2, h2, r2⟩ := hy (Scm_PutcUnsafe ' ' { p with out := p.out ++ toks1 }) hpd
  have hsh : shared_cdr y { p with out := p.out ++ toks1 } = false :=
    shared_cdr_none _ _ hpd
  refine ⟨toks1 ++ Tok.text [' '] :: toks2, ?_, ?_⟩
  · rw [write_list_loop, hcar, h1]
    simp only [andThen, hcdr, hn, hp, Bool.not_true, Bool.false_eq_true, if_false, hsh, h2]
    simp [Scm_PutcUnsafe]
  · simp [render_append, render, Tok.chars, r1, r2]

theorem writes_pair (heap : Heap) (ctx : ScmWriteContext) (hf : ctx.flags = 0) (F a : Nat)
    (x y : ScmObj) (t : List Char) (ha : heap a = some (.pair x y))
    (hq : quote_shorthand x = none)
    (hl : Writes (write_list_loop heap (write_ss_rec heap ctx F) F (.ptr a)) t) :
    Writes (write_ss_rec heap ctx (F + 1) (.ptr a)) (Char.ofNat 40 :: t) := by
  have hn : SCM_NUMBERP heap (.ptr a) = false := by simp [SCM_NUMBERP, deref, ha]
  have hpp : SCM_PAIRP heap (.ptr a) = true := by simp [SCM_PAIRP, deref, ha]
  have hcar : SCM_CAR heap (.ptr a) = x := by simp [SCM_CAR, deref, ha]
  have hne : ¬ (deref heap (.ptr a) = some (.string []) ∨
      deref heap (.ptr a) = some (.vector [])) := by simp [deref, ha]
  apply writes_congr _ _ _ _ (writes_after_putc _ (Char.ofNat 40) t hl)
  intro p hp
  rw [write_ss_rec, if_neg (limit_off ctx hf p)]
  simp only [ptrp_ptr, hn, if_neg hne, write_label_none _ _ hp, write_aggregate, hpp, hcar, hq,
    Bool.not_true, Bool.false_eq_true, if_false, if_true, ite_self]



theorem writes_vec_nil (heap : Heap) (ctx : ScmWriteContext) (hf : ctx.flags = 0) (F : Nat)
    (obj : ScmObj) (h : Represents heap obj (.vec [])) :
    Writes (write_ss_rec heap ctx (F + 1) obj) (Datum.vec []).text := by
  rw [represents_vec] at h
  obtain ⟨a, es, rfl, ha, hes⟩ := h
  cases es with
  | cons e es => simp [Represents.representsList] at hes
  | nil =>
    intro p _
    have hn : SCM_NUMBERP heap (.ptr a) = false := by simp [SCM_NUMBERP, deref, ha]
    have hd : deref heap (.ptr a) = some (.vector []) := by simp [deref, ha]
    refine ⟨[Tok.text "#()".toList], ?_, rfl⟩
    rw [write_ss_rec, if_neg (limit_off ctx hf p)]
    simp [ptrp_ptr, hn, hd, write_general, class_print, ha, Scm_PutzUnsafe]

theorem writes_vec_cons (heap : Heap) (ctx : ScmWriteContext) (hf : ctx.flags = 0) (F a : Nat)
    (x : ScmObj) (xs : List ScmObj) (t : List Char) (ha : heap a = some (.vector (x :: xs)))
    (hl : Writes (write_vector_elts (write_ss_rec heap ctx F) (x :: xs)) t) :
    Writes (write_ss_rec heap ctx (F + 1) (.ptr a)) ('#' :: Char.ofNat 40 :: t) := by
  have hn : SCM_NUMBERP heap (.ptr a) = false := by simp [SCM_NUMBERP, deref, ha]
  have hpp : SCM_PAIRP heap (.ptr a) = false := by simp [SCM_PAIRP, deref, ha]
  have hd : deref heap (.ptr a) = some (.vector (x :: xs)) := by simp [deref, ha]
  have hne : ¬ (deref heap (.ptr a) = some (.string []) ∨
      deref heap (.ptr a) = some (.vector [])) := by simp [deref, ha]
  apply writes_congr _ _ _ _ (writes_after_putz _ "#(".toList t hl)
  intro p hp
  rw [write_ss_rec, if_neg (limit_off ctx hf p)]
  rw [if_neg (by simp [ptrp_ptr]), if_neg (by simp [hn]), if_neg hne]
  simp only [write_label_none _ _ hp, write_aggregate, hpp, hd, Bool.false_eq_true, if_false]

theorem writes_elts_last (rec : ScmObj → ScmPort → ScmPort × Outcome) (x : ScmObj)
    (tx : List Char) (hx : Writes (rec x) tx) :
    Writes (write_vector_elts rec [x]) (tx ++ [Char.ofNat 41]) := by
  apply writes_congr _ _ _ _ (writes_andThen _ _ _ _ hx (writes_done_putc (Char.ofNat 41)))
  intro p _
  rw [write_vector_elts]

theorem writes_elts_more (rec : ScmObj → ScmPort → ScmPort × Outcome) (x x2 : ScmObj)
    (xs : List ScmObj) (tx t : List Char) (hx : Writes (rec x) tx)
    (hl : Writes (write_vector_elts rec (x2 :: xs)) t) :
    Writes (write_vector_elts rec (x :: x2 :: xs)) (tx ++ (' ' :: t)) := by
  apply writes_congr _ _ _ _ (writes_andThen _ _ _ _ hx (writes_after_putc _ ' ' t hl))
  intro p _
  rw [write_vector_elts]

theorem represents_not_null (heap : Heap) (y : ScmObj) (d : Datum) (h : Represents heap y d)
    (h1 : d ≠ Datum.nil) : SCM_NULLP y = false := by
  cases d with
  | nil => exact absurd rfl h1
  | bool b => rw [represents_bool] at h; subst h; cases b <;> rfl
  | int n => rw [represents_int] at h; subst h; rfl
  | char c => rw [represents_char] at h; subst h; rfl
  | str cs => rw [represents_str] at h; obtain ⟨a, rfl, _⟩ := h; rfl
  | pair a b => rw [represents_pair] at h; obtain ⟨a, _, _, rfl, _⟩ := h; rfl
  | vec es => rw [represents_vec] at h; obtain ⟨a, _, rfl, _⟩ := h; rfl

theorem represents_not_pair (heap : Heap) (y : ScmObj) (d : Datum) (h : Represents heap y d)
    (h2 : ∀ a b, d ≠ Datum.pair a b) : SCM_PAIRP heap y = false := by
  cases d with
  | pair a b => exact absurd rfl (h2 a b)
  | nil => rw [represents_nil] at h; subst h; rfl
  | bool b => rw [represents_bool] at h; subst h; cases b <;> rfl
  | int n => rw [represents_int] at h; subst h; rfl
  | char c => rw [represents_char] at h; subst h; rfl
  | str cs =>
    rw [represents_str] at h; obtain ⟨a, rfl, ha⟩ := h
    simp [SCM_PAIRP, deref, ha]
  | vec es =>
    rw [represents_vec] at h; obtain ⟨a, _, rfl, ha, _⟩ := h
    simp [SCM_PAIRP, deref, ha]


theorem representsList_cons (heap : Heap) (x : ScmObj) (xs : List ScmObj) (d : Datum)
    (ds : List Datum) :
    Represents.representsList heap (x :: xs) (d :: ds)
      ↔ Represents heap x d ∧ Represents.representsList heap xs ds := by
  rw [Represents.representsList]

theorem representsList_nil_right (heap : Heap) (xs : List ScmObj)
    (h : Represents.representsList heap xs []) : xs = [] := by
  cases xs with
  | nil => rfl
  | cons x xs => simp [Represents.representsList] at h

theorem representsList_cons_right (heap : Heap) (xs : List ScmObj) (d : Datum)
    (ds : List Datum) (h : Represents.representsList heap xs (d :: ds)) :
    ∃ x xs2, xs = x :: xs2 ∧ Represents heap x d ∧ Represents.representsList heap xs2 ds := by
  cases xs with
  | nil => simp [Represents.representsList] at h
  | cons x xs2 => exact ⟨x, xs2, rfl, (representsList_cons heap x xs2 d ds).mp h⟩

/-- The list loop when the cdr is neither the empty list nor a pair. -/
theorem writes_tail_other (heap : Heap) (rec : ScmObj → ScmPort → ScmPort × Outcome)
    (d : Datum) (y : ScmObj) (lf a : Nat) (x : ScmObj) (ta : List Char)
    (h1 : d ≠ Datum.nil) (h2 : ∀ p q, d ≠ Datum.pair p q)
    (hy : Represents heap y d) (ha : heap a = some (.pair x y)) (hlf : 1 ≤ lf)
    (hx : Writes (rec x) ta) (hd : Writes (rec y) d.text) :
    Writes (write_list_loop heap rec lf (.ptr a)) (ta ++ d.tailText) := by
  obtain ⟨l, rfl⟩ : ∃ l, lf = l + 1 := ⟨lf - 1, by omega⟩
  rw [tailText_other d h1 h2]
  exact writes_loop_dotted heap rec l a x y ta d.text ha (represents_not_null heap y d hy h1)
    (represents_not_pair heap y d hy h2) hx hd


mutual
/-- Pass 2 without identity table, in write mode and with fuel `F` at least
the size of the tree, puts the text of the tree. -/
theorem writes_text (heap : Heap) (ctx : ScmWriteContext) (hf : ctx.flags = 0)
    (hm : SCM_WRITE_MODE ctx ≠ SCM_WRITE_DISPLAY) :
    ∀ (d : Datum) (obj : ScmObj) (F : Nat), Represents heap obj d → d.size ≤ F →
      Writes (write_ss_rec heap ctx F obj) d.text
  | .bool b, obj, F, h, hs => by
    obtain ⟨f, rfl⟩ : ∃ f, F = f + 1 := ⟨F - 1, by have := size_pos (.bool b); omega⟩
    exact writes_bool heap ctx hf f obj b h
  | .nil, obj, F, h, hs => by
    obtain ⟨f, rfl⟩ : ∃ f, F = f + 1 := ⟨F - 1, by have := size_pos .nil; omega⟩
    exact writes_nil heap ctx hf f obj h
  | .int n, obj, F, h, hs => by
    obtain ⟨f, rfl⟩ : ∃ f, F = f + 1 := ⟨F - 1, by have := size_pos (.int n); omega⟩
    exact writes_int heap ctx hf f obj n h
  | .char c, obj, F, h, hs => by
    obtain ⟨f, rfl⟩ : ∃ f, F = f + 1 := ⟨F - 1, by have := size_pos (.char c); omega⟩
    exact writes_char heap ctx hf hm f obj c h
  | .str cs, obj, F, h, hs => by
    obtain ⟨f, rfl⟩ : ∃ f, F = f + 1 := ⟨F - 1, by have := size_pos (.str cs); omega⟩
    exact writes_str heap ctx hf hm f obj cs h
  | .vec [], obj, F, h, hs => by
    obtain ⟨f, rfl⟩ : ∃ f, F = f + 1 := ⟨F - 1, by have := size_pos (.vec []); omega⟩
    exact writes_vec_nil heap ctx hf f obj h
  | .vec (e :: es), obj, F, h, hs => by
    rw [size_vec, sizeList_cons] at hs
    obtain ⟨f, rfl⟩ : ∃ f, F = f + 1 := ⟨F - 1, by omega⟩
    rw [represents_vec] at h
    obtain ⟨a, xs, rfl, ha, hxs⟩ := h
    obtain ⟨x, xs2, rfl, hx, hxs2⟩ := representsList_cons_right heap xs e es hxs
    rw [text_vec_cons]
    exact writes_vec_cons heap ctx hf f a x xs2 _ ha
      (writes_vecTail heap ctx hf hm es xs2 f x e.text hxs2 (by omega)
        (writes_text heap ctx hf hm e x f hx (by omega)))
  | .pair da dd, obj, F, h, hs => by
    rw [size_pair] at hs
    have hpa := size_pos da
    obtain ⟨f, rfl⟩ : ∃ f, F = f + 1 := ⟨F - 1, by omega⟩
    rw [represents_pair] at h
    obtain ⟨a, x, y, rfl, ha, hx, hy⟩ := h
    rw [text_pair]
    exact writes_pair heap ctx hf f a x y _ ha (represents_no_quote heap x da hx)
      (writes_tail heap ctx hf hm dd y f f a x da.text hy ha (by omega) (by omega)
        (writes_text heap ctx hf hm da x f hx (by omega)))
/-- The list loop on a cell whose car has been dealt with and whose cdr
unfolds to `dd` puts the text of the car and the list tail of `dd`. -/
theorem writes_tail (heap : Heap) (ctx : ScmWriteContext) (hf : ctx.flags = 0)
    (hm : SCM_WRITE_MODE ctx ≠ SCM_WRITE_DISPLAY) :
    ∀ (dd : Datum) (y : ScmObj) (F lf a : Nat) (x : ScmObj) (ta : List Char),
      Represents heap y dd → heap a = some (.pair x y) → dd.size ≤ F → dd.size ≤ lf →
      Writes (write_ss_rec heap ctx F x) ta →
      Writes (write_list_loop heap (write_ss_rec heap ctx F) lf (.ptr a)) (ta ++ dd.tailText)
  | .nil, y, F, lf, a, x, ta, hy, ha, _, hlf, hx => by
    obtain ⟨l, rfl⟩ : ∃ l, lf = l + 1 := ⟨lf - 1, by have := size_pos .nil; omega⟩
    rw [represents_nil] at hy
    subst hy
    exact writes_loop_nil heap _ l a x ta ha hx
  | .pair a2 d2, y, F, lf, a, x, ta, hy, ha, hF, hlf, hx => by
    rw [size_pair] at hF hlf
    have hpa := size_pos a2
    obtain ⟨l, rfl⟩ : ∃ l, lf = l + 1 := ⟨lf - 1, by omega⟩
    rw [represents_pair] at hy
    obtain ⟨a', x2, y2, rfl, ha', hx2, hy2⟩ := hy
    have hp : SCM_PAIRP heap (.ptr a') = true := by simp [SCM_PAIRP, deref, ha']
    rw [tailText_pair]
    exact writes_loop_pair heap _ l a x (.ptr a') ta _ ha hp hx
      (writes_tail heap ctx hf hm d2 y2 F l a' x2 a2.text hy2 ha' (by omega) (by omega)
        (writes_text heap ctx hf hm a2 x2 F hx2 (by omega)))
  | .bool b, y, F, lf, a, x, ta, hy, ha, hF, hlf, hx =>
    writes_tail_other heap _ (.bool b) y lf a x ta (by simp) (by simp) hy ha hlf hx (by
      obtain ⟨f, rfl⟩ : ∃ f, F = f + 1 := ⟨F - 1, by have := size_pos (.bool b); omega⟩
      exact writes_bool heap ctx hf f y b hy)
  | .int n, y, F, lf, a, x, ta, hy, ha, hF, hlf, hx =>
    writes_tail_other heap _ (.int n) y lf a x ta (by simp) (by simp) hy ha hlf hx (by
      obtain ⟨f, rfl⟩ : ∃ f, F = f + 1 := ⟨F - 1, by have := size_pos (.int n); omega⟩
      exact writes_int heap ctx hf f y n hy)
  | .char c, y, F, lf, a, x, ta, hy, ha, hF, hlf, hx =>
    writes_tail_other heap _ (.char c) y lf a x ta (by simp) (by simp) hy ha hlf hx (by
      obtain ⟨f, rfl⟩ : ∃ f, F = f + 1 := ⟨F - 1, by have := size_pos (.char c); omega⟩
      exact writes_char heap ctx hf hm f y c hy)
  | .str cs, y, F, lf, a, x, ta, hy, ha, hF, hlf, hx =>
    writes_tail_other heap _ (.str cs) y lf a x ta (by simp) (by simp) hy ha hlf hx (by
      obtain ⟨f, rfl⟩ : ∃ f, F = f + 1 := ⟨F - 1, by have := size_pos (.str cs); omega⟩
      exact writes_str heap ctx hf hm f y cs hy)
  | .vec [], y, F, lf, a, x, ta, hy, ha, hF, hlf, hx =>
    writes_tail_other heap _ (.vec []) y lf a x ta (by simp) (by simp) hy ha
      (by have := size_pos (.vec []); omega) hx (by
      obtain ⟨f, rfl⟩ : ∃ f, F = f + 1 := ⟨F - 1, by have := size_pos (.vec []); omega⟩
      exact writes_vec_nil heap ctx hf f y hy)
  | .vec (e :: es), y, F, lf, a, x, ta, hy, ha, hF, hlf, hx =>
    writes_tail_other heap _ (.vec (e :: es)) y lf a x ta (by simp) (by simp) hy ha
      (by have := size_pos (.vec (e :: es)); omega) hx (by
      rw [size_vec, sizeList_cons] at hF
      obtain ⟨f, rfl⟩ : ∃ f, F = f + 1 := ⟨F - 1, by omega⟩
      have hy2 := hy
      rw [represents_vec] at hy2
      obtain ⟨a', xs, rfl, ha', hxs⟩ := hy2
      obtain ⟨x2, xs2, rfl, hx2, hxs2⟩ := representsList_cons_right heap xs e es hxs
      rw [text_vec_cons]
      exact writes_vec_cons heap ctx hf f a' x2 xs2 _ ha'
        (writes_vecTail heap ctx hf hm es xs2 f x2 e.text hxs2 (by omega)
          (writes_text heap ctx hf hm e x2 f hx2 (by omega))))
/-- The element loop of the vector branch on `x :: xs`, the first element
having been dealt with, puts the text of `x` and of the remaining elements. -/
theorem writes_vecTail (heap : Heap) (ctx : ScmWriteContext) (hf : ctx.flags = 0)
    (hm : SCM_WRITE_MODE ctx ≠ SCM_WRITE_DISPLAY) :
    ∀ (ds : List Datum) (xs : List ScmObj) (F : Nat) (x : ScmObj) (tx : List Char),
      Represents.representsList heap xs ds → Datum.size.sizeList ds ≤ F →
      Writes (write_ss_rec heap ctx F x) tx →
      Writes (write_vector_elts (write_ss_rec heap ctx F) (x :: xs)) (tx ++ Datum.vecTail ds)
  | [], xs, F, x, tx, hxs, _, hx => by
    rw [representsList_nil_right heap xs hxs]
    exact writes_elts_last _ x tx hx
  | d :: ds, xs, F, x, tx, hxs, hF, hx => by
    rw [sizeList_cons] at hF
    obtain ⟨x2, xs2, rfl, hx2, hxs2⟩ := representsList_cons_right heap xs d ds hxs
    rw [vecTail_cons]
    exact writes_elts_more _ x x2 xs2 tx _ hx
      (writes_vecTail heap ctx hf hm ds xs2 F x2 d.text hxs2 (by omega)
        (writes_text heap ctx hf hm d x2 F hx2 (by omega)))
end


/-- C10: let the word `obj` of the heap unfold to the tree `d` built from
booleans, the empty list, fixnums, characters, strings, pairs and vectors (so
the value is acyclic).  Then the plain write of `obj` in write mode, with any
fuel from the size of `d` on, returns, and the reader applied to the text it
has put yields `d` again. -/
theorem write_then_read (heap : Heap) (obj : ScmObj) (d : Datum) (h : Represents heap obj d)
    (limit : Int) (F : Nat) (hF : d.size ≤ F) :
    ∃ toks, write_ss_rec heap ⟨SCM_WRITE_WRITE, 0, limit⟩ F obj ⟨[], none⟩
        = (⟨toks, none⟩, Outcome.done) ∧
      readText (render toks) = some d := by
  have hm : SCM_WRITE_MODE ⟨SCM_WRITE_WRITE, 0, limit⟩ ≠ SCM_WRITE_DISPLAY := by
    show SCM_WRITE_WRITE &&& SCM_WRITE_MODE_MASK ≠ SCM_WRITE_DISPLAY
    decide
  obtain ⟨toks, hw, hr⟩ := writes_text heap ⟨SCM_WRITE_WRITE, 0, limit⟩ rfl hm d obj F h hF
    ⟨[], none⟩ rfl
  refine ⟨toks, ?_, ?_⟩
  · rw [hw]; simp
  · rw [hr]; exact readText_text d

theorem roundTrip_represents : Represents roundTripHeap (.ptr 0) roundTripDatum := by
  unfold roundTripDatum
  rw [represents_pair]
  refine ⟨0, _, _, rfl, rfl, (represents_int _ _ _).mpr rfl, ?_⟩
  rw [represents_pair]
  refine ⟨1, _, _, rfl, rfl, (represents_str _ _ _).mpr ⟨3, rfl, rfl⟩, ?_⟩
  rw [represents_pair]
  refine ⟨2, _, _, rfl, rfl, (represents_char _ _ _).mpr rfl, ?_⟩
  rw [represents_vec]
  refine ⟨4, _, rfl, rfl, ?_⟩
  rw [representsList_cons]
  refine ⟨(represents_int _ _ _).mpr rfl, ?_⟩
  rw [representsList_cons]
  exact ⟨(represents_nil _ _).mpr rfl, by simp [Represents.representsList]⟩

/-- C10 (witness): the value `(1 "a\"" #\space . #(-2 ()))` of `roundTripHeap`
is written as that text and read back as its tree. -/
theorem write_then_read_witness :
    Represents roundTripHeap (.ptr 0) roundTripDatum ∧
    roundTripDatum.size ≤ 9 ∧
    (∃ toks, write_ss_rec roundTripHeap ⟨SCM_WRITE_WRITE, 0, 0⟩ 9 (.ptr 0) ⟨[], none⟩
        = (⟨toks, none⟩, Outcome.done) ∧
      readText (render toks) = some roundTripDatum) ∧
    render (write_ss_rec roundTripHeap ⟨SCM_WRITE_WRITE, 0, 0⟩ 9 (.ptr 0) ⟨[], none⟩).1.out
      = [Char.ofNat 40, '1', ' ', '"', 'a', '\\', '"', '"', ' ', '#', '\\', 's', 'p', 'a', 'c',
          'e', ' ', '.', ' ', '#', Char.ofNat 40, '-', '2', ' ', Char.ofNat 40, Char.ofNat 41,
          Char.ofNat 41, Char.ofNat 41] :=
  ⟨roundTrip_represents, by decide,
    write_then_read roundTripHeap (.ptr 0) roundTripDatum roundTrip_represents 0 9 (by decide),
    by decide⟩

/-! ## Lists, quote forms and vectors in the plain write -/

theorem chain_cons (heap : Heap) (obj e : ScmObj) (es : List ScmObj) (t : ScmObj) :
    Chain heap obj (e :: es) t
      ↔ ∃ a y, obj = ScmObj.ptr a ∧ heap a = some (HeapObj.pair e y) ∧ Chain heap y es t := by
  rw [Chain]

theorem chain_nil (heap : Heap) (obj t : ScmObj) :
    Chain heap obj [] t ↔ obj = t ∧ SCM_PAIRP heap t = false := by
  rw [Chain]

theorem intercalate_cons_cons (r r2 : List Char) (rs : List (List Char)) :
    [' '].intercalate (r :: r2 :: rs) = r ++ ' ' :: [' '].intercalate (r2 :: rs) := by
  simp [List.intercalate, List.intersperse]

theorem intercalate_single (r : List Char) : [' '].intercalate [r] = r := by
  simp [List.intercalate, List.intersperse]

/-- The list loop over a chain of pairs: the texts of the cars separated by
single spaces, then the text `tl` of the end of the list. -/
theorem writes_chain_loop (heap : Heap) (rec : ScmObj → ScmPort → ScmPort × Outcome)
    (t : ScmObj) (tl : List Char)
    (ht : (t = SCM_NIL ∧ tl = [Char.ofNat 41]) ∨
      (t ≠ SCM_NIL ∧ ∃ rt, Writes (rec t) rt ∧ tl = ' ' :: '.' :: ' ' :: (rt ++ [Char.ofNat 41]))) :
    ∀ (es : List ScmObj) (e : ScmObj) (obj : ScmObj) (rs : List (List Char)) (r : List Char)
      (lf : Nat),
      Chain heap obj (e :: es) t → Writes (rec e) r →
      List.Forall₂ (fun x q => Writes (rec x) q) es rs → es.length + 1 ≤ lf →
      Writes (write_list_loop heap rec lf obj) ([' '].intercalate (r :: rs) ++ tl) := by
  intro es
  induction es with
  | nil =>
    intro e obj rs r lf hc hr hrs hlf
    cases hrs
    rw [chain_cons] at hc
    obtain ⟨a, y, rfl, ha, hy⟩ := hc
    rw [chain_nil] at hy
    obtain ⟨rfl, hnp⟩ := hy
    obtain ⟨l, rfl⟩ : ∃ l, lf = l + 1 := ⟨lf - 1, by simp at hlf; omega⟩
    rw [intercalate_single]
    rcases ht with ⟨hn, rfl⟩ | ⟨hn, rt, hrt, rfl⟩
    · subst hn
      exact writes_loop_nil heap rec l a e r ha hr
    · have hnull : SCM_NULLP y = false := by
        simp only [SCM_NULLP, beq_eq_false_iff_ne, ne_eq]
        exact hn
      exact writes_loop_dotted heap rec l a e y r rt ha hnull hnp hr hrt
  | cons e2 es ih =>
    intro e obj rs r lf hc hr hrs hlf
    cases hrs with
    | cons hr2 hrs2 =>
      rename_i r2 rs2
      rw [chain_cons] at hc
      obtain ⟨a, y, rfl, ha, hy⟩ := hc
      have hy2 := hy
      rw [chain_cons] at hy2
      obtain ⟨a2, y2, rfl, ha2, _⟩ := hy2
      have hp : SCM_PAIRP heap (.ptr a2) = true := by simp [SCM_PAIRP, deref, ha2]
      obtain ⟨l, rfl⟩ : ∃ l, lf = l + 1 := ⟨lf - 1, by omega⟩
      rw [intercalate_cons_cons, List.append_assoc, List.cons_append]
      exact writes_loop_pair heap rec l a e (.ptr a2) r _ ha hp hr
        (ih e2 (.ptr a2) rs2 r2 l hy hr2 hrs2 (by simp at hlf ⊢; omega))

/-- A pair that does not pass the quote test is written as an opening
parenthesis followed by what the list loop puts. -/
theorem writes_paren (heap : Heap) (ctx : ScmWriteContext) (hf : ctx.flags = 0) (F a : Nat)
    (x y : ScmObj) (t : List Char) (ha : heap a = some (.pair x y))
    (hq : quote_test heap (.ptr a) = none)
    (hl : Writes (write_list_loop heap (write_ss_rec heap ctx F) F (.ptr a)) t) :
    Writes (write_ss_rec heap ctx (F + 1) (.ptr a)) (Char.ofNat 40 :: t) := by
  have hn : SCM_NUMBERP heap (.ptr a) = false := by simp [SCM_NUMBERP, deref, ha]
  have hpp : SCM_PAIRP heap (.ptr a) = true := by simp [SCM_PAIRP, deref, ha]
  have hne : ¬ (deref heap (.ptr a) = some (.string []) ∨
      deref heap (.ptr a) = some (.vector [])) := by simp [deref, ha]
  apply writes_congr _ _ _ _ (writes_after_putc _ (Char.ofNat 40) t hl)
  intro p hp
  unfold quote_test at hq
  rw [write_ss_rec, if_neg (limit_off ctx hf p)]
  rw [if_neg (by simp [ptrp_ptr]), if_neg (by simp [hn]), if_neg hne]
  simp only [write_label_none _ _ hp, write_aggregate, hpp, if_true, hq]

/-- A pair that passes the quote test is written as the shorthand followed by
what pass 2 puts for the second element. -/
theorem writes_quote (heap : Heap) (ctx : ScmWriteContext) (hf : ctx.flags = 0) (F a : Nat)
    (x y : ScmObj) (pre rv : List Char) (ha : heap a = some (.pair x y))
    (hq : quote_test heap (.ptr a) = some pre)
    (hv : Writes (write_ss_rec heap ctx F (SCM_CADR heap (.ptr a))) rv) :
    Writes (write_ss_rec heap ctx (F + 1) (.ptr a)) (pre ++ rv) := by
  have hn : SCM_NUMBERP heap (.ptr a) = false := by simp [SCM_NUMBERP, deref, ha]
  have hpp : SCM_PAIRP heap (.ptr a) = true := by simp [SCM_PAIRP, deref, ha]
  have hne : ¬ (deref heap (.ptr a) = some (.string []) ∨
      deref heap (.ptr a) = some (.vector [])) := by simp [deref, ha]
  apply writes_congr _ _ _ _ (writes_after_putz _ pre rv hv)
  intro p hp
  unfold quote_test at hq
  rw [write_ss_rec, if_neg (limit_off ctx hf p)]
  rw [if_neg (by simp [ptrp_ptr]), if_neg (by simp [hn]), if_neg hne]
  simp only [write_label_none _ _ hp, write_aggregate, hpp, if_true, hq]

/-- The quote test on a chain of pairs: it can only pass on a proper list of
two elements. -/
theorem quote_test_chain (heap : Heap) (a : Nat) (e : ScmObj) (es : List ScmObj) (t : ScmObj)
    (hc : Chain heap (.ptr a) (e :: es) t) :
    quote_test heap (.ptr a)
      = if es.length = 1 ∧ t = SCM_NIL then quote_shorthand e else none := by
  rw [chain_cons] at hc
  obtain ⟨a0, y, h0, ha, hy⟩ := hc
  cases h0
  have hcar : SCM_CAR heap (.ptr a) = e := by simp [SCM_CAR, deref, ha]
  have hcdr : SCM_CDR heap (.ptr a) = y := by simp [SCM_CDR, deref, ha]
  unfold quote_test
  rw [SCM_CDDR, hcdr, hcar]
  cases es with
  | nil =>
    rw [chain_nil] at hy
    obtain ⟨rfl, hnp⟩ := hy
    simp [hnp]
  | cons e2 es2 =>
    rw [chain_cons] at hy
    obtain ⟨a2, y2, rfl, ha2, hy2⟩ := hy
    have hp : SCM_PAIRP heap (.ptr a2) = true := by simp [SCM_PAIRP, deref, ha2]
    have hcdr2 : SCM_CDR heap (.ptr a2) = y2 := by simp [SCM_CDR, deref, ha2]
    rw [hp, hcdr2]
    cases es2 with
    | nil =>
      rw [chain_nil] at hy2
      obtain ⟨rfl, _⟩ := hy2
      by_cases hn : y2 = SCM_NIL
      · subst hn; simp [SCM_NULLP]
      · simp [SCM_NULLP, hn]
    | cons e3 es3 =>
      rw [chain_cons] at hy2
      obtain ⟨a3, y3, rfl, _, _⟩ := hy2
      have : SCM_NULLP (.ptr a3) = false := rfl
      simp [this]

/-- A chain of pairs that does not pass the quote test is written in
parenthesised form. -/
theorem writes_chain (heap : Heap) (ctx : ScmWriteContext) (hf : ctx.flags = 0) (F a : Nat)
    (es : List ScmObj) (t : ScmObj) (rs : List (List Char)) (tl : List Char)
    (hne : es ≠ [])
    (hc : Chain heap (.ptr a) es t)
    (hq : ¬ (es.length = 2 ∧ t = SCM_NIL ∧ quote_shorthand (es.headD SCM_FALSE) ≠ none))
    (hr : List.Forall₂ (fun e r => Writes (write_ss_rec heap ctx F e) r) es rs)
    (ht : (t = SCM_NIL ∧ tl = [Char.ofNat 41]) ∨
      (t ≠ SCM_NIL ∧ ∃ rt, Writes (write_ss_rec heap ctx F t) rt ∧
        tl = ' ' :: '.' :: ' ' :: (rt ++ [Char.ofNat 41])))
    (hF : es.length ≤ F) :
    Writes (write_ss_rec heap ctx (F + 1) (.ptr a))
      (Char.ofNat 40 :: ([' '].intercalate rs ++ tl)) := by
  cases es with
  | nil => exact absurd rfl hne
  | cons e es =>
    cases hr with
    | cons hr1 hrs =>
      rename_i r rs
      have hc0 := hc
      rw [chain_cons] at hc0
      obtain ⟨a0, y, h0, ha, _⟩ := hc0
      cases h0
      refine writes_paren heap ctx hf F a e y _ ha ?_
        (writes_chain_loop heap _ t tl ht es e (.ptr a) rs r F hc hr1 hrs hF)
      rw [quote_test_chain heap a e es t hc]
      by_cases h : es.length = 1 ∧ t = SCM_NIL
      · rw [if_pos h]
        by_contra hn
        exact hq ⟨by simp [h.1], h.2, hn⟩
      · rw [if_neg h]

theorem writes_int_word (heap : Heap) (ctx : ScmWriteContext) (hf : ctx.flags = 0) (F : Nat)
    (n : Int) : Writes (write_ss_rec heap ctx (F + 1) (.int n)) (fmt_ld n) :=
  writes_immediate heap ctx hf F (.int n) _ rfl
    (fun p _ => ⟨[Tok.text (fmt_ld n)], rfl, by simp [render, Tok.chars]⟩)

/-- C11: in a plain write (no flag set, no table on the port), a chain of
pairs with elements `es` (at least one) and last cdr `t`, a non-pair, that is
not a two-element proper list headed by a quote-family symbol, is written as
an opening parenthesis, the texts of the elements separated by single spaces,
and then `)` when `t` is the empty list, or ` . `, the text of `t` and `)`
otherwise.  The texts of the elements and of `t` are what pass 2 writes for
them with fuel `F`; pass 2 with fuel `F + 1` returns when `F` is at least the
number of elements. -/
theorem write_ss_rec_pair_chain (heap : Heap) (ctx : ScmWriteContext) (hf : ctx.flags = 0)
    (F a : Nat) (es : List ScmObj) (t : ScmObj) (rs : List (List Char)) (tl : List Char)
    (hne : es ≠ [])
    (hc : Chain heap (.ptr a) es t)
    (hq : ¬ (es.length = 2 ∧ t = SCM_NIL ∧ quote_shorthand (es.headD SCM_FALSE) ≠ none))
    (hr : List.Forall₂ (fun e r => Writes (write_ss_rec heap ctx F e) r) es rs)
    (ht : (t = SCM_NIL ∧ tl = [Char.ofNat 41]) ∨
      (t ≠ SCM_NIL ∧ ∃ rt, Writes (write_ss_rec heap ctx F t) rt ∧
        tl = ' ' :: '.' :: ' ' :: (rt ++ [Char.ofNat 41])))
    (hF : es.length ≤ F) :
    Writes (write_ss_rec heap ctx (F + 1) (.ptr a))
      (Char.ofNat 40 :: ([' '].intercalate rs ++ tl)) :=
  writes_chain heap ctx hf F a es t rs tl hne hc hq hr ht hF

/-- The list `(1 2 3)` is written as `(1 2 3)`. -/
theorem write_ss_rec_pair_chain_witness :
    Writes (write_ss_rec list123Heap ⟨SCM_WRITE_WRITE, 0, 0⟩ 4 (.ptr 0)) "(1 2 3)".toList :=
  write_ss_rec_pair_chain list123Heap ⟨SCM_WRITE_WRITE, 0, 0⟩ rfl 3 0
    [.int 1, .int 2, .int 3] SCM_NIL ["1".toList, "2".toList, "3".toList] [Char.ofNat 41]
    (by simp)
    (by
      rw [chain_cons]
      refine ⟨0, .ptr 1, rfl, rfl, ?_⟩
      rw [chain_cons]
      refine ⟨1, .ptr 2, rfl, rfl, ?_⟩
      rw [chain_cons]
      refine ⟨2, SCM_NIL, rfl, rfl, ?_⟩
      rw [chain_nil]
      exact ⟨rfl, rfl⟩)
    (by simp)
    (List.Forall₂.cons (writes_int_word _ _ rfl 2 1)
      (List.Forall₂.cons (writes_int_word _ _ rfl 2 2)
        (List.Forall₂.cons (writes_int_word _ _ rfl 2 3) List.Forall₂.nil)))
    (Or.inl ⟨rfl, rfl⟩)
    (by decide)

/-- C12: in a plain write, a proper list of two elements whose first element
is the symbol quote, quasiquote, unquote or unquote-splicing is written as the
prefix (apostrophe, backquote, comma, comma and at-sign) followed at once by
the text of the second element, with no parenthesis; a proper list with any
other first element, or of another length, is written in parenthesised
form. -/
theorem write_ss_rec_quote_forms (heap : Heap) (ctx : ScmWriteContext) (hf : ctx.flags = 0)
    (F : Nat) :
    (∀ (a b : Nat) (q v : ScmObj) (pre rv : List Char),
      heap a = some (.pair q (.ptr b)) → heap b = some (.pair v SCM_NIL) →
      (q = SCM_SYM_QUOTE ∧ pre = [Char.ofNat 39] ∨
        q = SCM_SYM_QUASIQUOTE ∧ pre = [Char.ofNat 96] ∨
        q = SCM_SYM_UNQUOTE ∧ pre = [','] ∨
        q = SCM_SYM_UNQUOTE_SPLICING ∧ pre = [',', '@']) →
      Writes (write_ss_rec heap ctx F v) rv →
      Writes (write_ss_rec heap ctx (F + 1) (.ptr a)) (pre ++ rv)) ∧
    (∀ (a : Nat) (es : List ScmObj) (rs : List (List Char)),
      es ≠ [] → Chain heap (.ptr a) es SCM_NIL →
      ((es.headD SCM_FALSE ≠ SCM_SYM_QUOTE ∧ es.headD SCM_FALSE ≠ SCM_SYM_QUASIQUOTE ∧
          es.headD SCM_FALSE ≠ SCM_SYM_UNQUOTE ∧
          es.headD SCM_FALSE ≠ SCM_SYM_UNQUOTE_SPLICING) ∨ es.length ≠ 2) →
      List.Forall₂ (fun e r => Writes (write_ss_rec heap ctx F e) r) es rs →
      es.length ≤ F →
      Writes (write_ss_rec heap ctx (F + 1) (.ptr a))
        (Char.ofNat 40 :: ([' '].intercalate rs ++ [Char.ofNat 41]))) := by
  constructor
  · intro a b q v pre rv ha hb hq hv
    have hcdr : SCM_CDR heap (.ptr a) = .ptr b := by simp [SCM_CDR, deref, ha]
    have hcar : SCM_CAR heap (.ptr a) = q := by simp [SCM_CAR, deref, ha]
    have hcadr : SCM_CADR heap (.ptr a) = v := by simp [SCM_CADR, SCM_CAR, hcdr, deref, hb]
    have hpb : SCM_PAIRP heap (.ptr b) = true := by simp [SCM_PAIRP, deref, hb]
    have hcddr : SCM_CDDR heap (.ptr a) = SCM_NIL := by simp [SCM_CDDR, SCM_CDR, deref, ha, hb]
    have hsh : quote_shorthand q = some pre := by
      rcases hq with ⟨rfl, rfl⟩ | ⟨rfl, rfl⟩ | ⟨rfl, rfl⟩ | ⟨rfl, rfl⟩ <;> rfl
    refine writes_quote heap ctx hf F a q (.ptr b) pre rv ha ?_ (by rw [hcadr]; exact hv)
    unfold quote_test
    rw [hcdr, hpb, hcddr, hcar, hsh]
    rfl
  · intro a es rs hne hc hq hr hF
    refine writes_chain heap ctx hf F a es SCM_NIL rs _ hne hc ?_ hr (Or.inl ⟨rfl, rfl⟩) hF
    rintro ⟨h2, _, hn⟩
    rcases hq with ⟨h1, h3, h4, h5⟩ | h
    · apply hn
      unfold quote_shorthand
      rw [if_neg h1, if_neg h3, if_neg h4, if_neg h5]
    · exact h h2

/-- The list `(quote 5)` is written as an apostrophe and `5`, and the list
`(1 2 3)` in parentheses. -/
theorem write_ss_rec_quote_forms_witness :
    Writes (write_ss_rec limitedHeap ⟨SCM_WRITE_WRITE, 0, 0⟩ 2 (.ptr 1))
        [Char.ofNat 39, '5'] ∧
      render (write_ss_rec limitedHeap ⟨SCM_WRITE_WRITE, 0, 0⟩ 2 (.ptr 1) ⟨[], none⟩).1.out
        = [Char.ofNat 39, '5'] :=
  ⟨(write_ss_rec_quote_forms limitedHeap ⟨SCM_WRITE_WRITE, 0, 0⟩ rfl 1).1 1 2 SCM_SYM_QUOTE
      (.int 5) [Char.ofNat 39] ['5'] rfl rfl (Or.inl ⟨rfl, rfl⟩)
      (writes_int_word _ _ rfl 0 5), by decide⟩

theorem writes_elts (rec : ScmObj → ScmPort → ScmPort × Outcome) :
    ∀ (es : List ScmObj) (e : ScmObj) (rs : List (List Char)) (r : List Char),
      Writes (rec e) r → List.Forall₂ (fun x q => Writes (rec x) q) es rs →
      Writes (write_vector_elts rec (e :: es))
        ([' '].intercalate (r :: rs) ++ [Char.ofNat 41]) := by
  intro es
  induction es with
  | nil =>
    intro e rs r hr hrs
    cases hrs
    rw [intercalate_single]
    exact writes_elts_last rec e r hr
  | cons e2 es ih =>
    intro e rs r hr hrs
    cases hrs with
    | cons hr2 hrs2 =>
      rename_i r2 rs2
      rw [intercalate_cons_cons, List.append_assoc, List.cons_append]
      exact writes_elts_more rec e e2 es r _ hr (ih e2 rs2 r2 hr2 hrs2)

theorem andThen_no_panic {σ : Type} (r : σ × Outcome) (k : σ → σ × Outcome)
    (hr : r.2 ≠ Outcome.panic) (hk : ∀ s, (k s).2 ≠ Outcome.panic) :
    (andThen r k).2 ≠ Outcome.panic := by
  obtain ⟨s, o⟩ := r
  cases o
  · exact hk s
  · exact hr
  · exact hr
  · exact hr

theorem write_vector_elts_in_bounds (rec : ScmObj → ScmPort → ScmPort × Outcome)
    (hrec : ∀ e q, (rec e q).2 ≠ Outcome.panic) :
    ∀ (es : List ScmObj) (e : ScmObj) (p : ScmPort),
      (write_vector_elts rec (e :: es) p).2 ≠ Outcome.panic := by
  intro es
  induction es with
  | nil =>
    intro e p
    rw [write_vector_elts]
    exact andThen_no_panic _ _ (hrec e p) (fun s => by simp)
  | cons e2 es ih =>
    intro e p
    rw [write_vector_elts]
    exact andThen_no_panic _ _ (hrec e p) (fun s => ih e2 _)

/-- C13: in a plain write, a vector with at least one element is written as
`#(`, the texts of its elements in index order separated by one space, and
`)`; the texts of the elements are what pass 2 writes for them with fuel `F`.
The element loop reads outside the vector (outcome `panic`) only on a vector
without elements, and pass 2 never runs it on one: such a vector goes to
`write_general` whatever the flags, the fuel and the port. -/
theorem write_ss_rec_vector (heap : Heap) :
    (∀ (ctx : ScmWriteContext) (F a : Nat) (es : List ScmObj) (rs : List (List Char)),
      ctx.flags = 0 → es ≠ [] → heap a = some (.vector es) →
      List.Forall₂ (fun e r => Writes (write_ss_rec heap ctx F e) r) es rs →
      Writes (write_ss_rec heap ctx (F + 1) (.ptr a))
        ('#' :: Char.ofNat 40 :: ([' '].intercalate rs ++ [Char.ofNat 41]))) ∧
    (∀ (ctx : ScmWriteContext) (fuel : Nat) (obj : ScmObj) (p : ScmPort),
      deref heap obj = some (.vector []) →
      write_ss_rec heap ctx (fuel + 1) obj p =
        if ctx.flags &&& WRITE_LIMITED ≠ 0 ∧ outlen p ≥ ctx.limit then (p, Outcome.done)
        else write_general heap obj p ctx) ∧
    (∀ (rec : ScmObj → ScmPort → ScmPort × Outcome) (es : List ScmObj) (p : ScmPort),
      (∀ e q, (rec e q).2 ≠ Outcome.panic) →
      ((write_vector_elts rec es p).2 = Outcome.panic ↔ es = [])) := by
  refine ⟨?_, ?_, ?_⟩
  · intro ctx F a es rs hf hne ha hr
    cases es with
    | nil => exact absurd rfl hne
    | cons e es =>
      cases hr with
      | cons hr1 hrs =>
        exact writes_vec_cons heap ctx hf F a e es _ ha (writes_elts _ es e _ _ hr1 hrs)
  · intro ctx fuel obj p h
    exact write_ss_rec_empty heap ctx obj (Or.inr h) fuel p
  · intro rec es p hrec
    cases es with
    | nil => simp [write_vector_elts]
    | cons e es =>
      simp only [reduceCtorEq, iff_false]
      exact write_vector_elts_in_bounds rec hrec es e p

/-- The vector `#(1 #\a)` is written as `#(1 #\a)`; the vector without
elements at address 1 goes to `write_general`. -/
theorem write_ss_rec_vector_witness :
    Writes (write_ss_rec vectorHeap ⟨SCM_WRITE_WRITE, 0, 0⟩ 2 (.ptr 0)) "#(1 #\\a)".toList ∧
      write_ss_rec vectorHeap ⟨SCM_WRITE_WRITE, 0, 0⟩ 1 (.ptr 1) ⟨[], none⟩
        = write_general vectorHeap (.ptr 1) ⟨[], none⟩ ⟨SCM_WRITE_WRITE, 0, 0⟩ :=
  ⟨(write_ss_rec_vector vectorHeap).1 ⟨SCM_WRITE_WRITE, 0, 0⟩ 1 0 [.int 1, .char 'a']
      ["1".toList, "#\\a".toList] rfl (by simp) rfl
      (List.Forall₂.cons (writes_int_word _ _ rfl 0 1)
        (List.Forall₂.cons
          (writes_char _ _ rfl (by decide) 0 (.char 'a') 'a' ((represents_char _ _ _).2 rfl))
          List.Forall₂.nil)),
    (write_ss_rec_vector vectorHeap).2.1 ⟨SCM_WRITE_WRITE, 0, 0⟩ 0 (.ptr 1) ⟨[], none⟩ rfl⟩

/-! ## Characters and strings -/

/-- The entries of `char_names` are the names of the specification. -/
theorem char_names_specCharName (ch : Char) (h : ch.toNat ≤ 0x20) :
    char_names.getD ch.toNat [] = specCharName ch := by
  unfold specCharName
  generalize ch.toNat = n at h
  interval_cases n <;> rfl

theorem specCharName_del (ch : Char) (h1 : ¬ ch.toNat ≤ 0x20) (h2 : ch.toNat = 0x7f) :
    specCharName ch = "del".toList := by
  unfold specCharName
  rw [if_neg (by omega), if_neg (by omega), if_neg (by omega), if_neg (by omega),
    if_neg (by omega), if_neg (by omega), if_neg h1, if_pos h2]

theorem specCharName_other (ch : Char) (h1 : ¬ ch.toNat ≤ 0x20) (h2 : ¬ ch.toNat = 0x7f) :
    specCharName ch = [ch] := by
  unfold specCharName
  rw [if_neg (by omega), if_neg (by omega), if_neg (by omega), if_neg (by omega),
    if_neg (by omega), if_neg (by omega), if_neg h1, if_neg h2]

/-- C14: pass 2 on a character `ch`, when the length limit has not cut the
output: in display mode it puts `ch` alone; in every other mode (write,
debug) it puts `#\` and then the name of `ch`: for a code up to 0x20 the
entry of the table (null, tab, newline, return, escape, space for 0, 9, 10,
13, 27, 32, and `x` with the two lowercase hexadecimal digits of the code for
the others), `del` for 0x7f, and `ch` itself otherwise.  The table has 33
entries and an index that is looked up is below 33. -/
theorem write_ss_rec_char (heap : Heap) (ctx : ScmWriteContext) (fuel : Nat) (ch : Char)
    (p : ScmPort) :
    write_ss_rec heap ctx (fuel + 1) (.char ch) p =
        (if ctx.flags &&& WRITE_LIMITED ≠ 0 ∧ outlen p ≥ ctx.limit then (p, Outcome.done)
         else if SCM_WRITE_MODE ctx = SCM_WRITE_DISPLAY then
           ({ p with out := p.out ++ [Tok.text [ch]] }, Outcome.done)
         else
           ({ p with out := p.out ++ [Tok.text ['#', '\\'], Tok.text (specCharName ch)] },
             Outcome.done)) ∧
      char_names.length = 33 ∧
      (ch.toNat ≤ 0x20 → ch.toNat < char_names.length ∧
        char_names.get? ch.toNat = some (specCharName ch)) := by
  refine ⟨?_, rfl, ?_⟩
  · rw [write_ss_rec]
    by_cases hl : ctx.flags &&& WRITE_LIMITED ≠ 0 ∧ outlen p ≥ ctx.limit
    · rw [if_pos hl, if_pos hl]
    · rw [if_neg hl, if_neg hl]
      have hp : (!SCM_PTRP (ScmObj.char ch)) = true := rfl
      rw [if_pos hp]
      simp only [write_immediate]
      by_cases hm : SCM_WRITE_MODE ctx = SCM_WRITE_DISPLAY
      · rw [if_pos hm, if_pos hm]
        rfl
      · rw [if_neg hm, if_neg hm]
        by_cases h1 : ch.toNat ≤ 0x20
        · rw [if_pos h1, char_names_specCharName ch h1]
          simp [Scm_PutzUnsafe]
        · rw [if_neg h1]
          by_cases h2 : ch.toNat = 0x7f
          · rw [if_pos h2, specCharName_del ch h1 h2]
            simp [Scm_PutzUnsafe]
          · rw [if_neg h2, specCharName_other ch h1 h2]
            simp [Scm_PutzUnsafe, Scm_PutcUnsafe]
  · intro h
    have hlen : char_names.length = 33 := rfl
    have hlt : ch.toNat < char_names.length := by rw [hlen]; omega
    refine ⟨hlt, ?_⟩
    rw [← char_names_specCharName ch h, List.getD_eq_getElem?_getD, List.get?_eq_getElem?]
    rw [List.getElem?_eq_getElem hlt]
    rfl

/-- The character of code 9 in write mode is put as `#\tab`, and its index is
inside the table. -/
theorem write_ss_rec_char_witness :
    (Char.ofNat 9).toNat ≤ 0x20 ∧
      ((Char.ofNat 9).toNat < char_names.length ∧
        char_names.get? (Char.ofNat 9).toNat = some (specCharName (Char.ofNat 9))) ∧
      render (write_ss_rec (fun _ => none) ⟨SCM_WRITE_WRITE, 0, 0⟩ 1 (.char (Char.ofNat 9))
        ⟨[], none⟩).1.out = "#\\tab".toList :=
  ⟨by decide,
    (write_ss_rec_char (fun _ => none) ⟨SCM_WRITE_WRITE, 0, 0⟩ 0 (Char.ofNat 9)
      ⟨[], none⟩).2.2 (by decide),
    by decide⟩

theorem flatMap_specEscape (cs : List Char) :
    cs.flatMap string_escape = cs.flatMap specEscape := by
  have h : string_escape = specEscape := by
    funext ch
    unfold string_escape specEscape
    rfl
  rw [h]

/-- C15: `string_print` on a complete string with characters `cs` leaves the
data of the port alone; in display mode it adds the characters of `cs`
unchanged to the text of the port, and in every other mode it adds a double
quote, for each character of `cs` in order its two-character escape
(backslash, double quote, newline, tab, carriage return, form feed and NUL)
or the character itself, and a closing double quote. -/
theorem string_print_text (cs : List Char) (p : ScmPort) (mode : Nat) :
    (string_print cs p mode).1.data = p.data ∧
      render (string_print cs p mode).1.out =
        render p.out ++
          (if mode = SCM_WRITE_DISPLAY then cs
           else '"' :: (cs.flatMap specEscape ++ ['"'])) ∧
      specEscape '\\' = ['\\', '\\'] ∧ specEscape '"' = ['\\', '"'] ∧
      specEscape '\n' = ['\\', 'n'] ∧ specEscape '\t' = ['\\', 't'] ∧
      specEscape '\r' = ['\\', 'r'] ∧ specEscape (Char.ofNat 12) = ['\\', 'f'] ∧
      specEscape (Char.ofNat 0) = ['\\', '0'] := by
  refine ⟨?_, ?_, rfl, rfl, rfl, rfl, rfl, rfl, rfl⟩
  · rw [string_print_out]
  · rw [string_print_out]
    simp only [render_append]
    by_cases hm : mode = SCM_WRITE_DISPLAY
    · rw [if_pos hm]
      simp [string_toks, hm, render, Tok.chars]
    · rw [if_neg hm, render_string_toks cs mode hm, flatMap_specEscape]

/-! ## The formatter -/

theorem format_run_stop (ops : NumberOps) (heap : Heap) (fuel alloc : Nat)
    (oargs : List ScmObj) (sharedp : Bool) (steps : Nat) (fmtstr : List Char)
    (dir : Option Directive) (st st2 : FormatState) (o : FormatOutcome)
    (h : format_step ops heap fuel alloc oargs sharedp fmtstr dir st = .stop st2 o) :
    format_run ops heap fuel alloc oargs sharedp (steps + 1) fmtstr dir st = (st2, o) := by
  rw [format_run, h]

theorem format_run_next (ops : NumberOps) (heap : Heap) (fuel alloc : Nat)
    (oargs : List ScmObj) (sharedp : Bool) (steps : Nat) (fmtstr f2 : List Char)
    (dir d2 : Option Directive) (st st2 : FormatState)
    (h : format_step ops heap fuel alloc oargs sharedp fmtstr dir st = .next f2 d2 st2) :
    format_run ops heap fuel alloc oargs sharedp (steps + 1) fmtstr dir st
      = format_run ops heap fuel alloc oargs sharedp steps f2 d2 st2 := by
  rw [format_run, h]

/-- A run that reaches a configuration goes on from it. -/
theorem format_run_after (ops : NumberOps) (heap : Heap) (fuel alloc : Nat)
    (oargs : List ScmObj) (sharedp : Bool) :
    ∀ (k : Nat) (fmtstr f2 : List Char) (dir d2 : Option Directive) (st st2 : FormatState)
      (n : Nat),
      format_after ops heap fuel alloc oargs sharedp k fmtstr dir st = some (f2, d2, st2) →
      format_run ops heap fuel alloc oargs sharedp (k + n) fmtstr dir st
        = format_run ops heap fuel alloc oargs sharedp n f2 d2 st2 := by
  intro k
  induction k with
  | zero =>
    intro fmtstr f2 dir d2 st st2 n h
    simp only [format_after, Option.some.injEq, Prod.mk.injEq] at h
    obtain ⟨rfl, rfl, rfl⟩ := h
    rw [Nat.zero_add]
  | succ k ih =>
    intro fmtstr f2 dir d2 st st2 n h
    rw [format_after] at h
    cases hs : format_step ops heap fuel alloc oargs sharedp fmtstr dir st with
    | stop s o => rw [hs] at h; cases h
    | next f1 d1 s1 =>
      rw [hs] at h
      have e : k + 1 + n = (k + n) + 1 := by omega
      rw [e, format_run_next _ _ _ _ _ _ _ _ _ _ _ _ _ hs]
      exact ih f1 f2 d1 d2 s1 st2 n h

theorem after_write_next (f f2 : List Char) (st st2 : FormatState) (r : ScmPort × Outcome)
    (d2 : Option Directive) (h : after_write f st r = .next f2 d2 st2) :
    f2 = f ∧ d2 = none ∧ st2.args = st.args ∧ st2.argcnt = st.argcnt ∧
      st2.backtracked = st.backtracked := by
  obtain ⟨out, o⟩ := r
  cases o <;> simp only [after_write, FormatStep.next.injEq, reduceCtorEq] at h
  obtain ⟨rfl, rfl, rfl⟩ := h
  exact ⟨rfl, rfl, rfl, rfl, rfl⟩

theorem after_write_stop (f : List Char) (st st2 : FormatState) (r : ScmPort × Outcome)
    (o : FormatOutcome) (h : after_write f st r = .stop st2 o) :
    (∃ o1, o = .aborted o1) ∧ st2.args = st.args ∧ st2.argcnt = st.argcnt ∧
      st2.backtracked = st.backtracked := by
  obtain ⟨out, o1⟩ := r
  cases o1 <;> simp only [after_write, FormatStep.stop.injEq, reduceCtorEq] at h <;>
    (obtain ⟨rfl, rfl⟩ := h; exact ⟨⟨_, rfl⟩, rfl, rfl, rfl⟩)

theorem next_arg_some (st st1 : FormatState) (arg : ScmObj)
    (h : NEXT_ARG st = some (arg, st1)) :
    st.args = arg :: st1.args ∧ st1.out = st.out ∧ st1.argcnt = st.argcnt + 1 ∧
      st1.backtracked = st.backtracked := by
  unfold NEXT_ARG at h
  split at h
  · cases h
  · rename_i a as hargs
    simp only [Option.some.injEq, Prod.mk.injEq] at h
    obtain ⟨rfl, rfl⟩ := h
    exact ⟨hargs, rfl, rfl, rfl⟩

theorem next_arg_none (st : FormatState) (h : st.args = []) : NEXT_ARG st = none := by
  unfold NEXT_ARG
  rw [h]


/-- The directive loop on a character that asks for an argument, with the
argument cursor at the end of the list. -/
theorem format_directive_too_few (ops : NumberOps) (heap : Heap) (fuel alloc : Nat)
    (oargs : List ScmObj) (sharedp : Bool) (ch : Char) (rest : List Char) (d : Directive)
    (st : FormatState)
    (hcons : ch ∈ ['s', 'S', 'a', 'A', 'd', 'D', 'b', 'B', 'o', 'O', 'x', 'X'] ∨
      ((ch = 'v' ∨ ch = 'V') ∧ d.atflag = false ∧ d.colonflag = false ∧
        d.params.length < MAX_PARAMS))
    (hend : st.args = []) :
    format_directive ops heap fuel alloc oargs sharedp ch rest d st
      = .stop st (.error .tooFewArguments) := by
  have hn := next_arg_none st hend
  rcases hcons with h | ⟨h, ha, hc, hp⟩
  · simp only [List.mem_cons, List.mem_singleton, List.not_mem_nil, or_false] at h
    rcases h with rfl | rfl | rfl | rfl | rfl | rfl | rfl | rfl | rfl | rfl | rfl | rfl <;>
      simp +decide [format_directive, directive_sexp, directive_decimal, directive_radix, hn]
  · have hp2 : ¬ (d.params.length ≥ MAX_PARAMS) := by omega
    rcases h with rfl | rfl <;>
      simp +decide [format_directive, directive_v, hn, ha, hc, hp2]


/-- C16: if a run of `format_proc` reaches, after `k` rounds of its loops, a
directive character that asks for an argument (`s`, `a`, `d`, `b`, `o`, `x`
in either case, whatever parameters and flags came before, or a `v` in the
place of a parameter, that is before any flag and with fewer than five
parameters read) while the argument cursor is at the end of the list, then
with more than `k` rounds allowed the run ends there with the error "too few
arguments": the port and the other variables are as they were when the
character was reached, so nothing is put for that directive or for the rest
of the format string. -/
theorem format_proc_too_few (ops : NumberOps) (heap : Heap) (fuel alloc : Nat)
    (out : ScmPort) (fmt : List Char) (args : List ScmObj) (sharedp : Bool)
    (k : Nat) (ch : Char) (rest : List Char) (d : Directive) (st : FormatState)
    (hreach : format_after ops heap fuel alloc args sharedp k fmt none
      { out := out, args := args, argcnt := 0, backtracked := false }
        = some (ch :: rest, some d, st))
    (hcons : ch ∈ ['s', 'S', 'a', 'A', 'd', 'D', 'b', 'B', 'o', 'O', 'x', 'X'] ∨
      ((ch = 'v' ∨ ch = 'V') ∧ d.atflag = false ∧ d.colonflag = false ∧
        d.params.length < MAX_PARAMS))
    (hend : st.args = [])
    (steps : Nat) (hsteps : k < steps) :
    format_proc ops heap fuel alloc steps out fmt args sharedp
      = (st, .error .tooFewArguments) := by
  obtain ⟨n, rfl⟩ : ∃ n, steps = k + (n + 1) := ⟨steps - k - 1, by omega⟩
  unfold format_proc
  rw [format_run_after ops heap fuel alloc args sharedp k fmt _ none _ _ _ (n + 1) hreach]
  apply format_run_stop
  rw [format_step]
  exact format_directive_too_few ops heap fuel alloc args sharedp ch rest d st hcons hend

/-- The format string `x~s~a!` with the single argument 1: the text `x1` is
put, then `~a` finds no argument; the `!` after it is not put. -/
theorem format_proc_too_few_witness :
    (format_proc fixnumOps (fun _ => none) 5 0 20 ⟨[], none⟩ "x~s~a!".toList [.int 1]
        false).2 = .error .tooFewArguments ∧
      render (format_proc fixnumOps (fun _ => none) 5 0 20 ⟨[], none⟩ "x~s~a!".toList
        [.int 1] false).1.out.out = "x1".toList :=
  have h := format_proc_too_few fixnumOps (fun _ => none) 5 0 ⟨[], none⟩ "x~s~a!".toList
    [.int 1] false 4 'a' ['!'] ⟨[], false, false⟩
    ⟨⟨[Tok.text ['x'], Tok.text ['1']], none⟩, [], 1, false⟩ rfl (Or.inl (by decide)) rfl 20
    (by decide)
  ⟨by rw [h], by rw [h]; rfl⟩

theorem skip_comma_suffix (f : List Char) : ∃ pre, f = pre ++ skip_comma f := by
  unfold skip_comma
  split
  · exact ⟨[','], rfl⟩
  · exact ⟨[], rfl⟩

theorem read_value_suffix :
    ∀ (f : List Char) (v : Nat), ∃ pre, f = pre ++ (read_value f v).2 := by
  intro f
  induction f with
  | nil => intro v; exact ⟨[], rfl⟩
  | cons c f ih =>
    intro v
    rw [read_value]
    split
    · obtain ⟨pre, h⟩ := ih ((v * 10 + (c.toNat - '0'.toNat)) % 2 ^ (8 * SIZEOF_LONG))
      exact ⟨c :: pre, by rw [List.cons_append, ← h]⟩
    · exact ⟨[], rfl⟩

theorem directiveRound_after_write (star bt : Bool) (rest : List Char) (st : FormatState)
    (r : ScmPort × Outcome) (hb : star = false → st.backtracked = bt) :
    DirectiveRound star bt rest (after_write rest st r) := by
  obtain ⟨out, o⟩ := r
  cases o <;> simp [after_write, DirectiveRound] <;> exact hb

theorem directiveRound_sexp (heap : Heap) (fuel : Nat) (sharedp : Bool) (mode : Nat)
    (rest : List Char) (d : Directive) (st : FormatState) (star : Bool) :
    DirectiveRound star st.backtracked rest (directive_sexp heap fuel sharedp mode rest d st) := by
  unfold directive_sexp
  split
  · simp [DirectiveRound]
  · rename_i arg st1 hna
    have hb := (next_arg_some _ _ _ hna).2.2.2
    split <;> exact directiveRound_after_write _ _ _ _ _ (fun _ => hb)

theorem directiveRound_decimal (ops : NumberOps) (heap : Heap) (fuel : Nat)
    (rest : List Char) (d : Directive) (st : FormatState) (star : Bool) :
    DirectiveRound star st.backtracked rest (directive_decimal ops heap fuel rest d st) := by
  unfold directive_decimal
  split
  · simp [DirectiveRound]
  · rename_i arg st1 hna
    have hb := (next_arg_some _ _ _ hna).2.2.2
    split <;> exact directiveRound_after_write _ _ _ _ _ (fun _ => hb)

theorem directiveRound_radix (ops : NumberOps) (heap : Heap) (fuel alloc radix : Nat)
    (up : Bool) (rest : List Char) (d : Directive) (st : FormatState) (star : Bool) :
    DirectiveRound star st.backtracked rest
      (directive_radix ops heap fuel alloc radix up rest d st) := by
  unfold directive_radix
  split
  · simp [DirectiveRound]
  · rename_i arg st1 hna
    have hb := (next_arg_some _ _ _ hna).2.2.2
    split <;> exact directiveRound_after_write _ _ _ _ _ (fun _ => hb)

theorem format_star_error (oargs : List ScmObj) (d : Directive) (st : FormatState)
    (e : FormatError) (h : format_star oargs d st = .error e) :
    e = .illegalFormat ∨ e = .refersOutside := by
  unfold format_star at h
  simp only at h
  split at h
  · cases h; exact Or.inl rfl
  · split_ifs at h
    all_goals first | (cases h; exact Or.inl rfl) | (cases h; exact Or.inr rfl)

theorem directiveRound_star (oargs : List ScmObj) (rest : List Char) (d : Directive)
    (st : FormatState) :
    DirectiveRound true st.backtracked rest (directive_star oargs rest d st) := by
  unfold directive_star
  split
  · rename_i e he
    rcases format_star_error _ _ _ _ he with rfl | rfl <;> simp [DirectiveRound]
  · simp only [DirectiveRound, reduceCtorEq, false_implies, and_true]
    exact ⟨[], rfl⟩

theorem directiveRound_v (rest : List Char) (d : Directive) (st : FormatState) (star : Bool) :
    DirectiveRound star st.backtracked rest (directive_v rest d st) := by
  unfold directive_v
  split
  · simp [DirectiveRound]
  · split
    · simp [DirectiveRound]
    · rename_i arg st1 hna
      have hb := (next_arg_some _ _ _ hna).2.2.2
      split
      · simp [DirectiveRound, hb]
      · exact ⟨skip_comma_suffix rest, fun _ => hb⟩

theorem directiveRound_quote (rest : List Char) (d : Directive) (st : FormatState)
    (star : Bool) : DirectiveRound star st.backtracked rest (directive_quote rest d st) := by
  unfold directive_quote
  split
  · simp [DirectiveRound]
  · split
    · simp [DirectiveRound]
    · split
      · simp [DirectiveRound]
      · rename_i c rest2
        obtain ⟨pre, h⟩ := skip_comma_suffix rest2
        exact ⟨⟨c :: pre, by rw [List.cons_append, ← h]⟩, fun _ => rfl⟩

theorem directiveRound_number (ops : NumberOps) (ch : Char) (rest : List Char) (d : Directive)
    (st : FormatState) (star : Bool) :
    DirectiveRound star st.backtracked rest (directive_number ops ch rest d st) := by
  unfold directive_number
  split
  · simp [DirectiveRound]
  · simp only
    refine ⟨?_, fun _ => rfl⟩
    obtain ⟨pre, h⟩ := read_value_suffix rest (if ch.isDigit then ch.toNat - '0'.toNat else 0)
    obtain ⟨pre2, h2⟩ :=
      skip_comma_suffix (read_value rest (if ch.isDigit then ch.toNat - '0'.toNat else 0)).2
    exact ⟨pre ++ pre2, by rw [List.append_assoc, ← h2, ← h]⟩

theorem directiveRound_comma (rest : List Char) (d : Directive) (st : FormatState)
    (star : Bool) : DirectiveRound star st.backtracked rest (directive_comma rest d st) := by
  unfold directive_comma
  split
  · simp [DirectiveRound]
  · exact ⟨⟨[], rfl⟩, fun _ => rfl⟩

/-- Every round of the directive loop fulfils `DirectiveRound`. -/
theorem format_directive_round (ops : NumberOps) (heap : Heap) (fuel alloc : Nat)
    (oargs : List ScmObj) (sharedp : Bool) (ch : Char) (rest : List Char) (d : Directive)
    (st : FormatState) :
    DirectiveRound (ch = '*') st.backtracked rest
      (format_directive ops heap fuel alloc oargs sharedp ch rest d st) := by
  unfold format_directive
  by_cases h1 : ch = '%'
  · rw [if_pos h1]
    exact ⟨⟨[], rfl⟩, fun _ => rfl⟩
  rw [if_neg h1]
  by_cases h2 : ch = 's' ∨ ch = 'S'
  · rw [if_pos h2]
    exact directiveRound_sexp _ _ _ _ _ _ _ _
  rw [if_neg h2]
  by_cases h3 : ch = 'a' ∨ ch = 'A'
  · rw [if_pos h3]
    exact directiveRound_sexp _ _ _ _ _ _ _ _
  rw [if_neg h3]
  by_cases h4 : ch = 'd' ∨ ch = 'D'
  · rw [if_pos h4]
    exact directiveRound_decimal _ _ _ _ _ _ _
  rw [if_neg h4]
  by_cases h5 : ch = 'b' ∨ ch = 'B'
  · rw [if_pos h5]
    exact directiveRound_radix _ _ _ _ _ _ _ _ _ _
  rw [if_neg h5]
  by_cases h6 : ch = 'o' ∨ ch = 'O'
  · rw [if_pos h6]
    exact directiveRound_radix _ _ _ _ _ _ _ _ _ _
  rw [if_neg h6]
  by_cases h7 : ch = 'x' ∨ ch = 'X'
  · rw [if_pos h7]
    exact directiveRound_radix _ _ _ _ _ _ _ _ _ _
  rw [if_neg h7]
  by_cases h8 : ch = '*'
  · rw [if_pos h8]
    have e : decide (ch = '*') = true := decide_eq_true h8
    rw [e]
    exact directiveRound_star _ _ _ _
  rw [if_neg h8]
  by_cases h9 : ch = 'v' ∨ ch = 'V'
  · rw [if_pos h9]
    exact directiveRound_v _ _ _ _
  rw [if_neg h9]
  by_cases h10 : ch = '@'
  · rw [if_pos h10]
    by_cases ha : d.atflag = true
    · rw [if_pos ha]
      simp [DirectiveRound]
    · rw [if_neg ha]
      exact ⟨⟨[], rfl⟩, fun _ => rfl⟩
  rw [if_neg h10]
  by_cases h11 : ch = ':'
  · rw [if_pos h11]
    by_cases hc : d.colonflag = true
    · rw [if_pos hc]
      simp [DirectiveRound]
    · rw [if_neg hc]
      exact ⟨⟨[], rfl⟩, fun _ => rfl⟩
  rw [if_neg h11]
  by_cases h12 : ch = Char.ofNat 39
  · rw [if_pos h12]
    exact directiveRound_quote _ _ _ _
  rw [if_neg h12]
  by_cases h13 : ch.isDigit = true ∨ ch = '-' ∨ ch = '+'
  · rw [if_pos h13]
    exact directiveRound_number _ _ _ _ _ _
  rw [if_neg h13]
  by_cases h14 : ch = ','
  · rw [if_pos h14]
    exact directiveRound_comma _ _ _ _
  rw [if_neg h14]
  exact ⟨⟨[], rfl⟩, fun _ => rfl⟩


/-- A round that goes on leaves a final part of the format string, needs
fewer rounds afterwards, and changes `backtracked` only at a `*`. -/
theorem format_step_next_spec (ops : NumberOps) (heap : Heap) (fuel alloc : Nat)
    (oargs : List ScmObj) (sharedp : Bool) (f f2 : List Char) (d d2 : Option Directive)
    (st st2 : FormatState)
    (h : format_step ops heap fuel alloc oargs sharedp f d st = .next f2 d2 st2) :
    (∃ pre, f = pre ++ f2) ∧ format_rounds f2 d2 < format_rounds f d ∧
      (¬ AtStar f d → st2.backtracked = st.backtracked) := by
  cases d with
  | none =>
    cases f with
    | nil =>
      rw [format_step] at h
      split at h <;> cases h
    | cons ch rest =>
      rw [format_step] at h
      split at h
      · cases h
        exact ⟨⟨[ch], rfl⟩, by simp [format_rounds], fun _ => rfl⟩
      · cases h
        exact ⟨⟨[ch], rfl⟩, by simp [format_rounds]; omega, fun _ => rfl⟩
  | some dd =>
    cases f with
    | nil =>
      rw [format_step] at h
      cases h
      exact ⟨⟨[], rfl⟩, by simp [format_rounds], fun _ => rfl⟩
    | cons ch rest =>
      rw [format_step] at h
      have hr := format_directive_round ops heap fuel alloc oargs sharedp ch rest dd st
      rw [h] at hr
      obtain ⟨⟨pre, hpre⟩, hb⟩ := hr
      refine ⟨⟨ch :: pre, by rw [hpre]; rfl⟩, ?_, ?_⟩
      · have hl : f2.length ≤ rest.length := by rw [hpre]; simp
        simp only [format_rounds, List.length_cons, Option.isSome_some, if_true]
        split <;> omega
      · intro hs
        apply hb
        simp only [decide_eq_false_iff_not]
        intro e
        exact hs ⟨rfl, by rw [e]; rfl⟩

/-- A round that ends the run: by a return only at the end of the format
string, outside a directive, with `backtracked` set or no argument left; by
the error "too many arguments" only there, with `backtracked` not set and an
argument left. -/
theorem format_step_stop_spec (ops : NumberOps) (heap : Heap) (fuel alloc : Nat)
    (oargs : List ScmObj) (sharedp : Bool) (f : List Char) (d : Option Directive)
    (st st2 : FormatState) (o : FormatOutcome)
    (h : format_step ops heap fuel alloc oargs sharedp f d st = .stop st2 o) :
    o ≠ .outOfFuel ∧ (¬ AtStar f d → st2.backtracked = st.backtracked) ∧
      (o = .done → st2 = st ∧ f = [] ∧ d = none ∧ (st.backtracked = true ∨ st.args = [])) ∧
      (o = .error .tooManyArguments →
        st2 = st ∧ f = [] ∧ d = none ∧ st.backtracked = false ∧ st.args ≠ []) := by
  cases d with
  | none =>
    cases f with
    | nil =>
      rw [format_step] at h
      split at h
      · rename_i hc
        cases h
        simp only [Bool.not_eq_true', ne_eq] at hc
        exact ⟨by simp, fun _ => rfl, by simp, fun _ => ⟨rfl, rfl, rfl, hc.1, hc.2⟩⟩
      · rename_i hc
        cases h
        refine ⟨by simp, fun _ => rfl, fun _ => ⟨rfl, rfl, rfl, ?_⟩, by simp⟩
        simp only [Bool.not_eq_true', ne_eq, not_and, not_not] at hc
        cases hb : st.backtracked
        · exact Or.inr (hc hb)
        · exact Or.inl rfl
    | cons ch rest =>
      rw [format_step] at h
      split at h <;> cases h
  | some dd =>
    cases f with
    | nil =>
      rw [format_step] at h
      cases h
    | cons ch rest =>
      rw [format_step] at h
      have hr := format_directive_round ops heap fuel alloc oargs sharedp ch rest dd st
      rw [h] at hr
      obtain ⟨h1, h2, h3, hb⟩ := hr
      refine ⟨h3, ?_, fun e => absurd e h1, fun e => absurd e h2⟩
      intro hs
      apply hb
      simp only [decide_eq_false_iff_not]
      intro e
      exact hs ⟨rfl, by rw [e]; rfl⟩

/-- With enough rounds allowed the loops of `format_proc` do not run out of
them. -/
theorem format_run_total (ops : NumberOps) (heap : Heap) (fuel alloc : Nat)
    (oargs : List ScmObj) (sharedp : Bool) :
    ∀ (steps : Nat) (f : List Char) (d : Option Directive) (st : FormatState),
      format_rounds f d < steps →
      (format_run ops heap fuel alloc oargs sharedp steps f d st).2 ≠ .outOfFuel := by
  intro steps
  induction steps with
  | zero => intro f d st h; omega
  | succ n ih =>
    intro f d st h
    rw [format_run]
    cases hs : format_step ops heap fuel alloc oargs sharedp f d st with
    | stop st2 o => exact (format_step_stop_spec _ _ _ _ _ _ _ _ _ _ _ hs).1
    | next f2 d2 st2 =>
      have h2 := (format_step_next_spec _ _ _ _ _ _ _ _ _ _ _ _ hs).2.1
      exact ih f2 d2 st2 (by omega)

theorem noStarDirective_here (ops : NumberOps) (heap : Heap) (fuel alloc : Nat)
    (oargs : List ScmObj) (sharedp : Bool) (f : List Char) (d : Option Directive)
    (st : FormatState) (h : NoStarDirective ops heap fuel alloc oargs sharedp f d st) :
    ¬ AtStar f d :=
  h 0 f d st rfl

theorem noStarDirective_next (ops : NumberOps) (heap : Heap) (fuel alloc : Nat)
    (oargs : List ScmObj) (sharedp : Bool) (f f1 : List Char) (d d1 : Option Directive)
    (st s1 : FormatState) (h : NoStarDirective ops heap fuel alloc oargs sharedp f d st)
    (hs : format_step ops heap fuel alloc oargs sharedp f d st = .next f1 d1 s1) :
    NoStarDirective ops heap fuel alloc oargs sharedp f1 d1 s1 := by
  intro k f2 d2 st2 hk
  apply h (k + 1) f2 d2 st2
  rw [format_after, hs]
  exact hk

/-- The part of the format string that is left to read is a final part of the
format string. -/
theorem format_after_suffix (ops : NumberOps) (heap : Heap) (fuel alloc : Nat)
    (oargs : List ScmObj) (sharedp : Bool) :
    ∀ (k : Nat) (f f2 : List Char) (d d2 : Option Directive) (st st2 : FormatState),
      format_after ops heap fuel alloc oargs sharedp k f d st = some (f2, d2, st2) →
      ∃ pre, f = pre ++ f2 := by
  intro k
  induction k with
  | zero =>
    intro f f2 d d2 st st2 h
    simp only [format_after, Option.some.injEq, Prod.mk.injEq] at h
    obtain ⟨rfl, _, _⟩ := h
    exact ⟨[], rfl⟩
  | succ k ih =>
    intro f f2 d d2 st st2 h
    rw [format_after] at h
    cases hs : format_step ops heap fuel alloc oargs sharedp f d st with
    | stop s o => rw [hs] at h; cases h
    | next f1 d1 s1 =>
      rw [hs] at h
      obtain ⟨⟨pre, hpre⟩, _, _⟩ := format_step_next_spec _ _ _ _ _ _ _ _ _ _ _ _ hs
      obtain ⟨pre2, hpre2⟩ := ih f1 f2 d1 d2 s1 st2 h
      exact ⟨pre ++ pre2, by rw [hpre, hpre2, List.append_assoc]⟩

/-- A format string in which the character `*` does not occur has no `~*`
directive. -/
theorem noStarDirective_of_not_mem (ops : NumberOps) (heap : Heap) (fuel alloc : Nat)
    (oargs : List ScmObj) (sharedp : Bool) (f : List Char) (d : Option Directive)
    (st : FormatState) (h : '*' ∉ f) :
    NoStarDirective ops heap fuel alloc oargs sharedp f d st := by
  intro k f2 d2 st2 hk hs
  obtain ⟨pre, hpre⟩ := format_after_suffix ops heap fuel alloc oargs sharedp k f f2 d d2 st st2 hk
  apply h
  rw [hpre]
  apply List.mem_append_right
  cases f2 with
  | nil => simp [AtStar] at hs
  | cons c f3 =>
    simp only [AtStar, List.head?_cons, Option.some.injEq] at hs
    rw [hs.2]
    exact List.mem_cons_self _ _

/-- How a run can end by a return or by the error "too many arguments", and
`backtracked` at the end of a run that carries out no `~*` directive. -/
theorem format_run_end (ops : NumberOps) (heap : Heap) (fuel alloc : Nat)
    (oargs : List ScmObj) (sharedp : Bool) :
    ∀ (steps : Nat) (f : List Char) (d : Option Directive) (st : FormatState),
      (NoStarDirective ops heap fuel alloc oargs sharedp f d st →
        (format_run ops heap fuel alloc oargs sharedp steps f d st).1.backtracked
          = st.backtracked) ∧
      ((format_run ops heap fuel alloc oargs sharedp steps f d st).2 = .done →
        (format_run ops heap fuel alloc oargs sharedp steps f d st).1.backtracked = true ∨
        (format_run ops heap fuel alloc oargs sharedp steps f d st).1.args = []) ∧
      ((format_run ops heap fuel alloc oargs sharedp steps f d st).2
          = .error .tooManyArguments →
        (format_run ops heap fuel alloc oargs sharedp steps f d st).1.args ≠ []) := by
  intro steps
  induction steps with
  | zero =>
    intro f d st
    simp [format_run]
  | succ n ih =>
    intro f d st
    rw [format_run]
    cases hs : format_step ops heap fuel alloc oargs sharedp f d st with
    | stop st2 o =>
      obtain ⟨_, hb, hd, ht⟩ := format_step_stop_spec _ _ _ _ _ _ _ _ _ _ _ hs
      refine ⟨fun h => hb (noStarDirective_here _ _ _ _ _ _ _ _ _ h), ?_, ?_⟩
      · intro e
        obtain ⟨rfl, _, _, h⟩ := hd e
        exact h
      · intro e
        obtain ⟨rfl, _, _, _, h⟩ := ht e
        exact h
    | next f2 d2 st2 =>
      obtain ⟨_, _, hb⟩ := format_step_next_spec _ _ _ _ _ _ _ _ _ _ _ _ hs
      obtain ⟨i1, i2, i3⟩ := ih f2 d2 st2
      refine ⟨?_, i2, i3⟩
      intro hstar
      show (format_run ops heap fuel alloc oargs sharedp n f2 d2 st2).1.backtracked = _
      rw [i1 (noStarDirective_next _ _ _ _ _ _ _ _ _ _ _ _ hstar hs),
        hb (noStarDirective_here _ _ _ _ _ _ _ _ _ hstar)]

/-- Along a run that carries out no `~*` directive, `backtracked` keeps its
value. -/
theorem format_after_no_star (ops : NumberOps) (heap : Heap) (fuel alloc : Nat)
    (oargs : List ScmObj) (sharedp : Bool) :
    ∀ (k : Nat) (f f2 : List Char) (d d2 : Option Directive) (st st2 : FormatState),
      NoStarDirective ops heap fuel alloc oargs sharedp f d st →
      format_after ops heap fuel alloc oargs sharedp k f d st = some (f2, d2, st2) →
      st2.backtracked = st.backtracked := by
  intro k
  induction k with
  | zero =>
    intro f f2 d d2 st st2 _ h
    simp only [format_after, Option.some.injEq, Prod.mk.injEq] at h
    obtain ⟨_, _, rfl⟩ := h
    rfl
  | succ k ih =>
    intro f f2 d d2 st st2 hstar h
    rw [format_after] at h
    cases hs : format_step ops heap fuel alloc oargs sharedp f d st with
    | stop s o => rw [hs] at h; cases h
    | next f1 d1 s1 =>
      rw [hs] at h
      obtain ⟨_, _, hb⟩ := format_step_next_spec _ _ _ _ _ _ _ _ _ _ _ _ hs
      rw [ih f1 f2 d1 d2 s1 st2 (noStarDirective_next _ _ _ _ _ _ _ _ _ _ _ _ hstar hs) h,
        hb (noStarDirective_here _ _ _ _ _ _ _ _ _ hstar)]


/-- C17: for a format string and an argument list with which the run of
`format_proc` carries out no `~*` directive (as is the case when `*` does not
occur in the format string): when the run of `format_proc` reaches the end of the format string
(outside a directive) after `k` rounds, `backtracked` is not set, and with
more than `k` rounds allowed the run raises the error "too many arguments"
if an argument is left unconsumed and returns if none is left.  Conversely a
run that ends with that error has an argument left at that moment and a run
that returns has none.  With more than `format_rounds fmt none` rounds
allowed the loops do not run out of rounds. -/
theorem format_proc_too_many (ops : NumberOps) (heap : Heap) (fuel alloc steps : Nat)
    (out : ScmPort) (fmt : List Char) (args : List ScmObj) (sharedp : Bool)
    (hstar : NoStarDirective ops heap fuel alloc args sharedp fmt none
      { out := out, args := args, argcnt := 0, backtracked := false }) :
    (∀ (k : Nat) (st : FormatState), k < steps →
      format_after ops heap fuel alloc args sharedp k fmt none
        { out := out, args := args, argcnt := 0, backtracked := false }
          = some ([], none, st) →
      st.backtracked = false ∧
      (st.args ≠ [] → format_proc ops heap fuel alloc steps out fmt args sharedp
        = (st, .error .tooManyArguments)) ∧
      (st.args = [] → format_proc ops heap fuel alloc steps out fmt args sharedp
        = (st, .done))) ∧
    ((format_proc ops heap fuel alloc steps out fmt args sharedp).2
        = .error .tooManyArguments →
      (format_proc ops heap fuel alloc steps out fmt args sharedp).1.args ≠ []) ∧
    ((format_proc ops heap fuel alloc steps out fmt args sharedp).2 = .done →
      (format_proc ops heap fuel alloc steps out fmt args sharedp).1.args = []) ∧
    (format_rounds fmt none < steps →
      (format_proc ops heap fuel alloc steps out fmt args sharedp).2 ≠ .outOfFuel) := by
  refine ⟨?_, ?_, ?_, ?_⟩
  · intro k st hk hreach
    have hb : st.backtracked = false :=
      format_after_no_star ops heap fuel alloc args sharedp k fmt [] none none _ st hstar hreach
    obtain ⟨n, rfl⟩ : ∃ n, steps = k + (n + 1) := ⟨steps - k - 1, by omega⟩
    refine ⟨hb, ?_, ?_⟩
    · intro hne
      unfold format_proc
      rw [format_run_after ops heap fuel alloc args sharedp k fmt _ none _ _ _ (n + 1) hreach]
      apply format_run_stop
      rw [format_step, if_pos]
      exact ⟨by rw [hb]; rfl, hne⟩
    · intro he
      unfold format_proc
      rw [format_run_after ops heap fuel alloc args sharedp k fmt _ none _ _ _ (n + 1) hreach]
      apply format_run_stop
      rw [format_step, if_neg]
      exact fun h => h.2 he
  · exact (format_run_end ops heap fuel alloc args sharedp steps fmt none _).2.2
  · intro hd
    have h1 := (format_run_end ops heap fuel alloc args sharedp steps fmt none
      { out := out, args := args, argcnt := 0, backtracked := false }).1 hstar
    have h2 := (format_run_end ops heap fuel alloc args sharedp steps fmt none
      { out := out, args := args, argcnt := 0, backtracked := false }).2.1 hd
    rcases h2 with h2 | h2
    · rw [h1] at h2
      cases h2
    · exact h2
  · exact format_run_total ops heap fuel alloc args sharedp steps fmt none _

/-- The format string `~a~a` with the three arguments 1, 2, 3 raises "too
many arguments" after `12` has been put. -/
theorem format_proc_too_many_witness :
    (format_proc fixnumOps (fun _ => none) 5 0 9 ⟨[], none⟩ "~a~a".toList
        [.int 1, .int 2, .int 3] false).2 = .error .tooManyArguments ∧
      render (format_proc fixnumOps (fun _ => none) 5 0 9 ⟨[], none⟩ "~a~a".toList
        [.int 1, .int 2, .int 3] false).1.out.out = "12".toList :=
  have h := ((format_proc_too_many fixnumOps (fun _ => none) 5 0 9 ⟨[], none⟩ "~a~a".toList
    [.int 1, .int 2, .int 3] false
    (noStarDirective_of_not_mem _ _ _ _ _ _ _ _ _ (by decide))).1 4
    ⟨⟨[Tok.text ['1'], Tok.text ['2']], none⟩, [.int 3], 2, false⟩ (by decide) rfl).2.1
    (by simp)
  ⟨by rw [h], by rw [h]; rfl⟩

/-! ## Numeric parameters and padding -/

theorem foldl_digits_shift (pre : List Char) :
    ∀ k : Nat, pre.foldl (fun a c => a * 10 + (c.toNat - 48)) k
      = k * 10 ^ pre.length + pre.foldl (fun a c => a * 10 + (c.toNat - 48)) 0 := by
  induction pre with
  | nil => intro k; simp
  | cons c pre ih =>
    intro k
    simp only [List.foldl_cons, List.length_cons]
    rw [ih (k * 10 + (c.toNat - 48)), ih (0 * 10 + (c.toNat - 48))]
    ring

/-- The digit loop of a numeric parameter computes the value of the digits
modulo the size of `unsigned long`. -/
theorem read_value_digits (pre : List Char) (hpre : ∀ c ∈ pre, c.isDigit = true)
    (rest : List Char) (hrest : ∀ c, rest.head? = some c → c.isDigit = false) :
    ∀ v : Nat, read_value (pre ++ rest) v
      = (if pre = [] then v
         else pre.foldl (fun a c => a * 10 + (c.toNat - 48)) v % 2 ^ (8 * SIZEOF_LONG), rest) := by
  induction pre with
  | nil =>
    intro v
    cases rest with
    | nil => rfl
    | cons c r =>
      have hc := hrest c rfl
      simp [read_value, hc]
  | cons c pre ih =>
    intro v
    have hc := hpre c (List.mem_cons_self _ _)
    have e48 : '0'.toNat = 48 := rfl
    rw [List.cons_append, read_value, if_pos hc, e48,
      ih (fun x hx => hpre x (List.mem_cons_of_mem _ hx))]
    simp only [reduceCtorEq, if_false, List.foldl_cons]
    congr 1
    by_cases hp : pre = []
    · subst hp
      simp
    · rw [if_neg hp, foldl_digits_shift pre ((v * 10 + (c.toNat - 48)) % 2 ^ (8 * SIZEOF_LONG)),
        foldl_digits_shift pre (v * 10 + (c.toNat - 48))]
      rw [Nat.add_mod, Nat.mul_mod, Nat.mod_mod, ← Nat.mul_mod, ← Nat.add_mod]

theorem put_pad_out (c : Char) : ∀ (n : Nat) (p : ScmPort),
    put_pad c n p = { p with out := p.out ++ List.replicate n (Tok.text [c]) } := by
  intro n
  induction n with
  | zero => intro p; simp [put_pad]
  | succ n ih =>
    intro p
    rw [put_pad, ih]
    simp [Scm_PutcUnsafe, List.replicate_succ]

theorem render_replicate (c : Char) (n : Nat) :
    render (List.replicate n (Tok.text [c])) = List.replicate n c := by
  induction n with
  | zero => rfl
  | succ n ih => simp [List.replicate_succ, render, Tok.chars, ih]

theorem int_pow_31 : (2 : Nat) ^ (8 * SIZEOF_INT - 1) = 2147483648 := by decide

theorem int_pow_32 : (2 : Nat) ^ (8 * SIZEOF_INT) = 4294967296 := by decide

theorem int_max_eq : INT_MAX = 2147483647 := by
  unfold INT_MAX
  rw [int_pow_31]
  rfl

theorem int_min_eq : INT_MIN = -2147483648 := by
  unfold INT_MIN
  rw [int_max_eq]
  rfl

/-- The conversion to `int` keeps a value of the range of `int`. -/
theorem long_to_int_eq (v : Int) (hlo : INT_MIN ≤ v) (hhi : v ≤ INT_MAX) :
    long_to_int v = v := by
  rw [int_min_eq] at hlo
  rw [int_max_eq] at hhi
  unfold long_to_int
  simp only [int_pow_31, int_pow_32]
  by_cases hv : 0 ≤ v
  · have e : (v % ((4294967296 : Nat) : Int)).toNat = v.toNat := by omega
    rw [e, if_pos (by omega)]
    omega
  · have e : (v % ((4294967296 : Nat) : Int)).toNat = (v + 4294967296).toNat := by omega
    rw [e, if_neg (by omega)]
    omega

/-- The conversion to `int` gives a value of the range of `int`. -/
theorem long_to_int_range (v : Int) : INT_MIN ≤ long_to_int v ∧ long_to_int v ≤ INT_MAX := by
  rw [int_min_eq, int_max_eq]
  unfold long_to_int
  simp only [int_pow_31, int_pow_32]
  split <;> omega

/-- An operation on `int` whose exact result lies in the range of `int` gives
that result. -/
theorem int_wrap_eq (v : Int) (hlo : INT_MIN ≤ v) (hhi : v ≤ INT_MAX) : int_wrap v = v :=
  long_to_int_eq v hlo hhi

/-- An exact result above the range of `int` and below `2 ^ 32` is taken to a
negative value. -/
theorem int_wrap_above (v : Int) (hlo : INT_MAX < v) (hhi : v < 4294967296) :
    int_wrap v < 0 := by
  rw [int_max_eq] at hlo
  unfold int_wrap long_to_int
  simp only [int_pow_31, int_pow_32]
  have e : (v % ((4294967296 : Nat) : Int)).toNat = v.toNat := by omega
  rw [e, if_neg (by omega)]
  omega

/-- The value that a parameter gives to an `int` variable lies in the range of
`int`, when the default does. -/
theorem param_int_range (params : List ScmObj) (i : Nat) (dflt : Int)
    (hd : INT_MIN ≤ dflt ∧ dflt ≤ INT_MAX) :
    INT_MIN ≤ param_int params i dflt ∧ param_int params i dflt ≤ INT_MAX := by
  unfold param_int
  split
  · exact long_to_int_range _
  · exact hd

/-- Right-aligned padding with column increment 1: the port gets pad
characters, as many as the value of `mincol - SCM_STRING_LENGTH(str)` computed
in `int` says, and then `str`. -/
theorem format_pad_right (out : ScmPort) (str : List Char) (mincol : Int) (c : Char) :
    (format_pad out str mincol 1 c true).data = out.data ∧
      render (format_pad out str mincol 1 c true).out
        = render out.out ++
          (List.replicate (int_wrap (mincol - (str.length : Int))).toNat c ++ str) := by
  unfold format_pad
  simp only
  by_cases hp : int_wrap (mincol - (str.length : Int)) > 0
  · rw [if_pos hp]
    simp [put_pad_out, Scm_PutzUnsafe, render_append, render_replicate, render, Tok.chars]
  · rw [if_neg hp]
    have e : (int_wrap (mincol - (str.length : Int))).toNat = 0 := by omega
    rw [e]
    simp [Scm_PutzUnsafe, render_append, render, Tok.chars]

theorem long_to_int_small (v : Nat) (h : v < 2 ^ (8 * SIZEOF_INT - 1)) :
    long_to_int (v : Int) = (v : Int) := by
  have h31 : (2 : Nat) ^ (8 * SIZEOF_INT - 1) = 2147483648 := by decide
  have h32 : (2 : Nat) ^ (8 * SIZEOF_INT) = 4294967296 := by decide
  rw [h31] at h
  unfold long_to_int
  simp only [h31, h32]
  have e : ((v : Int) % ((4294967296 : Nat) : Int)).toNat = v := by omega
  rw [e, if_pos h]

theorem to_long_small (v : Nat) (h : v < 2 ^ (8 * SIZEOF_INT - 1)) :
    ulong_to_long (to_ulong (1 * (v : Int))) = (v : Int) := by
  have h31 : (2 : Nat) ^ (8 * SIZEOF_INT - 1) = 2147483648 := by decide
  have h63 : (2 : Nat) ^ (8 * SIZEOF_LONG - 1) = 9223372036854775808 := by decide
  have h64 : (2 : Nat) ^ (8 * SIZEOF_LONG) = 18446744073709551616 := by decide
  rw [h31] at h
  unfold ulong_to_long to_ulong
  simp only [h63, h64, one_mul]
  have e : ((v : Int) % ((18446744073709551616 : Nat) : Int)).toNat = v := by omega
  rw [e, if_pos (by omega)]

theorem small_int_fits (v : Nat) (h : v < 2 ^ (8 * SIZEOF_INT - 1)) :
    SCM_SMALL_INT_FITS (v : Int) = true := by
  have h31 : (2 : Nat) ^ (8 * SIZEOF_INT - 1) = 2147483648 := by decide
  have h61 : (2 : Nat) ^ SCM_SMALL_INT_SIZE = 2305843009213693952 := by decide
  rw [h31] at h
  simp only [SCM_SMALL_INT_FITS, SCM_SMALL_INT_MAX, SCM_SMALL_INT_MIN, h61,
    Bool.and_eq_true, decide_eq_true_eq]
  omega

/-- A digit opens a numeric parameter. -/
theorem format_directive_digit (ops : NumberOps) (heap : Heap) (fuel alloc : Nat)
    (oargs : List ScmObj) (sharedp : Bool) (ch : Char) (rest : List Char) (d : Directive)
    (st : FormatState) (h : ch.isDigit = true) :
    format_directive ops heap fuel alloc oargs sharedp ch rest d st
      = directive_number ops ch rest d st := by
  unfold format_directive
  rw [if_neg (by rintro rfl; exact absurd h (by decide)),
    if_neg (by rintro (rfl | rfl) <;> exact absurd h (by decide)),
    if_neg (by rintro (rfl | rfl) <;> exact absurd h (by decide)),
    if_neg (by rintro (rfl | rfl) <;> exact absurd h (by decide)),
    if_neg (by rintro (rfl | rfl) <;> exact absurd h (by decide)),
    if_neg (by rintro (rfl | rfl) <;> exact absurd h (by decide)),
    if_neg (by rintro (rfl | rfl) <;> exact absurd h (by decide)),
    if_neg (by rintro rfl; exact absurd h (by decide)),
    if_neg (by rintro (rfl | rfl) <;> exact absurd h (by decide)),
    if_neg (by rintro rfl; exact absurd h (by decide)),
    if_neg (by rintro rfl; exact absurd h (by decide)),
    if_neg (by rintro rfl; exact absurd h (by decide)),
    if_pos (Or.inl h)]


/-- A number at the head of a directive, for a value in the non-negative
range of `int`: it is read as the first parameter, up to the first character
`tl` that is not a digit, and a comma after it is skipped. -/
theorem directive_number_digits (ops : NumberOps)
    (hmk : ∀ v, SCM_SMALL_INT_FITS v = true → ops.Scm_MakeInteger v = .int v)
    (mincol : Nat) (hm : mincol < 2 ^ (8 * SIZEOF_INT - 1)) (tl : List Char)
    (htl : ∀ c, tl.head? = some c → c.isDigit = false) (st : FormatState) :
    ∃ (c0 : Char) (ds : List Char), Nat.toDigits 10 mincol = c0 :: ds ∧ c0.isDigit = true ∧
      directive_number ops c0 (ds ++ tl)
          { params := [], atflag := false, colonflag := false } st
        = .next (skip_comma tl)
            (some { params := [.int mincol], atflag := false, colonflag := false }) st := by
  obtain ⟨hne, hdig, hval⟩ := toDigits_spec mincol
  cases hds : Nat.toDigits 10 mincol with
  | nil => exact absurd hds hne
  | cons c0 ds =>
    rw [hds] at hdig hval
    have hc0 : c0.isDigit = true := hdig c0 (List.mem_cons_self _ _)
    refine ⟨c0, ds, rfl, hc0, ?_⟩
    have hsign : c0 ≠ '-' := by rintro rfl; exact absurd hc0 (by decide)
    have e48 : '0'.toNat = 48 := rfl
    have hM : mincol < 2 ^ (8 * SIZEOF_LONG) := by
      have h31 : (2 : Nat) ^ (8 * SIZEOF_INT - 1) = 2147483648 := by decide
      have h64 : (2 : Nat) ^ (8 * SIZEOF_LONG) = 18446744073709551616 := by decide
      omega
    have hrv : read_value (ds ++ tl) (c0.toNat - 48) = (mincol, tl) := by
      rw [read_value_digits ds (fun x hx => hdig x (List.mem_cons_of_mem _ hx)) tl htl]
      congr 1
      simp only [List.foldl_cons, Nat.zero_mul, Nat.zero_add] at hval
      by_cases hp : ds = []
      · rw [if_pos hp]
        subst hp
        simpa using hval
      · rw [if_neg hp, hval, Nat.mod_eq_of_lt hM]
    unfold directive_number
    rw [if_neg (by simp [MAX_PARAMS])]
    simp only [hc0, if_true, if_neg hsign, e48, hrv, List.nil_append]
    rw [to_long_small mincol hm, hmk _ (small_int_fits mincol hm)]

/-- The character `*` inside a directive is handled by `directive_star`. -/
theorem format_directive_star (ops : NumberOps) (heap : Heap) (fuel alloc : Nat)
    (oargs : List ScmObj) (sharedp : Bool) (rest : List Char) (d : Directive)
    (st : FormatState) :
    format_directive ops heap fuel alloc oargs sharedp '*' rest d st
      = directive_star oargs rest d st := by
  simp +decide [format_directive]

theorem star_first_none (d : Directive) :
    star_first d = none ↔ d.params ≠ [] ∧ ∀ v, d.params.head? ≠ some (ScmObj.int v) := by
  obtain ⟨params, atflag, colonflag⟩ := d
  unfold star_first
  cases params with
  | nil => simp
  | cons p ps => cases p <;> simp

theorem format_star_legal (oargs : List ScmObj) (d : Directive) (st : FormatState) (n : Int)
    (hn : star_first d = some n) (hf : ¬ (d.colonflag = true ∧ d.atflag = true)) :
    format_star oargs d st =
      if star_index d st n < 0 ∨ star_index d st n ≥ (oargs.length : Int) then
        .error .refersOutside
      else .ok { st with
        argcnt := star_index d st n, args := oargs.drop (star_index d st n).toNat,
        backtracked := if d.colonflag = true ∨ d.atflag = true then true
          else st.backtracked } := by
  unfold format_star
  simp only [hn, if_neg hf]

theorem format_star_illegal (oargs : List ScmObj) (d : Directive) (st : FormatState)
    (h : star_first d = none ∨ (d.colonflag = true ∧ d.atflag = true)) :
    format_star oargs d st = .error .illegalFormat := by
  unfold format_star
  rcases h with h | h
  · simp only [h]
  · cases hs : star_first d with
    | none => rfl
    | some n => simp only [if_pos h]

theorem long_to_int_idem (v : Int) : long_to_int (long_to_int v) = long_to_int v :=
  long_to_int_eq _ (long_to_int_range v).1 (long_to_int_range v).2

/-- The index that `~*` computes in `int` and the target index of the
specification, for a parameter in the range of `int`, a list whose length is
in that range and a cursor inside the list: the index lies outside of the
list exactly when the target does, and they are equal when the target lies
inside. -/
theorem star_index_goal (d : Directive) (st : FormatState) (n m : Int)
    (hn : INT_MIN ≤ n ∧ n ≤ INT_MAX) (hm : m ≤ INT_MAX)
    (hk : 0 ≤ st.argcnt ∧ st.argcnt ≤ m) :
    ((star_index d st n < 0 ∨ star_index d st n ≥ m) ↔
      (star_goal st.argcnt n d.colonflag d.atflag < 0 ∨
        m ≤ star_goal st.argcnt n d.colonflag d.atflag)) ∧
    (0 ≤ star_goal st.argcnt n d.colonflag d.atflag →
      star_goal st.argcnt n d.colonflag d.atflag < m →
      star_index d st n = star_goal st.argcnt n d.colonflag d.atflag) := by
  obtain ⟨hn1, hn2⟩ := hn
  obtain ⟨hk1, hk2⟩ := hk
  have key : ∀ t : Int, INT_MIN ≤ t → t < 4294967296 →
      ((int_wrap t < 0 ∨ int_wrap t ≥ m) ↔ (t < 0 ∨ m ≤ t)) ∧
        (0 ≤ t → t < m → int_wrap t = t) := by
    intro t ht1 ht2
    by_cases hin : t ≤ INT_MAX
    · rw [int_wrap_eq t ht1 hin]
      exact ⟨Iff.rfl, fun _ _ => rfl⟩
    · have hneg := int_wrap_above t (by omega) ht2
      constructor
      · constructor
        · intro _
          right
          omega
        · intro _
          left
          exact hneg
      · intro _ h
        omega
  rw [int_min_eq] at hn1
  rw [int_max_eq] at hn2 hm
  unfold star_index star_goal
  by_cases hc : d.colonflag = true
  · simp only [hc, if_true]
    exact key _ (by rw [int_min_eq]; omega) (by omega)
  · have hc2 : d.colonflag = false := by simpa using hc
    by_cases ha : d.atflag = true
    · simp [hc2, ha]
    · have ha2 : d.atflag = false := by simpa using ha
      simp only [hc2, ha2, Bool.false_eq_true, if_false, Bool.not_false, if_true]
      exact key _ (by rw [int_min_eq]; omega) (by omega)

/-- The value that `~*` reads from its parameter: 1 without a parameter, the
value of a first parameter that is a fixnum in the range of `int`. -/
theorem star_first_value (d : Directive) (n : Int)
    (hpar : (d.params = [] ∧ n = 1) ∨ d.params.head? = some (ScmObj.int n))
    (hn : INT_MIN ≤ n ∧ n ≤ INT_MAX) : star_first d = some n := by
  obtain ⟨params, atflag, colonflag⟩ := d
  unfold star_first
  rcases hpar with ⟨hp, h1⟩ | hp
  · simp only at hp
    subst hp
    subst h1
    rfl
  · cases params with
    | nil => simp at hp
    | cons p ps =>
      simp only [List.head?_cons, Option.some.injEq] at hp
      subst hp
      simp only [List.length_cons, ne_eq, Nat.add_one_ne_zero, not_false_eq_true, if_true,
        List.head?_cons, long_to_int_eq n hn.1 hn.2]

/-- At a parameter beyond the range of `int` the claim C20 fails.  With the
two arguments 1 and 2 and the cursor at 0, the directive `~4294967297*` has
the target index 4294967297, far behind the list, and raises no error: the
value of the parameter is converted to the `int` variable `argindex`, which
gives 1, the cursor moves to 1 and the following `~a` puts 2.  And the
parameter `4611686018427387904`, an integer beyond the fixnum range, for
which `Scm_MakeInteger` gives an object that is not a fixnum, raises "illegal
format string" where the claim has the error "refers outside of argument
list". -/
theorem format_star_large_parameter :
    star_goal 0 4294967297 false false = 4294967297 ∧
      ([ScmObj.int 1, ScmObj.int 2].length : Int) ≤ star_goal 0 4294967297 false false ∧
      long_to_int 4294967297 = 1 ∧
      (format_proc fixnumOps (fun _ => none) 5 0 20 ⟨[], none⟩ "~4294967297*~a".toList
        [.int 1, .int 2] false).2 = .done ∧
      render (format_proc fixnumOps (fun _ => none) 5 0 20 ⟨[], none⟩
        "~4294967297*~a".toList [.int 1, .int 2] false).1.out.out = "2".toList ∧
      SCM_INTP (fixnumOps.Scm_MakeInteger 4611686018427387904) = false ∧
      (format_proc fixnumOps (fun _ => none) 5 0 20 ⟨[], none⟩
        "~4611686018427387904*~a".toList [.int 1, .int 2] false).2
        = .error .illegalFormat := by
  decide

/-- C20 (amended): the directive `~*`, with `m` arguments in the list (`m` a
value of `int`) and the cursor `k` inside the list (`0 ≤ k ≤ m`).  The
directive raises the error "illegal format string" exactly when both flags
are set or it has a first parameter that is not a fixnum (a character, the
`#f` of a parameter left empty before a comma, or an integer beyond the
fixnum range).  Otherwise, for a parameter `n` in the range of `int` (1 when
the directive has no parameter) and the target index `t` of the
specification (`k - n` with `:`, `n` with `@`, else `k + n`, as integers
without bound): it raises the error
"refers outside of argument list" exactly when `t < 0` or `t ≥ m`, and when
`0 ≤ t < m` it raises no error and moves the cursor to `t`.  A fixnum
parameter beyond the range of `int` acts as its value converted to `int`.
The directive raises no other error, and the round of the directive loop on
`*` ends the run with the error of `format_star`, if any, with the variables
unchanged. -/
theorem format_star_errors (ops : NumberOps) (heap : Heap) (fuel alloc : Nat)
    (oargs : List ScmObj) (sharedp : Bool) (rest : List Char) (d : Directive)
    (st : FormatState)
    (hlen : (oargs.length : Int) ≤ INT_MAX)
    (hk : 0 ≤ st.argcnt ∧ st.argcnt ≤ (oargs.length : Int)) :
    (format_star oargs d st = .error .illegalFormat ↔
      (d.colonflag = true ∧ d.atflag = true) ∨
        (d.params ≠ [] ∧ ∀ v, d.params.head? ≠ some (ScmObj.int v))) ∧
    (∀ n : Int, ((d.params = [] ∧ n = 1) ∨ d.params.head? = some (ScmObj.int n)) →
      INT_MIN ≤ n → n ≤ INT_MAX → ¬ (d.colonflag = true ∧ d.atflag = true) →
      (format_star oargs d st = .error .refersOutside ↔
        star_goal st.argcnt n d.colonflag d.atflag < 0 ∨
          (oargs.length : Int) ≤ star_goal st.argcnt n d.colonflag d.atflag) ∧
      (0 ≤ star_goal st.argcnt n d.colonflag d.atflag →
        star_goal st.argcnt n d.colonflag d.atflag < (oargs.length : Int) →
        ∃ st2, format_star oargs d st = .ok st2 ∧
          st2.argcnt = star_goal st.argcnt n d.colonflag d.atflag ∧
          st2.args = oargs.drop (star_goal st.argcnt n d.colonflag d.atflag).toNat ∧
          st2.out = st.out)) ∧
    (∀ (v : Int) (ps : List ScmObj), d.params = ScmObj.int v :: ps →
      format_star oargs d st
        = format_star oargs { d with params := ScmObj.int (long_to_int v) :: ps } st) ∧
    (∀ e, format_star oargs d st = .error e → e = .illegalFormat ∨ e = .refersOutside) ∧
    (∀ e, format_star oargs d st = .error e →
      format_directive ops heap fuel alloc oargs sharedp '*' rest d st
        = .stop st (.error e)) ∧
    (∀ st2, format_star oargs d st = .ok st2 →
      format_directive ops heap fuel alloc oargs sharedp '*' rest d st
        = .next rest none st2) := by
  refine ⟨?_, ?_, ?_, format_star_error oargs d st, ?_, ?_⟩
  · rw [← star_first_none d]
    constructor
    · intro h
      by_contra hc
      simp only [not_or] at hc
      obtain ⟨h2, h1⟩ := hc
      cases hs : star_first d with
      | none => exact h1 hs
      | some n =>
        rw [format_star_legal oargs d st n hs h2] at h
        split at h <;> cases h
    · intro h
      exact format_star_illegal oargs d st (h.symm)
  · intro n hpar hn1 hn2 hf
    have hfirst := star_first_value d n hpar ⟨hn1, hn2⟩
    obtain ⟨hout, hin⟩ := star_index_goal d st n (oargs.length : Int) ⟨hn1, hn2⟩ hlen hk
    rw [format_star_legal oargs d st n hfirst hf]
    constructor
    · rw [← hout]
      constructor
      · intro h
        by_contra hc
        rw [if_neg hc] at h
        cases h
      · intro h
        rw [if_pos h]
    · intro h0 h1
      have e := hin h0 h1
      rw [e, if_neg (by omega)]
      exact ⟨_, rfl, rfl, rfl, rfl⟩
  · intro v ps hd
    obtain ⟨params, atflag, colonflag⟩ := d
    simp only at hd
    subst hd
    simp only [format_star, star_first, List.length_cons, ne_eq, Nat.add_one_ne_zero,
      not_false_eq_true, if_true, List.head?_cons, long_to_int_idem, star_index]
  · intro e he
    rw [format_directive_star, directive_star, he]
  · intro st2 he
    rw [format_directive_star, directive_star, he]

/-- The directive `~2:*` with the cursor at 1 of three arguments has the
target index -1 and raises "refers outside of argument list"; with both
flags it raises "illegal format string". -/
theorem format_star_errors_witness :
    star_goal 1 2 true false = -1 ∧
      format_star [.int 1, .int 2, .int 3] ⟨[.int 2], false, true⟩
        ⟨⟨[], none⟩, [.int 2, .int 3], 1, false⟩ = .error .refersOutside ∧
      format_star [.int 1, .int 2, .int 3] ⟨[.int 2], true, true⟩
        ⟨⟨[], none⟩, [.int 2, .int 3], 1, false⟩ = .error .illegalFormat :=
  ⟨by decide,
    ((format_star_errors fixnumOps (fun _ => none) 0 0 [.int 1, .int 2, .int 3] false []
      ⟨[.int 2], false, true⟩ ⟨⟨[], none⟩, [.int 2, .int 3], 1, false⟩ (by decide)
      (by decide)).2.1 2 (Or.inr rfl) (by decide) (by decide) (by decide)).1.2
      (Or.inl (by decide)),
    (format_star_errors fixnumOps (fun _ => none) 0 0 [.int 1, .int 2, .int 3] false []
      ⟨[.int 2], true, true⟩ ⟨⟨[], none⟩, [.int 2, .int 3], 1, false⟩ (by decide)
      (by decide)).1.2 (Or.inl ⟨rfl, rfl⟩)⟩


theorem format_run_tilde (ops : NumberOps) (heap : Heap) (fuel alloc : Nat)
    (oargs : List ScmObj) (sharedp : Bool) (s : Nat) (f : List Char) (st : FormatState) :
    format_run ops heap fuel alloc oargs sharedp (s + 1) ('~' :: f) none st
      = format_run ops heap fuel alloc oargs sharedp s f
          (some { params := [], atflag := false, colonflag := false }) st :=
  format_run_next _ _ _ _ _ _ _ _ _ _ _ _ _ (by rw [format_step]; simp)

theorem format_run_number (ops : NumberOps) (heap : Heap) (fuel alloc : Nat)
    (oargs : List ScmObj) (sharedp : Bool) (s : Nat) (n : Nat) (tl : List Char)
    (st : FormatState)
    (hmk : ∀ v, SCM_SMALL_INT_FITS v = true → ops.Scm_MakeInteger v = .int v)
    (hn : n < 2 ^ (8 * SIZEOF_INT - 1))
    (htl : ∀ c, tl.head? = some c → c.isDigit = false ∧ c ≠ ',') :
    format_run ops heap fuel alloc oargs sharedp (s + 1) (Nat.toDigits 10 n ++ tl)
        (some { params := [], atflag := false, colonflag := false }) st
      = format_run ops heap fuel alloc oargs sharedp s tl
          (some { params := [.int n], atflag := false, colonflag := false }) st := by
  obtain ⟨c0, ds, hds, hc0, hnum⟩ := directive_number_digits ops hmk n hn tl
    (fun c hc => (htl c hc).1) st
  have hsk : skip_comma tl = tl := by
    cases tl with
    | nil => rfl
    | cons c t =>
      have hc := (htl c rfl).2
      unfold skip_comma
      split
      · rename_i h
        cases h
        exact absurd rfl hc
      · rfl
  rw [hsk] at hnum
  apply format_run_next
  rw [hds, List.cons_append, format_step, format_directive_digit _ _ _ _ _ _ _ _ _ _ hc0]
  exact hnum

theorem format_run_colon (ops : NumberOps) (heap : Heap) (fuel alloc : Nat)
    (oargs : List ScmObj) (sharedp : Bool) (s : Nat) (f : List Char) (ps : List ScmObj)
    (st : FormatState) :
    format_run ops heap fuel alloc oargs sharedp (s + 1) (':' :: f)
        (some { params := ps, atflag := false, colonflag := false }) st
      = format_run ops heap fuel alloc oargs sharedp s f
          (some { params := ps, atflag := false, colonflag := true }) st :=
  format_run_next _ _ _ _ _ _ _ _ _ _ _ _ _
    (by rw [format_step]; simp +decide [format_directive])

theorem format_run_at (ops : NumberOps) (heap : Heap) (fuel alloc : Nat)
    (oargs : List ScmObj) (sharedp : Bool) (s : Nat) (f : List Char) (ps : List ScmObj)
    (st : FormatState) :
    format_run ops heap fuel alloc oargs sharedp (s + 1) ('@' :: f)
        (some { params := ps, atflag := false, colonflag := false }) st
      = format_run ops heap fuel alloc oargs sharedp s f
          (some { params := ps, atflag := true, colonflag := false }) st :=
  format_run_next _ _ _ _ _ _ _ _ _ _ _ _ _
    (by rw [format_step]; simp +decide [format_directive])

/-- The rounds of a `~*` directive before the `*` itself: the parameter and
the flag are read. -/
theorem format_run_star_text (ops : NumberOps) (heap : Heap) (fuel alloc : Nat)
    (oargs : List ScmObj) (sharedp : Bool) (s : Nat) (num : Option Nat) (flag : StarFlag)
    (rest : List Char) (st : FormatState)
    (hmk : ∀ v, SCM_SMALL_INT_FITS v = true → ops.Scm_MakeInteger v = .int v)
    (hn : ∀ n, num = some n → n < 2 ^ (8 * SIZEOF_INT - 1)) :
    format_run ops heap fuel alloc oargs sharedp (s + star_rounds num flag)
        (star_text num flag ++ rest) none st
      = format_run ops heap fuel alloc oargs sharedp (s + 1) ('*' :: rest)
          (some { params := star_params num,
                  atflag := decide (flag = .absolute),
                  colonflag := decide (flag = .backward) }) st := by
  cases num with
  | none =>
    cases flag with
    | forward =>
      have e : s + star_rounds none .forward = (s + 1) + 1 := rfl
      rw [e]
      exact format_run_tilde _ _ _ _ _ _ _ _ _
    | backward =>
      have e : s + star_rounds none .backward = (s + 1 + 1) + 1 := rfl
      rw [e]
      show format_run ops heap fuel alloc oargs sharedp (s + 1 + 1 + 1)
        ('~' :: ':' :: '*' :: rest) none st = _
      rw [format_run_tilde, format_run_colon]
      rfl
    | absolute =>
      have e : s + star_rounds none .absolute = (s + 1 + 1) + 1 := rfl
      rw [e]
      show format_run ops heap fuel alloc oargs sharedp (s + 1 + 1 + 1)
        ('~' :: '@' :: '*' :: rest) none st = _
      rw [format_run_tilde, format_run_at]
      rfl
  | some n =>
    have hn2 := hn n rfl
    cases flag with
    | forward =>
      have e : s + star_rounds (some n) .forward = (s + 1 + 1) + 1 := rfl
      rw [e]
      show format_run ops heap fuel alloc oargs sharedp (s + 1 + 1 + 1)
        ('~' :: (Nat.toDigits 10 n ++ ([] ++ ['*']) ++ rest)) none st = _
      rw [format_run_tilde, List.nil_append, List.append_assoc,
        format_run_number _ _ _ _ _ _ _ _ _ _ hmk hn2
          (by intro c hc; cases hc; exact ⟨by decide, by decide⟩)]
      rfl
    | backward =>
      have e : s + star_rounds (some n) .backward = (s + 1 + 1 + 1) + 1 := rfl
      rw [e]
      show format_run ops heap fuel alloc oargs sharedp (s + 1 + 1 + 1 + 1)
        ('~' :: (Nat.toDigits 10 n ++ ([':'] ++ ['*']) ++ rest)) none st = _
      rw [format_run_tilde, List.append_assoc,
        format_run_number _ _ _ _ _ _ _ _ _ _ hmk hn2
          (by intro c hc; cases hc; exact ⟨by decide, by decide⟩)]
      show format_run ops heap fuel alloc oargs sharedp (s + 1 + 1) (':' :: '*' :: rest) _ st = _
      rw [format_run_colon]
      rfl
    | absolute =>
      have e : s + star_rounds (some n) .absolute = (s + 1 + 1 + 1) + 1 := rfl
      rw [e]
      show format_run ops heap fuel alloc oargs sharedp (s + 1 + 1 + 1 + 1)
        ('~' :: (Nat.toDigits 10 n ++ (['@'] ++ ['*']) ++ rest)) none st = _
      rw [format_run_tilde, List.append_assoc,
        format_run_number _ _ _ _ _ _ _ _ _ _ hmk hn2
          (by intro c hc; cases hc; exact ⟨by decide, by decide⟩)]
      show format_run ops heap fuel alloc oargs sharedp (s + 1 + 1) ('@' :: '*' :: rest) _ st = _
      rw [format_run_at]
      rfl


/-- The claim of C19 fails at the position just past the last argument: with
one argument and the cursor at 0, `~*` has the target position 1, the length
of the list, and the run ends with the error "refers outside of argument
list" instead of moving the cursor there. -/
theorem format_star_past_last_rejected :
    star_target 0 none .forward = 1 ∧ ([ScmObj.int 7].length : Int) = 1 ∧
      star_text none .forward = "~*".toList ∧
      (format_proc fixnumOps (fun _ => none) 5 0 10 ⟨[], none⟩ "~*".toList [.int 7]
        false).2 = .error .refersOutside ∧
      (format_proc fixnumOps (fun _ => none) 5 0 10 ⟨[], none⟩ "~*".toList [.int 7]
        false).1.argcnt = 0 := by
  decide

theorem star_goal_target (k : Int) (num : Option Nat) (flag : StarFlag) :
    star_goal k ((num.getD 1 : Nat) : Int) (decide (flag = .backward))
        (decide (flag = .absolute))
      = star_target k num flag := by
  cases flag <;> simp [star_goal, star_target]

/-- C19 (amended): for an argument list of length `m` (a value of `int`), a
cursor position `k` between 0 and `m`, and a `~*` directive with a parameter
`n` with `0 ≤ n < 2 ^ 31` (1 when left out) and no flag, the flag `:` or the
flag `@`, let `t` be the target position (`k+n`, `k-n` or `n`).  If `t` is at
least 0 and below `m`, then the rounds of the directive put nothing, move the
cursor to `t`, so that `args` is the list from index `t` on and `argcnt` is
`t`, and set `backtracked` when a flag is given; the run goes on with the
rest of the format string, and `NEXT_ARG`, with which every directive that
consumes an argument starts, then yields the argument at index `t`.  If `t`
is below 0 or at least `m` (the position `m` just past the last argument
included), then the run ends at the directive with the error "refers outside
of argument list", with the port, the cursor and `backtracked` as they were
before. -/
theorem format_star_moves (ops : NumberOps) (heap : Heap) (fuel alloc : Nat)
    (oargs : List ScmObj) (sharedp : Bool) (s : Nat) (num : Option Nat) (flag : StarFlag)
    (rest : List Char) (st : FormatState)
    (hmk : ∀ v, SCM_SMALL_INT_FITS v = true → ops.Scm_MakeInteger v = .int v)
    (hlen : oargs.length < 2 ^ (8 * SIZEOF_INT - 1))
    (hk : 0 ≤ st.argcnt ∧ st.argcnt ≤ (oargs.length : Int))
    (hn : ∀ n, num = some n → n < 2 ^ (8 * SIZEOF_INT - 1)) :
    (0 ≤ star_target st.argcnt num flag →
      star_target st.argcnt num flag < (oargs.length : Int) →
      ∃ arg, oargs.get? (star_target st.argcnt num flag).toNat = some arg ∧
        format_run ops heap fuel alloc oargs sharedp (s + star_rounds num flag)
            (star_text num flag ++ rest) none st
          = format_run ops heap fuel alloc oargs sharedp s rest none
              { st with
                argcnt := star_target st.argcnt num flag,
                args := oargs.drop (star_target st.argcnt num flag).toNat,
                backtracked := if flag = .forward then st.backtracked else true } ∧
        NEXT_ARG { st with
            argcnt := star_target st.argcnt num flag,
            args := oargs.drop (star_target st.argcnt num flag).toNat,
            backtracked := if flag = .forward then st.backtracked else true }
          = some (arg, { st with
            argcnt := star_target st.argcnt num flag + 1,
            args := oargs.drop ((star_target st.argcnt num flag).toNat + 1),
            backtracked := if flag = .forward then st.backtracked else true })) ∧
    (star_target st.argcnt num flag < 0 ∨
        (oargs.length : Int) ≤ star_target st.argcnt num flag →
      format_run ops heap fuel alloc oargs sharedp (s + star_rounds num flag)
          (star_text num flag ++ rest) none st
        = (st, .error .refersOutside)) := by
  have hnum : INT_MIN ≤ ((num.getD 1 : Nat) : Int) ∧ ((num.getD 1 : Nat) : Int) ≤ INT_MAX := by
    rw [int_min_eq, int_max_eq]
    cases num with
    | none => simp
    | some n =>
      have := hn n rfl
      rw [int_pow_31] at this
      simp only [Option.getD_some]
      omega
  have hm : (oargs.length : Int) ≤ INT_MAX := by
    rw [int_max_eq]
    rw [int_pow_31] at hlen
    omega
  have hfirst : star_first
      { params := star_params num,
        atflag := decide (flag = .absolute),
        colonflag := decide (flag = .backward) } = some ((num.getD 1 : Nat) : Int) := by
    cases num with
    | none => rfl
    | some n =>
      simp only [star_first, star_params, List.length_singleton, ne_eq, one_ne_zero,
        not_false_eq_true, if_true, List.head?_cons, Option.getD_some]
      rw [long_to_int_small n (hn n rfl)]
  obtain ⟨hout, hin⟩ := star_index_goal
    { params := star_params num,
      atflag := decide (flag = .absolute),
      colonflag := decide (flag = .backward) } st ((num.getD 1 : Nat) : Int)
    (oargs.length : Int) hnum hm hk
  simp only [star_goal_target] at hout hin
  constructor
  · intro ht0 htm
    have hlt : (star_target st.argcnt num flag).toNat < oargs.length := by omega
    have hdrop : oargs.drop (star_target st.argcnt num flag).toNat
        = oargs.get ⟨_, hlt⟩ :: oargs.drop ((star_target st.argcnt num flag).toNat + 1) :=
      List.drop_eq_getElem_cons hlt
    refine ⟨oargs.get ⟨_, hlt⟩, List.get?_eq_get hlt, ?_, ?_⟩
    · rw [format_run_star_text ops heap fuel alloc oargs sharedp s num flag rest st hmk hn]
      apply format_run_next
      rw [format_step, format_directive_star, directive_star]
      rw [format_star_legal oargs _ st _ hfirst (by cases flag <;> simp), hin ht0 htm,
        if_neg (by omega)]
      cases flag <;> simp
    · simp only [NEXT_ARG]
      rw [hdrop]
  · intro ht
    rw [format_run_star_text ops heap fuel alloc oargs sharedp s num flag rest st hmk hn]
    apply format_run_stop
    rw [format_step, format_directive_star, directive_star]
    rw [format_star_legal oargs _ st _ hfirst (by cases flag <;> simp),
      if_pos (hout.2 ht)]

/-- With the three arguments 1, 2, 3 and the cursor at 0, `~2*` moves the
cursor to 2 and the following `~a` puts 3; `~3*` has the target 3, the length
of the list, and ends the run with the error. -/
theorem format_star_moves_witness :
    render (format_proc fixnumOps (fun _ => none) 5 0 10 ⟨[], none⟩ "~2*~a".toList
        [.int 1, .int 2, .int 3] false).1.out.out = "3".toList ∧
      (format_proc fixnumOps (fun _ => none) 5 0 10 ⟨[], none⟩ "~2*~a".toList
        [.int 1, .int 2, .int 3] false).2 = .done ∧
      format_proc fixnumOps (fun _ => none) 5 0 10 ⟨[], none⟩ "~3*~a".toList
          [.int 1, .int 2, .int 3] false
        = (⟨⟨[], none⟩, [.int 1, .int 2, .int 3], 0, false⟩, .error .refersOutside) :=
  have h := (format_star_moves fixnumOps (fun _ => none) 5 0 [.int 1, .int 2, .int 3] false 7
    (some 2) .forward "~a".toList ⟨⟨[], none⟩, [.int 1, .int 2, .int 3], 0, false⟩
    (by intro v hv; simp [fixnumOps, hv]) (by decide) (by decide)
    (by intro n hn; cases hn; decide)).1 (by decide) (by decide)
  have h3 := (format_star_moves fixnumOps (fun _ => none) 5 0 [.int 1, .int 2, .int 3] false 7
    (some 3) .forward "~a".toList ⟨⟨[], none⟩, [.int 1, .int 2, .int 3], 0, false⟩
    (by intro v hv; simp [fixnumOps, hv]) (by decide) (by decide)
    (by intro n hn; cases hn; decide)).2 (Or.inr (by decide))
  ⟨by
    obtain ⟨arg, _, hrun, _⟩ := h
    have e : format_proc fixnumOps (fun _ => none) 5 0 10 ⟨[], none⟩ "~2*~a".toList
        [.int 1, .int 2, .int 3] false
        = format_run fixnumOps (fun _ => none) 5 0 [.int 1, .int 2, .int 3] false
            (7 + star_rounds (some 2) .forward) (star_text (some 2) .forward ++ "~a".toList)
            none ⟨⟨[], none⟩, [.int 1, .int 2, .int 3], 0, false⟩ := rfl
    rw [e, hrun]
    rfl, by decide, h3⟩

/-! ## Flags of a directive -/

/-- A run that ends within the rounds allowed has reached a configuration
whose round ends it. -/
theorem format_run_stops (ops : NumberOps) (heap : Heap) (fuel alloc : Nat)
    (oargs : List ScmObj) (sharedp : Bool) :
    ∀ (steps : Nat) (f : List Char) (d : Option Directive) (st st2 : FormatState)
      (o : FormatOutcome),
      format_run ops heap fuel alloc oargs sharedp steps f d st = (st2, o) →
      o ≠ .outOfFuel →
      ∃ (k : Nat) (f1 : List Char) (d1 : Option Directive) (st1 : FormatState),
        k < steps ∧
        format_after ops heap fuel alloc oargs sharedp k f d st = some (f1, d1, st1) ∧
        format_step ops heap fuel alloc oargs sharedp f1 d1 st1 = .stop st2 o := by
  intro steps
  induction steps with
  | zero =>
    intro f d st st2 o h ho
    simp only [format_run, Prod.mk.injEq] at h
    exact absurd h.2.symm ho
  | succ n ih =>
    intro f d st st2 o h ho
    rw [format_run] at h
    cases hs : format_step ops heap fuel alloc oargs sharedp f d st with
    | stop s1 o1 =>
      rw [hs] at h
      simp only [Prod.mk.injEq] at h
      obtain ⟨rfl, rfl⟩ := h
      exact ⟨0, f, d, st, by omega, rfl, hs⟩
    | next f1 d1 s1 =>
      rw [hs] at h
      obtain ⟨k, f2, d2, s2, hk, ha, hst⟩ := ih f1 d1 s1 st2 o h ho
      refine ⟨k + 1, f2, d2, s2, by omega, ?_, hst⟩
      rw [format_after, hs]
      exact ha

theorem directive_sexp_dir (heap : Heap) (fuel : Nat) (sharedp : Bool) (mode : Nat)
    (rest f2 : List Char) (d : Directive) (d2 : Option Directive) (st st2 : FormatState)
    (h : directive_sexp heap fuel sharedp mode rest d st = .next f2 d2 st2) : d2 = none := by
  unfold directive_sexp at h
  split at h
  · cases h
  · split at h <;> exact (after_write_next _ _ _ _ _ _ h).2.1

theorem directive_decimal_dir (ops : NumberOps) (heap : Heap) (fuel : Nat)
    (rest f2 : List Char) (d : Directive) (d2 : Option Directive) (st st2 : FormatState)
    (h : directive_decimal ops heap fuel rest d st = .next f2 d2 st2) : d2 = none := by
  unfold directive_decimal at h
  split at h
  · cases h
  · split at h <;> exact (after_write_next _ _ _ _ _ _ h).2.1

theorem directive_radix_dir (ops : NumberOps) (heap : Heap) (fuel alloc radix : Nat)
    (up : Bool) (rest f2 : List Char) (d : Directive) (d2 : Option Directive)
    (st st2 : FormatState)
    (h : directive_radix ops heap fuel alloc radix up rest d st = .next f2 d2 st2) :
    d2 = none := by
  unfold directive_radix at h
  split at h
  · cases h
  · split at h <;> exact (after_write_next _ _ _ _ _ _ h).2.1

theorem directive_star_dir (oargs : List ScmObj) (rest f2 : List Char) (d : Directive)
    (d2 : Option Directive) (st st2 : FormatState)
    (h : directive_star oargs rest d st = .next f2 d2 st2) : d2 = none := by
  unfold directive_star at h
  split at h
  · cases h
  · cases h; rfl

/-- The flags of a directive after a round that stays inside the directive:
the flag `@` is set exactly if it was set or the character read is `@`, and
likewise for `:`. -/
theorem format_directive_flags (ops : NumberOps) (heap : Heap) (fuel alloc : Nat)
    (oargs : List ScmObj) (sharedp : Bool) (ch : Char) (rest f2 : List Char)
    (d d2 : Directive) (st st2 : FormatState)
    (h : format_directive ops heap fuel alloc oargs sharedp ch rest d st
      = .next f2 (some d2) st2) :
    d2.atflag = (d.atflag || decide (ch = '@')) ∧
      d2.colonflag = (d.colonflag || decide (ch = ':')) := by
  unfold format_directive at h
  by_cases h1 : ch = '%'
  · rw [if_pos h1] at h; cases h
  rw [if_neg h1] at h
  by_cases h2 : ch = 's' ∨ ch = 'S'
  · rw [if_pos h2] at h; cases directive_sexp_dir _ _ _ _ _ _ _ _ _ _ h
  rw [if_neg h2] at h
  by_cases h3 : ch = 'a' ∨ ch = 'A'
  · rw [if_pos h3] at h; cases directive_sexp_dir _ _ _ _ _ _ _ _ _ _ h
  rw [if_neg h3] at h
  by_cases h4 : ch = 'd' ∨ ch = 'D'
  · rw [if_pos h4] at h; cases directive_decimal_dir _ _ _ _ _ _ _ _ _ h
  rw [if_neg h4] at h
  by_cases h5 : ch = 'b' ∨ ch = 'B'
  · rw [if_pos h5] at h; cases directive_radix_dir _ _ _ _ _ _ _ _ _ _ _ _ h
  rw [if_neg h5] at h
  by_cases h6 : ch = 'o' ∨ ch = 'O'
  · rw [if_pos h6] at h; cases directive_radix_dir _ _ _ _ _ _ _ _ _ _ _ _ h
  rw [if_neg h6] at h
  by_cases h7 : ch = 'x' ∨ ch = 'X'
  · rw [if_pos h7] at h; cases directive_radix_dir _ _ _ _ _ _ _ _ _ _ _ _ h
  rw [if_neg h7] at h
  by_cases h8 : ch = '*'
  · rw [if_pos h8] at h; cases directive_star_dir _ _ _ _ _ _ _ h
  rw [if_neg h8] at h
  have hat : ∀ b : Bool, ch ≠ '@' → (b || decide (ch = '@')) = b := by
    intro b hne; simp [hne]
  have hco : ∀ b : Bool, ch ≠ ':' → (b || decide (ch = ':')) = b := by
    intro b hne; simp [hne]
  by_cases h9 : ch = 'v' ∨ ch = 'V'
  · rw [if_pos h9] at h
    have n1 : ch ≠ '@' := by rintro rfl; revert h9; decide
    have n2 : ch ≠ ':' := by rintro rfl; revert h9; decide
    rw [hat _ n1, hco _ n2]
    unfold directive_v at h
    split at h
    · cases h
    · split at h
      · cases h
      · split at h
        · cases h
        · cases h; exact ⟨rfl, rfl⟩
  rw [if_neg h9] at h
  by_cases h10 : ch = '@'
  · rw [if_pos h10] at h
    subst h10
    by_cases ha : d.atflag = true
    · rw [if_pos ha] at h; cases h
    · rw [if_neg ha] at h
      cases h
      simp
  rw [if_neg h10] at h
  by_cases h11 : ch = ':'
  · rw [if_pos h11] at h
    subst h11
    by_cases hc : d.colonflag = true
    · rw [if_pos hc] at h; cases h
    · rw [if_neg hc] at h
      cases h
      simp
  rw [if_neg h11] at h
  rw [hat _ h10, hco _ h11]
  by_cases h12 : ch = Char.ofNat 39
  · rw [if_pos h12] at h
    unfold directive_quote at h
    split at h
    · cases h
    · split at h
      · cases h
      · split at h
        · cases h
        · cases h; exact ⟨rfl, rfl⟩
  rw [if_neg h12] at h
  by_cases h13 : ch.isDigit = true ∨ ch = '-' ∨ ch = '+'
  · rw [if_pos h13] at h
    unfold directive_number at h
    split at h
    · cases h
    · cases h; exact ⟨rfl, rfl⟩
  rw [if_neg h13] at h
  by_cases h14 : ch = ','
  · rw [if_pos h14] at h
    unfold directive_comma at h
    split at h
    · cases h
    · cases h; exact ⟨rfl, rfl⟩
  rw [if_neg h14] at h
  cases h


theorem after_write_no_flag_error (f : List Char) (st st2 : FormatState)
    (r : ScmPort × Outcome) (e : FormatError)
    (h : after_write f st r = .stop st2 (.error e)) : False := by
  obtain ⟨⟨o1, ho⟩, _⟩ := after_write_stop f st st2 r _ h
  cases ho

theorem directive_sexp_error (heap : Heap) (fuel : Nat) (sharedp : Bool) (mode : Nat)
    (rest : List Char) (d : Directive) (st st2 : FormatState) (e : FormatError)
    (h : directive_sexp heap fuel sharedp mode rest d st = .stop st2 (.error e)) :
    e = .tooFewArguments := by
  unfold directive_sexp at h
  split at h
  · cases h; rfl
  · split at h <;> exact (after_write_no_flag_error _ _ _ _ _ h).elim

theorem directive_decimal_error (ops : NumberOps) (heap : Heap) (fuel : Nat)
    (rest : List Char) (d : Directive) (st st2 : FormatState) (e : FormatError)
    (h : directive_decimal ops heap fuel rest d st = .stop st2 (.error e)) :
    e = .tooFewArguments := by
  unfold directive_decimal at h
  split at h
  · cases h; rfl
  · split at h <;> exact (after_write_no_flag_error _ _ _ _ _ h).elim

theorem directive_radix_error (ops : NumberOps) (heap : Heap) (fuel alloc radix : Nat)
    (up : Bool) (rest : List Char) (d : Directive) (st st2 : FormatState) (e : FormatError)
    (h : directive_radix ops heap fuel alloc radix up rest d st = .stop st2 (.error e)) :
    e = .tooFewArguments := by
  unfold directive_radix at h
  split at h
  · cases h; rfl
  · split at h <;> exact (after_write_no_flag_error _ _ _ _ _ h).elim

theorem directive_star_error (oargs : List ScmObj) (rest : List Char) (d : Directive)
    (st st2 : FormatState) (e : FormatError)
    (h : directive_star oargs rest d st = .stop st2 (.error e)) :
    e = .illegalFormat ∨ e = .refersOutside := by
  unfold directive_star at h
  split at h
  · rename_i e1 he
    cases h
    exact format_star_error _ _ _ _ he
  · cases h

theorem directive_v_error (rest : List Char) (d : Directive) (st st2 : FormatState)
    (e : FormatError) (h : directive_v rest d st = .stop st2 (.error e)) :
    e = .illegalFormat ∨ e = .tooFewArguments ∨ e = .badVArgument := by
  unfold directive_v at h
  split at h
  · cases h; exact Or.inl rfl
  · split at h
    · cases h; exact Or.inr (Or.inl rfl)
    · split at h
      · cases h; exact Or.inr (Or.inr rfl)
      · cases h

theorem directive_quote_error (rest : List Char) (d : Directive) (st st2 : FormatState)
    (e : FormatError) (h : directive_quote rest d st = .stop st2 (.error e)) :
    e = .illegalFormat := by
  unfold directive_quote at h
  split at h
  · cases h; rfl
  · split at h
    · cases h; rfl
    · split at h
      · cases h; rfl
      · cases h

theorem directive_number_error (ops : NumberOps) (ch : Char) (rest : List Char)
    (d : Directive) (st st2 : FormatState) (e : FormatError)
    (h : directive_number ops ch rest d st = .stop st2 (.error e)) : e = .illegalFormat := by
  unfold directive_number at h
  split at h
  · cases h; rfl
  · cases h

theorem directive_comma_error (rest : List Char) (d : Directive) (st st2 : FormatState)
    (e : FormatError) (h : directive_comma rest d st = .stop st2 (.error e)) :
    e = .illegalFormat := by
  unfold directive_comma at h
  split at h
  · cases h; rfl
  · cases h

/-- The errors of the flags are raised by the rounds on `@` with the flag `@`
set and on `:` with the flag `:` set, and by no other round. -/
theorem format_directive_flag_error (ops : NumberOps) (heap : Heap) (fuel alloc : Nat)
    (oargs : List ScmObj) (sharedp : Bool) (ch : Char) (rest : List Char) (d : Directive)
    (st st2 : FormatState) (e : FormatError)
    (h : format_directive ops heap fuel alloc oargs sharedp ch rest d st
      = .stop st2 (.error e)) :
    (e = .tooManyAtFlag → ch = '@' ∧ d.atflag = true ∧ st2 = st) ∧
      (e = .tooManyColonFlag → ch = ':' ∧ d.colonflag = true ∧ st2 = st) := by
  unfold format_directive at h
  by_cases h1 : ch = '%'
  · rw [if_pos h1] at h; cases h
  rw [if_neg h1] at h
  by_cases h2 : ch = 's' ∨ ch = 'S'
  · rw [if_pos h2] at h
    cases directive_sexp_error _ _ _ _ _ _ _ _ _ h
    exact ⟨by simp, by simp⟩
  rw [if_neg h2] at h
  by_cases h3 : ch = 'a' ∨ ch = 'A'
  · rw [if_pos h3] at h
    cases directive_sexp_error _ _ _ _ _ _ _ _ _ h
    exact ⟨by simp, by simp⟩
  rw [if_neg h3] at h
  by_cases h4 : ch = 'd' ∨ ch = 'D'
  · rw [if_pos h4] at h
    cases directive_decimal_error _ _ _ _ _ _ _ _ h
    exact ⟨by simp, by simp⟩
  rw [if_neg h4] at h
  by_cases h5 : ch = 'b' ∨ ch = 'B'
  · rw [if_pos h5] at h
    cases directive_radix_error _ _ _ _ _ _ _ _ _ _ _ h
    exact ⟨by simp, by simp⟩
  rw [if_neg h5] at h
  by_cases h6 : ch = 'o' ∨ ch = 'O'
  · rw [if_pos h6] at h
    cases directive_radix_error _ _ _ _ _ _ _ _ _ _ _ h
    exact ⟨by simp, by simp⟩
  rw [if_neg h6] at h
  by_cases h7 : ch = 'x' ∨ ch = 'X'
  · rw [if_pos h7] at h
    cases directive_radix_error _ _ _ _ _ _ _ _ _ _ _ h
    exact ⟨by simp, by simp⟩
  rw [if_neg h7] at h
  by_cases h8 : ch = '*'
  · rw [if_pos h8] at h
    rcases directive_star_error _ _ _ _ _ _ h with rfl | rfl <;> exact ⟨by simp, by simp⟩
  rw [if_neg h8] at h
  by_cases h9 : ch = 'v' ∨ ch = 'V'
  · rw [if_pos h9] at h
    rcases directive_v_error _ _ _ _ _ h with rfl | rfl | rfl <;> exact ⟨by simp, by simp⟩
  rw [if_neg h9] at h
  by_cases h10 : ch = '@'
  · rw [if_pos h10] at h
    by_cases ha : d.atflag = true
    · rw [if_pos ha] at h
      cases h
      exact ⟨fun _ => ⟨h10, ha, rfl⟩, by simp⟩
    · rw [if_neg ha] at h; cases h
  rw [if_neg h10] at h
  by_cases h11 : ch = ':'
  · rw [if_pos h11] at h
    by_cases hc : d.colonflag = true
    · rw [if_pos hc] at h
      cases h
      exact ⟨by simp, fun _ => ⟨h11, hc, rfl⟩⟩
    · rw [if_neg hc] at h; cases h
  rw [if_neg h11] at h
  by_cases h12 : ch = Char.ofNat 39
  · rw [if_pos h12] at h
    cases directive_quote_error _ _ _ _ _ h
    exact ⟨by simp, by simp⟩
  rw [if_neg h12] at h
  by_cases h13 : ch.isDigit = true ∨ ch = '-' ∨ ch = '+'
  · rw [if_pos h13] at h
    cases directive_number_error _ _ _ _ _ _ _ h
    exact ⟨by simp, by simp⟩
  rw [if_neg h13] at h
  by_cases h14 : ch = ','
  · rw [if_pos h14] at h
    cases directive_comma_error _ _ _ _ _ h
    exact ⟨by simp, by simp⟩
  rw [if_neg h14] at h
  cases h

theorem format_step_flag_error (ops : NumberOps) (heap : Heap) (fuel alloc : Nat)
    (oargs : List ScmObj) (sharedp : Bool) (f : List Char) (d : Option Directive)
    (st st2 : FormatState) (e : FormatError)
    (h : format_step ops heap fuel alloc oargs sharedp f d st = .stop st2 (.error e)) :
    (e = .tooManyAtFlag →
      ∃ rest dd, f = '@' :: rest ∧ d = some dd ∧ dd.atflag = true ∧ st2 = st) ∧
    (e = .tooManyColonFlag →
      ∃ rest dd, f = ':' :: rest ∧ d = some dd ∧ dd.colonflag = true ∧ st2 = st) := by
  cases d with
  | none =>
    cases f with
    | nil =>
      rw [format_step] at h
      split at h <;> cases h
      exact ⟨by simp, by simp⟩
    | cons ch rest =>
      rw [format_step] at h
      split at h <;> cases h
  | some dd =>
    cases f with
    | nil => rw [format_step] at h; cases h
    | cons ch rest =>
      rw [format_step] at h
      obtain ⟨h1, h2⟩ := format_directive_flag_error _ _ _ _ _ _ _ _ _ _ _ _ h
      constructor
      · intro he
        obtain ⟨rfl, ha, hs⟩ := h1 he
        exact ⟨rest, dd, rfl, rfl, ha, hs⟩
      · intro he
        obtain ⟨rfl, ha, hs⟩ := h2 he
        exact ⟨rest, dd, rfl, rfl, ha, hs⟩

/-- C21: flags of a directive, for every format string and argument list.
A directive starts with neither flag set; a round of the directive loop that
stays in the directive sets the flag `@` exactly when it reads `@` and the
flag `:` exactly when it reads `:`.  When the run reaches an `@` in a
directive whose flag `@` is set already, or a `:` in a directive whose flag
`:` is set already, it ends there with the error of that flag, the variables
unchanged, so before any directive letter is dealt with.  Conversely a run
that ends with the error of a flag has reached that flag in a directive in
which it was set already. -/
theorem format_proc_flag_errors (ops : NumberOps) (heap : Heap) (fuel alloc steps : Nat)
    (out : ScmPort) (fmt : List Char) (args : List ScmObj) (sharedp : Bool) :
    (∀ (k : Nat) (ch : Char) (rest : List Char) (d : Directive) (st : FormatState),
      k < steps →
      format_after ops heap fuel alloc args sharedp k fmt none
        { out := out, args := args, argcnt := 0, backtracked := false }
          = some (ch :: rest, some d, st) →
      (ch = '@' ∧ d.atflag = true →
        format_proc ops heap fuel alloc steps out fmt args sharedp
          = (st, .error .tooManyAtFlag)) ∧
      (ch = ':' ∧ d.colonflag = true →
        format_proc ops heap fuel alloc steps out fmt args sharedp
          = (st, .error .tooManyColonFlag)) ∧
      (∀ f2 d2 st2,
        format_step ops heap fuel alloc args sharedp (ch :: rest) (some d) st
          = .next f2 (some d2) st2 →
        d2.atflag = (d.atflag || decide (ch = '@')) ∧
        d2.colonflag = (d.colonflag || decide (ch = ':')))) ∧
    (∀ (rest : List Char) (st : FormatState),
      format_step ops heap fuel alloc args sharedp ('~' :: rest) none st
        = .next rest (some { params := [], atflag := false, colonflag := false }) st) ∧
    ((format_proc ops heap fuel alloc steps out fmt args sharedp).2
        = .error .tooManyAtFlag →
      ∃ (k : Nat) (rest : List Char) (d : Directive), k < steps ∧ d.atflag = true ∧
        format_after ops heap fuel alloc args sharedp k fmt none
          { out := out, args := args, argcnt := 0, backtracked := false }
            = some ('@' :: rest, some d,
                (format_proc ops heap fuel alloc steps out fmt args sharedp).1)) ∧
    ((format_proc ops heap fuel alloc steps out fmt args sharedp).2
        = .error .tooManyColonFlag →
      ∃ (k : Nat) (rest : List Char) (d : Directive), k < steps ∧ d.colonflag = true ∧
        format_after ops heap fuel alloc args sharedp k fmt none
          { out := out, args := args, argcnt := 0, backtracked := false }
            = some (':' :: rest, some d,
                (format_proc ops heap fuel alloc steps out fmt args sharedp).1)) := by
  refine ⟨?_, ?_, ?_, ?_⟩
  · intro k ch rest d st hk hreach
    obtain ⟨n, rfl⟩ : ∃ n, steps = k + (n + 1) := ⟨steps - k - 1, by omega⟩
    refine ⟨?_, ?_, ?_⟩
    · rintro ⟨rfl, ha⟩
      unfold format_proc
      rw [format_run_after ops heap fuel alloc args sharedp k fmt _ none _ _ _ (n + 1) hreach]
      apply format_run_stop
      rw [format_step]
      simp +decide [format_directive, ha]
    · rintro ⟨rfl, hc⟩
      unfold format_proc
      rw [format_run_after ops heap fuel alloc args sharedp k fmt _ none _ _ _ (n + 1) hreach]
      apply format_run_stop
      rw [format_step]
      simp +decide [format_directive, hc]
    · intro f2 d2 st2 h
      rw [format_step] at h
      exact format_directive_flags _ _ _ _ _ _ _ _ _ _ _ _ _ h
  · intro rest st
    rw [format_step]
    simp
  · intro h
    cases hr : format_proc ops heap fuel alloc steps out fmt args sharedp with
    | mk st2 o =>
      rw [hr] at h
      simp only at h
      subst h
      obtain ⟨k, f1, d1, st1, hk, ha, hs⟩ :=
        format_run_stops ops heap fuel alloc args sharedp steps fmt none _ st2 _ hr (by simp)
      obtain ⟨rest, dd, rfl, rfl, hat, rfl⟩ :=
        (format_step_flag_error _ _ _ _ _ _ _ _ _ _ _ hs).1 rfl
      exact ⟨k, rest, dd, hk, hat, ha⟩
  · intro h
    cases hr : format_proc ops heap fuel alloc steps out fmt args sharedp with
    | mk st2 o =>
      rw [hr] at h
      simp only at h
      subst h
      obtain ⟨k, f1, d1, st1, hk, ha, hs⟩ :=
        format_run_stops ops heap fuel alloc args sharedp steps fmt none _ st2 _ hr (by simp)
      obtain ⟨rest, dd, rfl, rfl, hat, rfl⟩ :=
        (format_step_flag_error _ _ _ _ _ _ _ _ _ _ _ hs).2 rfl
      exact ⟨k, rest, dd, hk, hat, ha⟩

/-- The format string `a~@:@d` raises the error of the flag `@` at the second
`@`, after `a` has been put; `~:@d` on 5 raises no error. -/
theorem format_proc_flag_errors_witness :
    (format_proc fixnumOps (fun _ => none) 5 0 20 ⟨[], none⟩ "a~@:@d".toList [.int 5]
        false).2 = .error .tooManyAtFlag ∧
      (format_proc fixnumOps (fun _ => none) 5 0 20 ⟨[], none⟩ "~:@d".toList [.int 5]
        false).2 = .done :=
  have h := ((format_proc_flag_errors fixnumOps (fun _ => none) 5 0 20 ⟨[], none⟩
    "a~@:@d".toList [.int 5] false).1 4 '@' ['d'] ⟨[], true, true⟩
    ⟨⟨[Tok.text ['a']], none⟩, [.int 5], 0, false⟩ (by decide) rfl).1 ⟨rfl, rfl⟩
  ⟨by rw [h], by decide⟩

/-! ## The parameter `v` -/

theorem fixnum_range (m : Int) (h : SCM_SMALL_INT_FITS m = true) :
    -2305843009213693952 ≤ m ∧ m ≤ 2305843009213693951 := by
  have h61 : (2 : Nat) ^ SCM_SMALL_INT_SIZE = 2305843009213693952 := by decide
  simp only [SCM_SMALL_INT_FITS, SCM_SMALL_INT_MAX, SCM_SMALL_INT_MIN, h61,
    Bool.and_eq_true, decide_eq_true_eq] at h
  omega

/-- A sign or a digit opens a numeric parameter. -/
theorem format_directive_minus (ops : NumberOps) (heap : Heap) (fuel alloc : Nat)
    (oargs : List ScmObj) (sharedp : Bool) (rest : List Char) (d : Directive)
    (st : FormatState) :
    format_directive ops heap fuel alloc oargs sharedp '-' rest d st
      = directive_number ops '-' rest d st := by
  simp +decide [format_directive]

/-- The decimal text of a fixnum at the head of a directive is read as the
fixnum itself, up to the first character `tl` that is not a digit. -/
theorem directive_number_fixnum (ops : NumberOps)
    (hmk : ∀ v, SCM_SMALL_INT_FITS v = true → ops.Scm_MakeInteger v = .int v)
    (heap : Heap) (fuel alloc : Nat) (oargs : List ScmObj) (sharedp : Bool)
    (m : Int) (hm : SCM_SMALL_INT_FITS m = true) (tl : List Char)
    (htl : ∀ c, tl.head? = some c → c.isDigit = false) (st : FormatState) :
    ∃ (c0 : Char) (ds : List Char), fmt_ld m = c0 :: ds ∧
      format_directive ops heap fuel alloc oargs sharedp c0 (ds ++ tl)
          { params := [], atflag := false, colonflag := false } st
        = .next (skip_comma tl)
            (some { params := [.int m], atflag := false, colonflag := false }) st := by
  obtain ⟨hlo, hhi⟩ := fixnum_range m hm
  have h63 : (2 : Nat) ^ (8 * SIZEOF_LONG - 1) = 9223372036854775808 := by decide
  have h64 : (2 : Nat) ^ (8 * SIZEOF_LONG) = 18446744073709551616 := by decide
  have e48 : '0'.toNat = 48 := rfl
  by_cases hneg : m < 0
  · obtain ⟨hne, hdig, hval⟩ := toDigits_spec m.natAbs
    refine ⟨'-', Nat.toDigits 10 m.natAbs, by simp [fmt_ld, hneg], ?_⟩
    rw [format_directive_minus]
    have hrv : read_value (Nat.toDigits 10 m.natAbs ++ tl) 0 = (m.natAbs, tl) := by
      rw [read_value_digits _ hdig tl htl, if_neg hne, hval, h64]
      congr 1
      omega
    unfold directive_number
    rw [if_neg (by simp [MAX_PARAMS])]
    have hd : ('-' : Char).isDigit = false := by decide
    simp only [hd, if_true, hrv, List.nil_append, Bool.false_eq_true, if_false]
    have e : ulong_to_long (to_ulong (-1 * (m.natAbs : Int))) = m := by
      unfold ulong_to_long to_ulong
      simp only [h63, h64]
      have e1 : ((-1 * (m.natAbs : Int)) % ((18446744073709551616 : Nat) : Int)).toNat
          = 18446744073709551616 - m.natAbs := by omega
      rw [e1, if_neg (by omega)]
      omega
    rw [e, hmk m hm]
  · obtain ⟨hne, hdig, hval⟩ := toDigits_spec m.toNat
    cases hds : Nat.toDigits 10 m.toNat with
    | nil => exact absurd hds hne
    | cons c0 ds =>
      rw [hds] at hdig hval
      have hc0 : c0.isDigit = true := hdig c0 (List.mem_cons_self _ _)
      refine ⟨c0, ds, by simp [fmt_ld, hneg, hds], ?_⟩
      rw [format_directive_digit _ _ _ _ _ _ _ _ _ _ hc0]
      have hsign : c0 ≠ '-' := by rintro rfl; exact absurd hc0 (by decide)
      have hrv : read_value (ds ++ tl) (c0.toNat - 48) = (m.toNat, tl) := by
        rw [read_value_digits ds (fun x hx => hdig x (List.mem_cons_of_mem _ hx)) tl htl]
        congr 1
        simp only [List.foldl_cons, Nat.zero_mul, Nat.zero_add] at hval
        by_cases hp : ds = []
        · rw [if_pos hp]
          subst hp
          simpa using hval
        · rw [if_neg hp, hval, h64]
          omega
      unfold directive_number
      rw [if_neg (by simp [MAX_PARAMS])]
      simp only [hc0, if_true, if_neg hsign, e48, hrv, List.nil_append]
      have e : ulong_to_long (to_ulong (1 * (m.toNat : Int))) = m := by
        unfold ulong_to_long to_ulong
        simp only [h63, h64, one_mul]
        have e1 : ((m.toNat : Int) % ((18446744073709551616 : Nat) : Int)).toNat
            = m.toNat := by omega
        rw [e1, if_pos (by omega)]
        omega
      rw [e, hmk m hm]


/-- The last two rounds of a run whose format string ends with a `d` that has
parameters, with one argument left: `format_integer` is applied to the
argument and the run returns, unless `format_integer` does not return. -/
theorem format_run_decimal_last (ops : NumberOps) (heap : Heap) (fuel alloc : Nat)
    (oargs : List ScmObj) (sharedp : Bool) (s : Nat) (d : Directive) (out : ScmPort)
    (n : ScmObj) (cnt : Int) (hp : d.params.length ≠ 0) :
    format_run ops heap fuel alloc oargs sharedp (s + 2) ['d'] (some d)
        { out := out, args := [n], argcnt := cnt, backtracked := false }
      = ({ out := (format_integer ops heap fuel out n d.params 10 d.colonflag d.atflag
              false).1,
           args := [], argcnt := cnt + 1, backtracked := false },
          if (format_integer ops heap fuel out n d.params 10 d.colonflag d.atflag false).2
              = .done then .done
          else .aborted
            (format_integer ops heap fuel out n d.params 10 d.colonflag d.atflag false).2) := by
  have hstep : format_step ops heap fuel alloc oargs sharedp ['d'] (some d)
      { out := out, args := [n], argcnt := cnt, backtracked := false }
      = after_write [] { out := out, args := [], argcnt := cnt + 1, backtracked := false }
          (format_integer ops heap fuel out n d.params 10 d.colonflag d.atflag false) := by
    rw [format_step]
    simp +decide [format_directive, directive_decimal, NEXT_ARG, hp]
  cases hr : format_integer ops heap fuel out n d.params 10 d.colonflag d.atflag false with
  | mk o x =>
    rw [hr] at hstep
    cases x with
    | done =>
      have e : s + 2 = (s + 1) + 1 := rfl
      rw [e, format_run_next _ _ _ _ _ _ _ _ [] _ none _
        { out := o, args := [], argcnt := cnt + 1, backtracked := false }
        (by rw [hstep]; rfl)]
      rw [format_run_stop _ _ _ _ _ _ _ _ _ _
        { out := o, args := [], argcnt := cnt + 1, backtracked := false } .done
        (by rw [format_step]; simp)]
      simp
    | outOfFuel =>
      rw [format_run_stop _ _ _ _ _ _ _ _ _ _
        { out := o, args := [], argcnt := cnt + 1, backtracked := false }
        (.aborted .outOfFuel) (by rw [hstep]; rfl)]
      simp
    | panic =>
      rw [format_run_stop _ _ _ _ _ _ _ _ _ _
        { out := o, args := [], argcnt := cnt + 1, backtracked := false }
        (.aborted .panic) (by rw [hstep]; rfl)]
      simp
    | error =>
      rw [format_run_stop _ _ _ _ _ _ _ _ _ _
        { out := o, args := [], argcnt := cnt + 1, backtracked := false }
        (.aborted .error) (by rw [hstep]; rfl)]
      simp

/-- At an integer `m` beyond the fixnum range the claim C25 fails.  Let `m` be
`4611686018427387904` (`2 ^ 62`), a bignum at address 0.  The run on `~v,vd`
with the arguments `m`, the character `0` and 5 ends at the first `v` with
the error of the `v` parameter, which accepts a fixnum only (`SCM_INTP`), and
puts nothing.  The run on `~4611686018427387904,'0d` with the argument 5
returns and puts `5`. -/
theorem format_v_bignum_rejected :
    bignumHeap 0 = some (.number "4611686018427387904".toList) ∧
      (format_proc fixnumOps bignumHeap 5 1 10 ⟨[], none⟩ "~v,vd".toList
        [.ptr 0, .char '0', .int 5] false).2 = .error .badVArgument ∧
      render (format_proc fixnumOps bignumHeap 5 1 10 ⟨[], none⟩ "~v,vd".toList
        [.ptr 0, .char '0', .int 5] false).1.out.out = [] ∧
      (format_proc fixnumOps bignumHeap 5 1 10 ⟨[], none⟩
        "~4611686018427387904,'0d".toList [.int 5] false).2 = .done ∧
      render (format_proc fixnumOps bignumHeap 5 1 10 ⟨[], none⟩
        "~4611686018427387904,'0d".toList [.int 5] false).1.out.out = "5".toList := by
  decide

/-- C25 (amended): a fixnum `m` and a character `c` given through `v`
parameters act as the same values written in the format string.  With
`Scm_MakeInteger` giving the fixnum of a value in the fixnum range: for every
fixnum `m` (an integer of the range of `SCM_SMALL_INT_FITS`), character `c`
and argument `n`, the run on `~v,vd` with the arguments `m`, `c`, `n` and the
run on `~m,'cd` (the decimal text of `m`) with the argument `n` end in the
same way with the same port, which is the port that `format_integer` leaves
for `n` with the parameters `m` and `c`.  And when the run reaches a `v` in
the place of a parameter with a next argument that is neither `#f`, a fixnum
nor a character (an integer beyond the fixnum range is such an argument), it
ends with the error of the `v` parameter. -/
theorem format_proc_v_parameter (ops : NumberOps) (heap : Heap) (fuel alloc : Nat)
    (sharedp : Bool) :
    (∀ (out : ScmPort) (m : Int) (c : Char) (n : ScmObj) (s : Nat),
      (∀ v, SCM_SMALL_INT_FITS v = true → ops.Scm_MakeInteger v = .int v) →
      SCM_SMALL_INT_FITS m = true →
      (format_proc ops heap fuel alloc (s + 5) out "~v,vd".toList [.int m, .char c, n]
          sharedp).1.out
        = (format_proc ops heap fuel alloc (s + 5) out
            ('~' :: (fmt_ld m ++ [',', Char.ofNat 39, c, 'd'])) [n] sharedp).1.out ∧
      (format_proc ops heap fuel alloc (s + 5) out "~v,vd".toList [.int m, .char c, n]
          sharedp).2
        = (format_proc ops heap fuel alloc (s + 5) out
            ('~' :: (fmt_ld m ++ [',', Char.ofNat 39, c, 'd'])) [n] sharedp).2 ∧
      (format_proc ops heap fuel alloc (s + 5) out "~v,vd".toList [.int m, .char c, n]
          sharedp).1.out
        = (format_integer ops heap fuel out n [.int m, .char c] 10 false false false).1 ∧
      (format_proc ops heap fuel alloc (s + 5) out "~v,vd".toList [.int m, .char c, n]
          sharedp).2 ≠ .outOfFuel) ∧
    (∀ (oargs : List ScmObj) (ch : Char) (rest : List Char) (d : Directive)
      (st : FormatState) (arg : ScmObj) (more : List ScmObj),
      (ch = 'v' ∨ ch = 'V') → d.atflag = false → d.colonflag = false →
      d.params.length < MAX_PARAMS → st.args = arg :: more →
      arg ≠ SCM_FALSE → SCM_INTP arg = false → SCM_CHARP arg = false →
      format_step ops heap fuel alloc oargs sharedp (ch :: rest) (some d) st
        = .stop { st with args := more, argcnt := st.argcnt + 1 }
            (.error .badVArgument)) := by
  constructor
  · intro out m c n s hmk hm
    obtain ⟨c0, ds, hds, hnum⟩ := directive_number_fixnum ops hmk heap fuel alloc [n] sharedp m
      hm [',', Char.ofNat 39, c, 'd']
      (by intro x hx; simp only [List.head?_cons, Option.some.injEq] at hx; rw [← hx]; rfl)
      { out := out, args := [n], argcnt := 0, backtracked := false }
    have hA : format_proc ops heap fuel alloc (s + 5) out "~v,vd".toList [.int m, .char c, n]
        sharedp
        = format_run ops heap fuel alloc [.int m, .char c, n] sharedp (s + 2) ['d']
            (some { params := [.int m, .char c], atflag := false, colonflag := false })
            { out := out, args := [n], argcnt := 0 + 1 + 1, backtracked := false } := by
      unfold format_proc
      have e1 : s + 5 = (s + 4) + 1 := rfl
      have e2 : s + 4 = (s + 3) + 1 := rfl
      have e3 : s + 3 = (s + 2) + 1 := rfl
      show format_run ops heap fuel alloc [.int m, .char c, n] sharedp (s + 5)
        ('~' :: 'v' :: ',' :: 'v' :: 'd' :: []) none _ = _
      rw [e1, format_run_tilde, e2,
        format_run_next _ _ _ _ _ _ _ _ ['v', 'd']
          _ (some { params := [.int m], atflag := false, colonflag := false }) _
          { out := out, args := [.char c, n], argcnt := 0 + 1, backtracked := false }
          (by
            rw [format_step]
            simp +decide [format_directive, directive_v, NEXT_ARG, MAX_PARAMS, SCM_INTP,
              skip_comma]),
        e3,
        format_run_next _ _ _ _ _ _ _ _ ['d']
          _ (some { params := [.int m, .char c], atflag := false, colonflag := false }) _
          { out := out, args := [n], argcnt := 0 + 1 + 1, backtracked := false }
          (by
            rw [format_step]
            simp +decide [format_directive, directive_v, NEXT_ARG, MAX_PARAMS, SCM_CHARP,
              skip_comma])]
    have hB : format_proc ops heap fuel alloc (s + 5) out
        ('~' :: (fmt_ld m ++ [',', Char.ofNat 39, c, 'd'])) [n] sharedp
        = format_run ops heap fuel alloc [n] sharedp (s + 2) ['d']
            (some { params := [.int m, .char c], atflag := false, colonflag := false })
            { out := out, args := [n], argcnt := 0, backtracked := false } := by
      unfold format_proc
      have e1 : s + 5 = (s + 4) + 1 := rfl
      have e2 : s + 4 = (s + 3) + 1 := rfl
      have e3 : s + 3 = (s + 2) + 1 := rfl
      rw [e1, format_run_tilde, hds, List.cons_append, e2,
        format_run_next _ _ _ _ _ _ _ _ [Char.ofNat 39, c, 'd']
          _ (some { params := [.int m], atflag := false, colonflag := false }) _
          { out := out, args := [n], argcnt := 0, backtracked := false }
          (by rw [format_step]; exact hnum),
        e3,
        format_run_next _ _ _ _ _ _ _ _ ['d']
          _ (some { params := [.int m, .char c], atflag := false, colonflag := false }) _
          { out := out, args := [n], argcnt := 0, backtracked := false }
          (by
            rw [format_step]
            simp +decide [format_directive, directive_quote, MAX_PARAMS, skip_comma])]
    rw [hA, hB, format_run_decimal_last _ _ _ _ _ _ _ _ _ _ _ (by simp),
      format_run_decimal_last _ _ _ _ _ _ _ _ _ _ _ (by simp)]
    refine ⟨rfl, rfl, rfl, ?_⟩
    simp only
    split <;> simp
  · intro oargs ch rest d st arg more hch ha hc hp hargs hf hi hcp
    have hp2 : ¬ (d.params.length ≥ MAX_PARAMS) := by omega
    have hna : NEXT_ARG st = some (arg, { st with args := more, argcnt := st.argcnt + 1 }) := by
      unfold NEXT_ARG
      rw [hargs]
    rw [format_step]
    rcases hch with rfl | rfl <;>
      simp +decide [format_directive, directive_v, ha, hc, hp2, hna, hf, hi, hcp]

/-- The runs on `~v,vd` with 3, `0`, 5 and on `~3,'0d` with 5 both put `005`;
a symbol as argument of `v` raises the error of the `v` parameter. -/
theorem format_proc_v_parameter_witness :
    render (format_proc fixnumOps (fun _ => none) 5 0 5 ⟨[], none⟩ "~v,vd".toList
        [.int 3, .char '0', .int 5] false).1.out.out = "005".toList ∧
      (format_proc fixnumOps (fun _ => none) 5 0 5 ⟨[], none⟩ "~v,vd".toList
        [.int 3, .char '0', .int 5] false).1.out
        = (format_proc fixnumOps (fun _ => none) 5 0 5 ⟨[], none⟩ "~3,'0d".toList
            [.int 5] false).1.out ∧
      format_step fixnumOps (fun _ => none) 5 0 [.symbol ['x'], .int 5] false "vd".toList
          (some ⟨[], false, false⟩) ⟨⟨[], none⟩, [.symbol ['x'], .int 5], 0, false⟩
        = .stop ⟨⟨[], none⟩, [.int 5], 0 + 1, false⟩ (.error .badVArgument) :=
  ⟨by decide,
    ((format_proc_v_parameter fixnumOps (fun _ => none) 5 0 false).1 ⟨[], none⟩ 3 '0' (.int 5) 0
      (by intro v hv; simp [fixnumOps, hv]) (by decide)).1,
    (format_proc_v_parameter fixnumOps (fun _ => none) 5 0 false).2 [.symbol ['x'], .int 5] 'v'
      ['d'] ⟨[], false, false⟩ ⟨⟨[], none⟩, [.symbol ['x'], .int 5], 0, false⟩ (.symbol ['x'])
      [.int 5] (Or.inl rfl) rfl rfl (by decide) rfl (by decide) rfl rfl⟩

/-! ## Padding of `~s` and `~a` -/

/-- C23 at a failing input.  The list `'''''5` has the text `'''''5` of six
characters.  `~,,,,5:a` (maxcol 5, flag `:`) puts the five characters `'''''`
for it, without the ellipsis: `Scm_WriteLimited` returns 5, not -1, because
the text was cut where pass 2 returns at once.  Likewise `~3,,,,1a` (mincol
3, maxcol 1) puts three characters for `(quote 5)`, a quote and two pad
characters, where the text `'5` is longer than maxcol. -/
theorem format_sexp_cut_not_marked :
    render (Scm_Write nestedQuoteHeap 20 (.ptr 0) Scm_MakeOutputStringPort
        SCM_WRITE_DISPLAY).1.out = [Char.ofNat 39, Char.ofNat 39, Char.ofNat 39, Char.ofNat 39,
          Char.ofNat 39, '5'] ∧
      (Scm_WriteLimited nestedQuoteHeap 20 (.ptr 0) Scm_MakeOutputStringPort
        SCM_WRITE_DISPLAY 5).2.2 = 5 ∧
      (format_proc fixnumOps nestedQuoteHeap 20 0 30 ⟨[], none⟩ "~,,,,5:a".toList [.ptr 0]
        false).2 = .done ∧
      render (format_proc fixnumOps nestedQuoteHeap 20 0 30 ⟨[], none⟩ "~,,,,5:a".toList
        [.ptr 0] false).1.out.out
        = [Char.ofNat 39, Char.ofNat 39, Char.ofNat 39, Char.ofNat 39, Char.ofNat 39] ∧
      render (format_proc fixnumOps nestedQuoteHeap 20 0 30 ⟨[], none⟩ "~,,,,5:a".toList
        [.ptr 0] false).1.out.out ≠ Char.ofNat 39 :: " ...".toList ∧
      render (Scm_Write limitedHeap 20 (.ptr 1) Scm_MakeOutputStringPort
        SCM_WRITE_DISPLAY).1.out = [Char.ofNat 39, '5'] ∧
      render (format_proc fixnumOps limitedHeap 20 0 30 ⟨[], none⟩ "~3,,,,1a".toList
        [.ptr 1] false).1.out.out = [Char.ofNat 39, ' ', ' '] := by
  decide

/-! ## Grouping of digits by `format_integer` -/

theorem specGroup_cons (sep : Char) (g : Nat) (c : Char) (rest : List Char) :
    specGroup sep g (c :: rest)
      = c :: (if rest ≠ [] ∧ rest.length % g = 0 then sep :: specGroup sep g rest
              else specGroup sep g rest) := by
  rw [specGroup]
  split <;> rfl

/-- A run of digits inside which no separator belongs is copied as it is. -/
theorem specGroup_append (sep : Char) (g : Nat) :
    ∀ (a b : List Char), a ≠ [] →
      (∀ i, 0 < i → i < a.length → (a.length - i + b.length) % g ≠ 0) →
      specGroup sep g (a ++ b)
        = a ++ (if b ≠ [] ∧ b.length % g = 0 then sep :: specGroup sep g b
                else specGroup sep g b) := by
  intro a
  induction a with
  | nil => intro b h; exact absurd rfl h
  | cons x a ih =>
    intro b _ hin
    cases a with
    | nil =>
      rw [List.singleton_append, specGroup_cons]
      rfl
    | cons y a2 =>
      rw [List.cons_append, specGroup_cons]
      have h1 := hin 1 (by omega) (by simp)
      have hlen : (y :: a2 ++ b).length = (x :: y :: a2).length - 1 + b.length := by
        simp only [List.cons_append, List.length_cons, List.length_append]
        omega
      rw [if_neg (by rw [hlen]; exact fun h => h1 h.2)]
      rw [ih b (by simp) (by
        intro i hi0 hi
        have h2 := hin (i + 1) (by omega) (by simp only [List.length_cons] at hi ⊢; omega)
        have e : (x :: y :: a2).length - (i + 1) + b.length
            = (y :: a2).length - i + b.length := by
          simp only [List.length_cons]
          omega
        rw [e] at h2
        exact h2)]
      rfl


theorem mod_sub_of_multiple (g i m : Nat) (hi0 : 0 < i) (hi : i < g) (hm : m % g = 0) :
    (g - i + m) % g ≠ 0 := by
  rw [Nat.add_mod, hm, Nat.add_zero, Nat.mod_mod, Nat.mod_eq_of_lt (by omega)]
  omega

theorem mod_sub_of_multiple_lt (g c i m : Nat) (hc : c < g) (hi0 : 0 < i) (hi : i < c)
    (hm : m % g = 0) : (c - i + m) % g ≠ 0 := by
  rw [Nat.add_mod, hm, Nat.add_zero, Nat.mod_mod, Nat.mod_eq_of_lt (by omega)]
  omega

/-- The loop of the delimited output from the column `c`, a place where a
separator belongs or the start of the digits: it adds the groups of `g`
digits that are left, each but one at the start preceded by the separator. -/
theorem delimit_loop_spec (ds : List Char) (sep : Char) (g : Nat) (hg : 0 < g) :
    ∀ (fuel c : Nat) (T : List Char), c ≤ ds.length → (ds.length - c) % g = 0 →
      ds.length - c < fuel →
      delimit_loop ds (ds.length : Int) sep (g : Int) fuel (c : Int) T
        = some (T ++
            (if c < ds.length then
              (if c ≠ 0 then sep :: specGroup sep g (ds.drop c)
               else specGroup sep g (ds.drop c))
             else [])) := by
  intro fuel
  induction fuel with
  | zero => intro c T _ _ h; omega
  | succ fuel ih =>
    intro c T hc hmod hfuel
    rw [delimit_loop]
    by_cases hlt : c < ds.length
    · have hlt2 : (c : Int) < (ds.length : Int) := by exact_mod_cast hlt
      rw [if_pos hlt2, if_neg (by omega), if_pos hlt]
      have hdvd : g ∣ ds.length - c := Nat.dvd_of_mod_eq_zero hmod
      have hge : g ≤ ds.length - c := Nat.le_of_dvd (by omega) hdvd
      have hmod2 : (ds.length - (c + g)) % g = 0 := by
        have e : ds.length - (c + g) = ds.length - c - g := by omega
        rw [e]
        exact Nat.mod_eq_zero_of_dvd ((Nat.dvd_sub' hdvd (Nat.dvd_refl g)))
      have ecast : (c : Int) + (g : Int) = ((c + g : Nat) : Int) := by push_cast; rfl
      have hput : ∀ X : List Char,
          Scm_DStringPutz X (ds.drop (c : Int).toNat) (g : Int) = X ++ (ds.drop c).take g := by
        intro X
        unfold Scm_DStringPutz
        rw [if_neg (by omega)]
        simp
      simp only [hput, ecast]
      rw [ih (c + g) _ (by omega) hmod2 (by omega)]
      -- the group read in this turn
      have hsplit : ds.drop c = (ds.drop c).take g ++ ds.drop (c + g) := by
        rw [← List.drop_drop, List.take_append_drop]
      have hlen_b : (ds.drop (c + g)).length = ds.length - (c + g) := List.length_drop _ _
      have hlen_a : ((ds.drop c).take g).length = g := by
        rw [List.length_take, List.length_drop]
        omega
      have hane : (ds.drop c).take g ≠ [] := by
        intro h
        rw [h] at hlen_a
        simp at hlen_a
        omega
      have hsg : specGroup sep g (ds.drop c)
          = (ds.drop c).take g ++
            (if ds.drop (c + g) ≠ [] ∧ (ds.drop (c + g)).length % g = 0 then
              sep :: specGroup sep g (ds.drop (c + g))
             else specGroup sep g (ds.drop (c + g))) := by
        conv_lhs => rw [hsplit]
        apply specGroup_append sep g _ _ hane
        intro i hi0 hi
        rw [hlen_a] at hi ⊢
        rw [hlen_b]
        exact mod_sub_of_multiple g i _ hi0 hi hmod2
      have htail : (if ds.drop (c + g) ≠ [] ∧ (ds.drop (c + g)).length % g = 0 then
            sep :: specGroup sep g (ds.drop (c + g))
          else specGroup sep g (ds.drop (c + g)))
          = (if c + g < ds.length then
              (if c + g ≠ 0 then sep :: specGroup sep g (ds.drop (c + g))
               else specGroup sep g (ds.drop (c + g)))
             else []) := by
        by_cases h2 : c + g < ds.length
        · have hbne : ds.drop (c + g) ≠ [] := by
            intro h
            rw [h] at hlen_b
            simp at hlen_b
            omega
          rw [if_pos ⟨hbne, by rw [hlen_b]; exact hmod2⟩, if_pos h2, if_pos (by omega)]
        · have hb : ds.drop (c + g) = [] := List.drop_eq_nil_of_le (by omega)
          rw [if_neg (by rw [hb]; simp), if_neg h2, hb]
          rfl
      rw [hsg, htail]
      by_cases hc0 : c = 0
      · subst hc0
        simp
      · have hc0i : (c : Int) ≠ 0 := by exact_mod_cast hc0
        simp [hc0, hc0i]
    · have hlt2 : ¬ ((c : Int) < (ds.length : Int)) := by
        intro h
        exact hlt (by exact_mod_cast h)
      rw [if_neg hlt2, if_neg hlt, List.append_nil]

/-- The delimited output of a text made of a sign, if any, and digits: the
sign and the grouped digits. -/
theorem delimit_spec (sign ds : List Char) (sep : Char) (g : Nat) (hg : 0 < g)
    (hsign : sign = [] ∨ sign = ['-'] ∨ sign = ['+'])
    (hds : ds.head? ≠ some '-' ∧ ds.head? ≠ some '+') :
    delimit (sign ++ ds) sep (g : Int) = some (sign ++ specGroup sep g ds) := by
  have hparts : (if ((sign ++ ds).head? = some '-' ∨ (sign ++ ds).head? = some '+') then
        (sign ++ ds).take 1 else []) = sign ∧
      (if ((sign ++ ds).head? = some '-' ∨ (sign ++ ds).head? = some '+') then
        (sign ++ ds).drop 1 else (sign ++ ds)) = ds ∧
      (if ((sign ++ ds).head? = some '-' ∨ (sign ++ ds).head? = some '+') then
        ((sign ++ ds).length : Int) - 1 else ((sign ++ ds).length : Int)) = (ds.length : Int) := by
    rcases hsign with rfl | rfl | rfl
    · have hn : ¬ (([] ++ ds).head? = some '-' ∨ ([] ++ ds).head? = some '+') := by
        simp only [List.nil_append]
        exact fun h => h.elim hds.1 hds.2
      simp only [if_neg hn]
      simp
    · simp
    · simp
  unfold delimit
  simp only [decide_eq_true_eq]
  rw [hparts.1, hparts.2.1, hparts.2.2]
  have htmod : Int.tmod (ds.length : Int) (g : Int) = ((ds.length % g : Nat) : Int) := by
    rw [Int.tmod_eq_emod (by omega) (by omega)]
    rfl
  rw [htmod]
  have hc0le : ds.length % g ≤ ds.length := Nat.mod_le _ _
  have hmod : (ds.length - ds.length % g) % g = 0 := by
    have h1 := Nat.div_add_mod ds.length g
    have e : ds.length - ds.length % g = g * (ds.length / g) := by omega
    rw [e]
    exact Nat.mul_mod_right _ _
  rw [delimit_loop_spec ds sep g hg _ _ _ hc0le hmod (by simp; omega)]
  congr 1
  by_cases hc0 : ds.length % g = 0
  · have hc0i : ¬ (((ds.length % g : Nat) : Int) ≠ 0) := by
      rw [hc0]; simp
    rw [if_neg hc0i, hc0]
    by_cases hN : 0 < ds.length
    · simp [hN]
    · have : ds = [] := List.eq_nil_of_length_eq_zero (by omega)
      subst this
      simp [specGroup]
  · have hc0i : ((ds.length % g : Nat) : Int) ≠ 0 := by exact_mod_cast hc0
    rw [if_pos hc0i]
    have hput : Scm_DStringPutz sign ds ((ds.length % g : Nat) : Int)
        = sign ++ ds.take (ds.length % g) := by
      unfold Scm_DStringPutz
      rw [if_neg (by omega), Int.toNat_ofNat]
    rw [hput, List.append_assoc]
    congr 1
    have hlt_g : ds.length % g < g := Nat.mod_lt _ hg
    have hsplit : ds = ds.take (ds.length % g) ++ ds.drop (ds.length % g) :=
      (List.take_append_drop _ _).symm
    have hlen_a : (ds.take (ds.length % g)).length = ds.length % g := by
      rw [List.length_take]
      omega
    have hlen_b : (ds.drop (ds.length % g)).length = ds.length - ds.length % g :=
      List.length_drop _ _
    have hane : ds.take (ds.length % g) ≠ [] := by
      intro h
      rw [h] at hlen_a
      simp at hlen_a
      omega
    have hsg : specGroup sep g ds
        = ds.take (ds.length % g) ++
          (if ds.drop (ds.length % g) ≠ [] ∧ (ds.drop (ds.length % g)).length % g = 0 then
            sep :: specGroup sep g (ds.drop (ds.length % g))
           else specGroup sep g (ds.drop (ds.length % g))) := by
      conv_lhs => rw [hsplit]
      apply specGroup_append sep g _ _ hane
      intro i hi0 hi
      rw [hlen_a] at hi ⊢
      rw [hlen_b]
      exact mod_sub_of_multiple_lt g _ i _ hlt_g hi0 hi hmod
    rw [hsg]
    congr 1
    by_cases h2 : ds.length % g < ds.length
    · have hbne : ds.drop (ds.length % g) ≠ [] := by
        intro h
        rw [h] at hlen_b
        simp at hlen_b
        omega
      rw [if_pos h2, if_pos hc0, if_pos ⟨hbne, by rw [hlen_b]; exact hmod⟩]
    · have hb : ds.drop (ds.length % g) = [] := List.drop_eq_nil_of_le (by omega)
      rw [if_neg h2, if_neg (by rw [hb]; simp), hb]
      rfl


theorem specGroup_filter (sep : Char) (g : Nat) :
    ∀ ds : List Char, sep ∉ ds → (specGroup sep g ds).filter (fun c => c ≠ sep) = ds := by
  intro ds
  induction ds with
  | nil => intro _; rfl
  | cons c rest ih =>
    intro h
    have hc : c ≠ sep := fun e => h (by rw [e]; exact List.mem_cons_self _ _)
    have hr : sep ∉ rest := fun hm => h (List.mem_cons_of_mem _ hm)
    have ih2 := ih hr
    rw [specGroup_cons]
    split
    · rw [List.filter_cons, List.filter_cons, ih2]
      simp [hc]
    · rw [List.filter_cons, ih2]
      simp [hc]

theorem specGroup_head (sep : Char) (g : Nat) (ds : List Char) :
    (specGroup sep g ds).head? = ds.head? := by
  cases ds with
  | nil => rfl
  | cons c rest => rw [specGroup_cons]; rfl

/-- C24: `format_integer` with the flag `:` (`delimited`), for an integer
argument and a comma interval `g ≥ 1` (the fourth parameter, 3 when it is not
given).  Let the text that `Scm_NumberToString` gives for the argument be the
digits `ds`, preceded by a minus when `neg`.  Then `format_integer` returns,
and what it hands to `format_pad` is the sign, if any (a minus when `neg`,
else a plus when `alwayssign`, the flag `@`), followed by the digits with the
separator (the third parameter, a comma when it is not given) inserted
exactly at the places whose distance from the right end is a positive
multiple of `g`.  The grouped digits start with the first digit, so that no
separator follows the sign or begins the digits, and with the separators
taken out they are the digits again.  `format_pad` puts this text to the port
after pad characters only; their number is what the text lacks to `mincol`
when the difference of `mincol` and the length of the text is in the range of
`int`. -/
theorem format_integer_grouped (ops : NumberOps) (heap : Heap) (fuel : Nat) (out : ScmPort)
    (arg : ScmObj) (params : List ScmObj) (radix : Nat) (alwayssign up neg : Bool)
    (ds : List Char)
    (hint : ops.Scm_IntegerP arg = true)
    (hR : ops.Scm_NumberToString
        (if ops.SCM_FLONUMP arg then ops.Scm_InexactToExact arg else arg) radix up
      = if neg then '-' :: ds else ds)
    (hds : ds.head? ≠ some '-' ∧ ds.head? ≠ some '+')
    (hg : 1 ≤ param_int params 3 3) :
    format_integer ops heap fuel out arg params radix true alwayssign up
        = (format_pad out
            ((if neg then ['-'] else if alwayssign then ['+'] else []) ++
              specGroup (param_char params 2 ',') (param_int params 3 3).toNat ds)
            (param_int params 0 0) 1 (param_char params 1 ' ') true, Outcome.done) ∧
      (∃ pcount : Nat,
        render (format_integer ops heap fuel out arg params radix true alwayssign up).1.out
          = render out.out ++
            (List.replicate pcount (param_char params 1 ' ') ++
            ((if neg then ['-'] else if alwayssign then ['+'] else []) ++
              specGroup (param_char params 2 ',') (param_int params 3 3).toNat ds)) ∧
        (INT_MIN ≤ param_int params 0 0 -
            (((if neg then ['-'] else if alwayssign then ['+'] else []) ++
              specGroup (param_char params 2 ',') (param_int params 3 3).toNat ds).length
                : Int) →
          pcount = (param_int params 0 0 -
            (((if neg then ['-'] else if alwayssign then ['+'] else []) ++
              specGroup (param_char params 2 ',') (param_int params 3 3).toNat ds).length
                : Int)).toNat)) ∧
      (specGroup (param_char params 2 ',') (param_int params 3 3).toNat ds).head? = ds.head? ∧
      (param_char params 2 ',' ∉ ds →
        (specGroup (param_char params 2 ',') (param_int params 3 3).toNat ds).filter
          (fun c => c ≠ param_char params 2 ',') = ds) ∧
      (params.length ≤ 3 → param_int params 3 3 = 3) ∧
      (params.length ≤ 2 → param_char params 2 ',' = ',') := by
  have hgn : 0 < (param_int params 3 3).toNat := by omega
  have hgc : ((param_int params 3 3).toNat : Int) = param_int params 3 3 := by omega
  have hmain : format_integer ops heap fuel out arg params radix true alwayssign up
      = (format_pad out
          ((if neg then ['-'] else if alwayssign then ['+'] else []) ++
            specGroup (param_char params 2 ',') (param_int params 3 3).toNat ds)
          (param_int params 0 0) 1 (param_char params 1 ' ') true, Outcome.done) := by
    have hstr : (if alwayssign = true ∧ (if neg then '-' :: ds else ds).head? ≠ some '-' then
          '+' :: (if neg then '-' :: ds else ds) else (if neg then '-' :: ds else ds))
        = (if neg then ['-'] else if alwayssign then ['+'] else []) ++ ds := by
      cases neg <;> cases alwayssign <;> simp [hds.1]
    have hdel := delimit_spec (if neg then ['-'] else if alwayssign then ['+'] else []) ds
      (param_char params 2 ',') (param_int params 3 3).toNat hgn
      (by cases neg <;> cases alwayssign <;> simp) hds
    rw [hgc] at hdel
    unfold format_integer
    simp only [hint, Bool.not_true, Bool.false_eq_true, if_false, hR, hstr, true_and]
    rw [if_pos (by omega), hdel]
  refine ⟨hmain, ?_, specGroup_head _ _ _, specGroup_filter _ _ _, ?_, ?_⟩
  · rw [hmain]
    refine ⟨_, (format_pad_right out _ _ _).2, ?_⟩
    intro hlo
    rw [int_wrap_eq _ hlo]
    have := (param_int_range params 0 0 (by rw [int_min_eq, int_max_eq]; omega)).2
    omega
  · intro hl
    have h3 : params.get? 3 = none := List.get?_eq_none.2 (by omega)
    unfold param_int
    rw [h3]
  · intro hl
    have h2 : params.get? 2 = none := List.get?_eq_none.2 (by omega)
    unfold param_char
    rw [h2]

/-- The number 1234567 with the flag `:` is put as `1,234,567`; -1234567 with
both flags and the interval 2 as `-1,23,45,67`. -/
theorem format_integer_grouped_witness :
    render (format_integer fixnumOps (fun _ => none) 5 ⟨[], none⟩ (.int 1234567) [] 10 true
        false false).1.out = "1,234,567".toList ∧
      render (format_proc fixnumOps (fun _ => none) 5 0 20 ⟨[], none⟩ "~,,,2:@d".toList
        [.int (-1234567)] false).1.out.out = "-1,23,45,67".toList ∧
      render (format_proc fixnumOps (fun _ => none) 5 0 20 ⟨[], none⟩ "~:@d".toList
        [.int 1000] false).1.out.out = "+1,000".toList :=
  ⟨by
    rw [(format_integer_grouped fixnumOps (fun _ => none) 5 ⟨[], none⟩ (.int 1234567) [] 10 false
      false false "1234567".toList rfl (by decide) (by decide) (by decide)).1]
    decide,
    by decide, by decide⟩

/-! ## The printf-like formatter -/

/-- C26 at a failing input.  For `%S` and `%A` without `.` and without `#`,
`vprintf_proc` hands the argument to `format_write` whatever the width is,
so nothing is padded: `%5S` applied to 1 puts the single character `1`, and
`x%3Ay` applied to 1 puts `x1y`. -/
theorem vprintf_width_not_padded :
    (∀ (pops : PrintfOps) (heap : Heap) (fuel : Nat) (sharedp : Bool) (c : Char)
      (d : PrintfDirective) (st : PrintfState) (val : ScmObj) (more : List ScmObj),
      (c = 'S' ∨ c = 'A') → d.pound_appeared = 0 → d.dot_appeared = 0 →
      st.args = val :: more →
      vprintf_switch pops heap fuel sharedp c d st
        = vprintf_after_write
            (format_write heap fuel val st.out
              { mode := if c = 'A' then SCM_WRITE_DISPLAY else SCM_WRITE_WRITE,
                flags := 0, limit := 0 } sharedp)
            { st with args := more }) ∧
      (vprintf_proc fixnumPrintfOps (fun _ => none) 5 ⟨[], none⟩ "%5S".toList [.int 1]
        false).2 = .done ∧
      render (vprintf_proc fixnumPrintfOps (fun _ => none) 5 ⟨[], none⟩ "%5S".toList [.int 1]
        false).1.out.out = ['1'] ∧
      render (vprintf_proc fixnumPrintfOps (fun _ => none) 5 ⟨[], none⟩ "x%3Ay".toList
        [.int 1] false).1.out.out = "x1y".toList ∧
      render (write_ss_rec (fun _ => none) ⟨SCM_WRITE_WRITE, 0, 0⟩ 5 (.int 1)
        Scm_MakeOutputStringPort).1.out = ['1'] := by
  refine ⟨?_, by decide, by decide, by decide, by decide⟩
  intro pops heap fuel sharedp c d st val more hc hp hd hargs
  have hpop : vprintf_pop st = some (val, { st with args := more }) := by
    unfold vprintf_pop
    rw [hargs]
  have hs : vprintf_switch pops heap fuel sharedp c d st
      = vprintf_sexp heap fuel sharedp c d st := by
    rcases hc with rfl | rfl <;> simp +decide [vprintf_switch]
  rw [hs]
  unfold vprintf_sexp
  simp only [hpop, hp, hd, ne_eq, not_true_eq_false, if_false]
  split <;> rfl

theorem Scm_StringTake_inside (x : List Char) (n : Nat) (h : n < x.length) :
    Scm_StringTake x n true false = some (x.take n) ∧
    Scm_StringTake x n false false = some (x.drop n) := by
  have h1 : ¬ (((n : Nat) : Int) < 0 ∨ ((n : Nat) : Int) ≥ ((x.length : Nat) : Int)) := by omega
  constructor
  · unfold Scm_StringTake
    simp only [h1, if_false, Bool.false_eq_true, if_true]
    unfold Scm_Substring
    rw [if_neg (by omega), if_neg (by omega), if_neg (by omega)]
    simp
  · unfold Scm_StringTake
    simp only [h1, if_false, Bool.false_eq_true, if_true]
    unfold Scm_Substring
    rw [if_neg (by omega), if_neg (by omega), if_neg (by omega)]
    have e : ((x.length : Int) - (n : Int)).toNat = x.length - n := by omega
    rw [Int.toNat_ofNat, e, List.take_of_length_le (by simp)]

theorem Scm_StringTake_outside (x : List Char) (n : Int) (takefirst fromright : Bool)
    (h : n < 0 ∨ n ≥ x.length) : Scm_StringTake x n takefirst fromright = none := by
  unfold Scm_StringTake
  simp only [h, if_true]

/-- C27 at a failing input.  `Scm_StringTake` refuses `nchars = len`: taking 3
characters of `abc` and dropping 3 characters of `abc` both raise the error,
as does taking 0 characters of the empty string, and so for every string at
its own length.  For `0 <= n < len` the two calls give the first `n`
characters and the rest, appending them gives the string back, and a negative
`n` or an `n > len` is an error. -/
theorem Scm_StringTake_whole_length_rejected :
    Scm_StringTake "abc".toList 3 true false = none ∧
    Scm_StringTake "abc".toList 3 false false = none ∧
    Scm_StringTake [] 0 true false = none ∧
    (∀ (x : List Char) (takefirst fromright : Bool),
      Scm_StringTake x x.length takefirst fromright = none) ∧
    (∀ (x : List Char) (n : Nat), n < x.length →
      Scm_StringTake x n true false = some (x.take n) ∧
      Scm_StringTake x n false false = some (x.drop n) ∧
      x.take n ++ x.drop n = x) ∧
    (∀ (x : List Char) (n : Int) (takefirst fromright : Bool),
      n < 0 ∨ n > x.length → Scm_StringTake x n takefirst fromright = none) := by
  refine ⟨by decide, by decide, by decide, ?_, ?_, ?_⟩
  · intro x t f
    exact Scm_StringTake_outside x _ t f (Or.inr (le_refl _))
  · intro x n h
    exact ⟨(Scm_StringTake_inside x n h).1, (Scm_StringTake_inside x n h).2,
      List.take_append_drop n x⟩
  · intro x n t f h
    exact Scm_StringTake_outside x n t f (by omega)

/-! ## Tagged words -/

theorem word_tag_mod (w : Nat) :
    w &&& 0x03 = w % 4 ∧ w &&& 0x07 = w % 8 ∧ w &&& 0x0f = w % 16 :=
  ⟨Nat.and_pow_two_sub_one_eq_mod w 2, Nat.and_pow_two_sub_one_eq_mod w 3,
    Nat.and_pow_two_sub_one_eq_mod w 4⟩

/-- C28.  No machine word falls in two of the classes `SCM_PTRP`, `SCM_INTP`,
`SCM_CHARP`, `SCM_IMMEDIATEP`; the six constants `SCM_FALSE`, `SCM_TRUE`,
`SCM_NIL`, `SCM_EOF`, `SCM_UNDEFINED`, `SCM_UNBOUND` are immediate, pairwise
distinct, and their `SCM_ITAG` is 0, 1, 2, 3, 4, 5 in this order. -/
theorem word_classes_exclusive :
    (∀ w : Nat,
      ¬ (Word.SCM_PTRP w = true ∧ Word.SCM_INTP w = true) ∧
      ¬ (Word.SCM_PTRP w = true ∧ Word.SCM_CHARP w = true) ∧
      ¬ (Word.SCM_PTRP w = true ∧ Word.SCM_IMMEDIATEP w = true) ∧
      ¬ (Word.SCM_INTP w = true ∧ Word.SCM_CHARP w = true) ∧
      ¬ (Word.SCM_INTP w = true ∧ Word.SCM_IMMEDIATEP w = true) ∧
      ¬ (Word.SCM_CHARP w = true ∧ Word.SCM_IMMEDIATEP w = true)) ∧
    ([Word.SCM_FALSE, Word.SCM_TRUE, Word.SCM_NIL, Word.SCM_EOF, Word.SCM_UNDEFINED,
      Word.SCM_UNBOUND].map Word.SCM_IMMEDIATEP = [true, true, true, true, true, true]) ∧
    [Word.SCM_FALSE, Word.SCM_TRUE, Word.SCM_NIL, Word.SCM_EOF, Word.SCM_UNDEFINED,
      Word.SCM_UNBOUND].Nodup ∧
    ([Word.SCM_FALSE, Word.SCM_TRUE, Word.SCM_NIL, Word.SCM_EOF, Word.SCM_UNDEFINED,
      Word.SCM_UNBOUND].map Word.SCM_ITAG = [0, 1, 2, 3, 4, 5]) := by
  refine ⟨?_, by decide, by decide, by decide⟩
  intro w
  obtain ⟨h3, h7, h15⟩ := word_tag_mod w
  simp only [Word.SCM_PTRP, Word.SCM_INTP, Word.SCM_CHARP, Word.SCM_IMMEDIATEP, Word.SCM_TAG,
    h3, h7, h15, beq_iff_eq]
  omega

theorem word_pow_split (s : Nat) (hs : 1 ≤ s) :
    (2 : Nat) ^ (s * 8) = 8 * 2 ^ (s * 8 - 3) ∧ (2 : Nat) ^ (s * 8 - 1) = 4 * 2 ^ (s * 8 - 3) := by
  constructor
  · have e : s * 8 = (s * 8 - 3) + 3 := by omega
    conv_lhs => rw [e, pow_add]
    ring
  · have e : s * 8 - 1 = (s * 8 - 3) + 2 := by omega
    conv_lhs => rw [e, pow_add]
    ring

/-- The word `SCM_MAKE_INT k` for `k` in the fixnum range: `4k+1` for `k >= 0`
and `4k+1+2^w` for `k < 0`. -/
theorem word_make_int_value (s : Nat) (hs : 1 ≤ s) (k : Int)
    (hk : Word.SCM_SMALL_INT_FITS s k = true) :
    -((2 ^ (s * 8 - 3) : Nat) : Int) ≤ k ∧ k < ((2 ^ (s * 8 - 3) : Nat) : Int) ∧
    ((Word.SCM_MAKE_INT s k : Nat) : Int)
      = if 0 ≤ k then 4 * k + 1 else 4 * k + 1 + 8 * ((2 ^ (s * 8 - 3) : Nat) : Int) := by
  obtain ⟨h8, _⟩ := word_pow_split s hs
  have hk2 : k ≤ ((2 ^ (s * 8 - 3) : Nat) : Int) - 1 ∧ -(((2 ^ (s * 8 - 3) : Nat) : Int) - 1) - 1 ≤ k := by
    simpa [Word.SCM_SMALL_INT_FITS, Word.SCM_SMALL_INT_MAX, Word.SCM_SMALL_INT_MIN,
      Word.SCM_SMALL_INT_SIZE] using hk
  have hb : ((2 : Int) ^ (s * 8)) = 8 * ((2 ^ (s * 8 - 3) : Nat) : Int) := by
    have := congrArg (fun n : Nat => (n : Int)) h8
    simpa using this
  refine ⟨by omega, by omega, ?_⟩
  unfold Word.SCM_MAKE_INT Word.of_long
  rw [hb]
  generalize ((2 ^ (s * 8 - 3) : Nat) : Int) = P at hk2 ⊢
  have hP : 0 < P := by omega
  by_cases h0 : 0 ≤ k
  · rw [if_pos h0]
    have e : (k * 2 ^ 2 + 1) % (8 * P) = 4 * k + 1 := by
      rw [Int.emod_eq_of_lt (by omega) (by omega)]; omega
    rw [e, Int.toNat_of_nonneg (by omega)]
  · rw [if_neg h0]
    have e : (k * 2 ^ 2 + 1) % (8 * P) = 4 * k + 1 + 8 * P := by
      rw [← Int.add_emod_self, Int.emod_eq_of_lt (by omega) (by omega)]; omega
    rw [e, Int.toNat_of_nonneg (by omega)]

/-- C29.  For every word width `sizeof_long * 8` and every `k` in the fixnum
range of that width, `SCM_MAKE_INT k` is a word of that width for which
`SCM_INTP` holds and whose `SCM_INT_VALUE` is `k`; and two integers of the
range with the same `SCM_MAKE_INT` word are equal. -/
theorem fixnum_round_trip (sizeof_long : Nat) (hs : 1 ≤ sizeof_long) :
    (∀ k : Int, Word.SCM_SMALL_INT_FITS sizeof_long k = true →
      Word.SCM_MAKE_INT sizeof_long k < 2 ^ (sizeof_long * 8) ∧
      Word.SCM_INTP (Word.SCM_MAKE_INT sizeof_long k) = true ∧
      Word.SCM_INT_VALUE sizeof_long (Word.SCM_MAKE_INT sizeof_long k) = k) ∧
    (∀ j k : Int, Word.SCM_SMALL_INT_FITS sizeof_long j = true →
      Word.SCM_SMALL_INT_FITS sizeof_long k = true →
      Word.SCM_MAKE_INT sizeof_long j = Word.SCM_MAKE_INT sizeof_long k → j = k) := by
  have main : ∀ k : Int, Word.SCM_SMALL_INT_FITS sizeof_long k = true →
      Word.SCM_MAKE_INT sizeof_long k < 2 ^ (sizeof_long * 8) ∧
      Word.SCM_INTP (Word.SCM_MAKE_INT sizeof_long k) = true ∧
      Word.SCM_INT_VALUE sizeof_long (Word.SCM_MAKE_INT sizeof_long k) = k := by
    intro k hk
    obtain ⟨h8, h4⟩ := word_pow_split sizeof_long hs
    obtain ⟨hlo, hhi, hw⟩ := word_make_int_value sizeof_long hs k hk
    have hlt : Word.SCM_MAKE_INT sizeof_long k < 2 ^ (sizeof_long * 8) := by
      rw [h8]; split at hw <;> omega
    refine ⟨hlt, ?_, ?_⟩
    · unfold Word.SCM_INTP Word.SCM_TAG
      rw [(word_tag_mod _).1, beq_iff_eq]
      split at hw <;> omega
    · unfold Word.SCM_INT_VALUE Word.to_long
      have hb : (2 : Int) ^ (sizeof_long * 8) = 8 * ((2 ^ (sizeof_long * 8 - 3) : Nat) : Int) := by
        exact_mod_cast h8
      rw [Nat.mod_eq_of_lt hlt, h4, hb, Int.shiftRight_eq_div_pow]
      split at hw <;> split <;> omega
  refine ⟨main, ?_⟩
  intro j k hj hk h
  have e1 := (main j hj).2.2
  have e2 := (main k hk).2.2
  rw [h] at e1
  exact e1.symm.trans e2

/-- Instances of C29: 64-bit and 32-bit words. -/
theorem fixnum_round_trip_witness :
    1 ≤ 8 ∧
    Word.SCM_INT_VALUE 8 (Word.SCM_MAKE_INT 8 (-5)) = -5 ∧
    Word.SCM_INTP (Word.SCM_MAKE_INT 8 SCM_SMALL_INT_MIN) = true ∧
    Word.SCM_INT_VALUE 8 (Word.SCM_MAKE_INT 8 SCM_SMALL_INT_MAX) = SCM_SMALL_INT_MAX ∧
    Word.SCM_MAKE_INT 8 (-1) = 2 ^ 64 - 3 :=
  ⟨by decide, ((fixnum_round_trip 8 (by decide)).1 (-5) (by decide)).2.2,
    ((fixnum_round_trip 8 (by decide)).1 SCM_SMALL_INT_MIN (by decide)).2.1,
    ((fixnum_round_trip 8 (by decide)).1 SCM_SMALL_INT_MAX (by decide)).2.2, by decide⟩

/-! ## Keys entered by pass 1 -/

/-- As `write_walk_preserves`, for a property that may depend on the key: pass
1 enters a key only after the first test of its loop has failed for it. -/
theorem write_walk_preserves_entered (heap : Heap) (ctx : ScmWriteContext)
    (I : ScmHashTable → Prop)
    (hnew : ∀ ht x,
      (!SCM_PTRP x || SCM_SYMBOLP x || SCM_KEYWORDP x || SCM_NUMBERP heap x) = false →
      I ht → I (Scm_HashTablePut ht x SCM_FALSE))
    (hagain : ∀ ht x,
      (!SCM_PTRP x || SCM_SYMBOLP x || SCM_KEYWORDP x || SCM_NUMBERP heap x) = false →
      I ht → I (Scm_HashTablePut ht x SCM_TRUE)) :
    ∀ (fuel : Nat) (obj : ScmObj) (ht : ScmHashTable), I ht →
      I (write_walk heap ctx fuel obj ht).1 := by
  intro fuel
  induction fuel with
  | zero => intro obj ht h; exact h
  | succ n ih =>
    intro obj ht h
    unfold write_walk
    split
    · exact h
    · rename_i hk
      have hk : (!SCM_PTRP obj || SCM_SYMBOLP obj || SCM_KEYWORDP obj || SCM_NUMBERP heap obj)
          = false := by simpa using hk
      split
      · split
        · exact hagain _ _ hk h
        · apply andThen_preserves I
          · split
            · exact ih _ _ (hnew _ _ hk h)
            · exact hnew _ _ hk h
          · intro s hs; exact ih _ _ hs
      · split
        · split
          · exact hagain _ _ hk h
          · exact hnew _ _ hk h
        · split
          · exact hagain _ _ hk h
          · exact write_walk_elts_preserves I _ (ih) _ _ (hnew _ _ hk h)
        · split
          · exact hagain _ _ hk h
          · exact hnew _ _ hk h

theorem write_walk_keys (heap : Heap) (ctx : ScmWriteContext) (fuel : Nat) (root : ScmObj) :
    ∀ x v, (write_walk heap ctx fuel root (fun _ => none)).1 x = some v →
      (!SCM_PTRP x || SCM_SYMBOLP x || SCM_KEYWORDP x || SCM_NUMBERP heap x) = false := by
  apply write_walk_preserves_entered heap ctx
    (fun ht => ∀ x v, ht x = some v →
      (!SCM_PTRP x || SCM_SYMBOLP x || SCM_KEYWORDP x || SCM_NUMBERP heap x) = false)
  · intro ht x hx h y v hy
    unfold Scm_HashTablePut at hy
    split at hy
    · rename_i e; rw [e]; exact hx
    · exact h y v hy
  · intro ht x hx h y v hy
    unfold Scm_HashTablePut at hy
    split at hy
    · rename_i e; rw [e]; exact hx
    · exact h y v hy
  · intro x v h; cases h

/-- C30 as worded fails: pass 1 enters zero-length strings and vectors.  In
the list `(e e v v)`, with `e` one empty string and `v` one empty vector, both
are in the table after the walk, flagged as seen again; an empty vector or an
empty string walked as a root is entered as seen once. -/
theorem write_walk_enters_empty_aggregates :
    (write_walk emptyTwiceHeap ⟨SCM_WRITE_WRITE, 0, 0⟩ 10 (.ptr 0) (fun _ => none)).2 = .done ∧
    (write_walk emptyTwiceHeap ⟨SCM_WRITE_WRITE, 0, 0⟩ 10 (.ptr 0) (fun _ => none)).1 (.ptr 4)
      = some SCM_TRUE ∧
    (write_walk emptyTwiceHeap ⟨SCM_WRITE_WRITE, 0, 0⟩ 10 (.ptr 0) (fun _ => none)).1 (.ptr 5)
      = some SCM_TRUE ∧
    (write_walk emptyTwiceHeap ⟨SCM_WRITE_WRITE, 0, 0⟩ 10 (.ptr 5) (fun _ => none)).1 (.ptr 5)
      = some SCM_FALSE ∧
    (write_walk emptyTwiceHeap ⟨SCM_WRITE_WRITE, 0, 0⟩ 10 (.ptr 4) (fun _ => none)).1 (.ptr 4)
      = some SCM_FALSE := by
  refine ⟨by decide, by decide, by decide, by decide, by decide⟩

/-- C30, amended.  After `write_walk` from any root, with any fuel, every key
of the identity table is a heap pointer that is not a symbol, a keyword or a
number: there is no entry for an immediate, a fixnum, a character, a
heap-allocated number, a symbol or a keyword, and an entered key that points
to a heap object points to a pair, a string or a vector.  A zero-length
string or vector that is walked is entered: as a root it gets the entry
`SCM_FALSE`. -/
theorem write_walk_entries :
    (∀ (heap : Heap) (ctx : ScmWriteContext) (fuel : Nat) (root x v : ScmObj),
      (write_walk heap ctx fuel root (fun _ => none)).1 x = some v →
      SCM_PTRP x = true ∧ SCM_SYMBOLP x = false ∧ SCM_KEYWORDP x = false ∧
      SCM_NUMBERP heap x = false ∧
      ∀ o, deref heap x = some o →
        (∃ car cdr, o = .pair car cdr) ∨ (∃ cs, o = .string cs) ∨ (∃ es, o = .vector es)) ∧
    (∀ (heap : Heap) (ctx : ScmWriteContext) (fuel : Nat) (x : ScmObj),
      deref heap x = some (.string []) ∨ deref heap x = some (.vector []) →
      (write_walk heap ctx (fuel + 1) x (fun _ => none)).1 x = some SCM_FALSE) := by
  constructor
  · intro heap ctx fuel root x v h
    have hk := write_walk_keys heap ctx fuel root x v h
    simp only [Bool.or_eq_false_iff, Bool.not_eq_false_eq_eq_true] at hk
    obtain ⟨⟨⟨h1, h2⟩, h3⟩, h4⟩ := hk
    refine ⟨h1, h2, h3, h4, ?_⟩
    intro o ho
    cases o with
    | pair a d => exact Or.inl ⟨a, d, rfl⟩
    | string cs => exact Or.inr (Or.inl ⟨cs, rfl⟩)
    | vector es => exact Or.inr (Or.inr ⟨es, rfl⟩)
    | number t =>
      exfalso
      cases x <;> simp_all [SCM_NUMBERP, deref]
  · intro heap ctx fuel x hx
    cases x with
    | ptr a =>
      rcases hx with hx | hx
      · have hd : heap a = some (.string []) := hx
        simp [write_walk, SCM_PTRP, SCM_SYMBOLP, SCM_KEYWORDP, SCM_NUMBERP, SCM_PAIRP, deref, hd,
          Scm_HashTableGet, Scm_HashTablePut]
      · have hd : heap a = some (.vector []) := hx
        simp [write_walk, SCM_PTRP, SCM_SYMBOLP, SCM_KEYWORDP, SCM_NUMBERP, SCM_PAIRP, deref, hd,
          Scm_HashTableGet, Scm_HashTablePut]
    | _ => rcases hx with hx | hx <;> cases hx

/-- Instance of C30: the empty string of `(e e v v)` is an entered key, a
pointer and not a number; walked as a root it is entered as seen once. -/
theorem write_walk_entries_witness :
    SCM_PTRP (.ptr 4) = true ∧ SCM_NUMBERP emptyTwiceHeap (.ptr 4) = false ∧
    (write_walk emptyTwiceHeap ⟨SCM_WRITE_WRITE, 0, 0⟩ 1 (.ptr 4) (fun _ => none)).1 (.ptr 4)
      = some SCM_FALSE :=
  ⟨(write_walk_entries.1 emptyTwiceHeap ⟨SCM_WRITE_WRITE, 0, 0⟩ 10 (.ptr 0) (.ptr 4) SCM_TRUE
      (by decide)).1,
    (write_walk_entries.1 emptyTwiceHeap ⟨SCM_WRITE_WRITE, 0, 0⟩ 10 (.ptr 0) (.ptr 4) SCM_TRUE
      (by decide)).2.2.2.1,
    write_walk_entries.2 emptyTwiceHeap ⟨SCM_WRITE_WRITE, 0, 0⟩ 0 (.ptr 4) (Or.inl rfl)⟩

/-! ## Comparison of strings -/

theorem memcmp_zero (x y : List Nat) : Str.memcmp x y 0 = 0 := by
  cases x <;> cases y <;> rfl

theorem memcmp_range (x y : List Nat) (n : Nat) :
    Str.memcmp x y n = -1 ∨ Str.memcmp x y n = 0 ∨ Str.memcmp x y n = 1 := by
  induction n generalizing x y with
  | zero => right; left; exact memcmp_zero x y
  | succ n ih =>
    cases x with
    | nil => right; left; rfl
    | cons a x =>
      cases y with
      | nil => right; left; rfl
      | cons b y =>
        unfold Str.memcmp
        split
        · left; rfl
        · split
          · right; right; rfl
          · exact ih x y

theorem memcmp_swap (x y : List Nat) (n : Nat) : Str.memcmp y x n = -Str.memcmp x y n := by
  induction n generalizing x y with
  | zero => rw [memcmp_zero, memcmp_zero]; rfl
  | succ n ih =>
    cases x with
    | nil => cases y <;> rfl
    | cons a x =>
      cases y with
      | nil => rfl
      | cons b y =>
        unfold Str.memcmp
        by_cases h1 : a < b
        · rw [if_pos h1, if_neg (by omega), if_pos h1]; rfl
        · by_cases h2 : b < a
          · rw [if_pos h2, if_neg h1, if_pos h2]
          · rw [if_neg h2, if_neg h1, if_neg h1, if_neg h2]
            exact ih x y

/-- The test of `STRCMP` with `<` decides the lexicographic order of the
bytes. -/
theorem memcmp_lex (x y : List Nat) (sx sy : Nat) (hx : sx ≤ x.length) (hy : sy ≤ y.length) :
    Str.specLexLt (x.take sx) (y.take sy) = true ↔
      (Str.memcmp x y (if sx < sy then sx else sy) < 0 ∨
        (Str.memcmp x y (if sx < sy then sx else sy) = 0 ∧ sx < sy)) := by
  induction sx generalizing x y sy with
  | zero =>
    have e : (if 0 < sy then 0 else sy) = 0 := by split <;> omega
    rw [e, memcmp_zero]
    cases sy with
    | zero => simp [Str.specLexLt]
    | succ sy =>
      cases y with
      | nil => simp at hy
      | cons b y => simp [Str.specLexLt]
  | succ sx ih =>
    cases x with
    | nil => simp at hx
    | cons a x =>
      cases sy with
      | zero =>
        have e : (if sx + 1 < 0 then sx + 1 else 0) = 0 := by split <;> omega
        rw [e, memcmp_zero]
        simp [Str.specLexLt]
      | succ sy =>
        cases y with
        | nil => simp at hy
        | cons b y =>
          have e : (if sx + 1 < sy + 1 then sx + 1 else sy + 1)
              = (if sx < sy then sx else sy) + 1 := by split <;> split <;> omega
          have hx2 : sx ≤ x.length := by simpa using hx
          have hy2 : sy ≤ y.length := by simpa using hy
          rw [e]
          simp only [List.take_succ_cons, Str.specLexLt, Str.memcmp]
          by_cases h1 : a < b
          · simp [h1]
          · by_cases h2 : b < a
            · have h3 : ¬ a = b := by omega
              simp [h1, h2, h3]
            · have h3 : a = b := by omega
              subst h3
              simp only [lt_self_iff_false, if_false, decide_False, decide_True, Bool.false_or,
                Bool.true_and]
              rw [ih x y sy hx2 hy2]
              simp

theorem memcmp_eq (x y : List Nat) (n : Nat) (hx : n ≤ x.length) (hy : n ≤ y.length) :
    Str.memcmp x y n = 0 ↔ x.take n = y.take n := by
  induction n generalizing x y with
  | zero => simp [memcmp_zero]
  | succ n ih =>
    cases x with
    | nil => simp at hx
    | cons a x =>
      cases y with
      | nil => simp at hy
      | cons b y =>
        have hx2 : n ≤ x.length := by simpa using hx
        have hy2 : n ≤ y.length := by simpa using hy
        simp only [List.take_succ_cons, Str.memcmp, List.cons.injEq]
        by_cases h1 : a < b
        · simp [h1]; omega
        · by_cases h2 : b < a
          · simp [h1, h2]; omega
          · have h3 : a = b := by omega
            subst h3
            simp only [lt_self_iff_false, if_false, true_and]
            exact ih x y hx2 hy2

theorem specLexLt_irrefl (a : List Nat) : Str.specLexLt a a = false := by
  induction a with
  | nil => rfl
  | cons x a ih => simp [Str.specLexLt, ih]

theorem specLexLt_asymm (a b : List Nat) (h : Str.specLexLt a b = true) :
    Str.specLexLt b a = false := by
  induction a generalizing b with
  | nil => cases b <;> simp_all [Str.specLexLt]
  | cons x a ih =>
    cases b with
    | nil => simp [Str.specLexLt] at h
    | cons y b =>
      simp only [Str.specLexLt, Bool.or_eq_true, decide_eq_true_eq, Bool.and_eq_true] at h
      simp only [Str.specLexLt, Bool.or_eq_false_iff, decide_eq_false_iff_not,
        Bool.and_eq_false_imp, decide_eq_true_eq]
      rcases h with h | ⟨h1, h2⟩
      · exact ⟨by omega, fun e => by omega⟩
      · exact ⟨by omega, fun _ => ih b h2⟩

theorem specLexLt_total (a b : List Nat) :
    Str.specLexLt a b = true ∨ a = b ∨ Str.specLexLt b a = true := by
  induction a generalizing b with
  | nil => cases b <;> simp [Str.specLexLt]
  | cons x a ih =>
    cases b with
    | nil => simp [Str.specLexLt]
    | cons y b =>
      simp only [Str.specLexLt, Bool.or_eq_true, decide_eq_true_eq, Bool.and_eq_true,
        List.cons.injEq]
      rcases Nat.lt_trichotomy x y with h | h | h
      · left; left; exact h
      · rcases ih b with h2 | h2 | h2
        · left; right; exact ⟨h, h2⟩
        · right; left; exact ⟨h, h2⟩
        · right; right; right; exact ⟨h.symm, h2⟩
      · right; right; left; exact h

theorem specLexLt_trans (a b c : List Nat) (h1 : Str.specLexLt a b = true)
    (h2 : Str.specLexLt b c = true) : Str.specLexLt a c = true := by
  induction a generalizing b c with
  | nil =>
    cases b with
    | nil => simp [Str.specLexLt] at h1
    | cons y b =>
      cases c with
      | nil => simp [Str.specLexLt] at h2
      | cons z c => rfl
  | cons x a ih =>
    cases b with
    | nil => simp [Str.specLexLt] at h1
    | cons y b =>
      cases c with
      | nil => simp [Str.specLexLt] at h2
      | cons z c =>
        simp only [Str.specLexLt, Bool.or_eq_true, decide_eq_true_eq, Bool.and_eq_true]
          at h1 h2 ⊢
        rcases h1 with h1 | ⟨e1, h1⟩
        · rcases h2 with h2 | ⟨e2, h2⟩
          · left; omega
          · left; omega
        · rcases h2 with h2 | ⟨e2, h2⟩
          · left; omega
          · right; exact ⟨by omega, ih b c h1 h2⟩

theorem strcmp_true (p q : Prop) [Decidable p] [Decidable q] :
    (if p then SCM_TRUE else if q then SCM_TRUE else SCM_FALSE) = SCM_TRUE ↔ p ∨ q := by
  by_cases hp : p <;> by_cases hq : q <;> simp +decide [hp, hq]

theorem STRCMP_true (op1 : Int → Int → Bool) (op2 : Nat → Nat → Bool) (x y : Str.ScmString) :
    Str.STRCMP op1 op2 x y = SCM_TRUE ↔
      (op1 (Str.memcmp x.start y.start (if x.size < y.size then x.size else y.size)) 0 = true ∨
        (Str.memcmp x.start y.start (if x.size < y.size then x.size else y.size) = 0 ∧
          op2 x.size y.size = true)) := by
  unfold Str.STRCMP
  exact strcmp_true _ _

theorem Scm_StringEqual_true (x y : Str.ScmString) :
    Str.Scm_StringEqual x y = SCM_TRUE ↔
      (x.size = y.size ∧ Str.memcmp x.start y.start x.size = 0) := by
  unfold Str.Scm_StringEqual
  by_cases h1 : x.size = y.size <;> by_cases h2 : Str.memcmp x.start y.start x.size = 0 <;>
    simp +decide [h1, h2]

theorem Scm_StringLt_lex (x y : Str.ScmString) (hx : x.size ≤ x.start.length)
    (hy : y.size ≤ y.start.length) :
    Str.Scm_StringLt x y = SCM_TRUE ↔ Str.specLexLt x.bytes y.bytes = true := by
  unfold Str.ScmString.bytes
  rw [memcmp_lex x.start y.start x.size y.size hx hy]
  unfold Str.Scm_StringLt
  rw [STRCMP_true]
  simp only [decide_eq_true_eq]

theorem Scm_StringGt_lex (x y : Str.ScmString) (hx : x.size ≤ x.start.length)
    (hy : y.size ≤ y.start.length) :
    Str.Scm_StringGt x y = SCM_TRUE ↔ Str.specLexLt y.bytes x.bytes = true := by
  unfold Str.ScmString.bytes
  rw [memcmp_lex y.start x.start y.size x.size hy hx]
  have e : (if y.size < x.size then y.size else x.size)
      = (if x.size < y.size then x.size else y.size) := by split <;> split <;> omega
  rw [e, memcmp_swap x.start y.start]
  unfold Str.Scm_StringGt
  rw [STRCMP_true]
  simp only [decide_eq_true_eq, gt_iff_lt]
  constructor
  · rintro (h | ⟨h1, h2⟩)
    · left; omega
    · right; exact ⟨by omega, h2⟩
  · rintro (h | ⟨h1, h2⟩)
    · left; omega
    · right; exact ⟨by omega, h2⟩

theorem Scm_StringEqual_bytes (x y : Str.ScmString) (hx : x.size ≤ x.start.length)
    (hy : y.size ≤ y.start.length) :
    Str.Scm_StringEqual x y = SCM_TRUE ↔ x.bytes = y.bytes := by
  rw [Scm_StringEqual_true]
  unfold Str.ScmString.bytes
  constructor
  · rintro ⟨hs, hm⟩
    rw [← hs]
    exact (memcmp_eq x.start y.start x.size hx (by omega)).1 hm
  · intro h
    have hs : x.size = y.size := by
      have := congrArg List.length h
      simp only [List.length_take] at this
      omega
    refine ⟨hs, ?_⟩
    rw [← hs] at h
    exact (memcmp_eq x.start y.start x.size hx (by omega)).2 h

theorem Scm_StringLe_iff (x y : Str.ScmString) :
    Str.Scm_StringLe x y = SCM_TRUE ↔
      (Str.Scm_StringLt x y = SCM_TRUE ∨ Str.Scm_StringEqual x y = SCM_TRUE) := by
  unfold Str.Scm_StringLe Str.Scm_StringLt
  rw [STRCMP_true, STRCMP_true, Scm_StringEqual_true]
  simp only [decide_eq_true_eq]
  constructor
  · rintro (h | ⟨h1, h2⟩)
    · left; left; exact h
    · by_cases hs : x.size = y.size
      · right
        refine ⟨hs, ?_⟩
        have e : (if x.size < y.size then x.size else y.size) = x.size := by split <;> omega
        rw [e] at h1
        exact h1
      · left; right; exact ⟨h1, by omega⟩
  · rintro ((h | ⟨h1, h2⟩) | ⟨hs, hm⟩)
    · left; exact h
    · right; exact ⟨h1, by omega⟩
    · right
      have e : (if x.size < y.size then x.size else y.size) = x.size := by split <;> omega
      rw [e]
      exact ⟨hm, by omega⟩

theorem Scm_StringGe_iff (x y : Str.ScmString) :
    Str.Scm_StringGe x y = SCM_TRUE ↔
      (Str.Scm_StringGt x y = SCM_TRUE ∨ Str.Scm_StringEqual x y = SCM_TRUE) := by
  unfold Str.Scm_StringGe Str.Scm_StringGt
  rw [STRCMP_true, STRCMP_true, Scm_StringEqual_true]
  simp only [decide_eq_true_eq, gt_iff_lt, ge_iff_le]
  constructor
  · rintro (h | ⟨h1, h2⟩)
    · left; left; exact h
    · by_cases hs : x.size = y.size
      · right
        refine ⟨hs, ?_⟩
        have e : (if x.size < y.size then x.size else y.size) = x.size := by split <;> omega
        rw [e] at h1
        exact h1
      · left; right; exact ⟨h1, by omega⟩
  · rintro ((h | ⟨h1, h2⟩) | ⟨hs, hm⟩)
    · left; exact h
    · right; exact ⟨h1, by omega⟩
    · right
      have e : (if x.size < y.size then x.size else y.size) = x.size := by split <;> omega
      rw [e]
      exact ⟨hm, by omega⟩

/-- C37.  For strings whose `size` bytes lie in the memory at `start`:
exactly one of `Scm_StringLt`, `Scm_StringEqual` and `Scm_StringGt` gives
`SCM_TRUE`; `Scm_StringLe` gives it exactly when `Scm_StringLt` or
`Scm_StringEqual` does, `Scm_StringGe` exactly when `Scm_StringGt` or
`Scm_StringEqual` does; `Scm_StringLt` gives it exactly when the bytes of `x`
come before the bytes of `y` in the strict lexicographic order, in which a
proper initial part of a sequence is smaller than the sequence; and
`Scm_StringLt` is transitive. -/
theorem string_compare_order (x y z : Str.ScmString) (hx : x.size ≤ x.start.length)
    (hy : y.size ≤ y.start.length) (hz : z.size ≤ z.start.length) :
    ((Str.Scm_StringLt x y = SCM_TRUE ∧ Str.Scm_StringEqual x y ≠ SCM_TRUE ∧
        Str.Scm_StringGt x y ≠ SCM_TRUE) ∨
      (Str.Scm_StringLt x y ≠ SCM_TRUE ∧ Str.Scm_StringEqual x y = SCM_TRUE ∧
        Str.Scm_StringGt x y ≠ SCM_TRUE) ∨
      (Str.Scm_StringLt x y ≠ SCM_TRUE ∧ Str.Scm_StringEqual x y ≠ SCM_TRUE ∧
        Str.Scm_StringGt x y = SCM_TRUE)) ∧
    (Str.Scm_StringLe x y = SCM_TRUE ↔
      (Str.Scm_StringLt x y = SCM_TRUE ∨ Str.Scm_StringEqual x y = SCM_TRUE)) ∧
    (Str.Scm_StringGe x y = SCM_TRUE ↔
      (Str.Scm_StringGt x y = SCM_TRUE ∨ Str.Scm_StringEqual x y = SCM_TRUE)) ∧
    (Str.Scm_StringLt x y = SCM_TRUE ↔ Str.specLexLt x.bytes y.bytes = true) ∧
    (∀ a b : List Nat, Str.specLexLt a (a ++ b) = true ↔ b ≠ []) ∧
    (Str.Scm_StringLt x y = SCM_TRUE → Str.Scm_StringLt y z = SCM_TRUE →
      Str.Scm_StringLt x z = SCM_TRUE) := by
  have hlt := Scm_StringLt_lex x y hx hy
  have hgt := Scm_StringGt_lex x y hx hy
  have heq := Scm_StringEqual_bytes x y hx hy
  refine ⟨?_, Scm_StringLe_iff x y, Scm_StringGe_iff x y, hlt, ?_, ?_⟩
  · simp only [ne_eq, hlt, hgt, heq]
    rcases specLexLt_total x.bytes y.bytes with h | h | h
    · left
      refine ⟨h, ?_, ?_⟩
      · intro e; rw [e, specLexLt_irrefl] at h; exact absurd h (by decide)
      · rw [specLexLt_asymm _ _ h]; decide
    · right; left
      refine ⟨?_, h, ?_⟩
      · rw [h, specLexLt_irrefl]; decide
      · rw [h, specLexLt_irrefl]; decide
    · right; right
      refine ⟨?_, ?_, h⟩
      · rw [specLexLt_asymm _ _ h]; decide
      · intro e; rw [e, specLexLt_irrefl] at h; exact absurd h (by decide)
  · intro a b
    induction a with
    | nil => cases b <;> simp [Str.specLexLt]
    | cons c a ih => simpa [Str.specLexLt] using ih
  · intro h1 h2
    rw [Scm_StringLt_lex x z hx hz]
    exact specLexLt_trans _ _ _ ((Scm_StringLt_lex x y hx hy).1 h1)
      ((Scm_StringLt_lex y z hy hz).1 h2)

/-- Instance of C37: `ab` comes before `abc`, which comes before `b`. -/
theorem string_compare_order_witness :
    Str.Scm_StringLt ⟨2, 2, [97, 98, 0]⟩ ⟨3, 3, [97, 98, 99, 0]⟩ = SCM_TRUE ∧
    Str.Scm_StringLt ⟨3, 3, [97, 98, 99, 0]⟩ ⟨1, 1, [98, 0]⟩ = SCM_TRUE ∧
    Str.Scm_StringLt ⟨2, 2, [97, 98, 0]⟩ ⟨1, 1, [98, 0]⟩ = SCM_TRUE ∧
    (Str.Scm_StringLe ⟨2, 2, [97, 98, 0]⟩ ⟨3, 3, [97, 98, 99, 0]⟩ = SCM_TRUE ↔
      (Str.Scm_StringLt ⟨2, 2, [97, 98, 0]⟩ ⟨3, 3, [97, 98, 99, 0]⟩ = SCM_TRUE ∨
        Str.Scm_StringEqual ⟨2, 2, [97, 98, 0]⟩ ⟨3, 3, [97, 98, 99, 0]⟩ = SCM_TRUE)) :=
  ⟨by decide, by decide,
    (string_compare_order ⟨2, 2, [97, 98, 0]⟩ ⟨3, 3, [97, 98, 99, 0]⟩ ⟨1, 1, [98, 0]⟩
      (by decide) (by decide) (by decide)).2.2.2.2.2 (by decide) (by decide),
    (string_compare_order ⟨2, 2, [97, 98, 0]⟩ ⟨3, 3, [97, 98, 99, 0]⟩ ⟨1, 1, [98, 0]⟩
      (by decide) (by decide) (by decide)).2.1⟩

/-! ## Concatenation of strings -/

/-- C35 at a failing input.  With `x` an incomplete string of one byte and
`y` the complete string `a`, `Scm_StringAppend2` gives an incomplete string
(length -1) while `Scm_StringAppend` on the list `(x y)` gives the same two
bytes with the length 1: its loop leaves an incomplete string out of the sum
and never sets the length to -1.  For all strings the two functions agree on
the bytes and on the size, `size(x) + size(y)`; they agree on the length,
`length(x) + length(y)`, when both strings are complete; and when one of them
is incomplete `Scm_StringAppend2` gives -1 and `Scm_StringAppend` a length
that is not negative. -/
theorem Scm_StringAppend_incomplete_counted_complete :
    Str.Scm_StringAppend2 ⟨-1, 1, [0xA4, 0]⟩ ⟨1, 1, [97, 0]⟩ = ⟨-1, 2, [0xA4, 97, 0]⟩ ∧
    Str.Scm_StringAppend [some ⟨-1, 1, [0xA4, 0]⟩, some ⟨1, 1, [97, 0]⟩]
      = some ⟨1, 2, [0xA4, 97, 0]⟩ ∧
    (∀ x y : Str.ScmString, ∃ z,
      Str.Scm_StringAppend [some x, some y] = some z ∧
      z.start = (Str.Scm_StringAppend2 x y).start ∧
      z.start = x.bytes ++ y.bytes ++ [0] ∧
      z.size = (Str.Scm_StringAppend2 x y).size ∧
      z.size = x.size + y.size ∧
      (0 ≤ x.length → 0 ≤ y.length →
        z.length = (Str.Scm_StringAppend2 x y).length ∧ z.length = x.length + y.length) ∧
      (x.length < 0 ∨ y.length < 0 →
        (Str.Scm_StringAppend2 x y).length = -1 ∧ 0 ≤ z.length)) := by
  refine ⟨by decide, by decide, ?_⟩
  intro x y
  refine ⟨_, rfl, ?_, ?_, ?_, ?_, ?_, ?_⟩
  · simp [Str.append_copy, Str.Scm_StringAppend2, Str.INITSTR]
  · simp [Str.append_copy, Str.INITSTR, Str.ScmString.bytes]
  · simp [Str.Scm_StringAppend2, Str.INITSTR]
  · simp [Str.INITSTR]
  · intro hx hy
    have h1 : ¬ (x.length < 0 ∨ y.length < 0) := by omega
    simp only [Str.Scm_StringAppend2, Str.INITSTR, if_neg h1, ge_iff_le, le_refl, true_and,
      if_pos hx, zero_add, and_self]
    rw [if_pos ⟨hx, hy⟩]
  · intro h
    refine ⟨by simp [Str.Scm_StringAppend2, Str.INITSTR, h], ?_⟩
    simp only [Str.INITSTR, ge_iff_le, le_refl, true_and, zero_add]
    split <;> split <;> omega

/-! ## Joining strings -/

theorem join_count_complete (dlen : Int) :
    ∀ (l : List Str.ScmString) (size : Nat) (len : Int) (nstrs : Nat),
      (∀ s ∈ l, 0 ≤ s.length) → 0 ≤ len →
      Str.join_count dlen (l.map some) size len nstrs
        = some (size + (l.map (fun s => s.size)).sum,
            (if dlen > 0 then len + (l.map (fun s => s.length)).sum else len),
            nstrs + l.length) := by
  intro l
  induction l with
  | nil => intro size len nstrs _ _; simp [Str.join_count]
  | cons s l ih =>
    intro size len nstrs hl hlen
    have hs : 0 ≤ s.length := hl s (List.mem_cons_self _ _)
    have hsum : 0 ≤ (l.map (fun s => s.length)).sum :=
      List.sum_nonneg (by
        intro v hv
        obtain ⟨t, ht, rfl⟩ := List.mem_map.1 hv
        exact hl t (List.mem_cons_of_mem _ ht))
    simp only [List.map_cons, Str.join_count, List.sum_cons, List.length_cons]
    by_cases hd : dlen > 0
    · rw [if_pos ⟨hlen, hs, hd⟩, ih _ _ _ (fun t ht => hl t (List.mem_cons_of_mem _ ht))
        (by omega)]
      simp only [if_pos hd]
      congr 2
      · omega
      · congr 1
        · omega
        · omega
    · have hn : ¬ (len ≥ 0 ∧ s.length ≥ 0 ∧ dlen > 0) := fun h => hd h.2.2
      rw [if_neg hn, ih _ _ _ (fun t ht => hl t (List.mem_cons_of_mem _ ht)) hlen]
      simp only [if_neg hd]
      congr 2
      · omega
      · congr 1
        omega

theorem join_copy_bytes (delim : Str.ScmString) :
    ∀ (l : List Str.ScmString) (buf : List Nat),
      Str.join_copy delim (l.map some) buf
        = buf ++ List.intercalate delim.bytes (l.map (fun s => s.bytes)) := by
  intro l
  induction l with
  | nil => intro buf; simp [Str.join_copy, List.intercalate]
  | cons s l ih =>
    intro buf
    cases l with
    | nil =>
      simp [Str.join_copy, List.intercalate, Str.ScmString.bytes]
    | cons t l =>
      have e : Str.join_copy delim ((s :: t :: l).map some) buf
          = Str.join_copy delim ((t :: l).map some) (buf ++ s.bytes ++ delim.bytes) := by
        simp [Str.join_copy, Str.ScmString.bytes]
      rw [e, ih]
      simp [List.intercalate, List.intersperse]

/-- C36 at a failing input.  Joining the complete strings `ab` and `cd` with
the empty delimiter gives the four bytes `abcd` and the size 4 with the
length 0: the loop adds the length of a string only when the length of the
delimiter is positive.  For every non-empty list of complete strings and
every complete delimiter the bytes are the strings with the delimiter between
them and the size is the sum of the sizes plus `(n-1) * size(d)`; the length
is the sum of the lengths plus `(n-1) * length(d)` when the delimiter has a
positive length, and 0 when the delimiter is empty.  For the empty list the
result is the empty string. -/
theorem Scm_StringJoin_empty_delimiter_length :
    Str.Scm_StringJoin Str.singleByte
        [some ⟨2, 2, [97, 98, 0]⟩, some ⟨2, 2, [99, 100, 0]⟩] ⟨0, 0, [0]⟩
      = some ⟨0, 4, [97, 98, 99, 100, 0]⟩ ∧
    Str.Scm_StringJoin Str.singleByte
        [some ⟨2, 2, [97, 98, 0]⟩, some ⟨2, 2, [99, 100, 0]⟩] ⟨1, 1, [44, 0]⟩
      = some ⟨5, 5, [97, 98, 44, 99, 100, 0]⟩ ∧
    (∀ (enc : Str.Encoding) (l : List Str.ScmString) (delim : Str.ScmString),
      l ≠ [] → (∀ s ∈ l, 0 ≤ s.length) → 0 ≤ delim.length →
      ∃ z, Str.Scm_StringJoin enc (l.map some) delim = some z ∧
        z.start = List.intercalate delim.bytes (l.map (fun s => s.bytes)) ++ [0] ∧
        z.size = (l.map (fun s => s.size)).sum + delim.size * (l.length - 1) ∧
        z.length = (if delim.length > 0 then
            (l.map (fun s => s.length)).sum + delim.length * ((l.length : Int) - 1)
          else 0)) ∧
    (∀ (enc : Str.Encoding) (delim : Str.ScmString),
      Str.Scm_StringJoin enc [] delim = some ⟨0, 0, [0]⟩) := by
  refine ⟨by decide, by decide, ?_, ?_⟩
  · intro enc l delim hne hl hd
    have hm : l.map some ≠ [] := by simpa using hne
    have hsum : 0 ≤ (l.map (fun s => s.length)).sum :=
      List.sum_nonneg (by
        intro v hv
        obtain ⟨t, ht, rfl⟩ := List.mem_map.1 hv
        exact hl t ht)
    unfold Str.Scm_StringJoin
    simp only [if_neg hm, join_count_complete delim.length l 0 0 0 hl (le_refl _),
      join_copy_bytes, List.nil_append, zero_add]
    refine ⟨_, rfl, rfl, rfl, ?_⟩
    simp only [Str.INITSTR]
    by_cases hp : delim.length > 0
    · simp only [if_pos hp]
      rw [if_pos (by omega)]
    · simp only [if_neg hp]
      have e : delim.length = 0 := by omega
      simp [e]
  · intro enc delim
    rfl

/-! ## Strings and their characters -/

theorem encode_nil (enc : Str.Encoding) : Str.encode enc [] = [] := rfl

theorem encode_cons (enc : Str.Encoding) (c : Char) (cs : List Char) :
    Str.encode enc (c :: cs) = enc.SCM_STR_PUTC c ++ Str.encode enc cs := by
  simp [Str.encode]

theorem encode_append (enc : Str.Encoding) (a b : List Char) :
    Str.encode enc (a ++ b) = Str.encode enc a ++ Str.encode enc b := by
  simp [Str.encode]

theorem encode_length (enc : Str.Encoding) (cs : List Char)
    (hf : ∀ ch ∈ cs, Str.Faithful enc ch) :
    (Str.encode enc cs).length = (cs.map enc.SCM_CHAR_NBYTES).sum := by
  induction cs with
  | nil => rfl
  | cons c cs ih =>
    rw [encode_cons, List.length_append, ih (fun ch h => hf ch (List.mem_cons_of_mem _ h)),
      (hf c (List.mem_cons_self _ _)).1]
    simp

/-- Moving forward over `k` characters of a complete string adds the number
of their bytes to the position. -/
theorem forward_pos_encode (enc : Str.Encoding) (rest : List Nat) :
    ∀ (k : Nat) (pre cs : List Char), (∀ ch ∈ cs, Str.Faithful enc ch) → k ≤ cs.length →
      Str.forward_pos enc (Str.encode enc pre ++ (Str.encode enc cs ++ rest))
          ((Str.encode enc pre).length : Int) k
        = (((Str.encode enc pre).length + (Str.encode enc (cs.take k)).length : Nat) : Int) := by
  intro k
  induction k with
  | zero => intro pre cs _ _; simp [Str.forward_pos, encode_nil]
  | succ k ih =>
    intro pre cs hf hk
    cases cs with
    | nil => simp at hk
    | cons c cs =>
      have hc := hf c (List.mem_cons_self _ _)
      have hget : (Str.encode enc pre ++ (Str.encode enc (c :: cs) ++ rest)).getD
          (((Str.encode enc pre).length : Int)).toNat 0
          = (enc.SCM_STR_PUTC c ++ (Str.encode enc cs ++ rest)).getD 0 0 := by
        rw [Int.toNat_ofNat, List.getD_append_right _ _ _ _ (le_refl _), Nat.sub_self,
          encode_cons, List.append_assoc]
      unfold Str.forward_pos
      rw [hget, hc.2.2.2]
      have hpre : Str.encode enc pre ++ (Str.encode enc (c :: cs) ++ rest)
          = Str.encode enc (pre ++ [c]) ++ (Str.encode enc cs ++ rest) := by
        rw [encode_append, encode_cons, encode_cons, encode_nil]
        simp
      have hpos : ((Str.encode enc pre).length : Int) + (enc.SCM_CHAR_NBYTES c : Int)
          = ((Str.encode enc (pre ++ [c])).length : Int) := by
        rw [encode_append, encode_cons, encode_nil, List.append_nil, List.length_append, hc.1]
        push_cast
        rfl
      rw [hpre, hpos, ih (pre ++ [c]) cs (fun ch h => hf ch (List.mem_cons_of_mem _ h))
        (by simpa using hk)]
      rw [List.take_succ_cons, encode_cons, encode_append, encode_cons, encode_nil]
      simp only [List.length_append, List.append_nil]
      omega

theorem forward_pos_holds (enc : Str.Encoding) (x : Str.ScmString) (cs : List Char)
    (h : Str.Holds enc x cs) (a n : Nat) (hn : a + n ≤ cs.length) :
    Str.forward_pos enc x.start ((Str.encode enc (cs.take a)).length : Int) n
      = (((Str.encode enc (cs.take a)).length
          + (Str.encode enc ((cs.drop a).take n)).length : Nat) : Int) := by
  obtain ⟨_, _, ⟨rest, hs⟩, hf⟩ := h
  have e : x.start = Str.encode enc (cs.take a) ++ (Str.encode enc (cs.drop a) ++ rest) := by
    rw [hs, ← List.append_assoc, ← encode_append, List.take_append_drop]
  rw [e]
  exact forward_pos_encode enc rest n (cs.take a) (cs.drop a)
    (fun ch hch => hf ch (List.mem_of_mem_drop hch)) (by simp; omega)

/-- C34.  For a complete string `x` with the characters `cs`, `Scm_Substring`
raises an error exactly when `start < 0` or `end > len` or `end < start`.
Otherwise it returns the complete string of length `end - start` with the
characters of `x` at the positions `start` to `end - 1` in order, and
`Scm_Substring(x, 0, len)` has the length, the size and the bytes of `x`. -/
theorem Scm_Substring_complete (enc : Str.Encoding) (x : Str.ScmString) (cs : List Char)
    (h : Str.Holds enc x cs) (start stop : Int) :
    (Str.Scm_Substring enc x start stop = none ↔
      (start < 0 ∨ stop > x.length ∨ stop < start)) ∧
    (0 ≤ start → start ≤ stop → stop ≤ x.length →
      ∃ z, Str.Scm_Substring enc x start stop = some z ∧ z.length = stop - start ∧
        Str.Holds enc z ((cs.drop start.toNat).take (stop - start).toNat)) ∧
    (∃ z, Str.Scm_Substring enc x 0 x.length = some z ∧ z.length = x.length ∧
      z.size = x.size ∧ z.bytes = x.bytes) := by
  have hlen : x.length = (cs.length : Int) := h.1
  have hok : ∀ start stop : Int, 0 ≤ start → start ≤ stop → stop ≤ x.length →
      ∃ z, Str.Scm_Substring enc x start stop = some z ∧ z.length = stop - start ∧
        Str.Holds enc z ((cs.drop start.toNat).take (stop - start).toNat) := by
    intro start stop h0 h1 h2
    obtain ⟨a, rfl⟩ := Int.eq_ofNat_of_zero_le h0
    obtain ⟨n, hn⟩ := Int.eq_ofNat_of_zero_le (by omega : 0 ≤ stop - (a : Int))
    have hstop : stop = (a : Int) + n := by omega
    subst hstop
    have han : a + n ≤ cs.length := by omega
    have hs : (if (a : Int) ≠ 0 then Str.forward_pos enc x.start 0 (a : Int).toNat else 0)
        = ((Str.encode enc (cs.take a)).length : Int) := by
      by_cases ha : a = 0
      · subst ha; simp [encode_nil]
      · rw [if_pos (by omega), Int.toNat_ofNat]
        have := forward_pos_holds enc x cs h 0 a (by omega)
        simpa [encode_nil] using this
    have he : Str.forward_pos enc x.start ((Str.encode enc (cs.take a)).length : Int)
        ((a : Int) + n - a).toNat
        = (((Str.encode enc (cs.take a)).length
            + (Str.encode enc ((cs.drop a).take n)).length : Nat) : Int) := by
      have e : ((a : Int) + n - a).toNat = n := by omega
      rw [e]
      exact forward_pos_holds enc x cs h a n han
    unfold Str.Scm_Substring
    rw [if_neg (by omega), if_neg (by omega), if_neg (by omega)]
    simp only [hs, he]
    refine ⟨_, rfl, rfl, ?_⟩
    obtain ⟨_, _, ⟨rest, hst⟩, hf⟩ := h
    have e1 : ((a : Int) + n - a).toNat = n := by omega
    refine ⟨?_, ?_, ?_, ?_⟩
    · simp only [Str.INITSTR, Int.toNat_ofNat, e1, List.length_take, List.length_drop]
      omega
    · simp only [Str.INITSTR, Int.toNat_ofNat, e1]
      omega
    · refine ⟨Str.encode enc ((cs.drop a).drop n) ++ rest, ?_⟩
      simp only [Str.INITSTR, Int.toNat_ofNat, e1]
      rw [hst]
      have e2 : Str.encode enc cs
          = Str.encode enc (cs.take a) ++ (Str.encode enc ((cs.drop a).take n)
              ++ Str.encode enc ((cs.drop a).drop n)) := by
        rw [← encode_append, ← encode_append, List.take_append_drop, List.take_append_drop]
      rw [e2, List.append_assoc, List.drop_left, List.append_assoc]
    · intro ch hch
      simp only [Int.toNat_ofNat, e1] at hch
      exact hf ch (List.mem_of_mem_drop (List.mem_of_mem_take hch))
  refine ⟨?_, hok start stop, ?_⟩
  · constructor
    · intro hnone
      by_contra hc
      obtain ⟨z, hz, _⟩ := hok start stop (by omega) (by omega) (by omega)
      rw [hz] at hnone
      cases hnone
    · intro herr
      unfold Str.Scm_Substring
      by_cases h1 : start < 0
      · rw [if_pos h1]
      · rw [if_neg h1]
        by_cases h2 : stop > x.length
        · rw [if_pos h2]
        · rw [if_neg h2, if_pos (by omega)]
  · obtain ⟨z, hz, hzl, hzh⟩ := hok 0 x.length (le_refl _) (by omega) (le_refl _)
    refine ⟨z, hz, by omega, ?_, ?_⟩
    · have e : (cs.drop (0 : Int).toNat).take (x.length - 0).toNat = cs := by
        rw [hlen]; simp
      rw [e] at hzh
      rw [hzh.2.1, h.2.1]
    · have e : (cs.drop (0 : Int).toNat).take (x.length - 0).toNat = cs := by
        rw [hlen]; simp
      rw [e] at hzh
      obtain ⟨r1, hr1⟩ := hzh.2.2.1
      obtain ⟨r2, hr2⟩ := h.2.2.1
      unfold Str.ScmString.bytes
      rw [hzh.2.1, h.2.1, hr1, hr2, List.take_left, List.take_left]


theorem twoByte_faithful_low (ch : Char) (h : ch.toNat < 0x80) : Str.Faithful Str.twoByte ch := by
  refine ⟨?_, ?_, ?_, ?_⟩
  · simp [Str.twoByte, h]
  · simp [Str.twoByte, h]
  · intro rest
    have e : Str.twoByte.SCM_STR_PUTC ch = [ch.toNat] := by simp [Str.twoByte, h]
    rw [e]
    cases rest with
    | nil => simp [Str.twoByte, Char.ofNat_toNat]
    | cons b rest => simp [Str.twoByte, h, Char.ofNat_toNat]
  · intro rest
    simp [Str.twoByte, h]

theorem twoByte_faithful_high (ch : Char) (h : 0x8000 ≤ ch.toNat) :
    Str.Faithful Str.twoByte ch := by
  have h1 : ¬ ch.toNat < 0x80 := by omega
  have h2 : ¬ ch.toNat / 256 < 0x80 := by omega
  have h3 : ch.toNat / 256 * 256 + ch.toNat % 256 = ch.toNat := by omega
  refine ⟨?_, ?_, ?_, ?_⟩
  · simp [Str.twoByte, h1]
  · simp [Str.twoByte, h1]
  · intro rest
    simp [Str.twoByte, h1, h2, h3, Char.ofNat_toNat]
  · intro rest
    simp [Str.twoByte, h1, h2]

/-- Instance of C34: in the string of `a`, a character of two bytes and `b`,
the substring from 1 to 2 is that character, with the size 2. -/
theorem Scm_Substring_complete_witness :
    Str.Holds Str.twoByte ⟨3, 4, [97, 0xA4, 0xA2, 98, 0]⟩ ['a', Char.ofNat 0xA4A2, 'b'] ∧
    Str.Scm_Substring Str.twoByte ⟨3, 4, [97, 0xA4, 0xA2, 98, 0]⟩ 1 2
      = some ⟨1, 2, [0xA4, 0xA2, 98, 0]⟩ ∧
    (Str.Scm_Substring Str.twoByte ⟨3, 4, [97, 0xA4, 0xA2, 98, 0]⟩ 2 1 = none ↔
      ((2 : Int) < 0 ∨ (1 : Int) > 3 ∨ (1 : Int) < 2)) :=
  have hh : Str.Holds Str.twoByte ⟨3, 4, [97, 0xA4, 0xA2, 98, 0]⟩
      ['a', Char.ofNat 0xA4A2, 'b'] :=
    ⟨by decide, by decide, ⟨[0], by decide⟩, by
      intro ch hch
      simp only [List.mem_cons, List.mem_singleton, List.not_mem_nil, or_false] at hch
      rcases hch with rfl | rfl | rfl
      · exact twoByte_faithful_low _ (by decide)
      · exact twoByte_faithful_high _ (by decide)
      · exact twoByte_faithful_low _ (by decide)⟩
  ⟨hh, by decide, (Scm_Substring_complete Str.twoByte _ _ hh 2 1).1⟩

/-! ## Strings and lists of characters -/

theorem string_to_list_loop_encode (enc : Str.Encoding) (rest : List Nat) :
    ∀ cs : List Char, (∀ ch ∈ cs, Str.Faithful enc ch) →
      Str.string_to_list_loop enc cs.length (Str.encode enc cs ++ rest)
        = cs.map ScmObj.char := by
  intro cs
  induction cs with
  | nil => intro _; rfl
  | cons c cs ih =>
    intro hf
    have hc := hf c (List.mem_cons_self _ _)
    simp only [List.length_cons, Str.string_to_list_loop, List.map_cons]
    rw [encode_cons, List.append_assoc, hc.2.2.1, ← hc.1, List.drop_left,
      ih (fun ch h => hf ch (List.mem_cons_of_mem _ h))]

theorem makestring_count_chars (enc : Str.Encoding) :
    ∀ (cs : List Char) (size : Nat) (len : Int),
      Str.makestring_count enc (cs.map ScmObj.char) size len
        = some (size + (cs.map enc.SCM_CHAR_NBYTES).sum, len + cs.length) := by
  intro cs
  induction cs with
  | nil => intro size len; simp [Str.makestring_count]
  | cons c cs ih =>
    intro size len
    simp only [List.map_cons, Str.makestring_count, ih, List.sum_cons, List.length_cons]
    congr 2
    · omega
    · push_cast; omega

theorem makestring_fill_chars (enc : Str.Encoding) :
    ∀ (cs : List Char) (buf : List Nat),
      Str.makestring_fill enc (cs.map ScmObj.char) buf = buf ++ Str.encode enc cs := by
  intro cs
  induction cs with
  | nil => intro buf; simp [Str.makestring_fill, encode_nil]
  | cons c cs ih =>
    intro buf
    simp only [List.map_cons, Str.makestring_fill, ih, encode_cons, List.append_assoc]

theorem makestring_count_other (enc : Str.Encoding) :
    ∀ (l : List ScmObj) (size : Nat) (len : Int), (∃ o ∈ l, SCM_CHARP o = false) →
      Str.makestring_count enc l size len = none := by
  intro l
  induction l with
  | nil => intro _ _ h; obtain ⟨o, ho, _⟩ := h; cases ho
  | cons a l ih =>
    intro size len h
    cases a with
    | char ch =>
      obtain ⟨o, ho, hc⟩ := h
      rcases List.mem_cons.1 ho with rfl | ho
      · simp [SCM_CHARP] at hc
      · simp only [Str.makestring_count]
        exact ih _ _ ⟨o, ho, hc⟩
    | _ => rfl

theorem Scm_ListToString_chars (enc : Str.Encoding) (cs : List Char) :
    Str.Scm_ListToString enc (cs.map ScmObj.char)
      = some ⟨cs.length, (cs.map enc.SCM_CHAR_NBYTES).sum, Str.encode enc cs ++ [0]⟩ := by
  unfold Str.Scm_ListToString Str.makestring_from_list
  rw [makestring_count_chars, makestring_fill_chars]
  simp only [zero_add, List.nil_append]
  unfold Str.Scm_MakeStringConst
  rw [if_neg (by omega), if_neg (by omega)]
  simp only [Str.INITSTR, Int.toNat_ofNat]

/-- C38.  Let the characters `cs` be handled consistently by the encoding.
For every complete string `s` with the characters `cs`,
`Scm_ListToString(Scm_StringToList(s))` returns a string with the length, the
size and the bytes of `s`, and `Scm_StringToList(s)` is the list of the
characters `cs`.  `Scm_ListToString` applied to the list of the characters
`cs` returns a string of which `Scm_StringToList` is that list again.  A list
with an element that is not a character makes `Scm_ListToString` raise an
error. -/
theorem list_string_round_trip (enc : Str.Encoding) (cs : List Char)
    (hf : ∀ ch ∈ cs, Str.Faithful enc ch) :
    (∀ s, Str.Holds enc s cs →
      Str.Scm_StringToList enc s = cs.map ScmObj.char ∧
      ∃ z, Str.Scm_ListToString enc (Str.Scm_StringToList enc s) = some z ∧
        z.length = s.length ∧ z.size = s.size ∧ z.bytes = s.bytes) ∧
    (∃ z, Str.Scm_ListToString enc (cs.map ScmObj.char) = some z ∧
      Str.Scm_StringToList enc z = cs.map ScmObj.char) ∧
    (∀ l : List ScmObj, (∃ o ∈ l, SCM_CHARP o = false) →
      Str.Scm_ListToString enc l = none) := by
  refine ⟨?_, ?_, ?_⟩
  · intro s hs
    obtain ⟨hl, hsz, ⟨rest, hst⟩, _⟩ := hs
    have h1 : Str.Scm_StringToList enc s = cs.map ScmObj.char := by
      unfold Str.Scm_StringToList
      rw [hl, hst, Int.toNat_ofNat]
      exact string_to_list_loop_encode enc rest cs hf
    refine ⟨h1, ?_⟩
    rw [h1, Scm_ListToString_chars]
    refine ⟨_, rfl, ?_, ?_, ?_⟩
    · simp [hl]
    · simp only [hsz]
      exact (encode_length enc cs hf).symm
    · unfold Str.ScmString.bytes
      simp only [hsz, hst, ← encode_length enc cs hf, List.take_left]
  · rw [Scm_ListToString_chars]
    refine ⟨_, rfl, ?_⟩
    unfold Str.Scm_StringToList
    simp only [Int.toNat_ofNat]
    exact string_to_list_loop_encode enc [0] cs hf
  · intro l h
    unfold Str.Scm_ListToString Str.makestring_from_list
    rw [makestring_count_other enc l 0 0 h]

/-- Instance of C38: the characters `a`, a character of two bytes and `b`. -/
theorem list_string_round_trip_witness :
    Str.Scm_StringToList Str.twoByte ⟨3, 4, [97, 0xA4, 0xA2, 98, 0]⟩
      = [.char 'a', .char (Char.ofNat 0xA4A2), .char 'b'] ∧
    Str.Scm_ListToString Str.twoByte [.char 'a', .char (Char.ofNat 0xA4A2), .char 'b']
      = some ⟨3, 4, [97, 0xA4, 0xA2, 98, 0]⟩ ∧
    Str.Scm_ListToString Str.twoByte [.char 'a', .int 1] = none :=
  ⟨by decide, by decide,
    (list_string_round_trip Str.twoByte ['a', Char.ofNat 0xA4A2, 'b'] (by
      intro ch hch
      simp only [List.mem_cons, List.mem_singleton, List.not_mem_nil, or_false] at hch
      rcases hch with rfl | rfl | rfl
      · exact twoByte_faithful_low _ (by decide)
      · exact twoByte_faithful_high _ (by decide)
      · exact twoByte_faithful_low _ (by decide))).2.2 [.char 'a', .int 1]
      ⟨.int 1, by simp, rfl⟩⟩

/-! ## Counting the characters of a C string -/

theorem count_follow_reads :
    ∀ (i : Nat) (p : List Nat) (size len : Int) (rd : Nat) (r : List Nat × Int × Int × Nat),
      Str.count_follow i p size len rd = some r → r.2.2.2 = rd + i := by
  intro i
  induction i with
  | zero => intro p size len rd r h; simp [Str.count_follow] at h; subst h; rfl
  | succ i ih =>
    intro p size len rd r h
    cases p with
    | nil => simp [Str.count_follow] at h
    | cons b p =>
      simp only [Str.count_follow] at h
      have := ih _ _ _ _ _ h
      omega

theorem count_loop_reads (enc : Str.Encoding) :
    ∀ (fuel : Nat) (p : List Nat) (size len : Int) (rd : Nat) (r : Int × Int × Nat),
      Str.count_loop enc fuel p size len rd = .ret r → rd + 1 ≤ r.2.2 := by
  intro fuel
  induction fuel with
  | zero => intro p size len rd r h; simp [Str.count_loop] at h
  | succ fuel ih =>
    intro p size len rd r h
    cases p with
    | nil => simp [Str.count_loop] at h
    | cons c p =>
      simp only [Str.count_loop] at h
      split at h
      · cases h; exact le_refl _
      · split at h
        · cases h
        · rename_i p2 size2 len2 rd2 hf
          have h1 := count_follow_reads _ _ _ _ _ _ hf
          have h2 := ih _ _ _ _ _ h
          simp only at h1
          omega

/-- On the bytes of complete characters without a zero byte, the inner loop
of `count_size_and_length` reads them and leaves the length alone. -/
theorem count_follow_bytes :
    ∀ (bs rest : List Nat) (size len : Int) (rd : Nat), (∀ b ∈ bs, b ≠ 0) →
      Str.count_follow bs.length (bs ++ rest) size len rd
        = some (rest, size + bs.length, len, rd + bs.length) := by
  intro bs
  induction bs with
  | nil => intro rest size len rd _; simp [Str.count_follow]
  | cons b bs ih =>
    intro rest size len rd h
    have hb : b ≠ 0 := h b (List.mem_cons_self _ _)
    rw [List.length_cons, List.cons_append, Str.count_follow, if_neg hb]
    rw [ih rest _ _ _ (fun x hx => h x (List.mem_cons_of_mem _ hx))]
    have e1 : size + 1 + (bs.length : Int) = size + ((bs.length + 1 : Nat) : Int) := by
      push_cast; omega
    have e2 : rd + 1 + bs.length = rd + (bs.length + 1) := by omega
    rw [e1, e2]

theorem mblen_follow_bytes :
    ∀ (bs rest : List Nat) (rd : Nat), (∀ b ∈ bs, b ≠ 0) →
      Str.mblen_follow bs.length (bs ++ rest) rd = some (false, rest, rd + bs.length) := by
  intro bs
  induction bs with
  | nil => intro rest rd _; simp [Str.mblen_follow]
  | cons b bs ih =>
    intro rest rd h
    have hb : b ≠ 0 := h b (List.mem_cons_self _ _)
    rw [List.length_cons, List.cons_append, Str.mblen_follow, if_neg hb]
    rw [ih rest _ (fun x hx => h x (List.mem_cons_of_mem _ hx))]
    congr 3
    omega

/-- A character cut short by the terminator: `Scm_MBLen` stops at it. -/
theorem mblen_follow_cut :
    ∀ (bs rest : List Nat) (i rd : Nat), (∀ b ∈ bs, b ≠ 0) → bs.length < i →
      Str.mblen_follow i (bs ++ 0 :: rest) rd = some (true, rest, rd + bs.length + 1) := by
  intro bs
  induction bs with
  | nil =>
    intro rest i rd _ hi
    obtain ⟨j, rfl⟩ : ∃ j, i = j + 1 := ⟨i - 1, by simp at hi; omega⟩
    simp [Str.mblen_follow]
  | cons b bs ih =>
    intro rest i rd h hi
    have hb : b ≠ 0 := h b (List.mem_cons_self _ _)
    obtain ⟨j, rfl⟩ : ∃ j, i = j + 1 := ⟨i - 1, by simp at hi; omega⟩
    rw [List.cons_append, Str.mblen_follow, if_neg hb]
    rw [ih rest j _ (fun x hx => h x (List.mem_cons_of_mem _ hx)) (by simpa using hi)]
    simp only [List.length_cons]
    congr 3
    omega

/-- The lead byte of a character that the encoding handles consistently and
the number of the bytes that follow it. -/
theorem faithful_lead (enc : Str.Encoding) (ch : Char) (h : Str.Faithful enc ch) :
    ∃ b bs, enc.SCM_STR_PUTC ch = b :: bs ∧ (enc.SCM_CHAR_NFOLLOWS b).toNat = bs.length ∧
      0 ≤ enc.SCM_CHAR_NFOLLOWS b := by
  obtain ⟨h1, h2, _, h4⟩ := h
  cases hp : enc.SCM_STR_PUTC ch with
  | nil => rw [hp] at h1; simp at h1; omega
  | cons b bs =>
    refine ⟨b, bs, rfl, ?_, ?_⟩
    · have := h4 []
      rw [hp] at this h1
      simp at this h1
      omega
    · have := h4 []
      rw [hp] at this h1
      simp at this h1
      omega

theorem encode_length_ge (enc : Str.Encoding) (cs : List Char)
    (hf : ∀ ch ∈ cs, Str.Faithful enc ch) : cs.length ≤ (Str.encode enc cs).length := by
  induction cs with
  | nil => simp
  | cons c cs ih =>
    have hc := hf c (List.mem_cons_self _ _)
    rw [encode_cons, List.length_append, hc.1]
    have := ih (fun ch h => hf ch (List.mem_cons_of_mem _ h))
    have := hc.2.1
    simp only [List.length_cons]
    omega

theorem count_loop_complete (enc : Str.Encoding) (beyond : List Nat) :
    ∀ (cs : List Char) (fuel : Nat) (size len : Int) (rd : Nat),
      (∀ ch ∈ cs, Str.Faithful enc ch ∧ ∀ b ∈ enc.SCM_STR_PUTC ch, b ≠ 0) → cs.length < fuel →
      Str.count_loop enc fuel (Str.encode enc cs ++ 0 :: beyond) size len rd
        = .ret (size + (Str.encode enc cs).length, len + cs.length,
            rd + (Str.encode enc cs).length + 1) := by
  intro cs
  induction cs with
  | nil =>
    intro fuel size len rd _ hfuel
    obtain ⟨f, rfl⟩ : ∃ f, fuel = f + 1 := ⟨fuel - 1, by simp at hfuel; omega⟩
    simp [Str.count_loop, encode_nil]
  | cons c cs ih =>
    intro fuel size len rd h hfuel
    obtain ⟨f, rfl⟩ : ∃ f, fuel = f + 1 := ⟨fuel - 1, by simp at hfuel; omega⟩
    obtain ⟨hc, hz⟩ := h c (List.mem_cons_self _ _)
    obtain ⟨b, bs, hp, hn, _⟩ := faithful_lead enc c hc
    rw [hp] at hz
    have hb : b ≠ 0 := hz b (List.mem_cons_self _ _)
    rw [encode_cons, hp]
    simp only [List.cons_append, List.append_assoc]
    rw [Str.count_loop, if_neg hb, hn]
    rw [count_follow_bytes bs _ _ _ _ (fun x hx => hz x (List.mem_cons_of_mem _ hx))]
    simp only
    rw [ih f _ _ _ (fun ch hch => h ch (List.mem_cons_of_mem _ hch))
      (by simp only [List.length_cons] at hfuel; omega)]
    simp only [List.length_cons, List.length_append]
    congr 2
    · push_cast; omega
    · congr 1
      · push_cast; omega
      · omega

theorem mblen_loop_complete (enc : Str.Encoding) (beyond : List Nat) :
    ∀ (cs : List Char) (fuel : Nat) (count : Int) (rd : Nat),
      (∀ ch ∈ cs, Str.Faithful enc ch ∧ ∀ b ∈ enc.SCM_STR_PUTC ch, b ≠ 0) → cs.length < fuel →
      Str.mblen_loop enc fuel (Str.encode enc cs ++ 0 :: beyond) count rd
        = .ret (count + cs.length, rd + (Str.encode enc cs).length + 1) := by
  intro cs
  induction cs with
  | nil =>
    intro fuel count rd _ hfuel
    obtain ⟨f, rfl⟩ : ∃ f, fuel = f + 1 := ⟨fuel - 1, by simp at hfuel; omega⟩
    simp [Str.mblen_loop, encode_nil]
  | cons c cs ih =>
    intro fuel count rd h hfuel
    obtain ⟨f, rfl⟩ : ∃ f, fuel = f + 1 := ⟨fuel - 1, by simp at hfuel; omega⟩
    obtain ⟨hc, hz⟩ := h c (List.mem_cons_self _ _)
    obtain ⟨b, bs, hp, hn, hnn⟩ := faithful_lead enc c hc
    rw [hp] at hz
    have hb : b ≠ 0 := hz b (List.mem_cons_self _ _)
    rw [encode_cons, hp]
    simp only [List.cons_append, List.append_assoc]
    rw [Str.mblen_loop, if_neg hb, if_neg (not_lt.2 hnn), hn]
    rw [mblen_follow_bytes bs _ _ (fun x hx => hz x (List.mem_cons_of_mem _ hx))]
    simp only
    rw [ih f _ _ (fun ch hch => h ch (List.mem_cons_of_mem _ hch))
      (by simp only [List.length_cons] at hfuel; omega)]
    simp only [List.length_cons, List.length_append]
    congr 2
    · push_cast; omega
    · omega

/-- `Scm_MBLen` on a C string whose last character is cut short by the
terminator: the characters `cs`, then a lead byte `b` that requires more
bytes than the bytes `bs` that follow it, then the terminator. -/
theorem mblen_loop_cut (enc : Str.Encoding) (beyond : List Nat) (b : Nat) (bs : List Nat)
    (hb : b ≠ 0) (hbs : ∀ x ∈ bs, x ≠ 0) (hcut : (bs.length : Int) < enc.SCM_CHAR_NFOLLOWS b) :
    ∀ (cs : List Char) (fuel : Nat) (count : Int) (rd : Nat),
      (∀ ch ∈ cs, Str.Faithful enc ch ∧ ∀ b ∈ enc.SCM_STR_PUTC ch, b ≠ 0) → cs.length < fuel →
      Str.mblen_loop enc fuel (Str.encode enc cs ++ b :: (bs ++ 0 :: beyond)) count rd
        = .ret (-1, rd + (Str.encode enc cs).length + 1 + bs.length + 1) := by
  intro cs
  induction cs with
  | nil =>
    intro fuel count rd _ hfuel
    obtain ⟨f, rfl⟩ : ∃ f, fuel = f + 1 := ⟨fuel - 1, by simp at hfuel; omega⟩
    rw [encode_nil, List.nil_append, Str.mblen_loop, if_neg hb,
      if_neg (by omega : ¬ enc.SCM_CHAR_NFOLLOWS b < 0)]
    rw [mblen_follow_cut bs beyond _ _ hbs (by omega)]
    simp
  | cons c cs ih =>
    intro fuel count rd h hfuel
    obtain ⟨f, rfl⟩ : ∃ f, fuel = f + 1 := ⟨fuel - 1, by simp at hfuel; omega⟩
    obtain ⟨hc, hz⟩ := h c (List.mem_cons_self _ _)
    obtain ⟨b2, bs2, hp, hn, hnn⟩ := faithful_lead enc c hc
    rw [hp] at hz
    have hb2 : b2 ≠ 0 := hz b2 (List.mem_cons_self _ _)
    rw [encode_cons, hp]
    simp only [List.cons_append, List.append_assoc]
    rw [Str.mblen_loop, if_neg hb2, if_neg (not_lt.2 hnn), hn]
    rw [mblen_follow_bytes bs2 _ _ (fun x hx => hz x (List.mem_cons_of_mem _ hx))]
    simp only
    rw [ih f _ _ (fun ch hch => h ch (List.mem_cons_of_mem _ hch))
      (by simp only [List.length_cons] at hfuel; omega)]
    simp only [List.length_cons, List.length_append]
    congr 2
    omega

/-- C33 at a failing input.  In the encoding with characters of two bytes,
the memory holds the lead byte `0xA4`, the terminator, and after it the bytes
`a` and 0.  `Scm_MBLen` returns -1 after the two bytes of the C string.
`count_size_and_length` reads all four bytes and gives the length 0 and the
size 3; when nothing lies after the terminator it reads outside the memory;
and with a zero byte after the terminator it gives the length -1 and the
size 2 after three bytes.  For every encoding and every lead byte that
requires a further byte, a result of `count_size_and_length` on a C string
that consists of this byte is reached after more than its two bytes.  On a C
string in which no character is cut short both functions read up to the
terminator and give the number of characters, and `Scm_MBLen` gives -1 at the
terminator for every C string whose last character is cut short. -/
theorem count_size_and_length_reads_past_terminator :
    Str.Scm_MBLen Str.twoByte [0xA4, 0, 97, 0] = .ret (-1, 2) ∧
    Str.count_size_and_length Str.twoByte [0xA4, 0, 97, 0] = .ret (3, 0, 4) ∧
    Str.count_size_and_length Str.twoByte [0xA4, 0] = .outside ∧
    Str.count_size_and_length Str.twoByte [0xA4, 0, 0] = .ret (2, -1, 3) ∧
    (∀ (enc : Str.Encoding) (c : Nat) (beyond : List Nat) (r : Int × Int × Nat),
      c ≠ 0 → 1 ≤ enc.SCM_CHAR_NFOLLOWS c →
      Str.count_size_and_length enc (c :: 0 :: beyond) = .ret r → 2 < r.2.2) ∧
    (∀ (enc : Str.Encoding) (cs : List Char) (beyond : List Nat),
      (∀ ch ∈ cs, Str.Faithful enc ch ∧ ∀ b ∈ enc.SCM_STR_PUTC ch, b ≠ 0) →
      Str.count_size_and_length enc (Str.encode enc cs ++ 0 :: beyond)
        = .ret ((Str.encode enc cs).length, cs.length, (Str.encode enc cs).length + 1) ∧
      Str.Scm_MBLen enc (Str.encode enc cs ++ 0 :: beyond)
        = .ret (cs.length, (Str.encode enc cs).length + 1)) ∧
    (∀ (enc : Str.Encoding) (cs : List Char) (b : Nat) (bs beyond : List Nat),
      (∀ ch ∈ cs, Str.Faithful enc ch ∧ ∀ b ∈ enc.SCM_STR_PUTC ch, b ≠ 0) →
      b ≠ 0 → (∀ x ∈ bs, x ≠ 0) → (bs.length : Int) < enc.SCM_CHAR_NFOLLOWS b →
      Str.Scm_MBLen enc (Str.encode enc cs ++ b :: (bs ++ 0 :: beyond))
        = .ret (-1, (Str.encode enc cs ++ b :: bs).length + 1)) := by
  refine ⟨by decide, by decide, by decide, by decide, ?_, ?_, ?_⟩
  · intro enc c beyond r hc hn h
    unfold Str.count_size_and_length at h
    simp only [List.length_cons, Str.count_loop, if_neg hc] at h
    obtain ⟨i, hi⟩ : ∃ i, (enc.SCM_CHAR_NFOLLOWS c).toNat = i + 1 :=
      ⟨(enc.SCM_CHAR_NFOLLOWS c).toNat - 1, by omega⟩
    rw [hi] at h
    simp only [Str.count_follow] at h
    split at h
    · cases h
    · rename_i p2 size2 len2 rd2 hf
      have h1 := count_follow_reads _ _ _ _ _ _ hf
      have h2 := count_loop_reads enc _ _ _ _ _ _ h
      simp only at h1
      omega
  · intro enc cs beyond h
    have hlen := encode_length_ge enc cs (fun ch hch => (h ch hch).1)
    constructor
    · unfold Str.count_size_and_length
      rw [count_loop_complete enc beyond cs _ _ _ _ h
        (by simp only [List.length_append, List.length_cons]; omega)]
      simp
    · unfold Str.Scm_MBLen
      rw [mblen_loop_complete enc beyond cs _ _ _ h
        (by simp only [List.length_append, List.length_cons]; omega)]
      simp
  · intro enc cs b bs beyond h hb hbs hcut
    have hlen := encode_length_ge enc cs (fun ch hch => (h ch hch).1)
    unfold Str.Scm_MBLen
    rw [mblen_loop_cut enc beyond b bs hb hbs hcut cs _ _ _ h
      (by simp only [List.length_append, List.length_cons]; omega)]
    simp only [List.length_append, List.length_cons]
    congr 2
    omega

/-! ## The count returned by `string_print` -/

theorem print_complete_count (enc : Str.Encoding) :
    ∀ (len : Nat) (cp : List Nat) (port : ScmPort) (nc : Int),
      (Str.print_complete enc len cp port nc).2 - nc
        = ((render (Str.print_complete enc len cp port nc).1.out).length : Int)
          - ((render port.out).length : Int) := by
  intro len
  induction len with
  | zero => intro cp port nc; simp [Str.print_complete]
  | succ len ih =>
    intro cp port nc
    unfold Str.print_complete
    simp only
    cases he : Str.print_escape (enc.SCM_STR_GETC cp).toNat with
    | none =>
      simp only
      have := ih (cp.drop (enc.SCM_CHAR_NBYTES (enc.SCM_STR_GETC cp)))
        (Scm_PutcUnsafe (enc.SCM_STR_GETC cp) port) (nc + 1)
      have hl : ((render (Scm_PutcUnsafe (enc.SCM_STR_GETC cp) port).out).length : Int)
          = ((render port.out).length : Int) + 1 := by
        simp [Scm_PutcUnsafe, render_append, render, Tok.chars]
      omega
    | some esc =>
      simp only
      have hesc : esc.length = 2 := by
        unfold Str.print_escape at he
        repeat' split at he
        all_goals first | (cases he; rfl) | cases he
      have := ih (cp.drop (enc.SCM_CHAR_NBYTES (enc.SCM_STR_GETC cp)))
        (Scm_PutzUnsafe esc port) (nc + 2)
      have hl : ((render (Scm_PutzUnsafe esc port).out).length : Int)
          = ((render port.out).length : Int) + 2 := by
        simp [Scm_PutzUnsafe, render_append, render, Tok.chars, hesc]
      omega

theorem string_to_list_loop_chars (enc : Str.Encoding) :
    ∀ (len : Nat) (bufp : List Nat),
      ((Str.string_to_list_loop enc len bufp).filterMap fun o =>
        match o with
        | .char ch => some ch
        | _ => none).length = len := by
  intro len
  induction len with
  | zero => intro bufp; rfl
  | succ len ih =>
    intro bufp
    simp only [Str.string_to_list_loop, List.filterMap_cons, List.length_cons, ih]

/-- C39 at a failing input.  For the incomplete string of the two bytes `a`
and `0xA4`, `string_print` in write mode puts four characters (the quotes and
the two bytes) and returns 2: the `default` case of the loop over the bytes
puts a byte without adding to the count.  In display mode it puts the two
bytes and returns -1, the length field.  For every complete string, in every
mode, the value returned is the number of characters put. -/
theorem string_print_incomplete_count :
    (Str.string_print Str.twoByte ⟨-1, 2, [97, 0xA4, 0]⟩ Scm_MakeOutputStringPort
      SCM_WRITE_WRITE).2 = 2 ∧
    (render (Str.string_print Str.twoByte ⟨-1, 2, [97, 0xA4, 0]⟩ Scm_MakeOutputStringPort
      SCM_WRITE_WRITE).1.out).length = 4 ∧
    (Str.string_print Str.twoByte ⟨-1, 2, [97, 0xA4, 0]⟩ Scm_MakeOutputStringPort
      SCM_WRITE_DISPLAY).2 = -1 ∧
    (render (Str.string_print Str.twoByte ⟨-1, 2, [97, 0xA4, 0]⟩ Scm_MakeOutputStringPort
      SCM_WRITE_DISPLAY).1.out).length = 2 ∧
    (∀ (enc : Str.Encoding) (str : Str.ScmString) (port : ScmPort) (mode : Nat),
      0 ≤ str.length →
      (Str.string_print enc str port mode).2
        = ((render (Str.string_print enc str port mode).1.out).length : Int)
          - ((render port.out).length : Int)) := by
  refine ⟨by decide, by decide, by decide, by decide, ?_⟩
  intro enc str port mode hlen
  have hc : Str.SCM_STRING_COMPLETE_P str = true := by
    simp [Str.SCM_STRING_COMPLETE_P, hlen]
  unfold Str.string_print
  by_cases hm : mode = SCM_WRITE_DISPLAY
  · simp only [if_pos hm]
    have hp : (Str.puts_chars enc str).length = str.length.toNat := by
      unfold Str.puts_chars
      rw [if_pos hc]
      exact string_to_list_loop_chars enc _ _
    simp only [Scm_PutzUnsafe, render_append, render, Tok.chars, List.length_append,
      List.append_nil, hp]
    omega
  · simp only [if_neg hm, hc, if_true]
    have h1 := print_complete_count enc str.length.toNat str.start (Scm_PutcUnsafe '"' port) 1
    have hl : ((render (Scm_PutcUnsafe '"' port).out).length : Int)
        = ((render port.out).length : Int) + 1 := by
      simp [Scm_PutcUnsafe, render_append, render, Tok.chars]
    have hl2 : ∀ q : ScmPort, ((render (Scm_PutcUnsafe '"' q).out).length : Int)
        = ((render q.out).length : Int) + 1 := by
      intro q
      simp [Scm_PutcUnsafe, render_append, render, Tok.chars]
    rw [hl2]
    omega

/-! ## The two passes of `Scm_Vprintf` -/

theorem vprintf_number_takes (ok : ScmObj → Bool) (text : List Char → ScmObj → List Char)
    (c : Char) (d : PrintfDirective) (st : PrintfState) :
    TakesOne (vprintf_number ok text c d st) st := by
  obtain ⟨out, args, longp⟩ := st
  cases args with
  | nil => left; exact ⟨rfl, rfl⟩
  | cons v more =>
    right
    by_cases hok : ok v = true
    · exact ⟨v, more,
        { out := Scm_PutzUnsafe (text (d.argbuf ++ [c]) v) out, args := more, longp := longp },
        rfl, rfl, Or.inl (by simp [vprintf_number, vprintf_pop, hok])⟩
    · exact ⟨v, more, { out := out, args := more, longp := longp }, rfl, rfl,
        Or.inr ⟨.assertFailed, by simp [vprintf_number, vprintf_pop, hok], by decide, by decide⟩⟩

theorem vprintf_after_limited_args (prec : Int) (r : ScmPort × Outcome × Int)
    (st : PrintfState) :
    ∃ st2, st2.args = st.args ∧
      (vprintf_after_limited prec r st = .finished st2 ∨
        ∃ o, vprintf_after_limited prec r st = .stop st2 o ∧ o ≠ .incomplete ∧ o ≠ .done) := by
  obtain ⟨out, o, n⟩ := r
  cases o
  · exact ⟨_, by rfl, Or.inl rfl⟩
  · exact ⟨_, by rfl, Or.inr ⟨.aborted .outOfFuel, rfl, by decide, by decide⟩⟩
  · exact ⟨_, by rfl, Or.inr ⟨.aborted .panic, rfl, by decide, by decide⟩⟩
  · exact ⟨_, by rfl, Or.inr ⟨.aborted .error, rfl, by decide, by decide⟩⟩

theorem vprintf_after_write_args (r : ScmPort × Outcome) (st : PrintfState) :
    ∃ st2, st2.args = st.args ∧
      (vprintf_after_write r st = .finished st2 ∨
        ∃ o, vprintf_after_write r st = .stop st2 o ∧ o ≠ .incomplete ∧ o ≠ .done) := by
  obtain ⟨out, o⟩ := r
  cases o
  · exact ⟨_, by rfl, Or.inl rfl⟩
  · exact ⟨_, by rfl, Or.inr ⟨.aborted .outOfFuel, rfl, by decide, by decide⟩⟩
  · exact ⟨_, by rfl, Or.inr ⟨.aborted .panic, rfl, by decide, by decide⟩⟩
  · exact ⟨_, by rfl, Or.inr ⟨.aborted .error, rfl, by decide, by decide⟩⟩

theorem vprintf_sexp_takes (heap : Heap) (fuel : Nat) (sharedp : Bool) (c : Char)
    (d : PrintfDirective) (st : PrintfState) :
    TakesOne (vprintf_sexp heap fuel sharedp c d st) st := by
  obtain ⟨out, args, longp⟩ := st
  cases args with
  | nil => left; exact ⟨rfl, rfl⟩
  | cons v more =>
    right
    simp only [vprintf_sexp, vprintf_pop]
    split
    · obtain ⟨st2, h2, h3⟩ := vprintf_after_limited_args d.prec
        (Scm_WriteCircular heap fuel v out (if c = 'A' then SCM_WRITE_DISPLAY
          else SCM_WRITE_WRITE) d.width) { out := out, args := more, longp := longp }
      exact ⟨v, more, st2, rfl, h2, h3⟩
    · split
      · obtain ⟨st2, h2, h3⟩ := vprintf_after_write_args
          (format_write heap fuel v out
            { mode := if c = 'A' then SCM_WRITE_DISPLAY else SCM_WRITE_WRITE,
              flags := 0, limit := 0 } sharedp) { out := out, args := more, longp := longp }
        exact ⟨v, more, st2, rfl, h2, h3⟩
      · split
        · obtain ⟨st2, h2, h3⟩ := vprintf_after_limited_args d.prec
            (Scm_WriteLimited heap fuel v out (if c = 'A' then SCM_WRITE_DISPLAY
              else SCM_WRITE_WRITE) d.width) { out := out, args := more, longp := longp }
          exact ⟨v, more, st2, rfl, h2, h3⟩
        · obtain ⟨st2, h2, h3⟩ := vprintf_after_write_args
            (format_write heap fuel v out
              { mode := if c = 'A' then SCM_WRITE_DISPLAY else SCM_WRITE_WRITE,
                flags := 0, limit := 0 } sharedp) { out := out, args := more, longp := longp }
          exact ⟨v, more, st2, rfl, h2, h3⟩

theorem vprintf_string_takes (heap : Heap) (d : PrintfDirective) (st : PrintfState) :
    TakesOne (vprintf_string heap d st) st := by
  obtain ⟨out, args, longp⟩ := st
  cases args with
  | nil => left; exact ⟨rfl, rfl⟩
  | cons v more =>
    right
    simp only [vprintf_string, vprintf_pop]
    split
    · exact ⟨v, more, _, rfl, by rfl, Or.inl rfl⟩
    · exact ⟨v, more, _, rfl, by rfl, Or.inr ⟨.assertFailed, rfl, by decide, by decide⟩⟩

theorem vprintf_char_takes (pops : PrintfOps) (st : PrintfState) :
    TakesOne
      (match vprintf_pop st with
        | none => PrintfStep.stop st .assertFailed
        | some (val, st) =>
          if !pops.SCM_EXACTP val then .stop st .assertFailed
          else .finished { st with
            out := Scm_PutcUnsafe (Char.ofNat (pops.Scm_GetInteger val).toNat) st.out }) st := by
  obtain ⟨out, args, longp⟩ := st
  cases args with
  | nil => left; exact ⟨rfl, rfl⟩
  | cons v more =>
    right
    by_cases hok : pops.SCM_EXACTP v = true
    · exact ⟨v, more,
        { out := Scm_PutcUnsafe (Char.ofNat (pops.Scm_GetInteger v).toNat) out, args := more,
          longp := longp },
        rfl, rfl, Or.inl (by simp [vprintf_pop, hok])⟩
    · exact ⟨v, more, { out := out, args := more, longp := longp }, rfl, rfl,
        Or.inr ⟨.assertFailed, by simp [vprintf_pop, hok], by decide, by decide⟩⟩

/-- The `switch` of `vprintf_proc` by kind of character: a conversion that
takes an argument, the percent sign, and every other character. -/
theorem vprintf_switch_shape (pops : PrintfOps) (heap : Heap) (fuel : Nat) (sharedp : Bool)
    (c : Char) (d : PrintfDirective) (st : PrintfState) :
    (vprintf_takes_arg c = true → TakesOne (vprintf_switch pops heap fuel sharedp c d st) st) ∧
    (c = '%' → ∃ st2, vprintf_switch pops heap fuel sharedp c d st = .finished st2 ∧
      st2.args = st.args) ∧
    (vprintf_takes_arg c = false → c ≠ '%' →
      ∃ d2 st2, vprintf_switch pops heap fuel sharedp c d st = .goOn d2 st2 ∧
        st2.args = st.args) := by
  unfold vprintf_switch
  by_cases h0 : c = 'l'
  · rw [if_pos h0]
    refine ⟨?_, ?_, fun _ _ => ⟨_, _, rfl, rfl⟩⟩
    · subst h0; simp +decide [vprintf_takes_arg]
    · subst h0; intro h; exact absurd h (by decide)
  rw [if_neg h0]
  by_cases h1 : c = 'd' ∨ c = 'i' ∨ c = 'c'
  · rw [if_pos h1]
    refine ⟨fun _ => vprintf_number_takes _ _ _ _ _, ?_, ?_⟩
    · rcases h1 with rfl | rfl | rfl <;> simp +decide
    · rcases h1 with rfl | rfl | rfl <;> simp +decide [vprintf_takes_arg]
  rw [if_neg h1]
  by_cases h2 : c = 'o' ∨ c = 'u' ∨ c = 'x' ∨ c = 'X'
  · rw [if_pos h2]
    refine ⟨fun _ => vprintf_number_takes _ _ _ _ _, ?_, ?_⟩
    · rcases h2 with rfl | rfl | rfl | rfl <;> simp +decide
    · rcases h2 with rfl | rfl | rfl | rfl <;> simp +decide [vprintf_takes_arg]
  rw [if_neg h2]
  by_cases h3 : c = 'e' ∨ c = 'E' ∨ c = 'f' ∨ c = 'g' ∨ c = 'G'
  · rw [if_pos h3]
    refine ⟨fun _ => vprintf_number_takes _ _ _ _ _, ?_, ?_⟩
    · rcases h3 with rfl | rfl | rfl | rfl | rfl <;> simp +decide
    · rcases h3 with rfl | rfl | rfl | rfl | rfl <;> simp +decide [vprintf_takes_arg]
  rw [if_neg h3]
  by_cases h4 : c = 's'
  · rw [if_pos h4]
    subst h4
    exact ⟨fun _ => vprintf_string_takes _ _ _, by simp +decide,
      by simp +decide [vprintf_takes_arg]⟩
  rw [if_neg h4]
  by_cases h5 : c = '%'
  · rw [if_pos h5]
    subst h5
    exact ⟨by simp +decide [vprintf_takes_arg], fun _ => ⟨_, rfl, rfl⟩, by simp +decide⟩
  rw [if_neg h5]
  by_cases h6 : c = 'p'
  · rw [if_pos h6]
    subst h6
    exact ⟨fun _ => vprintf_number_takes _ _ _ _ _, by simp +decide,
      by simp +decide [vprintf_takes_arg]⟩
  rw [if_neg h6]
  by_cases h7 : c = 'S' ∨ c = 'A'
  · rw [if_pos h7]
    refine ⟨fun _ => vprintf_sexp_takes _ _ _ _ _ _, ?_, ?_⟩
    · rcases h7 with rfl | rfl <;> simp +decide
    · rcases h7 with rfl | rfl <;> simp +decide [vprintf_takes_arg]
  rw [if_neg h7]
  by_cases h8 : c = 'C'
  · rw [if_pos h8]
    subst h8
    exact ⟨fun _ => vprintf_char_takes _ _, by simp +decide,
      by simp +decide [vprintf_takes_arg]⟩
  rw [if_neg h8]
  have hno : vprintf_takes_arg c = false := by
    simp only [vprintf_takes_arg, List.mem_cons, List.mem_singleton, List.not_mem_nil,
      or_false, decide_eq_false_iff_not]
    simp only [not_or] at h1 h2 h3 h7 ⊢
    simp [h1, h2, h3, h4, h6, h7, h8]
  refine ⟨fun h => (by rw [hno] at h; cases h), fun h => absurd h h5, fun _ _ => ?_⟩
  split
  · split
    · exact ⟨_, _, rfl, rfl⟩
    · exact ⟨_, _, rfl, rfl⟩
  · split
    · exact ⟨_, _, rfl, rfl⟩
    · split
      · exact ⟨_, _, rfl, rfl⟩
      · exact ⟨_, _, rfl, rfl⟩

/-- The `switch` of the first pass by kind of character. -/
theorem vprintf_pass1_switch_shape {V : Type} (vops : VaOps V) (c : Char) :
    (vprintf_takes_arg c = true →
      ∃ make : V → ScmObj, ∀ ap h,
        vprintf_pass1_switch vops c ap h = vprintf_pass1_arg make ap h) ∧
    (c = '%' → ∀ ap h, vprintf_pass1_switch vops c ap h = .finished h ap) ∧
    (vprintf_takes_arg c = false → c ≠ '%' →
      ∀ ap h, vprintf_pass1_switch vops c ap h = .goOn) := by
  unfold vprintf_pass1_switch
  by_cases h1 : c = 'd' ∨ c = 'i' ∨ c = 'c'
  · simp only [if_pos h1]
    refine ⟨fun _ => ⟨_, fun _ _ => rfl⟩, ?_, ?_⟩
    · rcases h1 with rfl | rfl | rfl <;> simp +decide
    · rcases h1 with rfl | rfl | rfl <;> simp +decide [vprintf_takes_arg]
  simp only [if_neg h1]
  by_cases h2 : c = 'o' ∨ c = 'u' ∨ c = 'x' ∨ c = 'X'
  · simp only [if_pos h2]
    refine ⟨fun _ => ⟨_, fun _ _ => rfl⟩, ?_, ?_⟩
    · rcases h2 with rfl | rfl | rfl | rfl <;> simp +decide
    · rcases h2 with rfl | rfl | rfl | rfl <;> simp +decide [vprintf_takes_arg]
  simp only [if_neg h2]
  by_cases h3 : c = 'e' ∨ c = 'E' ∨ c = 'f' ∨ c = 'g' ∨ c = 'G'
  · simp only [if_pos h3]
    refine ⟨fun _ => ⟨_, fun _ _ => rfl⟩, ?_, ?_⟩
    · rcases h3 with rfl | rfl | rfl | rfl | rfl <;> simp +decide
    · rcases h3 with rfl | rfl | rfl | rfl | rfl <;> simp +decide [vprintf_takes_arg]
  simp only [if_neg h3]
  by_cases h4 : c = 's'
  · simp only [if_pos h4]
    subst h4
    exact ⟨fun _ => ⟨_, fun _ _ => rfl⟩, by simp +decide,
      by simp +decide [vprintf_takes_arg]⟩
  simp only [if_neg h4]
  by_cases h5 : c = '%'
  · simp only [if_pos h5]
    subst h5
    exact ⟨by simp +decide [vprintf_takes_arg], fun _ _ _ => trivial, by simp +decide⟩
  simp only [if_neg h5]
  by_cases h6 : c = 'p'
  · simp only [if_pos h6]
    subst h6
    exact ⟨fun _ => ⟨_, fun _ _ => rfl⟩, by simp +decide,
      by simp +decide [vprintf_takes_arg]⟩
  simp only [if_neg h6]
  by_cases h7 : c = 'S' ∨ c = 'A'
  · simp only [if_pos h7]
    refine ⟨fun _ => ⟨_, fun _ _ => rfl⟩, ?_, ?_⟩
    · rcases h7 with rfl | rfl <;> simp +decide
    · rcases h7 with rfl | rfl <;> simp +decide [vprintf_takes_arg]
  simp only [if_neg h7]
  by_cases h8 : c = 'C'
  · simp only [if_pos h8]
    subst h8
    exact ⟨fun _ => ⟨_, fun _ _ => rfl⟩, by simp +decide,
      by simp +decide [vprintf_takes_arg]⟩
  simp only [if_neg h8]
  have hno : vprintf_takes_arg c = false := by
    simp only [vprintf_takes_arg, List.mem_cons, List.mem_singleton, List.not_mem_nil,
      or_false, decide_eq_false_iff_not]
    simp only [not_or] at h1 h2 h3 h7 ⊢
    simp [h1, h2, h3, h4, h6, h7, h8]
  exact ⟨fun h => (by rw [hno] at h; cases h), fun h => absurd h h5, fun _ _ _ _ => trivial⟩

/-- The list that the first pass has made so far stays at the front of its
result. -/
theorem vprintf_pass1_acc {V : Type} (vops : VaOps V) :
    ∀ (f : List Char) (b : Bool) (ap : List V) (h0 : List ScmObj),
      vprintf_pass1 vops f b ap h0
        = ((h0 ++ (vprintf_pass1 vops f b ap []).1.1, (vprintf_pass1 vops f b ap []).1.2),
            (vprintf_pass1 vops f b ap []).2) := by
  intro f
  induction f with
  | nil => intro b ap h0; cases b <;> simp [vprintf_pass1]
  | cons c f ih =>
    intro b ap h0
    cases b with
    | false =>
      simp only [vprintf_pass1]
      split
      · exact ih false ap h0
      · exact ih true ap h0
    | true =>
      obtain ⟨s1, s2, s3⟩ := vprintf_pass1_switch_shape vops c
      by_cases ht : vprintf_takes_arg c = true
      · obtain ⟨make, hm⟩ := s1 ht
        simp only [vprintf_pass1, hm]
        cases ap with
        | nil => simp [vprintf_pass1_arg]
        | cons v ap2 =>
          simp only [vprintf_pass1_arg, List.nil_append]
          rw [ih false ap2 (h0 ++ [make v]), ih false ap2 [make v]]
          simp
      · have ht2 : vprintf_takes_arg c = false := by simpa using ht
        by_cases hp : c = '%'
        · simp only [vprintf_pass1, s2 hp]
          exact ih false ap h0
        · simp only [vprintf_pass1, s3 ht2 hp]
          exact ih true ap h0

/-- One step of `vprintf_proc` from a configuration in which the arguments
left are those that the first pass makes for the rest of the format. -/
theorem matched_step {V : Type} (pops : PrintfOps) (vops : VaOps V) (heap : Heap)
    (fuel : Nat) (sharedp : Bool) (c : Char) (f : List Char) (d : PrintfDirective)
    (st : PrintfState) (hm : Matched vops (c :: f) (some d) st) :
    (vprintf_takes_arg c = true → st.args ≠ []) ∧
    (∀ d2 st2, vprintf_switch pops heap fuel sharedp c d st = .goOn d2 st2 →
      Matched vops f (some d2) st2) ∧
    (∀ st2, vprintf_switch pops heap fuel sharedp c d st = .finished st2 →
      Matched vops f none st2) ∧
    (∀ st2 o, vprintf_switch pops heap fuel sharedp c d st = .stop st2 o →
      o ≠ .incomplete ∧ o ≠ .done) := by
  obtain ⟨ap, ap2, hp1⟩ := hm
  obtain ⟨s1, s2, s3⟩ := vprintf_pass1_switch_shape vops c
  obtain ⟨t1, t2, t3⟩ := vprintf_switch_shape pops heap fuel sharedp c d st
  simp only [Option.isSome_some, vprintf_pass1] at hp1
  by_cases ht : vprintf_takes_arg c = true
  · obtain ⟨make, hmk⟩ := s1 ht
    rw [hmk] at hp1
    cases ap with
    | nil => simp [vprintf_pass1_arg] at hp1
    | cons v ap3 =>
      simp only [vprintf_pass1_arg, List.nil_append] at hp1
      rw [vprintf_pass1_acc] at hp1
      have hargs : st.args = make v :: (vprintf_pass1 vops f false ap3 []).1.1 := by
        have := congrArg (fun r => r.1.1) hp1
        simpa using this.symm
      have hdone : (vprintf_pass1 vops f false ap3 []).2 = .done := by
        have := congrArg (fun r => r.2) hp1
        simpa using this
      have hmatch : ∀ st2 : PrintfState, st2.args = (vprintf_pass1 vops f false ap3 []).1.1 →
          Matched vops f none st2 := by
        intro st2 h2
        refine ⟨ap3, (vprintf_pass1 vops f false ap3 []).1.2, ?_⟩
        simp only [Option.isSome_none]
        rw [h2, ← hdone]
      refine ⟨fun _ => by rw [hargs]; simp, ?_, ?_, ?_⟩
      · intro d2 st2 h
        rcases t1 ht with ⟨_, e⟩ | ⟨_, _, _, _, _, e | ⟨_, e, _⟩⟩ <;> rw [e] at h <;> cases h
      · intro st2 h
        rcases t1 ht with ⟨_, e⟩ | ⟨w, more, st3, ha, h3, e | ⟨_, e, _⟩⟩
        · rw [e] at h; cases h
        · rw [e] at h
          cases h
          apply hmatch
          rw [h3]
          rw [hargs] at ha
          exact (List.cons.inj ha).2.symm
        · rw [e] at h; cases h
      · intro st2 o h
        rcases t1 ht with ⟨_, e⟩ | ⟨_, _, _, _, _, e | ⟨o2, e, ho⟩⟩
        · rw [e] at h; cases h; exact ⟨by decide, by decide⟩
        · rw [e] at h; cases h
        · rw [e] at h; cases h; exact ho
  · have ht2 : vprintf_takes_arg c = false := by simpa using ht
    refine ⟨fun h => absurd h ht, ?_, ?_, ?_⟩
    · intro d2 st2 h
      by_cases hp : c = '%'
      · obtain ⟨st3, e, _⟩ := t2 hp
        rw [e] at h; cases h
      · obtain ⟨d3, st3, e, ha⟩ := t3 ht2 hp
        rw [e] at h
        cases h
        rw [s3 ht2 hp] at hp1
        exact ⟨ap, ap2, by simp only [Option.isSome_some]; rw [ha]; exact hp1⟩
    · intro st2 h
      by_cases hp : c = '%'
      · obtain ⟨st3, e, ha⟩ := t2 hp
        rw [e] at h
        cases h
        rw [s2 hp] at hp1
        exact ⟨ap, ap2, by simp only [Option.isSome_none]; rw [ha]; exact hp1⟩
      · obtain ⟨d3, st3, e, _⟩ := t3 ht2 hp
        rw [e] at h; cases h
    · intro st2 o h
      by_cases hp : c = '%'
      · obtain ⟨st3, e, _⟩ := t2 hp
        rw [e] at h; cases h
      · obtain ⟨d3, st3, e, _⟩ := t3 ht2 hp
        rw [e] at h; cases h

theorem matched_after {V : Type} (pops : PrintfOps) (vops : VaOps V) (heap : Heap)
    (fuel : Nat) (sharedp : Bool) :
    ∀ (k : Nat) (f : List Char) (d : Option PrintfDirective) (st : PrintfState)
      (f2 : List Char) (d2 : Option PrintfDirective) (st2 : PrintfState),
      Matched vops f d st →
      vprintf_after pops heap fuel sharedp k f d st = some (f2, d2, st2) →
      Matched vops f2 d2 st2 ∧
        vprintf_run pops heap fuel sharedp f d st = vprintf_run pops heap fuel sharedp f2 d2 st2 := by
  intro k
  induction k with
  | zero =>
    intro f d st f2 d2 st2 hm h
    simp only [vprintf_after, Option.some.injEq, Prod.mk.injEq] at h
    obtain ⟨rfl, rfl, rfl⟩ := h
    exact ⟨hm, rfl⟩
  | succ k ih =>
    intro f d st f2 d2 st2 hm h
    cases f with
    | nil => simp [vprintf_after] at h
    | cons c f =>
      cases d with
      | none =>
        simp only [vprintf_after] at h
        simp only [vprintf_run]
        obtain ⟨ap, ap2, hp⟩ := hm
        simp only [Option.isSome_none, vprintf_pass1] at hp
        split at h
        · rename_i hc
          rw [if_pos hc] at hp ⊢
          exact ih _ _ _ _ _ _ ⟨ap, ap2, hp⟩ h
        · rename_i hc
          rw [if_neg hc] at hp ⊢
          exact ih _ _ _ _ _ _ ⟨ap, ap2, hp⟩ h
      | some dd =>
        obtain ⟨_, m1, m2, _⟩ := matched_step pops vops heap fuel sharedp c f dd st hm
        simp only [vprintf_after] at h
        simp only [vprintf_run]
        cases hs : vprintf_switch pops heap fuel sharedp c dd st with
        | goOn d3 st3 =>
          rw [hs] at h
          exact ih _ _ _ _ _ _ (m1 d3 st3 hs) h
        | finished st3 =>
          rw [hs] at h
          exact ih _ _ _ _ _ _ (m2 st3 hs) h
        | stop st3 o => rw [hs] at h; cases h

theorem matched_run {V : Type} (pops : PrintfOps) (vops : VaOps V) (heap : Heap)
    (fuel : Nat) (sharedp : Bool) :
    ∀ (f : List Char) (d : Option PrintfDirective) (st : PrintfState),
      Matched vops f d st →
      (vprintf_run pops heap fuel sharedp f d st).2 ≠ .incomplete ∧
      ((vprintf_run pops heap fuel sharedp f d st).2 = .done →
        (vprintf_run pops heap fuel sharedp f d st).1.args = []) := by
  intro f
  induction f with
  | nil =>
    intro d st hm
    obtain ⟨ap, ap2, hp⟩ := hm
    cases d with
    | none =>
      simp only [Option.isSome_none, vprintf_pass1, Prod.mk.injEq] at hp
      simp only [vprintf_run]
      exact ⟨by decide, fun _ => hp.1.1.symm⟩
    | some dd => simp [vprintf_pass1] at hp
  | cons c f ih =>
    intro d st hm
    cases d with
    | none =>
      obtain ⟨ap, ap2, hp⟩ := hm
      simp only [Option.isSome_none, vprintf_pass1] at hp
      simp only [vprintf_run]
      split
      · rename_i hc
        rw [if_pos hc] at hp
        exact ih _ _ ⟨ap, ap2, hp⟩
      · rename_i hc
        rw [if_neg hc] at hp
        exact ih _ _ ⟨ap, ap2, hp⟩
    | some dd =>
      obtain ⟨_, m1, m2, m3⟩ := matched_step pops vops heap fuel sharedp c f dd st hm
      simp only [vprintf_run]
      cases hs : vprintf_switch pops heap fuel sharedp c dd st with
      | goOn d3 st3 => exact ih _ _ (m1 d3 st3 hs)
      | finished st3 => exact ih _ _ (m2 st3 hs)
      | stop st3 o =>
        simp only
        refine ⟨(m3 st3 o hs).1, ?_⟩
        intro ho
        exact absurd ho (m3 st3 o hs).2

/-- When the first pass raises the error of the incomplete directive, the
second pass does not return, whatever its arguments are. -/
theorem pass1_incomplete_run {V : Type} (pops : PrintfOps) (vops : VaOps V) (heap : Heap)
    (fuel : Nat) (sharedp : Bool) :
    ∀ (f : List Char) (d : Option PrintfDirective) (st : PrintfState) (ap : List V)
      (h : List ScmObj),
      (vprintf_pass1 vops f d.isSome ap h).2 = .incomplete →
      (vprintf_run pops heap fuel sharedp f d st).2 ≠ .done := by
  intro f
  induction f with
  | nil =>
    intro d st ap h hp
    cases d with
    | none => simp [vprintf_pass1] at hp
    | some dd => simp [vprintf_run]
  | cons c f ih =>
    intro d st ap h hp
    cases d with
    | none =>
      simp only [Option.isSome_none, vprintf_pass1] at hp
      simp only [vprintf_run]
      split
      · rename_i hc
        rw [if_pos hc] at hp
        exact ih none _ ap h hp
      · rename_i hc
        rw [if_neg hc] at hp
        exact ih (some _) _ ap h hp
    | some dd =>
      obtain ⟨s1, s2, s3⟩ := vprintf_pass1_switch_shape vops c
      obtain ⟨t1, t2, t3⟩ := vprintf_switch_shape pops heap fuel sharedp c dd st
      simp only [Option.isSome_some, vprintf_pass1] at hp
      simp only [vprintf_run]
      by_cases ht : vprintf_takes_arg c = true
      · obtain ⟨make, hmk⟩ := s1 ht
        rw [hmk] at hp
        cases ap with
        | nil => simp [vprintf_pass1_arg] at hp
        | cons v ap2 =>
          simp only [vprintf_pass1_arg] at hp
          rcases t1 ht with ⟨_, e⟩ | ⟨_, _, st2, _, _, e | ⟨o, e, _, ho⟩⟩
          · rw [e]; simp
          · rw [e]; exact ih none st2 ap2 _ hp
          · rw [e]; exact ho
      · have ht2 : vprintf_takes_arg c = false := by simpa using ht
        by_cases hpc : c = '%'
        · obtain ⟨st2, e, _⟩ := t2 hpc
          rw [s2 hpc] at hp
          rw [e]
          exact ih none st2 ap h hp
        · obtain ⟨d2, st2, e, _⟩ := t3 ht2 hpc
          rw [s3 ht2 hpc] at hp
          rw [e]
          exact ih (some d2) st2 ap h hp

/-- When the second pass raises the error of the incomplete directive, the
first pass does not get through the format. -/
theorem run_incomplete_pass1 {V : Type} (pops : PrintfOps) (vops : VaOps V) (heap : Heap)
    (fuel : Nat) (sharedp : Bool) :
    ∀ (f : List Char) (d : Option PrintfDirective) (st : PrintfState) (ap : List V)
      (h : List ScmObj),
      (vprintf_run pops heap fuel sharedp f d st).2 = .incomplete →
      (vprintf_pass1 vops f d.isSome ap h).2 ≠ .done := by
  intro f
  induction f with
  | nil =>
    intro d st ap h hr
    cases d with
    | none => simp [vprintf_run] at hr
    | some dd => simp [vprintf_pass1]
  | cons c f ih =>
    intro d st ap h hr
    cases d with
    | none =>
      simp only [vprintf_run] at hr
      simp only [Option.isSome_none, vprintf_pass1]
      split at hr
      · rename_i hc
        rw [if_pos hc]
        exact ih none _ ap h hr
      · rename_i hc
        rw [if_neg hc]
        exact ih (some _) _ ap h hr
    | some dd =>
      obtain ⟨s1, s2, s3⟩ := vprintf_pass1_switch_shape vops c
      obtain ⟨t1, t2, t3⟩ := vprintf_switch_shape pops heap fuel sharedp c dd st
      simp only [vprintf_run] at hr
      simp only [Option.isSome_some, vprintf_pass1]
      by_cases ht : vprintf_takes_arg c = true
      · obtain ⟨make, hmk⟩ := s1 ht
        rw [hmk]
        rcases t1 ht with ⟨_, e⟩ | ⟨_, _, st2, _, _, e | ⟨o, e, ho, _⟩⟩
        · rw [e] at hr; simp at hr
        · rw [e] at hr
          cases ap with
          | nil => simp [vprintf_pass1_arg]
          | cons v ap2 =>
            simp only [vprintf_pass1_arg]
            exact ih none st2 ap2 _ hr
        · rw [e] at hr; exact absurd hr ho
      · have ht2 : vprintf_takes_arg c = false := by simpa using ht
        by_cases hpc : c = '%'
        · obtain ⟨st2, e, _⟩ := t2 hpc
          rw [s2 hpc]
          rw [e] at hr
          exact ih none st2 ap h hr
        · obtain ⟨d2, st2, e, _⟩ := t3 ht2 hpc
          rw [s3 ht2 hpc]
          rw [e] at hr
          exact ih (some d2) st2 ap h hr

/-- C40.  For every format string and every `va_list`: when the first pass
of `Scm_Vprintf` raises the error of the incomplete directive, `vprintf_proc`
on the same format does not return, whatever its arguments; when
`vprintf_proc` raises it, the first pass does not get through the format.
When the first pass gets through the format with the list `h`, then
`vprintf_proc` on `h` does not raise the error, and when it returns no
argument is left over; and in every configuration that its run reaches, the
arguments that are left are exactly the list that the first pass makes for
the rest of the format, the rest of the run is the run from there, and at a
conversion character at which `vprintf_proc` takes an argument the list is
not empty, so that `SCM_ASSERT(SCM_PAIRP(args))` holds. -/
theorem vprintf_passes_agree {V : Type} (pops : PrintfOps) (vops : VaOps V) (heap : Heap)
    (fuel : Nat) (out : ScmPort) (fmt : List Char) (ap : List V) (sharedp : Bool) :
    ((vprintf_pass1 vops fmt false ap []).2 = .incomplete →
      ∀ args, (vprintf_proc pops heap fuel out fmt args sharedp).2 ≠ .done) ∧
    (∀ args, (vprintf_proc pops heap fuel out fmt args sharedp).2 = .incomplete →
      (vprintf_pass1 vops fmt false ap []).2 ≠ .done) ∧
    (∀ h ap2, vprintf_pass1 vops fmt false ap [] = ((h, ap2), .done) →
      (vprintf_proc pops heap fuel out fmt h sharedp).2 ≠ .incomplete ∧
      ((vprintf_proc pops heap fuel out fmt h sharedp).2 = .done →
        (vprintf_proc pops heap fuel out fmt h sharedp).1.args = []) ∧
      ∀ k f d st,
        vprintf_after pops heap fuel sharedp k fmt none { out := out, args := h, longp := 0 }
          = some (f, d, st) →
        (∃ ap3 ap4, vprintf_pass1 vops f d.isSome ap3 [] = ((st.args, ap4), .done)) ∧
        vprintf_proc pops heap fuel out fmt h sharedp
          = vprintf_run pops heap fuel sharedp f d st ∧
        (∀ c rest dd, f = c :: rest → d = some dd → vprintf_takes_arg c = true →
          st.args ≠ [] ∧ vprintf_pop st ≠ none)) := by
  refine ⟨?_, ?_, ?_⟩
  · intro hp args
    exact pass1_incomplete_run pops vops heap fuel sharedp fmt none _ ap [] hp
  · intro args hr
    exact run_incomplete_pass1 pops vops heap fuel sharedp fmt none _ ap [] hr
  · intro h ap2 hp
    have hm : Matched vops fmt none { out := out, args := h, longp := 0 } := ⟨ap, ap2, hp⟩
    have hrun := matched_run pops vops heap fuel sharedp fmt none _ hm
    refine ⟨hrun.1, hrun.2, ?_⟩
    intro k f d st hk
    obtain ⟨hm2, hr2⟩ := matched_after pops vops heap fuel sharedp k fmt none _ f d st hm hk
    refine ⟨hm2, hr2, ?_⟩
    intro c rest dd hf hd ht
    subst hf
    subst hd
    have hne := (matched_step pops vops heap fuel sharedp c rest dd st hm2).1 ht
    refine ⟨hne, ?_⟩
    unfold vprintf_pop
    cases ha : st.args with
    | nil => exact absurd ha hne
    | cons v more => simp

/-- Instance of C40: the format `a%d%%%S` with two slots gives the list of
two arguments, which `vprintf_proc` uses up; `a%d%` is incomplete for both
passes. -/
theorem vprintf_passes_agree_witness :
    vprintf_pass1 objVaOps "a%d%%%S".toList false [.int 1, .int 2] []
      = (([.int 1, .int 2], []), .done) ∧
    (vprintf_proc fixnumPrintfOps (fun _ => none) 5 ⟨[], none⟩ "a%d%%%S".toList
      [.int 1, .int 2] false).2 = .done ∧
    (vprintf_proc fixnumPrintfOps (fun _ => none) 5 ⟨[], none⟩ "a%d%%%S".toList
      [.int 1, .int 2] false).1.args = [] ∧
    render (vprintf_proc fixnumPrintfOps (fun _ => none) 5 ⟨[], none⟩ "a%d%%%S".toList
      [.int 1, .int 2] false).1.out.out = "a1%2".toList ∧
    (vprintf_pass1 objVaOps "a%d%".toList false [.int 1] []).2 = .incomplete ∧
    (vprintf_proc fixnumPrintfOps (fun _ => none) 5 ⟨[], none⟩ "a%d%".toList
      [.int 1] false).2 = .incomplete ∧
    (Scm_Vprintf fixnumPrintfOps objVaOps (fun _ => none) 5 ⟨[], none⟩ "a%d%%%S".toList
      [.int 1, .int 2] false).map (fun r => (render r.1.out.out, r.2))
      = some ("a1%2".toList, .done) ∧
    (Scm_Vprintf fixnumPrintfOps objVaOps (fun _ => none) 5 ⟨[], none⟩ "a%d%".toList
      [.int 1] false).map (fun r => r.2) = some .incomplete :=
  ⟨by decide, by decide,
    ((vprintf_passes_agree fixnumPrintfOps objVaOps (fun _ => none) 5 ⟨[], none⟩
      "a%d%%%S".toList [.int 1, .int 2] false).2.2 [.int 1, .int 2] [] (by decide)).2.1
      (by decide),
    by decide, by decide, by decide, by decide, by decide⟩

/-! ## Pass 1 counts the references -/

theorem entered_ptr (heap : Heap) (x : ScmObj) (h : Entered heap x) :
    ∃ a o, x = .ptr a ∧ heap a = some o ∧ SCM_NUMBERP heap x = false := by
  obtain ⟨hl, hd⟩ := h
  cases x with
  | ptr a =>
    cases ho : heap a with
    | none => simp [deref, ho] at hd
    | some o =>
      refine ⟨a, o, rfl, ho, ?_⟩
      simp only [walk_leaf, Bool.or_eq_false_iff] at hl
      exact hl.2
  | _ => simp [deref] at hd

theorem entered_not_leaf (heap : Heap) (x : ScmObj) (h : Entered heap x) :
    ¬ walk_leaf heap x = true := by
  rw [h.1]; decide

theorem children_entered (heap : Heap) (p c : ScmObj) (h : c ∈ walk_children heap p) :
    Entered heap p := by
  unfold walk_children at h
  cases p with
  | ptr a =>
    cases ho : heap a with
    | none => simp [deref, ho] at h
    | some o =>
      cases o with
      | pair x y => exact ⟨by simp [walk_leaf, SCM_PTRP, SCM_SYMBOLP, SCM_KEYWORDP, SCM_NUMBERP, deref, ho], by simp [deref, ho]⟩
      | vector es => exact ⟨by simp [walk_leaf, SCM_PTRP, SCM_SYMBOLP, SCM_KEYWORDP, SCM_NUMBERP, deref, ho], by simp [deref, ho]⟩
      | string cs => simp [deref, ho] at h
      | number t => simp [deref, ho] at h
  | _ => simp [deref] at h

theorem reach_entered (heap : Heap) (s p : ScmObj)
    (h : Relation.ReflTransGen (WalkEdge heap) s p) (hp : Entered heap p) : Entered heap s := by
  rcases Relation.ReflTransGen.cases_head h with rfl | ⟨c, hc, _⟩
  · exact hp
  · exact children_entered heap s c hc.1

theorem walk_level_put_false (ht : ScmHashTable) (obj x : ScmObj) (h : ht obj = none) :
    walk_level (Scm_HashTablePut ht obj SCM_FALSE) x = walk_level ht x + [obj].count x := by
  unfold walk_level Scm_HashTablePut
  by_cases hx : x = obj
  · subst hx
    simp [h]
  · have : ¬ obj = x := fun e => hx e.symm
    simp [hx, List.count_cons, this]

theorem walk_level_put_true (ht : ScmHashTable) (obj x : ScmObj) (h : ht obj ≠ none) :
    walk_level (Scm_HashTablePut ht obj SCM_TRUE) x
      = min 2 (walk_level ht x + [obj].count x) := by
  unfold walk_level Scm_HashTablePut
  by_cases hx : x = obj
  · subst hx
    cases hv : ht x with
    | none => exact absurd hv h
    | some v =>
      have : SCM_TRUE ≠ SCM_FALSE := by decide
      simp only [if_true, this, if_false, List.count_cons, List.count_nil, beq_self_eq_true]
      split <;> simp
  · have : ¬ obj = x := fun e => hx e.symm
    simp only [hx, if_false, List.count_cons, List.count_nil, beq_iff_eq, this, add_zero]
    cases ht x with
    | none => simp
    | some v => simp; split <;> simp

theorem walk_level_le (ht : ScmHashTable) (x : ScmObj) : walk_level ht x ≤ 2 := by
  unfold walk_level
  split
  · omega
  · split <;> omega

theorem walk_level_zero (ht : ScmHashTable) (x : ScmObj) : walk_level ht x = 0 ↔ ht x = none := by
  unfold walk_level
  cases ht x with
  | none => simp
  | some v => simp; split <;> simp

/-! ### The measure -/

theorem unvisited_mono (dom : List Nat) (ht ht2 : ScmHashTable)
    (h : ∀ x, ht x ≠ none → ht2 x ≠ none) : unvisited dom ht2 ≤ unvisited dom ht := by
  unfold unvisited
  rw [← List.countP_eq_length_filter, ← List.countP_eq_length_filter]
  apply List.countP_mono_left
  intro a _ ha
  simp only [decide_eq_true_eq] at ha ⊢
  by_contra hc
  exact h _ hc ha

theorem unvisited_put (dom : List Nat) (ht : ScmHashTable) (a : Nat) (v : ScmObj)
    (ha : a ∈ dom) (h : ht (.ptr a) = none) :
    unvisited dom (Scm_HashTablePut ht (.ptr a) v) < unvisited dom ht := by
  unfold unvisited
  rw [← List.countP_eq_length_filter, ← List.countP_eq_length_filter]
  induction dom with
  | nil => cases ha
  | cons b dom ih =>
    rw [List.countP_cons, List.countP_cons]
    by_cases hb : b = a
    · subst hb
      have h2 : Scm_HashTablePut ht (.ptr b) v (.ptr b) ≠ none := by simp [Scm_HashTablePut]
      have hm : List.countP (fun a => decide (Scm_HashTablePut ht (.ptr b) v (.ptr a) = none)) dom
          ≤ List.countP (fun a => decide (ht (.ptr a) = none)) dom := by
        apply List.countP_mono_left
        intro x _ hx
        simp only [decide_eq_true_eq] at hx ⊢
        unfold Scm_HashTablePut at hx
        split at hx
        · cases hx
        · exact hx
      simp only [h, h2, decide_True, decide_False, if_true]
      simp only [Bool.false_eq_true, if_false]
      omega
    · have ha2 : a ∈ dom := by
        rcases List.mem_cons.1 ha with e | e
        · exact absurd e.symm hb
        · exact e
      have e : Scm_HashTablePut ht (.ptr a) v (.ptr b) = ht (.ptr b) := by
        simp [Scm_HashTablePut, hb]
      rw [e]
      have := ih ha2
      omega

/-! ### Walks and their effect on the table -/

theorem walkPost_nil (heap : Heap) (ht : ScmHashTable) :
    WalkPost heap [] ht (ht, .done) := by
  refine ⟨rfl, [], List.nodup_nil, ?_, ?_, ?_, ?_⟩
  · intro p hp; cases hp
  · intro x; simp
  · intro s hs; cases hs
  · intro x _
    have := walk_level_le ht x
    simp only [List.count_nil, List.map_nil, List.sum_nil, add_zero]
    omega

theorem walkPost_leaf (heap : Heap) (ht : ScmHashTable) (obj : ScmObj)
    (h : walk_leaf heap obj = true) : WalkPost heap [obj] ht (ht, .done) := by
  refine ⟨rfl, [], List.nodup_nil, ?_, ?_, ?_, ?_⟩
  · intro p hp; cases hp
  · intro x; simp
  · intro s hs he
    simp only [List.mem_singleton] at hs
    subst hs
    exact absurd h (entered_not_leaf heap s he)
  · intro x hx
    have hne : ¬ obj = x := by
      intro e; subst e
      exact entered_not_leaf heap obj hx h
    have := walk_level_le ht x
    simp only [List.count_cons, List.count_nil, beq_iff_eq, hne, if_false, List.map_nil,
      List.sum_nil, add_zero]
    omega

theorem walkPost_again (heap : Heap) (ht : ScmHashTable) (obj : ScmObj)
    (hv : ht obj ≠ none) : WalkPost heap [obj] ht (Scm_HashTablePut ht obj SCM_TRUE, .done) := by
  refine ⟨rfl, [], List.nodup_nil, ?_, ?_, ?_, ?_⟩
  · intro p hp; cases hp
  · intro x
    simp only [List.not_mem_nil, or_false]
    unfold Scm_HashTablePut
    by_cases hx : x = obj
    · subst hx; simp [hv]
    · simp [hx]
  · intro s hs _
    simp only [List.mem_singleton] at hs
    subst hs
    simp [Scm_HashTablePut]
  · intro x _
    simp only [List.map_nil, List.sum_nil, add_zero]
    exact walk_level_put_true ht obj x hv

theorem walkPost_visited_mono (heap : Heap) (starts : List ScmObj) (ht : ScmHashTable)
    (r : ScmHashTable × Outcome) (h : WalkPost heap starts ht r) :
    ∀ x, ht x ≠ none → r.1 x ≠ none := by
  obtain ⟨_, new, _, _, hv, _, _⟩ := h
  intro x hx
  exact (hv x).2 (Or.inl hx)

theorem walkPost_seq (heap : Heap) (s1 s2 : List ScmObj) (ht : ScmHashTable)
    (r1 r2 : ScmHashTable × Outcome) (h1 : WalkPost heap s1 ht r1)
    (h2 : WalkPost heap s2 r1.1 r2) : WalkPost heap (s1 ++ s2) ht r2 := by
  have hmono := walkPost_visited_mono heap s1 ht r1 h1
  have hmono2 := walkPost_visited_mono heap s2 r1.1 r2 h2
  obtain ⟨_, new1, hn1, hp1, hv1, hs1, hl1⟩ := h1
  obtain ⟨hd2, new2, hn2, hp2, hv2, hs2, hl2⟩ := h2
  refine ⟨hd2, new1 ++ new2, ?_, ?_, ?_, ?_, ?_⟩
  · refine List.Nodup.append hn1 hn2 ?_
    intro p hp1m hp2m
    exact (hv1 p).2 (Or.inr hp1m) (hp2 p hp2m).1
  · intro p hp
    rcases List.mem_append.1 hp with hp | hp
    · obtain ⟨a, b, s, hs, hr⟩ := hp1 p hp
      exact ⟨a, b, s, List.mem_append_left _ hs, hr⟩
    · obtain ⟨a, b, s, hs, hr⟩ := hp2 p hp
      refine ⟨?_, b, s, List.mem_append_right _ hs, hr⟩
      by_contra hc
      exact hmono p hc a
  · intro x
    rw [hv2 x, hv1 x, List.mem_append]
    tauto
  · intro s hs he
    rcases List.mem_append.1 hs with hs | hs
    · exact hmono2 s (hs1 s hs he)
    · exact hs2 s hs he
  · intro x hx
    rw [hl2 x hx, hl1 x hx, List.count_append, List.map_append, List.sum_append]
    omega

theorem walkPost_enter (heap : Heap) (ht : ScmHashTable) (obj : ScmObj)
    (r : ScmHashTable × Outcome) (he : Entered heap obj) (hn : ht obj = none)
    (h : WalkPost heap (walk_children heap obj) (Scm_HashTablePut ht obj SCM_FALSE) r) :
    WalkPost heap [obj] ht r := by
  have hmono := walkPost_visited_mono heap _ _ r h
  obtain ⟨hd, new, hnd, hp, hv, hs, hl⟩ := h
  have hput : ∀ x, x ≠ obj → Scm_HashTablePut ht obj SCM_FALSE x = ht x := by
    intro x hx
    simp [Scm_HashTablePut, hx]
  have hobj : Scm_HashTablePut ht obj SCM_FALSE obj ≠ none := by simp [Scm_HashTablePut]
  have hnotin : obj ∉ new := fun hm => hobj (hp obj hm).1
  refine ⟨hd, obj :: new, List.nodup_cons.2 ⟨hnotin, hnd⟩, ?_, ?_, ?_, ?_⟩
  · intro p hpm
    rcases List.mem_cons.1 hpm with rfl | hpm
    · exact ⟨hn, he, p, List.mem_singleton.2 rfl, Relation.ReflTransGen.refl⟩
    · obtain ⟨a, b, s, hsm, hr⟩ := hp p hpm
      have hpo : p ≠ obj := fun e => hnotin (e ▸ hpm)
      refine ⟨by rw [← hput p hpo]; exact a, b, obj, List.mem_singleton.2 rfl, ?_⟩
      exact Relation.ReflTransGen.head ⟨hsm, reach_entered heap s p hr b⟩ hr
  · intro x
    rw [hv x, List.mem_cons]
    by_cases hx : x = obj
    · subst hx; simp [hobj]
    · rw [hput x hx]; simp [hx]
  · intro s hsm _
    simp only [List.mem_singleton] at hsm
    subst hsm
    exact hmono s hobj
  · intro x hx
    rw [hl x hx, walk_level_put_false ht obj x hn, List.map_cons, List.sum_cons]
    omega

theorem andThen_of_done {σ : Type} (r : σ × Outcome) (k : σ → σ × Outcome) (h : r.2 = .done) :
    andThen r k = k r.1 := by
  obtain ⟨s, o⟩ := r
  cases h
  rfl

theorem write_walk_elts_post (heap : Heap) (dom : List Nat) (n : Nat)
    (rec : ScmObj → ScmHashTable → ScmHashTable × Outcome)
    (hrec : ∀ obj ht, (walk_leaf heap obj = true ∨ Entered heap obj) → unvisited dom ht < n →
      WalkPost heap [obj] ht (rec obj ht)) :
    ∀ (es : List ScmObj) (ht : ScmHashTable),
      (∀ e ∈ es, walk_leaf heap e = true ∨ Entered heap e) → unvisited dom ht < n →
      WalkPost heap es ht (write_walk_elts rec es ht) := by
  intro es
  induction es with
  | nil => intro ht _ _; exact walkPost_nil heap ht
  | cons e es ih =>
    intro ht hes hfuel
    have h1 : WalkPost heap [e] ht (if SCM_PTRP e then rec e ht else (ht, Outcome.done)) := by
      split
      · exact hrec e ht (hes e (List.mem_cons_self _ _)) hfuel
      · rename_i hp
        exact walkPost_leaf heap ht e (by simp [walk_leaf, hp])
    unfold write_walk_elts
    rw [andThen_of_done _ _ h1.1]
    have h2 := ih _ (fun x hx => hes x (List.mem_cons_of_mem _ hx))
      (lt_of_le_of_lt (unvisited_mono dom ht _ (walkPost_visited_mono heap _ _ _ h1)) hfuel)
    exact walkPost_seq heap [e] es ht _ _ h1 h2

/-- Pass 1 from an object of a finite graph, with more fuel than there are
addresses without entry: it returns, and the table counts the references. -/
theorem write_walk_post (heap : Heap) (ctx : ScmWriteContext) (dom : List Nat)
    (hG : WalkGraph heap dom) :
    ∀ (fuel : Nat) (obj : ScmObj) (ht : ScmHashTable),
      (walk_leaf heap obj = true ∨ Entered heap obj) → unvisited dom ht < fuel →
      WalkPost heap [obj] ht (write_walk heap ctx fuel obj ht) := by
  intro fuel
  induction fuel with
  | zero => intro obj ht _ h; omega
  | succ n ih =>
    intro obj ht hobj hfuel
    by_cases hleaf : walk_leaf heap obj = true
    · have e : write_walk heap ctx (n + 1) obj ht = (ht, .done) := by
        unfold write_walk
        unfold walk_leaf at hleaf
        rw [if_pos hleaf]
      rw [e]
      exact walkPost_leaf heap ht obj hleaf
    · have he : Entered heap obj := by
        rcases hobj with h | h
        · exact absurd h hleaf
        · exact h
      obtain ⟨a, o, rfl, hho, hnum⟩ := entered_ptr heap obj he
      have hlf : ¬ ((!SCM_PTRP (.ptr a) || SCM_SYMBOLP (.ptr a) || SCM_KEYWORDP (.ptr a)
          || SCM_NUMBERP heap (.ptr a)) = true) := hleaf
      have hch : ∀ c ∈ walk_children heap (.ptr a), walk_leaf heap c = true ∨ Entered heap c :=
        hG.2 (.ptr a)
      cases hv : ht (.ptr a) with
      | some v =>
        have e : write_walk heap ctx (n + 1) (.ptr a) ht
            = (Scm_HashTablePut ht (.ptr a) SCM_TRUE, .done) := by
          unfold write_walk
          rw [if_neg hlf]
          simp only [Scm_HashTableGet, hv]
          split
          · rfl
          · split <;> rfl
        rw [e]
        exact walkPost_again heap ht (.ptr a) (by rw [hv]; simp)
      | none =>
        have hlt : unvisited dom (Scm_HashTablePut ht (.ptr a) SCM_FALSE) < n := by
          have := unvisited_put dom ht a SCM_FALSE (hG.1 a o hho) hv
          omega
        apply walkPost_enter heap ht (.ptr a) _ he hv
        cases o with
        | number t => simp [SCM_NUMBERP, deref, hho] at hnum
        | pair car cdr =>
          have hpair : SCM_PAIRP heap (.ptr a) = true := by simp [SCM_PAIRP, deref, hho]
          have hc : walk_children heap (.ptr a) = [car] ++ [cdr] := by
            simp [walk_children, deref, hho]
          have hcar : SCM_CAR heap (.ptr a) = car := by simp [SCM_CAR, deref, hho]
          have hcdr : SCM_CDR heap (.ptr a) = cdr := by simp [SCM_CDR, deref, hho]
          have e : write_walk heap ctx (n + 1) (.ptr a) ht
              = andThen (if SCM_PTRP car then
                  write_walk heap ctx n car (Scm_HashTablePut ht (.ptr a) SCM_FALSE)
                  else (Scm_HashTablePut ht (.ptr a) SCM_FALSE, .done))
                (fun ht => write_walk heap ctx n cdr ht) := by
            rw [write_walk]
            rw [if_neg hlf, if_pos hpair]
            simp only [Scm_HashTableGet, hv, hcar, hcdr]
          rw [e, hc]
          have h1 : WalkPost heap [car] (Scm_HashTablePut ht (.ptr a) SCM_FALSE)
              (if SCM_PTRP car then
                write_walk heap ctx n car (Scm_HashTablePut ht (.ptr a) SCM_FALSE)
                else (Scm_HashTablePut ht (.ptr a) SCM_FALSE, .done)) := by
            split
            · exact ih car _ (hch car (by rw [hc]; simp)) hlt
            · rename_i hp
              exact walkPost_leaf heap _ car (by simp [walk_leaf, hp])
          rw [andThen_of_done _ _ h1.1]
          have h2 := ih cdr _ (hch cdr (by rw [hc]; simp))
            (lt_of_le_of_lt (unvisited_mono dom _ _ (walkPost_visited_mono heap _ _ _ h1)) hlt)
          exact walkPost_seq heap [car] [cdr] _ _ _ h1 h2
        | string cs =>
          have hpair : SCM_PAIRP heap (.ptr a) = false := by simp [SCM_PAIRP, deref, hho]
          have hc : walk_children heap (.ptr a) = [] := by
            simp [walk_children, deref, hho]
          have e : write_walk heap ctx (n + 1) (.ptr a) ht
              = (Scm_HashTablePut ht (.ptr a) SCM_FALSE, .done) := by
            rw [write_walk]
            rw [if_neg hlf, if_neg (by simp [hpair])]
            simp only [deref, hho, Scm_HashTableGet, hv]
            cases cs with
            | nil => simp [write_general, class_print, hho]
            | cons c cs => rfl
          rw [e, hc]
          exact walkPost_nil heap _
        | vector es =>
          have hpair : SCM_PAIRP heap (.ptr a) = false := by simp [SCM_PAIRP, deref, hho]
          have hc : walk_children heap (.ptr a) = es := by
            simp [walk_children, deref, hho]
          cases es with
          | nil =>
            have e : write_walk heap ctx (n + 1) (.ptr a) ht
                = (Scm_HashTablePut ht (.ptr a) SCM_FALSE, .done) := by
              rw [write_walk]
              rw [if_neg hlf, if_neg (by simp [hpair])]
              simp [deref, hho, Scm_HashTableGet, hv, write_general, class_print]
            rw [e, hc]
            exact walkPost_nil heap _
          | cons x xs =>
            have e : write_walk heap ctx (n + 1) (.ptr a) ht
                = write_walk_elts (write_walk heap ctx n) (x :: xs)
                    (Scm_HashTablePut ht (.ptr a) SCM_FALSE) := by
              rw [write_walk]
              rw [if_neg hlf, if_neg (by simp [hpair])]
              simp only [deref, hho, Scm_HashTableGet, hv]
            rw [e, hc]
            exact write_walk_elts_post heap dom n _ (fun obj ht h1 h2 => ih obj ht h1 h2)
              (x :: xs) _ (by rw [← hc]; exact hch) hlt

theorem mem_le_sum_map (f : ScmObj → Nat) (l : List ScmObj) (p : ScmObj) (h : p ∈ l) :
    f p ≤ (l.map f).sum := by
  induction l with
  | nil => cases h
  | cons q l ih =>
    rw [List.map_cons, List.sum_cons]
    rcases List.mem_cons.1 h with rfl | h
    · omega
    · have := ih h
      omega

theorem unvisited_empty (dom : List Nat) : unvisited dom (fun _ => none) = dom.length := by
  simp [unvisited]

theorem walk_level_empty (x : ScmObj) : walk_level (fun _ => none) x = 0 := rfl

/-- The table that pass 1 leaves for a finite graph, started with the empty
table and with more fuel than the graph has addresses. -/
theorem write_walk_counts (heap : Heap) (ctx : ScmWriteContext) (dom : List Nat)
    (root : ScmObj) (fuel : Nat) (hG : WalkGraph heap dom)
    (hroot : walk_leaf heap root = true ∨ Entered heap root) (hfuel : dom.length < fuel) :
    ∃ ht R, write_walk heap ctx fuel root (fun _ => none) = (ht, .done) ∧ R.Nodup ∧
      (∀ x, x ∈ R ↔ Reaches heap root x) ∧
      (∀ x, ht x ≠ none ↔ x ∈ R) ∧
      ∀ x ∈ R, walk_level ht x = min 2 (references heap root R x) := by
  have hp := write_walk_post heap ctx dom hG fuel root (fun _ => none) hroot
    (by rw [unvisited_empty]; exact hfuel)
  obtain ⟨hdone, new, hnd, hpn, hv, hs, hl⟩ := hp
  refine ⟨(write_walk heap ctx fuel root (fun _ => none)).1, new, ?_, hnd, ?_, ?_, ?_⟩
  · exact Prod.ext rfl hdone
  · intro x
    constructor
    · intro hx
      obtain ⟨_, he, s, hsm, hr⟩ := hpn x hx
      simp only [List.mem_singleton] at hsm
      subst hsm
      exact ⟨reach_entered heap s x hr he, hr⟩
    · rintro ⟨her, hr⟩
      induction hr with
      | refl =>
        rcases (hv root).1 (hs root (List.mem_singleton.2 rfl) her) with h | h
        · exact absurd rfl h
        · exact h
      | tail hab hbc ih =>
        rename_i b c
        have hlc := hl c hbc.2
        have h1 : 1 ≤ (walk_children heap b).count c := List.count_pos_iff.2 hbc.1
        have h2 := mem_le_sum_map (fun p => (walk_children heap p).count c) new b ih
        simp only at h2
        have h3 : walk_level (write_walk heap ctx fuel root (fun _ => none)).1 c ≠ 0 := by
          rw [hlc]; omega
        rw [Ne, walk_level_zero] at h3
        rcases (hv c).1 h3 with h | h
        · exact absurd rfl h
        · exact h
  · intro x
    rw [hv x]
    simp
  · intro x hx
    rw [hl x (hpn x hx).2.1, walk_level_empty, zero_add]
    rfl

/-- C31.  For every finite graph (the heap holds objects at the addresses of
`dom` only, and every reference of an object is to a heap object or to an
object at which `write_walk` returns at once) and every root, `write_walk`
with more fuel than `dom` has addresses returns.  The keys of the table that
it leaves are the objects reached from the root; each of them has at least
one reference, where the references are that of the root and those held by
the objects reached, each counted once; it has the entry `SCM_FALSE` when it
has exactly one reference and the entry `SCM_TRUE` when it has two or more.
So the references of every object reached were followed exactly once. -/
theorem write_walk_reference_count (heap : Heap) (ctx : ScmWriteContext) (dom : List Nat)
    (root : ScmObj) (fuel : Nat) (hG : WalkGraph heap dom)
    (hroot : walk_leaf heap root = true ∨ Entered heap root) (hfuel : dom.length < fuel) :
    ∃ ht R, write_walk heap ctx fuel root (fun _ => none) = (ht, .done) ∧ R.Nodup ∧
      (∀ x, x ∈ R ↔ Reaches heap root x) ∧
      (∀ x, ht x ≠ none ↔ x ∈ R) ∧
      ∀ x ∈ R, 1 ≤ references heap root R x ∧
        (references heap root R x = 1 ↔ ht x = some SCM_FALSE) ∧
        (2 ≤ references heap root R x ↔ ht x = some SCM_TRUE) := by
  obtain ⟨ht, R, hw, hnd, hR, hv, hl⟩ :=
    write_walk_counts heap ctx dom root fuel hG hroot hfuel
  refine ⟨ht, R, hw, hnd, hR, hv, ?_⟩
  intro x hx
  have hlx := hl x hx
  have hne : ht x ≠ none := (hv x).2 hx
  have htab : WalkTable ht := by
    have := write_walk_table heap ctx fuel root
    rw [hw] at this
    exact this
  cases hvx : ht x with
  | none => exact absurd hvx hne
  | some v =>
    have hft : SCM_TRUE ≠ SCM_FALSE := by decide
    rcases htab x v hvx with rfl | rfl
    · have h1 : walk_level ht x = 1 := by simp [walk_level, hvx]
      rw [h1] at hlx
      refine ⟨by omega, ?_, ?_⟩
      · constructor
        · intro _; rfl
        · intro _; omega
      · constructor
        · intro h; omega
        · intro h; exact absurd (Option.some.inj h).symm hft
    · have h2 : walk_level ht x = 2 := by simp [walk_level, hvx, hft]
      rw [h2] at hlx
      refine ⟨by omega, ?_, ?_⟩
      · constructor
        · intro h; omega
        · intro h; exact absurd (Option.some.inj h) hft
      · constructor
        · intro _; rfl
        · intro _; omega

theorem sharedListHeap_graph : WalkGraph sharedListHeap [0, 1, 2, 3] := by
  constructor
  · intro a o h
    rcases a with _ | _ | _ | _ | a
    · simp
    · simp
    · simp
    · simp
    · simp [sharedListHeap] at h
  · intro p c hc
    cases p with
    | ptr a =>
      rcases a with _ | _ | _ | _ | a
      · simp only [walk_children, deref, sharedListHeap, List.mem_cons, List.mem_singleton,
          List.not_mem_nil, or_false] at hc
        rcases hc with rfl | rfl
        · right; exact ⟨by decide, by decide⟩
        · right; exact ⟨by decide, by decide⟩
      · simp only [walk_children, deref, sharedListHeap, List.mem_cons, List.mem_singleton,
          List.not_mem_nil, or_false] at hc
        rcases hc with rfl | rfl
        · right; exact ⟨by decide, by decide⟩
        · left; decide
      · simp only [walk_children, deref, sharedListHeap, List.mem_cons, List.mem_singleton,
          List.not_mem_nil, or_false] at hc
        rcases hc with rfl | rfl
        · left; decide
        · right; exact ⟨by decide, by decide⟩
      · simp only [walk_children, deref, sharedListHeap, List.mem_cons, List.mem_singleton,
          List.not_mem_nil, or_false] at hc
        rcases hc with rfl | rfl
        · left; decide
        · left; decide
      · simp [walk_children, deref, sharedListHeap] at hc
    | _ => simp [walk_children, deref] at hc

/-- Instance of C31: the list `(s s)` with `s = (a b)`.  The first cell of
`s` has two references and is flagged, the root has one and is not. -/
theorem write_walk_reference_count_witness :
    WalkGraph sharedListHeap [0, 1, 2, 3] ∧
    (write_walk sharedListHeap ⟨SCM_WRITE_WRITE, 0, 0⟩ 5 (.ptr 0) (fun _ => none)).1 (.ptr 2)
      = some SCM_TRUE ∧
    (write_walk sharedListHeap ⟨SCM_WRITE_WRITE, 0, 0⟩ 5 (.ptr 0) (fun _ => none)).1 (.ptr 0)
      = some SCM_FALSE ∧
    ∃ ht R, write_walk sharedListHeap ⟨SCM_WRITE_WRITE, 0, 0⟩ 5 (.ptr 0) (fun _ => none)
        = (ht, .done) ∧ R.Nodup ∧
      (∀ x, x ∈ R ↔ Reaches sharedListHeap (.ptr 0) x) ∧
      (∀ x, ht x ≠ none ↔ x ∈ R) ∧
      ∀ x ∈ R, 1 ≤ references sharedListHeap (.ptr 0) R x ∧
        (references sharedListHeap (.ptr 0) R x = 1 ↔ ht x = some SCM_FALSE) ∧
        (2 ≤ references sharedListHeap (.ptr 0) R x ↔ ht x = some SCM_TRUE) :=
  ⟨sharedListHeap_graph, by decide, by decide,
    write_walk_reference_count sharedListHeap ⟨SCM_WRITE_WRITE, 0, 0⟩ [0, 1, 2, 3] (.ptr 0) 5
      sharedListHeap_graph (Or.inr ⟨by decide, by decide⟩) (by decide)⟩

/-! ## Pass 2 with a table in which nothing is flagged -/

theorem follows_done (d : Option (Nat × ScmHashTable)) (toks : List Tok) (oc : Outcome) :
    Follows d (fun p => ({ p with out := p.out ++ toks }, oc)) := by
  intro o
  exact ⟨rfl, rfl⟩

theorem follows_putc (d : Option (Nat × ScmHashTable)) (c : Char) :
    Follows d (fun p => (Scm_PutcUnsafe c p, Outcome.done)) :=
  follows_done d [Tok.text [c]] .done

theorem follows_andThen (d : Option (Nat × ScmHashTable))
    (f k : ScmPort → ScmPort × Outcome) (hf : Follows d f) (hk : Follows d k) :
    Follows d (fun p => andThen (f p) k) := by
  intro o
  obtain ⟨h1, h2⟩ := hf o
  simp only [h1]
  cases hr : f { out := o, data := none } with
  | mk p1 oc =>
    rw [hr] at h2
    simp only at h2
    obtain ⟨o1, d1⟩ := p1
    simp only at h2
    subst h2
    cases oc with
    | done =>
      simp only [andThen]
      exact hk o1
    | outOfFuel => exact ⟨rfl, rfl⟩
    | panic => exact ⟨rfl, rfl⟩
    | error => exact ⟨rfl, rfl⟩

theorem follows_after_putz (d : Option (Nat × ScmHashTable)) (s : List Char)
    (g : ScmPort → ScmPort × Outcome) (hg : Follows d g) :
    Follows d (fun p => g (Scm_PutzUnsafe s p)) := by
  intro o
  exact hg (o ++ [Tok.text s])

theorem follows_after_putc (d : Option (Nat × ScmHashTable)) (c : Char)
    (g : ScmPort → ScmPort × Outcome) (hg : Follows d g) :
    Follows d (fun p => g (Scm_PutcUnsafe c p)) := by
  intro o
  exact hg (o ++ [Tok.text [c]])

theorem follows_congr (d : Option (Nat × ScmHashTable)) (f g : ScmPort → ScmPort × Outcome)
    (h : ∀ p, p.data = d ∨ p.data = none → f p = g p) (hg : Follows d g) : Follows d f := by
  intro o
  rw [h _ (Or.inl rfl), h _ (Or.inr rfl)]
  exact hg o

theorem follows_general (d : Option (Nat × ScmHashTable)) (heap : Heap) (obj : ScmObj)
    (ctx : ScmWriteContext) : Follows d (fun p => write_general heap obj p ctx) := by
  obtain ⟨toks, oc, h⟩ := write_general_uniform heap obj ctx.mode
  intro o
  refine ⟨?_, ?_⟩ <;> simp [h ctx _ rfl]

theorem follows_immediate (d : Option (Nat × ScmHashTable)) (obj : ScmObj)
    (ctx : ScmWriteContext) : Follows d (fun p => write_immediate obj p ctx) := by
  obtain ⟨toks, oc, h⟩ := write_immediate_uniform obj ctx.mode
  intro o
  refine ⟨?_, ?_⟩ <;> simp [h ctx _ rfl]

theorem pair_tracked (heap : Heap) (obj : ScmObj) (h : SCM_PAIRP heap obj = true) :
    Tracked heap obj := by
  cases obj with
  | ptr a =>
    cases ho : heap a with
    | none => simp [SCM_PAIRP, deref, ho] at h
    | some o =>
      cases o with
      | pair x y => exact ⟨rfl, by simp [SCM_NUMBERP, deref, ho], by simp [deref, ho]⟩
      | _ => simp [SCM_PAIRP, deref, ho] at h
  | _ => simp [SCM_PAIRP, deref] at h

theorem shared_cdr_follows (d : Option (Nat × ScmHashTable)) (heap : Heap)
    (hd : ∀ x, Tracked heap x → Unflagged d x) (obj : ScmObj)
    (h : SCM_PAIRP heap obj = true) (p : ScmPort) (hp : p.data = d ∨ p.data = none) :
    shared_cdr obj p = false := by
  rcases hp with hp | hp
  · exact shared_cdr_unflagged obj p (by rw [hp]; exact hd obj (pair_tracked heap obj h))
  · exact shared_cdr_none obj p hp

theorem follows_list_loop (d : Option (Nat × ScmHashTable)) (heap : Heap)
    (hd : ∀ x, Tracked heap x → Unflagged d x)
    (rec : ScmObj → ScmPort → ScmPort × Outcome) (hrec : ∀ obj, Follows d (rec obj)) :
    ∀ (fuel : Nat) (obj : ScmObj), Follows d (write_list_loop heap rec fuel obj) := by
  intro fuel
  induction fuel with
  | zero =>
    intro obj o
    exact ⟨rfl, rfl⟩
  | succ n ih =>
    intro obj
    have hk : Follows d (fun port =>
        if SCM_NULLP (SCM_CDR heap obj) then (Scm_PutcUnsafe ')' port, Outcome.done)
        else if !SCM_PAIRP heap (SCM_CDR heap obj) then
          andThen (rec (SCM_CDR heap obj) (Scm_PutzUnsafe " . ".toList port)) fun port =>
            (Scm_PutcUnsafe ')' port, .done)
        else if shared_cdr (SCM_CDR heap obj) port then
          andThen (rec (SCM_CDR heap obj) (Scm_PutzUnsafe " . ".toList port)) fun port =>
            (Scm_PutcUnsafe ')' port, .done)
        else write_list_loop heap rec n (SCM_CDR heap obj) (Scm_PutcUnsafe ' ' port)) := by
      by_cases h1 : SCM_NULLP (SCM_CDR heap obj) = true
      · simp only [h1, if_true]
        exact follows_putc d ')'
      · by_cases h2 : SCM_PAIRP heap (SCM_CDR heap obj) = true
        · apply follows_congr d _
            (fun port => write_list_loop heap rec n (SCM_CDR heap obj) (Scm_PutcUnsafe ' ' port))
          · intro p hp
            simp only [h1, h2, if_false, Bool.not_true, Bool.false_eq_true,
              shared_cdr_follows d heap hd _ h2 p hp]
          · exact follows_after_putc d ' ' _ (ih _)
        · have h2b : SCM_PAIRP heap (SCM_CDR heap obj) = false := by simpa using h2
          simp only [h1, h2b, if_false, Bool.not_false, if_true]
          exact follows_andThen d _ _ (follows_after_putz d _ _ (hrec _)) (follows_putc d ')')
    have e : write_list_loop heap rec (n + 1) obj = fun port =>
        andThen (rec (SCM_CAR heap obj) port) (fun port =>
          if SCM_NULLP (SCM_CDR heap obj) then (Scm_PutcUnsafe ')' port, Outcome.done)
          else if !SCM_PAIRP heap (SCM_CDR heap obj) then
            andThen (rec (SCM_CDR heap obj) (Scm_PutzUnsafe " . ".toList port)) fun port =>
              (Scm_PutcUnsafe ')' port, .done)
          else if shared_cdr (SCM_CDR heap obj) port then
            andThen (rec (SCM_CDR heap obj) (Scm_PutzUnsafe " . ".toList port)) fun port =>
              (Scm_PutcUnsafe ')' port, .done)
          else write_list_loop heap rec n (SCM_CDR heap obj) (Scm_PutcUnsafe ' ' port)) := by
      funext port
      rw [write_list_loop]
    rw [e]
    exact follows_andThen d _ _ (hrec _) hk

theorem follows_vector_elts (d : Option (Nat × ScmHashTable))
    (rec : ScmObj → ScmPort → ScmPort × Outcome) (hrec : ∀ obj, Follows d (rec obj)) :
    ∀ es : List ScmObj, Follows d (write_vector_elts rec es) := by
  intro es
  induction es with
  | nil => intro o; exact ⟨rfl, rfl⟩
  | cons e es ih =>
    cases es with
    | nil =>
      have e1 : write_vector_elts rec [e] = fun port =>
          andThen (rec e port) (fun port => (Scm_PutcUnsafe ')' port, Outcome.done)) := by
        funext port; rw [write_vector_elts]
      rw [e1]
      exact follows_andThen d _ _ (hrec e) (follows_putc d ')')
    | cons e2 es =>
      have e1 : write_vector_elts rec (e :: e2 :: es) = fun port =>
          andThen (rec e port) (fun port =>
            write_vector_elts rec (e2 :: es) (Scm_PutcUnsafe ' ' port)) := by
        funext port; rw [write_vector_elts]
      rw [e1]
      exact follows_andThen d _ _ (hrec e) (follows_after_putc d ' ' _ ih)

theorem follows_aggregate (d : Option (Nat × ScmHashTable)) (heap : Heap)
    (hd : ∀ x, Tracked heap x → Unflagged d x) (ctx : ScmWriteContext)
    (rec : ScmObj → ScmPort → ScmPort × Outcome) (hrec : ∀ obj, Follows d (rec obj))
    (fuel : Nat) (obj : ScmObj) : Follows d (write_aggregate heap ctx rec fuel obj) := by
  unfold write_aggregate
  split
  · split
    · exact follows_after_putz d _ _ (hrec _)
    · exact follows_after_putc d _ _ (follows_list_loop d heap hd rec hrec _ _)
  · split
    · exact follows_after_putz d _ _ (follows_vector_elts d rec hrec _)
    · exact follows_general d heap obj ctx

/-- Pass 2 with a table in which no object that it looks up is flagged does
what pass 2 does without table. -/
theorem follows_write_ss_rec (d : Option (Nat × ScmHashTable)) (heap : Heap)
    (hd : ∀ x, Tracked heap x → Unflagged d x) (ctx : ScmWriteContext) :
    ∀ (fuel : Nat) (obj : ScmObj), Follows d (write_ss_rec heap ctx fuel obj) := by
  intro fuel
  induction fuel with
  | zero => intro obj o; exact ⟨rfl, rfl⟩
  | succ n ih =>
    intro obj o
    have key : ∀ g : ScmPort → ScmPort × Outcome, Follows d g →
        (∀ p : ScmPort, p.out = o → (p.data = d ∨ p.data = none) →
          write_ss_rec heap ctx (n + 1) obj p = g p) →
        write_ss_rec heap ctx (n + 1) obj { out := o, data := d }
          = ({ out := (write_ss_rec heap ctx (n + 1) obj { out := o, data := none }).1.out,
               data := d },
              (write_ss_rec heap ctx (n + 1) obj { out := o, data := none }).2) ∧
        (write_ss_rec heap ctx (n + 1) obj { out := o, data := none }).1.data = none := by
      intro g hg he
      rw [he _ rfl (Or.inl rfl), he _ rfl (Or.inr rfl)]
      exact hg o
    by_cases hcut : ctx.flags &&& WRITE_LIMITED ≠ 0 ∧ outlen { out := o, data := d } ≥ ctx.limit
    · apply key (fun p => (p, Outcome.done)) (fun o2 => ⟨rfl, rfl⟩)
      intro p hp _
      have hc2 : ctx.flags &&& WRITE_LIMITED ≠ 0 ∧ outlen p ≥ ctx.limit := by
        unfold outlen at hcut ⊢
        rw [hp]
        exact hcut
      rw [write_ss_rec, if_pos hc2]
    · have hcut2 : ∀ p : ScmPort, p.out = o →
          ¬ (ctx.flags &&& WRITE_LIMITED ≠ 0 ∧ outlen p ≥ ctx.limit) := by
        intro p hp
        unfold outlen at hcut ⊢
        rw [hp]
        exact hcut
      by_cases h1 : SCM_PTRP obj = true
      · by_cases h2 : SCM_NUMBERP heap obj = true
        · apply key (fun p => write_general heap obj p ctx) (follows_general d heap obj ctx)
          intro p hp _
          rw [write_ss_rec, if_neg (hcut2 p hp), if_neg (by simp [h1]), if_pos h2]
        · by_cases h3 : deref heap obj = some (.string []) ∨ deref heap obj = some (.vector [])
          · apply key (fun p => write_general heap obj p ctx) (follows_general d heap obj ctx)
            intro p hp _
            rw [write_ss_rec, if_neg (hcut2 p hp), if_neg (by simp [h1]), if_neg h2, if_pos h3]
          · have ht : Tracked heap obj := ⟨h1, by simpa using h2, h3⟩
            apply key (write_aggregate heap ctx (write_ss_rec heap ctx n) n obj)
              (follows_aggregate d heap hd ctx _ (fun x => ih x) n obj)
            intro p hp hdp
            have hl : write_label obj p = .goOn p := by
              rcases hdp with e | e
              · exact write_label_unflagged obj p (by rw [e]; exact hd obj ht)
              · exact write_label_none obj p e
            rw [write_ss_rec, if_neg (hcut2 p hp), if_neg (by simp [h1]), if_neg h2, if_neg h3, hl]
      · apply key (fun p => write_immediate obj p ctx) (follows_immediate d obj ctx)
        intro p hp _
        rw [write_ss_rec, if_neg (hcut2 p hp), if_pos (by simpa using h1)]

/-- On a port without table pass 2 adds text tokens only. -/
theorem write_ss_rec_text_only (heap : Heap) (ctx : ScmWriteContext) (fuel : Nat)
    (obj : ScmObj) (p : ScmPort) (h : p.data = none) :
    ∃ toks, (write_ss_rec heap ctx fuel obj p).1.out = p.out ++ toks ∧
      ∀ t ∈ toks, ∃ s, t = Tok.text s := by
  have := write_ss_rec_preserves
    (fun q => q.data = none ∧ ∃ toks, q.out = p.out ++ toks ∧ ∀ t ∈ toks, ∃ s, t = Tok.text s)
    heap ctx
    (by
      intro q s ⟨hq, toks, ho, ht⟩
      refine ⟨hq, toks ++ [Tok.text s], by simp [Scm_PutzUnsafe, ho], ?_⟩
      intro t htm
      rcases List.mem_append.1 htm with htm | htm
      · exact ht t htm
      · exact ⟨s, by simpa using htm⟩)
    (by
      intro o q _ ⟨hq, toks, ho, ht⟩
      rw [write_label_none o q hq]
      exact ⟨hq, toks, ho, ht⟩)
    fuel obj p ⟨h, [], by simp, by intro t ht; cases ht⟩
  exact this.2

theorem reaches_entered (heap : Heap) (root x : ScmObj) (h : Reaches heap root x) :
    Entered heap x := by
  obtain ⟨her, hr⟩ := h
  rcases Relation.ReflTransGen.cases_tail hr with e | ⟨b, _, hbc⟩
  · rw [e]; exact her
  · exact hbc.2

/-- The references held by the objects reached are among the references held
by the objects of the heap. -/
theorem references_le_dom (heap : Heap) (dom : List Nat) (root : ScmObj) (R : List ScmObj)
    (hG : WalkGraph heap dom) (hnd : R.Nodup)
    (hR : ∀ x ∈ R, Reaches heap root x) (x : ScmObj) :
    references heap root R x ≤ dom_references heap root dom x := by
  unfold references dom_references
  have hsub : R ⊆ dom.map ScmObj.ptr := by
    intro p hp
    have hep : Entered heap p := reaches_entered heap root p (hR p hp)
    obtain ⟨a, o, rfl, ho, _⟩ := entered_ptr heap p hep
    exact List.mem_map.2 ⟨a, hG.1 a o ho, rfl⟩
  obtain ⟨l, hperm, hsl⟩ := List.subperm_of_subset hnd hsub
  have h1 : (R.map fun p => (walk_children heap p).count x).sum
      = (l.map fun p => (walk_children heap p).count x).sum :=
    ((hperm.map _).sum_eq).symm
  have h2 : (l.map fun p => (walk_children heap p).count x).sum
      ≤ ((dom.map ScmObj.ptr).map fun p => (walk_children heap p).count x).sum :=
    List.Sublist.sum_le_sum (hsl.map _) (fun a _ => Nat.zero_le a)
  rw [List.map_map] at h2
  have h3 : ((fun p => (walk_children heap p).count x) ∘ ScmObj.ptr)
      = fun a => (walk_children heap (.ptr a)).count x := rfl
  rw [h3] at h2
  omega

/-- C32.  For every finite graph of built-in values and every root from
which no pair, string with characters or vector with elements has more than
one reference (the reference of the root and the references held by the
objects reached), `write_ss` with more fuel than the graph has addresses does
what pass 2 does on the port without identity table: it ends in the same way
with the same port, and what it adds to the port are text tokens only, no
label and no back reference. -/
theorem write_ss_unshared (heap : Heap) (ctx : ScmWriteContext) (dom : List Nat)
    (root : ScmObj) (fuel : Nat) (port : ScmPort) (hG : WalkGraph heap dom)
    (hroot : walk_leaf heap root = true ∨ Entered heap root) (hfuel : dom.length < fuel)
    (hun : ∀ R : List ScmObj, R.Nodup → (∀ x, x ∈ R ↔ Reaches heap root x) →
      ∀ x ∈ R, Tracked heap x → references heap root R x ≤ 1) :
    write_ss heap ctx fuel root port
        = write_ss_rec heap ctx fuel root { port with data := none } ∧
      ∃ toks, (write_ss heap ctx fuel root port).1.out = port.out ++ toks ∧
        ∀ t ∈ toks, ∃ s, t = Tok.text s := by
  obtain ⟨ht, R, hw, hnd, hR, hv, hl⟩ :=
    write_walk_reference_count heap ctx dom root fuel hG hroot hfuel
  have hd : ∀ x, Tracked heap x → Unflagged (some (0, ht)) x := by
    intro x hx
    simp only [Unflagged]
    by_cases hxr : x ∈ R
    · obtain ⟨h1, h2, _⟩ := hl x hxr
      have := hun R hnd hR x hxr hx
      right
      exact h2.1 (by omega)
    · left
      by_contra hc
      exact hxr ((hv x).1 hc)
  have hf := follows_write_ss_rec (some (0, ht)) heap hd ctx fuel root port.out
  have e : write_ss heap ctx fuel root port
      = write_ss_rec heap ctx fuel root { port with data := none } := by
    unfold write_ss
    simp only [make_walker_port, hw]
    have e1 : ({ port with data := some (0, ht) } : ScmPort)
        = { out := port.out, data := some (0, ht) } := rfl
    have e2 : ({ port with data := none } : ScmPort) = { out := port.out, data := none } := rfl
    rw [e1, e2, hf.1]
    apply Prod.ext
    · simp only
      cases hr : (write_ss_rec heap ctx fuel root { out := port.out, data := none }).1 with
      | mk o2 d2 =>
        have := hf.2
        rw [hr] at this
        simp only at this
        subst this
        rfl
    · rfl
  refine ⟨e, ?_⟩
  rw [e]
  exact write_ss_rec_text_only heap ctx fuel root { port with data := none } rfl

theorem list123Heap_graph : WalkGraph list123Heap [0, 1, 2] := by
  constructor
  · intro a o h
    rcases a with _ | _ | _ | a
    · simp
    · simp
    · simp
    · simp [list123Heap] at h
  · intro p c hc
    cases p with
    | ptr a =>
      rcases a with _ | _ | _ | a
      · simp only [walk_children, deref, list123Heap, List.mem_cons, List.mem_singleton,
          List.not_mem_nil, or_false] at hc
        rcases hc with rfl | rfl
        · left; decide
        · right; exact ⟨by decide, by decide⟩
      · simp only [walk_children, deref, list123Heap, List.mem_cons, List.mem_singleton,
          List.not_mem_nil, or_false] at hc
        rcases hc with rfl | rfl
        · left; decide
        · right; exact ⟨by decide, by decide⟩
      · simp only [walk_children, deref, list123Heap, List.mem_cons, List.mem_singleton,
          List.not_mem_nil, or_false] at hc
        rcases hc with rfl | rfl
        · left; decide
        · left; decide
      · simp [walk_children, deref, list123Heap] at hc
    | _ => simp [walk_children, deref] at hc

/-- Instance of C32: the list `(1 2 3)`, in which every cell has one
reference; `write_ss` puts `(1 2 3)`. -/
theorem write_ss_unshared_witness :
    WalkGraph list123Heap [0, 1, 2] ∧
    write_ss list123Heap ⟨SCM_WRITE_WRITE, 0, 0⟩ 5 (.ptr 0) ⟨[], none⟩
      = write_ss_rec list123Heap ⟨SCM_WRITE_WRITE, 0, 0⟩ 5 (.ptr 0) ⟨[], none⟩ ∧
    render (write_ss list123Heap ⟨SCM_WRITE_WRITE, 0, 0⟩ 5 (.ptr 0) ⟨[], none⟩).1.out
      = "(1 2 3)".toList :=
  ⟨list123Heap_graph,
    (write_ss_unshared list123Heap ⟨SCM_WRITE_WRITE, 0, 0⟩ [0, 1, 2] (.ptr 0) 5 ⟨[], none⟩
      list123Heap_graph (Or.inr ⟨by decide, by decide⟩) (by decide) (by
        intro R hnd hR x hx _
        have h1 := references_le_dom list123Heap [0, 1, 2] (.ptr 0) R list123Heap_graph
          hnd (fun y hy => (hR y).1 hy) x
        have hex : Entered list123Heap x := reaches_entered _ _ x ((hR x).1 hx)
        obtain ⟨a, o, rfl, ho, _⟩ := entered_ptr list123Heap x hex
        have h2 : dom_references list123Heap (.ptr 0) [0, 1, 2] (.ptr a) ≤ 1 := by
          rcases a with _ | _ | _ | a
          · decide
          · decide
          · decide
          · simp [list123Heap] at ho
        omega)).1,
    by decide⟩

end Gauche
